import Mathlib

/-! Phone-number forwarding index: a verification development.

A shallow embedding of the C sources `number_functions.c`, `list.c`, `trie.c`
and `phone_forward.c`, followed by theorems about them.

Conventions of the embedding.

* A pointer is a natural number, `0` is `NULL`.  The heap `Mem` maps addresses
  to trie nodes and to list nodes; reading an address that holds no object is
  undefined behaviour and makes the embedded function return `none`.
* `malloc` hands out the addresses `brk, brk + 1, ...`; the list `oracle`
  decides which calls fail (the empty list: none fails).
* A C string is the list of its characters before the terminating NUL, so
  `num[i] == 0` holds exactly at `i = length`; a nullable `char const *` is an
  `Option (List Char)`.
* Loops that follow pointers carry a fuel argument, started at `brk` (more
  than the number of live objects); running out of fuel gives `none`.
* The result sequences of the queries are values. In the queries on a valid
  number their own allocations are taken to succeed: `phnumNew` and `phnumAdd`
  are `phnumNewWith` and `phnumAddWith`, which have the failing allocation of
  the source, at a successful allocation; the capacity arithmetic of
  `phnumAdd` is kept.
-/

namespace Phfwd

/-! ## Part 1: definitions -/

/-! ### number_functions.c -/

/-- Value `2 ^ 64`: one more than `SIZE_MAX`. -/
def sizeModulus : Nat := 18446744073709551616

/-- Value `2 ^ 32`: one more than `UINT_MAX`. -/
def uintModulus : Nat := 4294967296

/-- The digit of a character code (`charToDigit`): `(size_t) (ch - '0')`
narrowed to `unsigned int` unless `ch` is `*` or `#`. -/
def charToDigit (ch : Int) : Nat :=
  if ch = 42 then 10
  else if ch = 35 then 11
  else ((ch - 48) % (sizeModulus : Int) % (uintModulus : Int)).toNat

/-- The collation value of a character code (`sortValue`). -/
def sortValue (ch : Int) : Int :=
  if ch = 0 then -1
  else if charToDigit ch < 2147483648 then (charToDigit ch : Int)
  else (charToDigit ch : Int) - (uintModulus : Int)

/-- The character of a digit (`digitToChar`). -/
def digitToChar (digit : Nat) : Char :=
  if digit < 10 then Char.ofNat ((digit + 48) % 256)
  else if digit = 10 then '*'
  else '#'

/-- The test `isPhNumDigit`: `isdigit(ch) || ch == '*' || ch == '#'`. -/
def isPhNumDigit (ch : Int) : Bool :=
  (decide (48 ≤ ch) && decide (ch ≤ 57)) || decide (ch = 42) || decide (ch = 35)

/-- The loop of `isCorrect`: returns the final `i` and whether `num[i]` is the
terminator. -/
def isCorrectLoop : List Char → Nat → Nat × Bool
  | [], i => (i, true)
  | c :: rest, i =>
    if isPhNumDigit (c.toNat : Int) then isCorrectLoop rest (i + 1) else (i, false)

/-- The validity test `isCorrect`. -/
def isCorrect (num : Option (List Char)) : Bool :=
  match num with
  | none => false
  | some s => (isCorrectLoop s 0).2 && decide (0 < (isCorrectLoop s 0).1)

/-- The libc function `strcmp` on two strings; only the sign of its result
is specified. -/
def strcmp : List Char → List Char → Int
  | [], [] => 0
  | [], _ :: _ => -1
  | _ :: _, [] => 1
  | a :: as, b :: bs => if a = b then strcmp as bs else if a.toNat < b.toNat then -1 else 1

/-! ### The heap -/

/-- The C `struct TrieNode`. -/
structure TrieNode where
  fwdNode : Nat
  listNode : Nat
  children : Nat → Nat
  parent : Nat

/-- The C `struct ListNode`. -/
structure ListNode where
  key : Nat
  next : Nat
  prev : Nat

/-- The heap: trie nodes, list nodes, the next fresh address and the outcomes
of the coming `malloc` calls. -/
structure Mem where
  trie : Nat → Option TrieNode
  list : Nat → Option ListNode
  brk : Nat
  oracle : List Bool

/-- The heap before any allocation. -/
def Mem.empty : Mem := ⟨fun _ => none, fun _ => none, 1, []⟩

/-- Store a trie node at an address. -/
def Mem.setTrie (m : Mem) (a : Nat) (n : TrieNode) : Mem :=
  { m with trie := fun x => if x = a then some n else m.trie x }

/-- Store a list node at an address. -/
def Mem.setList (m : Mem) (a : Nat) (n : ListNode) : Mem :=
  { m with list := fun x => if x = a then some n else m.list x }

/-- The effect of `free` on a trie node. -/
def Mem.freeTrie (m : Mem) (a : Nat) : Mem :=
  { m with trie := fun x => if x = a then none else m.trie x }

/-- The effect of `free` on a list node. -/
def Mem.freeList (m : Mem) (a : Nat) : Mem :=
  { m with list := fun x => if x = a then none else m.list x }

/-- One call of `malloc`: `0` when it fails, a fresh address otherwise. -/
def malloc (m : Mem) : Nat × Mem :=
  match m.oracle with
  | [] => (m.brk, { m with brk := m.brk + 1 })
  | true :: rest => (m.brk, { m with brk := m.brk + 1, oracle := rest })
  | false :: rest => (0, { m with oracle := rest })

/-- Reading `node->children[d]`; an index outside `0..11` is out of bounds. -/
def childAt (n : TrieNode) (d : Nat) : Option Nat :=
  if d < 12 then some (n.children d) else none

/-- Writing `node->children[d] = v`. -/
def setChild (n : TrieNode) (d v : Nat) : TrieNode :=
  { n with children := fun j => if j = d then v else n.children j }

/-! ### list.c -/

/-- The function `listAdd`; the argument `list` is the value of `*list`, the
result holds the return value, the new `*list` and the heap. -/
def listAdd (m : Mem) (list node : Nat) : Option (Bool × Nat × Mem) :=
  let r := malloc m
  if r.1 = 0 then some (false, list, r.2)
  else
    let m1 := r.2.setList r.1 ⟨node, list, 0⟩
    if list ≠ 0 then
      match m1.list list with
      | none => none
      | some hd => some (true, r.1, m1.setList list { hd with prev := r.1 })
    else some (true, r.1, m1)

/-- The function `listRemove`. -/
def listRemove (m : Mem) (node : Nat) : Option Mem :=
  match m.list node with
  | none => none
  | some n =>
    let step1 : Option Mem :=
      if n.next ≠ 0 then
        match m.list n.next with
        | none => none
        | some nx => some (m.setList n.next { nx with prev := n.prev })
      else some m
    match step1 with
    | none => none
    | some m1 =>
      let step2 : Option Mem :=
        if n.prev ≠ 0 then
          match m1.list n.prev with
          | none => none
          | some pv => some (m1.setList n.prev { pv with next := n.next })
        else some m1
      match step2 with
      | none => none
      | some m2 => some (m2.freeList node)

/-- The accessor `getNext`. -/
def getNext (m : Mem) (node : Nat) : Option Nat := (m.list node).map (fun n => n.next)

/-- The accessor `getKey`. -/
def getKey (m : Mem) (node : Nat) : Option Nat := (m.list node).map (fun n => n.key)

/-! ### trie.c -/

/-- The constructor `trieNew`: `0` when `malloc` fails. -/
def trieNew (m : Mem) : Nat × Mem :=
  let r := malloc m
  if r.1 = 0 then (0, r.2)
  else (r.1, r.2.setTrie r.1 ⟨0, 0, fun _ => 0, 0⟩)

/-- The test `isEmpty`. -/
def isEmpty (m : Mem) (node : Nat) : Option Bool :=
  if node = 0 then some true
  else
    match m.trie node with
    | none => none
    | some n => if n.parent = 0 then some false else some (n.fwdNode = 0 && n.listNode = 0)

/-- Whether one of the twelve child slots is not `NULL`. -/
def hasChild (n : TrieNode) : Bool := (List.range 12).any (fun i => n.children i != 0)

/-- One round of the inner `for` of `deleteDeadBranch`, on the parent node and
the flag `isLeaf`. -/
def unlinkStep (current : Nat) (st : TrieNode × Bool) (i : Nat) : TrieNode × Bool :=
  if st.1.children i = current then (setChild st.1 i 0, st.2)
  else if st.1.children i ≠ 0 then (st.1, false)
  else st

/-- The `while` loop of `deleteDeadBranch`. -/
def deleteDeadBranchLoop : Nat → Mem → Nat → Bool → Option Mem
  | 0, _, _, _ => none
  | fuel + 1, m, current, isLeaf =>
    match isEmpty m current with
    | none => none
    | some e =>
      if e && isLeaf then
        match m.trie current with
        | none => none
        | some cur =>
          match m.trie cur.parent with
          | none => none
          | some par =>
            let r := (List.range 12).foldl (unlinkStep current) (par, isLeaf)
            deleteDeadBranchLoop fuel ((m.setTrie cur.parent r.1).freeTrie current)
              cur.parent r.2
      else some m

/-- The function `deleteDeadBranch`. -/
def deleteDeadBranch (m : Mem) (node : Nat) : Option Mem :=
  match m.trie node with
  | none => none
  | some n => if hasChild n then some m else deleteDeadBranchLoop m.brk m node true

/-- The first loop of `trieAdd`: the longest prefix of `num` in the trie;
returns the node reached and the rest of `num`. -/
def trieAddFind (m : Mem) : Nat → List Char → Option (Nat × List Char)
  | current, [] => some (current, [])
  | current, c :: rest =>
    match m.trie current with
    | none => none
    | some n =>
      match childAt n (charToDigit (c.toNat : Int)) with
      | none => none
      | some ch => if ch ≠ 0 then trieAddFind m ch rest else some (current, c :: rest)

/-- The second loop of `trieAdd`: new nodes for the rest of `num`; returns the
node of `num` (`0` when `malloc` failed) and the heap. -/
def trieAddGrow : Mem → Nat → List Char → Option (Nat × Mem)
  | m, current, [] => some (current, m)
  | m, current, c :: rest =>
    let r := trieNew m
    if r.1 = 0 then
      match deleteDeadBranch r.2 current with
      | none => none
      | some m2 => some (0, m2)
    else
      match r.2.trie current with
      | none => none
      | some cur =>
        if charToDigit (c.toNat : Int) < 12 then
          let m2 := r.2.setTrie current (setChild cur (charToDigit (c.toNat : Int)) r.1)
          match m2.trie r.1 with
          | none => none
          | some nn => trieAddGrow (m2.setTrie r.1 { nn with parent := current }) r.1 rest
        else none

/-- The function `trieAdd`. -/
def trieAdd (m : Mem) (t : Nat) (num : List Char) : Option (Nat × Mem) :=
  match trieAddFind m t num with
  | none => none
  | some (current, rest) => trieAddGrow m current rest

/-- The function `deleteFwdData`. -/
def deleteFwdData (m : Mem) (node : Nat) : Option Mem :=
  match m.trie node with
  | none => none
  | some n =>
    if n.fwdNode = 0 then some m
    else
      match m.trie n.fwdNode with
      | none => none
      | some f =>
        let step1 : Option Mem :=
          if f.listNode = n.listNode then
            match getNext m f.listNode with
            | none => none
            | some nx => some (m.setTrie n.fwdNode { f with listNode := nx })
          else some m
        match step1 with
        | none => none
        | some m1 =>
          match listRemove m1 n.listNode with
          | none => none
          | some m2 => deleteDeadBranch m2 n.fwdNode

/-- The loop `while (current->children[0] != NULL) current = current->children[0]`
of `trieDelete`. -/
def descend (m : Mem) : Nat → Nat → Option Nat
  | 0, _ => none
  | fuel + 1, current =>
    match m.trie current with
    | none => none
    | some n => if n.children 0 ≠ 0 then descend m fuel (n.children 0) else some current

/-- The `for` loop of `trieDelete` over the slots `is` of `root`. -/
def trieDeleteFor (root : Nat) : List Nat → Mem → Nat → Option (Mem × Nat)
  | [], m, current => some (m, current)
  | i :: is, m, current =>
    match m.trie root, m.trie current with
    | some r, some c =>
      let m1 := m.setTrie current (setChild c 0 (r.children i))
      match descend m1 m1.brk current with
      | none => none
      | some current1 => trieDeleteFor root is m1 current1
    | _, _ => none

/-- The outer loop of `trieDelete`. -/
def trieDeleteLoop : Nat → Mem → Nat → Nat → Option Mem
  | 0, m, root, _ => if root = 0 then some m else none
  | fuel + 1, m, root, current =>
    if root = 0 then some m
    else
      match descend m m.brk current with
      | none => none
      | some current1 =>
        match trieDeleteFor root [1, 2, 3, 4, 5, 6, 7, 8, 9, 10, 11] m current1 with
        | none => none
        | some (m1, current2) =>
          match m1.trie root with
          | none => none
          | some r =>
            match deleteFwdData m1 root with
            | none => none
            | some m2 => trieDeleteLoop fuel (m2.freeTrie root) (r.children 0) current2

/-- The function `trieDelete`. -/
def trieDelete (m : Mem) (node : Nat) : Option Mem := trieDeleteLoop m.brk m node node

/-- The function `trieFind`. -/
def trieFind (m : Mem) : Nat → List Char → Option Nat
  | current, [] => some current
  | current, c :: rest =>
    if current = 0 then some 0
    else
      match m.trie current with
      | none => none
      | some n =>
        match childAt n (charToDigit (c.toNat : Int)) with
        | none => none
        | some ch => trieFind m ch rest

/-- The end of `trieFindNextNonEmpty`, after its loop. -/
def trieFindNextNonEmptyEnd (m : Mem) (originalIndex current i : Nat) : Option (Nat × Nat) :=
  match isEmpty m current with
  | none => none
  | some e => if e then some (0, originalIndex) else some (current, i)

/-- The loop of `trieFindNextNonEmpty`; the list is `num` from `*currIndex` on. -/
def trieFindNextNonEmptyLoop (m : Mem) (originalIndex : Nat) :
    Nat → List Char → Nat → Option (Nat × Nat)
  | current, [], i => trieFindNextNonEmptyEnd m originalIndex current i
  | current, c :: rest, i =>
    if current = 0 then trieFindNextNonEmptyEnd m originalIndex current i
    else
      match isEmpty m current with
      | none => none
      | some e =>
        if !e then some (current, i)
        else
          match m.trie current with
          | none => none
          | some n =>
            match childAt n (charToDigit (c.toNat : Int)) with
            | none => none
            | some ch => trieFindNextNonEmptyLoop m originalIndex ch rest (i + 1)

/-- The function `trieFindNextNonEmpty`: returns the node found (`0` for
`NULL`) and the new value of `*currIndex`. -/
def trieFindNextNonEmpty (m : Mem) (node : Nat) (num : List Char) (currIndex : Nat) :
    Option (Nat × Nat) :=
  match num.drop currIndex with
  | [] => some (0, currIndex)
  | c :: rest =>
    match m.trie node with
    | none => none
    | some n =>
      match childAt n (charToDigit (c.toNat : Int)) with
      | none => none
      | some ch => trieFindNextNonEmptyLoop m currIndex ch rest (currIndex + 1)

/-- The function `trieRemove`. -/
def trieRemove (m : Mem) (t : Nat) (num : List Char) : Option Mem :=
  match trieFind m t num with
  | none => none
  | some nodeToDelete =>
    if nodeToDelete ≠ 0 then
      match m.trie nodeToDelete with
      | none => none
      | some n =>
        match m.trie n.parent with
        | none => none
        | some par =>
          let par1 := (List.range 12).foldl
            (fun p i => if p.children i = nodeToDelete then setChild p i 0 else p) par
          match trieDelete (m.setTrie n.parent par1) nodeToDelete with
          | none => none
          | some m2 => deleteDeadBranch m2 n.parent
    else some m

/-- The function `addToReverseFwdList`. -/
def addToReverseFwdList (m : Mem) (node nodeToAdd : Nat) : Option (Bool × Mem) :=
  match m.trie node with
  | none => none
  | some n =>
    match listAdd m n.listNode nodeToAdd with
    | none => none
    | some (ok, head, m1) =>
      match m1.trie node with
      | none => none
      | some n1 => some (ok, m1.setTrie node { n1 with listNode := head })

/-- The accessor `getFwdNode`. -/
def getFwdNode (m : Mem) (node : Nat) : Option Nat := (m.trie node).map (fun n => n.fwdNode)

/-- The setter `setFwdNode`. -/
def setFwdNode (m : Mem) (node nodeToAdd : Nat) : Option Mem :=
  (m.trie node).map (fun n => m.setTrie node { n with fwdNode := nodeToAdd })

/-- The accessor `getListNode`. -/
def getListNode (m : Mem) (node : Nat) : Option Nat := (m.trie node).map (fun n => n.listNode)

/-- The setter `setListNode`. -/
def setListNode (m : Mem) (node nodeToAdd : Nat) : Option Mem :=
  (m.trie node).map (fun n => m.setTrie node { n with listNode := nodeToAdd })

/-- The loop of the static function `length`. -/
def lengthLoop (m : Mem) : Nat → Nat → Nat → Option Nat
  | 0, _, _ => none
  | fuel + 1, node, result =>
    match m.trie node with
    | none => none
    | some n => if n.parent ≠ 0 then lengthLoop m fuel n.parent (result + 1) else some result

/-- The static function `length` of trie.c. -/
def length (m : Mem) (node : Nat) : Option Nat :=
  if node = 0 then some 0 else lengthLoop m m.brk node 0

/-- Exchange of `num[i]` and `num[j]`. -/
def swapChars (num : List Char) (i j : Nat) : List Char :=
  (num.set i (num.getD j ' ')).set j (num.getD i ' ')

/-- The loop of `mirror`. -/
def mirrorLoop : Nat → List Char → Nat → Nat → List Char
  | 0, num, _, _ => num
  | fuel + 1, num, index, i =>
    if 2 * i < index - 1 then mirrorLoop fuel (swapChars num i (index - i - 1)) index (i + 1)
    else num

/-- The static function `mirror`. -/
def mirror (num : List Char) (index : Nat) : List Char :=
  if index = 0 then num else mirrorLoop index num index 0

/-- The inner `for` of `changePrefix`: the character written to `result[i]`,
`none` when no slot of the parent holds `current`. -/
def slotChar (par : TrieNode) (current : Nat) : Option Char :=
  (List.range 12).foldl
    (fun acc j => if par.children j = current then some (digitToChar j) else acc) none

/-- The loop `while (i < newPrefLength)` of `changePrefix`; the first argument
is `newPrefLength - i`, the result the characters written, in that order. -/
def changePrefixUp (m : Mem) : Nat → Nat → Option (List Char)
  | 0, _ => some []
  | k + 1, current =>
    match m.trie current with
    | none => none
    | some cur =>
      match m.trie cur.parent with
      | none => none
      | some par =>
        match slotChar par current, changePrefixUp m k cur.parent with
        | some ch, some rest => some (ch :: rest)
        | _, _ => none

/-- The function `changePrefix`. -/
def changePrefix (m : Mem) (num : List Char) (newPrefixNode index : Nat) :
    Option (List Char) :=
  if index ≤ num.length then
    match length m newPrefixNode with
    | none => none
    | some newPrefLength =>
      let written : Option (List Char) :=
        if 0 < newPrefLength then
          (changePrefixUp m newPrefLength newPrefixNode).map (fun b => mirror b newPrefLength)
        else some []
      written.map (fun b => b ++ num.drop index)
  else none

/-! ### phone_forward.c -/

/-- The C `struct PhoneForward`: the roots of the two tries. -/
structure PhoneForward where
  rootFwd : Nat
  rootReverse : Nat

/-- The C `struct PhoneNumbers`; `numberCount` is the length of `numbers`. -/
structure PhoneNumbers where
  numbers : List (List Char)
  capacity : Nat

/-- The constant `SIZE_MAX / sizeof(char *)` of `phnumAdd`, for a 64-bit
`size_t` and 8-byte pointers. -/
def maxCapacity : Nat := (sizeModulus - 1) / 8

/-- The constructor `phnumNew`, with the outcome `ok` of its `malloc`: `none`
stands for the return value `NULL`. -/
def phnumNewWith (ok : Bool) : Option PhoneNumbers :=
  if ok then some ⟨[], 0⟩ else none

/-- The constructor `phnumNew` when its `malloc` succeeds. -/
def phnumNew : Option PhoneNumbers := phnumNewWith true

/-- The function `phnumAdd`; `none` stands for the return value `false`, and
`realloc` tells for each size in bytes whether the `realloc` of that size
succeeds. The size `newCapacity * sizeof(char *)` is computed in `size_t`,
with 8-byte pointers. -/
def phnumAddWith (realloc : Nat → Bool) (pnum : Option PhoneNumbers)
    (num : Option (List Char)) : Option PhoneNumbers :=
  match pnum, num with
  | some p, some s =>
    if p.numbers.length = p.capacity then
      if p.capacity = maxCapacity then none
      else
        let newCapacity :=
          if p.capacity > maxCapacity / 3 * 2 then maxCapacity
          else (p.capacity * 3 % sizeModulus) / 2 + 1
        if realloc (newCapacity * 8 % sizeModulus) then some ⟨p.numbers ++ [s], newCapacity⟩
        else none
    else some ⟨p.numbers ++ [s], p.capacity⟩
  | _, _ => none

/-- The function `phnumAdd` when its `realloc` succeeds; `none` stands for the
return value `false`. -/
def phnumAdd (pnum : Option PhoneNumbers) (num : Option (List Char)) : Option PhoneNumbers :=
  phnumAddWith (fun _ => true) pnum num

/-- The function `phnumSafeAdd`; `none` stands for the return value `false`. -/
def phnumSafeAdd (pnum : Option PhoneNumbers) (num : Option (List Char)) : Option PhoneNumbers :=
  phnumAdd pnum num

/-- The character code read at the head of a string, `0` at its end. -/
def headCode : List Char → Int
  | [] => 0
  | c :: _ => (c.toNat : Int)

/-- The comparator `lexCompare`. -/
def lexCompare : List Char → List Char → Int
  | a :: as, b :: bs =>
    if a = b then lexCompare as bs else sortValue (a.toNat : Int) - sortValue (b.toNat : Int)
  | num1, num2 => sortValue (headCode num1) - sortValue (headCode num2)

/-- Insertion of one element into a list ordered by `cmp`. -/
def qsortInsert (cmp : List Char → List Char → Int) (x : List Char) :
    List (List Char) → List (List Char)
  | [] => [x]
  | y :: ys => if cmp x y ≤ 0 then x :: y :: ys else y :: qsortInsert cmp x ys

/-- The libc function `qsort`, as insertion sort. -/
def qsort (cmp : List Char → List Char → Int) : List (List Char) → List (List Char)
  | [] => []
  | x :: xs => qsortInsert cmp x (qsort cmp xs)

/-- The function `lexSort`. -/
def lexSort (pnum : PhoneNumbers) : PhoneNumbers :=
  { pnum with numbers := qsort lexCompare pnum.numbers }

/-- The loop of `removeDuplicates`; `prev` is `numbers[i - 1]`. -/
def removeDuplicatesLoop : List Char → List (List Char) → Option PhoneNumbers →
    Option PhoneNumbers
  | _, [], new => new
  | prev, x :: xs, new =>
    if strcmp x prev ≠ 0 then
      match phnumAdd new (some x) with
      | none => none
      | some new1 => removeDuplicatesLoop x xs (some new1)
    else removeDuplicatesLoop prev xs new

/-- The function `removeDuplicates`: the outer `none` is the undefined read of
`numbers[0]` in an empty sequence, the inner one the return value `false`. -/
def removeDuplicates (pnum : PhoneNumbers) : Option (Option PhoneNumbers) :=
  match pnum.numbers with
  | [] => none
  | x :: xs =>
    match phnumAdd phnumNew (some x) with
    | none => some none
    | some new => some (removeDuplicatesLoop x xs (some new))

/-- The function `phnumGet`. -/
def phnumGet (pnum : Option PhoneNumbers) (idx : Nat) : Option (List Char) :=
  match pnum with
  | none => none
  | some p => if idx ≥ p.numbers.length then none else p.numbers.get? idx

/-- The constructor `phfwdNew`. -/
def phfwdNew (m : Mem) : Option PhoneForward × Mem :=
  let s := malloc m
  if s.1 = 0 then (none, s.2)
  else
    let r1 := trieNew s.2
    if r1.1 = 0 then (none, r1.2)
    else
      let r2 := trieNew r1.2
      if r2.1 = 0 then (none, r2.2.freeTrie r1.1)
      else (some ⟨r1.1, r2.1⟩, r2.2)

/-- The function `phfwdAdd`: the return value and the heap. -/
def phfwdAdd (m : Mem) (pf : Option PhoneForward) (num1 num2 : Option (List Char)) :
    Option (Bool × Mem) :=
  match pf with
  | none => some (false, m)
  | some pf =>
    match num1, num2 with
    | some s1, some s2 =>
      if !isCorrect num1 || !isCorrect num2 || decide (strcmp s1 s2 = 0) then some (false, m)
      else
        match trieAdd m pf.rootFwd s1 with
        | none => none
        | some (fwd, m1) =>
          if fwd = 0 then some (false, m1)
          else
            match trieAdd m1 pf.rootReverse s2 with
            | none => none
            | some (reverse, m2) =>
              if reverse = 0 then (deleteDeadBranch m2 fwd).map (fun m3 => (false, m3))
              else
                match addToReverseFwdList m2 reverse fwd with
                | none => none
                | some (ok, m3) =>
                  if !ok then
                    ((deleteDeadBranch m3 fwd).bind (fun m4 => deleteDeadBranch m4 reverse)).map
                      (fun m5 => (false, m5))
                  else
                    match deleteFwdData m3 fwd with
                    | none => none
                    | some m4 =>
                      match setFwdNode m4 fwd reverse with
                      | none => none
                      | some m5 =>
                        match getListNode m5 reverse with
                        | none => none
                        | some l => (setListNode m5 fwd l).map (fun m6 => (true, m6))
    | _, _ => some (false, m)

/-- The function `phfwdRemove`. -/
def phfwdRemove (m : Mem) (pf : Option PhoneForward) (num : Option (List Char)) : Option Mem :=
  match pf, num with
  | some pf, some s => if !isCorrect num then some m else trieRemove m pf.rootFwd s
  | _, _ => some m

/-- The loop of `phfwdGet`: the last node found and the index reached. -/
def phfwdGetLoop (m : Mem) (num : List Char) : Nat → Nat → Nat → Option (Nat × Nat)
  | 0, _, _ => none
  | fuel + 1, maxPrefix, i =>
    match trieFindNextNonEmpty m maxPrefix num i with
    | none => none
    | some (maxCandidate, i1) =>
      if maxCandidate ≠ 0 then phfwdGetLoop m num fuel maxCandidate i1
      else some (maxPrefix, i1)

/-- The function `phfwdGet`: the outer `none` is undefined behaviour, the
inner one the return value `NULL`. -/
def phfwdGet (m : Mem) (pf : Option PhoneForward) (num : Option (List Char)) :
    Option (Option PhoneNumbers) :=
  match pf with
  | none => some none
  | some pf =>
    match num with
    | some s =>
      if !isCorrect num then some phnumNew
      else
        match phfwdGetLoop m s (s.length + 1) pf.rootFwd 0 with
        | none => none
        | some (maxPrefix, i) =>
          match getFwdNode m maxPrefix with
          | none => none
          | some f =>
            match changePrefix m s f i with
            | none => none
            | some fwdNum => some (phnumSafeAdd phnumNew (some fwdNum))
    | none => some phnumNew

/-- The inner loop of `phfwdReverse` over one source list. -/
def phfwdReverseList (m : Mem) (num : List Char) (i : Nat) :
    Nat → Nat → Option PhoneNumbers → Option (Option PhoneNumbers)
  | 0, currListNode, result => if currListNode = 0 then some result else none
  | fuel + 1, currListNode, result =>
    if currListNode = 0 then some result
    else
      match getKey m currListNode with
      | none => none
      | some k =>
        match changePrefix m num k i with
        | none => none
        | some reverseNum =>
          match phnumSafeAdd result (some reverseNum) with
          | none => some none
          | some result1 =>
            match getNext m currListNode with
            | none => none
            | some nx => phfwdReverseList m num i fuel nx (some result1)

/-- The outer loop of `phfwdReverse`. -/
def phfwdReverseLoop (m : Mem) (num : List Char) :
    Nat → Nat → Nat → Option PhoneNumbers → Option (Option PhoneNumbers)
  | 0, currPrefix, _, result => if currPrefix = 0 then some result else none
  | fuel + 1, currPrefix, i, result =>
    if currPrefix = 0 then some result
    else
      match getListNode m currPrefix with
      | none => none
      | some l =>
        match phfwdReverseList m num i m.brk l result with
        | none => none
        | some none => some none
        | some (some result1) =>
          match trieFindNextNonEmpty m currPrefix num i with
          | none => none
          | some (nextPrefix, i1) => phfwdReverseLoop m num fuel nextPrefix i1 (some result1)

/-- The function `phfwdReverse`. -/
def phfwdReverse (m : Mem) (pf : Option PhoneForward) (num : Option (List Char)) :
    Option (Option PhoneNumbers) :=
  match pf with
  | none => some none
  | some pf =>
    match num with
    | some s =>
      if !isCorrect num then some phnumNew
      else
        match phnumSafeAdd phnumNew (some s) with
        | none => some none
        | some result =>
          match trieFindNextNonEmpty m pf.rootReverse s 0 with
          | none => none
          | some (currPrefix, i) =>
            match phfwdReverseLoop m s (s.length + 1) currPrefix i (some result) with
            | none => none
            | some none => some none
            | some (some result1) => removeDuplicates (lexSort result1)
    | none => some phnumNew

/-- The inner loop of `phfwdGetReverse` over one source list. -/
def phfwdGetReverseList (m : Mem) (num : List Char) (i : Nat) :
    Nat → Nat → Option PhoneNumbers → Option (Option PhoneNumbers)
  | 0, currListNode, result => if currListNode = 0 then some result else none
  | fuel + 1, currListNode, result =>
    if currListNode = 0 then some result
    else
      match getKey m currListNode with
      | none => none
      | some fwdNode =>
        match trieFindNextNonEmpty m fwdNode num i with
        | none => none
        | some (deeper, _) =>
          let added : Option (Option PhoneNumbers) :=
            if deeper = 0 then
              match changePrefix m num fwdNode i with
              | none => none
              | some reverseNum => some (phnumSafeAdd result (some reverseNum))
            else some result
          match added with
          | none => none
          | some none => some none
          | some (some result1) =>
            match getNext m currListNode with
            | none => none
            | some nx => phfwdGetReverseList m num i fuel nx (some result1)

/-- The outer loop of `phfwdGetReverse`. -/
def phfwdGetReverseLoop (m : Mem) (num : List Char) :
    Nat → Nat → Nat → Option PhoneNumbers → Option (Option PhoneNumbers)
  | 0, currPrefix, _, result => if currPrefix = 0 then some result else none
  | fuel + 1, currPrefix, i, result =>
    if currPrefix = 0 then some result
    else
      match getListNode m currPrefix with
      | none => none
      | some l =>
        match phfwdGetReverseList m num i m.brk l result with
        | none => none
        | some none => some none
        | some (some result1) =>
          match trieFindNextNonEmpty m currPrefix num i with
          | none => none
          | some (nextPrefix, i1) =>
            phfwdGetReverseLoop m num fuel nextPrefix i1 (some result1)

/-- The function `phfwdGetReverse`. -/
def phfwdGetReverse (m : Mem) (pf : Option PhoneForward) (num : Option (List Char)) :
    Option (Option PhoneNumbers) :=
  match pf with
  | none => some none
  | some pf =>
    match num with
    | some s =>
      if !isCorrect num then some phnumNew
      else
        match phnumNew with
        | none => some none
        | some result0 =>
          match trieFindNextNonEmpty m pf.rootFwd s 0 with
          | none => none
          | some (found, _) =>
            let seeded : Option PhoneNumbers :=
              if found = 0 then phnumSafeAdd (some result0) (some s) else some result0
            match seeded with
            | none => some none
            | some result =>
              match trieFindNextNonEmpty m pf.rootReverse s 0 with
              | none => none
              | some (currPrefix, i) =>
                match phfwdGetReverseLoop m s (s.length + 1) currPrefix i (some result) with
                | none => none
                | some none => some none
                | some (some result1) => some (some (lexSort result1))
    | none => some phnumNew

/-- The function `phfwdGet` with the outcome `ok` of the `malloc` of the call
`phnumNew()` that answers a number that is not valid; on a valid number the
function goes on as `phfwdGet`, where the allocations of the result are taken
to succeed. -/
def phfwdGetWith (ok : Bool) (m : Mem) (pf : Option PhoneForward) (num : Option (List Char)) :
    Option (Option PhoneNumbers) :=
  match pf with
  | none => some none
  | some pf => if !isCorrect num then some (phnumNewWith ok) else phfwdGet m (some pf) num

/-- The function `phfwdReverse` with the outcome `ok` of the `malloc` of the
call `phnumNew()` that answers a number that is not valid; on a valid number
the function goes on as `phfwdReverse`. -/
def phfwdReverseWith (ok : Bool) (m : Mem) (pf : Option PhoneForward)
    (num : Option (List Char)) : Option (Option PhoneNumbers) :=
  match pf with
  | none => some none
  | some pf => if !isCorrect num then some (phnumNewWith ok) else phfwdReverse m (some pf) num

/-- The function `phfwdGetReverse` with the outcome `ok` of the `malloc` of the
call `phnumNew()` that answers a number that is not valid; on a valid number
the function goes on as `phfwdGetReverse`. -/
def phfwdGetReverseWith (ok : Bool) (m : Mem) (pf : Option PhoneForward)
    (num : Option (List Char)) : Option (Option PhoneNumbers) :=
  match pf with
  | none => some none
  | some pf => if !isCorrect num then some (phnumNewWith ok) else phfwdGetReverse m (some pf) num

/-! ### Runs of the interface -/

/-- A state of the library: the heap and the handle. -/
structure State where
  mem : Mem
  pf : PhoneForward

/-- A call that changes the index. -/
inductive Op where
  | add (num1 num2 : Option (List Char))
  | remove (num : Option (List Char))

/-- The state after `phfwdNew` on the empty heap. -/
def fresh : Option State :=
  match phfwdNew Mem.empty with
  | (some pf, m) => some ⟨m, pf⟩
  | (none, _) => none

/-- One call on a state. -/
def step (st : State) : Op → Option State
  | Op.add a b => (phfwdAdd st.mem (some st.pf) a b).map (fun r => ⟨r.2, st.pf⟩)
  | Op.remove a => (phfwdRemove st.mem (some st.pf) a).map (fun m => ⟨m, st.pf⟩)

/-- A sequence of calls on a state. -/
def run : State → List Op → Option State
  | st, [] => some st
  | st, op :: ops => (step st op).bind (fun st1 => run st1 ops)

/-- The numbers of a query result, `none` when the query is undefined or
returns `NULL`. -/
def numbersOf (r : Option (Option PhoneNumbers)) : Option (List (List Char)) :=
  match r with
  | some (some p) => some p.numbers
  | _ => none

/-- The query `phfwdGet` on a state, as a list of strings. -/
def getOf (st : State) (s : String) : Option (List String) :=
  (numbersOf (phfwdGet st.mem (some st.pf) (some s.toList))).map (fun l => l.map String.mk)

/-- The query `phfwdReverse` on a state, as a list of strings. -/
def reverseOf (st : State) (s : String) : Option (List String) :=
  (numbersOf (phfwdReverse st.mem (some st.pf) (some s.toList))).map (fun l => l.map String.mk)

/-- The query `phfwdGetReverse` on a state, as a list of strings. -/
def getReverseOf (st : State) (s : String) : Option (List String) :=
  (numbersOf (phfwdGetReverse st.mem (some st.pf) (some s.toList))).map
    (fun l => l.map String.mk)

/-- The call `phfwdAdd` on two string literals. -/
def addOp (a b : String) : Op := Op.add (some a.toList) (some b.toList)

/-- The call `phfwdRemove` on a string literal. -/
def removeOp (a : String) : Op := Op.remove (some a.toList)

/-- The state after a sequence of calls on a fresh index. -/
def runFresh (ops : List Op) : Option State := fresh.bind (fun st => run st ops)

/-! ### Vocabulary of the specification -/

/-- A valid number: not empty, every character among `0..9`, `*`, `#`. -/
def ValidNum (s : List Char) : Prop :=
  s ≠ [] ∧ ∀ c ∈ s, isPhNumDigit (c.toNat : Int) = true

instance (s : List Char) : Decidable (ValidNum s) := by
  unfold ValidNum
  infer_instance

/-! ### Invariants of the heap -/

/-- The trie rooted at `root` consists of the nodes of the paths `p` with
`A p ≠ 0`, the node of `p` at the address `A p`: path-equals-number. -/
structure Shape (m : Mem) (root : Nat) (A : List Char → Nat) : Prop where
  root_eq : A [] = root
  root_ne : root ≠ 0
  inj : ∀ p q, A p ≠ 0 → A p = A q → p = q
  lt_brk : ∀ p, A p < m.brk
  closed : ∀ p c, A (p ++ [c]) ≠ 0 → A p ≠ 0 ∧ isPhNumDigit (c.toNat : Int) = true
  node : ∀ p, A p ≠ 0 →
    ∃ n, m.trie (A p) = some n ∧ ∀ j, j < 12 → n.children j = A (p ++ [digitToChar j])
  parent_root : ∀ n, m.trie root = some n → n.parent = 0
  parent_snoc : ∀ p c n, A (p ++ [c]) ≠ 0 → m.trie (A (p ++ [c])) = some n → n.parent = A p

/-- The heap `m1` with trie `A1` comes from `m` with trie `A` by adding nodes
on the path `s`: what such a step keeps. -/
structure TrieExt (m : Mem) (A : List Char → Nat) (m1 : Mem) (A1 : List Char → Nat)
    (s : List Char) : Prop where
  keep : ∀ q, A q ≠ 0 → A1 q = A q
  fresh : ∀ q, A q = 0 → A1 q ≠ 0 → m.brk ≤ A1 q ∧ A1 q < m1.brk ∧ q <+: s ∧
    ∃ n, m1.trie (A1 q) = some n ∧ n.fwdNode = 0 ∧ n.listNode = 0
  fields : ∀ x n, x < m.brk → m.trie x = some n →
    ∃ n1, m1.trie x = some n1 ∧ n1.fwdNode = n.fwdNode ∧ n1.listNode = n.listNode
  other : ∀ x, x < m.brk → (∀ q, A q ≠ x) → m1.trie x = m.trie x
  list_eq : m1.list = m.list
  brk_le : m.brk ≤ m1.brk
  alloc : ∀ x, x ≠ 0 → m.brk ≤ x → x < m1.brk → ∃ q, A1 q = x

/-- The trie that keeps the root and the prefixes of the paths in `keys`. -/
def pruned (A : List Char → Nat) (keys : List (List Char)) (q : List Char) : Nat :=
  if q = [] ∨ ∃ k ∈ keys, q <+: k then A q else 0

/-- The non-root nodes that carry data are those of the paths in `keys`. -/
def Occupied (m : Mem) (A : List Char → Nat) (keys : List (List Char)) : Prop :=
  (∀ q n, q ≠ [] → A q ≠ 0 → m.trie (A q) = some n →
    ((n.fwdNode = 0 ∧ n.listNode = 0) ↔ q ∉ keys)) ∧
  ∀ k ∈ keys, A k ≠ 0

/-- Every non-root node is a prefix of a path in `keys` or of `p`. -/
def DeadOnly (A : List Char → Nat) (keys : List (List Char)) (p : List Char) : Prop :=
  ∀ q, q ≠ [] → A q ≠ 0 → (∃ k ∈ keys, q <+: k) ∨ q <+: p

/-- The heap `m1` with trie `A1` comes from `m` with trie `A` by freeing
nodes: what such a step keeps. -/
structure TriePrune (m : Mem) (A : List Char → Nat) (m1 : Mem) (A1 : List Char → Nat) :
    Prop where
  other : ∀ x, (∀ q, A q ≠ 0 → A q ≠ x) → m1.trie x = m.trie x
  fields : ∀ q, A1 q ≠ 0 → ∃ n n1, m.trie (A q) = some n ∧ m1.trie (A q) = some n1 ∧
    n1.fwdNode = n.fwdNode ∧ n1.listNode = n.listNode
  freed : ∀ q, A q ≠ 0 → A1 q = 0 → m1.trie (A q) = none
  list_eq : m1.list = m.list
  brk_eq : m1.brk = m.brk
  oracle_eq : m1.oracle = m.oracle

/-- A call that leaves the trie `A` as it was: the data fields of its nodes,
the other cells, and nothing allocated in between. -/
structure TrieSame (m : Mem) (A : List Char → Nat) (m1 : Mem) : Prop where
  fields : ∀ q, A q ≠ 0 → ∃ n n1, m.trie (A q) = some n ∧ m1.trie (A q) = some n1 ∧
    n1.fwdNode = n.fwdNode ∧ n1.listNode = n.listNode
  other : ∀ x, x < m.brk → (∀ q, A q ≠ x) → m1.trie x = m.trie x
  freed : ∀ x, m.brk ≤ x → x < m1.brk → m1.trie x = none
  list_eq : m1.list = m.list
  brk_le : m.brk ≤ m1.brk

/-- A forwarding held by the index: its source, its target and the address of
the list cell that records it. -/
structure Entry where
  src : List Char
  dst : List Char
  cell : Nat
  deriving DecidableEq

/-- The description of a heap: the addresses of the forward and of the reverse
trie nodes by path, and the forwardings, the most recent first. -/
structure Ghost where
  fA : List Char → Nat
  rA : List Char → Nat
  reg : List Entry

/-- The doubly linked list that starts at `head`, after the cell `prev`, holds
the cells of the entries `l` in order, each with the node of its source as
key. -/
def Chain (m : Mem) (fA : List Char → Nat) : Nat → List Entry → Nat → Prop
  | _, [], head => head = 0
  | prev, e :: rest, head =>
    head = e.cell ∧ e.cell ≠ 0 ∧
      ∃ nx, m.list e.cell = some ⟨fA e.src, nx, prev⟩ ∧ Chain m fA e.cell rest nx

/-- The reverse trie and its source lists. -/
structure RevOK (m : Mem) (pf : PhoneForward) (g : Ghost) : Prop where
  shape : Shape m pf.rootReverse g.rA
  cells : (g.reg.map Entry.cell).Nodup
  entry : ∀ e ∈ g.reg, g.fA e.src ≠ 0 ∧ g.rA e.dst ≠ 0 ∧ e.cell < m.brk
  lists : ∀ q, g.rA q ≠ 0 → ∃ n, m.trie (g.rA q) = some n ∧ n.fwdNode = 0 ∧
    Chain m g.fA 0 (g.reg.filter (fun e => decide (e.dst = q))) n.listNode

/-- The data fields of the forward trie nodes. -/
def FwdData (m : Mem) (g : Ghost) : Prop :=
  ∀ p, g.fA p ≠ 0 → ∃ n, m.trie (g.fA p) = some n ∧
    (∀ e ∈ g.reg, e.src = p → n.fwdNode = g.rA e.dst ∧ n.listNode = e.cell) ∧
    ((∀ e ∈ g.reg, e.src ≠ p) → n.fwdNode = 0 ∧ n.listNode = 0)

/-- The two tries and the source lists are those that the description `g`
gives; dead branches are allowed. -/
structure Core (m : Mem) (pf : PhoneForward) (g : Ghost) : Prop where
  shapeF : Shape m pf.rootFwd g.fA
  data : FwdData m g
  rev : RevOK m pf g
  sep : ∀ p q, g.fA p ≠ 0 → g.fA p ≠ g.rA q

/-- The invariant of the index: the heap `m` under the handle `pf` is the one
that the description `g` gives, each source is forwarded once, and neither
trie has a dead branch. -/
structure Inv (m : Mem) (pf : PhoneForward) (g : Ghost) extends Core m pf g : Prop where
  srcs : (g.reg.map Entry.src).Nodup
  deadF : ∀ p, p ≠ [] → g.fA p ≠ 0 → ∃ e ∈ g.reg, p <+: e.src
  deadR : ∀ q, q ≠ [] → g.rA q ≠ 0 → ∃ e ∈ g.reg, q <+: e.dst
  src_ne : ∀ e ∈ g.reg, e.src ≠ []

/-- The list cells of `m1` are those of `m` after the cell `a`, between the
cells `pv` and `nx`, has been taken out and freed. -/
def Unlinked (m m1 : Mem) (a nx pv : Nat) : Prop :=
  ∀ x, m1.list x =
    if x = a then none
    else if x = nx ∧ nx ≠ 0 then (m.list x).map (fun n => { n with prev := pv })
    else if x = pv ∧ pv ≠ 0 then (m.list x).map (fun n => { n with next := nx })
    else m.list x

/-- The description of the heap after the list cell of the entry `e` has been
removed: the entry is gone and so are the reverse nodes only it needed. -/
def cutGhost (g : Ghost) (e : Entry) : Ghost :=
  { fA := g.fA
    rA := pruned g.rA ((g.reg.filter (fun x => decide (x.cell ≠ e.cell))).map Entry.dst)
    reg := g.reg.filter (fun x => decide (x.cell ≠ e.cell)) }

/-! ### The queries on the level of forwardings -/

/-- The forwardings of an index as pairs of source and target, the most
recent first. -/
def fwOf (reg : List Entry) : List (List Char × List Char) :=
  reg.map (fun e => (e.src, e.dst))

/-- The first path of `keys` met when `rest` is read after `base`, with the
index reached; `i` is the index at which `rest` starts. -/
def findOcc (keys : List (List Char)) : List Char → List Char → Nat → Option (List Char × Nat)
  | _, [], _ => none
  | base, c :: rest, i =>
    if base ++ [c] ∈ keys then some (base ++ [c], i + 1)
    else findOcc keys (base ++ [c]) rest (i + 1)

/-- The longest path of `keys` among `best` and the paths `base ++ t`, with `t`
a non-empty prefix of `rest`. -/
def scanLongest (keys : List (List Char)) : List Char → List Char → List Char → List Char
  | _, [], best => best
  | base, c :: rest, best =>
    if base ++ [c] ∈ keys then scanLongest keys (base ++ [c]) rest (base ++ [c])
    else scanLongest keys (base ++ [c]) rest best

/-- The target of a source, if it is forwarded. -/
def lookupFw (fw : List (List Char × List Char)) (a : List Char) : Option (List Char) :=
  (fw.find? (fun e => decide (e.1 = a))).map (fun e => e.2)

/-- The number that `x` is forwarded to: the longest forwarded prefix is
replaced by its target. -/
def absGet (fw : List (List Char × List Char)) (x : List Char) : List Char :=
  match lookupFw fw (scanLongest (fw.map (fun e => e.1)) [] x []) with
  | some b => b ++ x.drop (scanLongest (fw.map (fun e => e.1)) [] x []).length
  | none => x

/-- The numbers that `phfwdReverse` appends while it reads `rest` after
`base`: for each target met, each of its sources followed by what is left. -/
def revCands (fw : List (List Char × List Char)) : List Char → List Char → List (List Char)
  | _, [] => []
  | base, c :: rest =>
    (fw.filter (fun e => decide (e.2 = base ++ [c]))).map (fun e => e.1 ++ rest) ++
      revCands fw (base ++ [c]) rest

/-- The numbers that `phfwdGetReverse` appends while it reads `rest` after
`base`: as `revCands`, without the sources that have a forwarded extension
along what is left. -/
def getRevCands (fw : List (List Char × List Char)) :
    List Char → List Char → List (List Char)
  | _, [] => []
  | base, c :: rest =>
    ((fw.filter (fun e => decide (e.2 = base ++ [c]))).filter
        (fun e => (findOcc (fw.map (fun e => e.1)) e.1 rest 0).isNone)).map
      (fun e => e.1 ++ rest) ++
      getRevCands fw (base ++ [c]) rest

/-- Appending a list of numbers to a result sequence with `phnumSafeAdd`. -/
def addAll (result : Option PhoneNumbers) (cands : List (List Char)) : Option PhoneNumbers :=
  cands.foldl (fun r c => phnumSafeAdd r (some c)) result

/-- The result of `phfwdReverse` in terms of the forwardings. -/
def absReverse (fw : List (List Char × List Char)) (x : List Char) :
    Option (Option PhoneNumbers) :=
  match addAll (phnumSafeAdd phnumNew (some x)) (revCands fw [] x) with
  | none => some none
  | some r => removeDuplicates (lexSort r)

/-- The result of `phfwdGetReverse` in terms of the forwardings. -/
def absGetReverse (fw : List (List Char × List Char)) (x : List Char) :
    Option (Option PhoneNumbers) :=
  match addAll
      (if (findOcc (fw.map (fun e => e.1)) [] x 0).isNone then phnumSafeAdd phnumNew (some x)
        else phnumNew)
      (getRevCands fw [] x) with
  | none => some none
  | some r => some (some (lexSort r))

/-! ### The subtree that `trieDelete` takes apart -/

/-- A tree of trie nodes, each given by its path, with the subtrees of its
twelve slots. -/
inductive GT where
  | nil : GT
  | node (p : List Char) (kids : Nat → GT) : GT

/-- The address of the root of a tree, `0` for the empty tree. -/
def GT.addr (A : List Char → Nat) : GT → Nat
  | GT.nil => 0
  | GT.node p _ => A p

/-- The paths of the nodes of a tree; those under slot `0` come last. -/
def GT.labels : GT → List (List Char)
  | GT.nil => []
  | GT.node p kids =>
    p :: ([1, 2, 3, 4, 5, 6, 7, 8, 9, 10, 11].flatMap (fun j => (kids j).labels) ++
      (kids 0).labels)

/-- The heap holds the tree `t`: every node has its children in its slots. -/
def PristineT (m : Mem) (A : List Char → Nat) : GT → Prop
  | GT.nil => True
  | GT.node p kids => A p ≠ 0 ∧ (∃ n, m.trie (A p) = some n ∧
      ∀ j, j < 12 → n.children j = (kids j).addr A) ∧ ∀ j, j < 12 → PristineT m A (kids j)

/-- The tree `t` with `s` hung below the last node of its slot-`0` chain. -/
def graft : GT → GT → GT
  | GT.nil, s => s
  | GT.node p kids, s => GT.node p (fun j => if j = 0 then graft (kids 0) s else kids j)

/-- The path of the last node of the slot-`0` chain of a tree, `d` for the
empty tree. -/
def GT.lastD : GT → List Char → List Char
  | GT.nil, d => d
  | GT.node p kids, _ => (kids 0).lastD p

/-- The tree of the nodes below the path `p` in the trie `A`, to the depth
`h`. -/
def build (A : List Char → Nat) : Nat → List Char → GT
  | 0, _ => GT.nil
  | h + 1, p => if A p = 0 then GT.nil
    else GT.node p (fun j => build A h (p ++ [digitToChar j]))

/-- The description of the heap while `trieDelete` takes the subtree of `P`
apart: the nodes of the paths in `L` are still to be freed. -/
def delGhost (P : List Char) (fA0 : List Char → Nat) (reg0 : List Entry) (rA : List Char → Nat)
    (L : List (List Char)) : Ghost :=
  { fA := fun q => if P <+: q ∧ q ∉ L then 0 else fA0 q
    rA := rA
    reg := reg0.filter (fun e => decide (¬ P <+: e.src ∨ e.src ∈ L)) }

/-- The invariant of the outer loop of `trieDelete`. -/
structure DelInv (m : Mem) (pf : PhoneForward) (P : List Char) (fA0 : List Char → Nat)
    (reg0 : List Entry) (rA : List Char → Nat) (T : GT) : Prop where
  pristine : PristineT m fA0 T
  nodup : T.labels.Nodup
  pend : ∀ q ∈ T.labels, P <+: q
  shapeT : P = [] ∨ Shape m pf.rootFwd (fun q => if P <+: q then 0 else fA0 q)
  data : FwdData m (delGhost P fA0 reg0 rA T.labels)
  rev : RevOK m pf (delGhost P fA0 reg0 rA T.labels)
  deadR : ∀ q, q ≠ [] → rA q ≠ 0 → ∃ e ∈ (delGhost P fA0 reg0 rA T.labels).reg, q <+: e.dst
  sep : ∀ p q, fA0 p ≠ 0 → fA0 p ≠ rA q

/-! ### The forwardings that an index holds -/

/-- The forwardings after one call, the most recent first: a successful
`phfwdAdd` replaces the forwarding of its source, `phfwdRemove` deletes the
forwardings whose source has the given prefix, any other call changes
nothing. -/
def absStep (fw : List (List Char × List Char)) : Op → List (List Char × List Char)
  | Op.add (some a) (some b) =>
    if ValidNum a ∧ ValidNum b ∧ a ≠ b then (a, b) :: fw.filter (fun e => decide (e.1 ≠ a))
    else fw
  | Op.add _ _ => fw
  | Op.remove (some p) =>
    if ValidNum p then fw.filter (fun e => decide (¬ p <+: e.1)) else fw
  | Op.remove none => fw

/-- The forwardings after a sequence of calls. -/
def absRun (fw : List (List Char × List Char)) (ops : List Op) : List (List Char × List Char) :=
  ops.foldl absStep fw

/-- The forwardings that an index holds after the calls `ops` on a fresh
index, as pairs of source and target. -/
def forwardings (ops : List Op) : List (List Char × List Char) := absRun [] ops

/-- The calls `phfwdAdd(A, B)` for a list of pairs `(A, B)`, in order. -/
def addCalls (adds : List (List Char × List Char)) : List Op :=
  adds.map (fun e => Op.add (some e.1) (some e.2))

/-- Well-formed forwardings: each source once, both numbers valid and
different. -/
def FwOK (fw : List (List Char × List Char)) : Prop :=
  (fw.map (fun e => e.1)).Nodup ∧ ∀ e ∈ fw, ValidNum e.1 ∧ ValidNum e.2 ∧ e.1 ≠ e.2

/-- The order of the specification on numbers: by the characters with
`0 < 1 < ... < 9 < * < #`, a proper prefix before its extensions. -/
def lexLt : List Char → List Char → Prop
  | [], [] => False
  | [], _ :: _ => True
  | _ :: _, [] => False
  | a :: as, b :: bs =>
    sortValue (a.toNat : Int) < sortValue (b.toNat : Int) ∨ (a = b ∧ lexLt as bs)

/-- The keys of the list cells from `node` on, read along `next`. -/
def listKeys (m : Mem) : Nat → Nat → Option (List Nat)
  | 0, node => if node = 0 then some [] else none
  | fuel + 1, node =>
    if node = 0 then some []
    else
      match m.list node with
      | none => none
      | some n => (listKeys m fuel n.next).map (fun ks => n.key :: ks)

/-- What the loop of `removeDuplicates` appends for the numbers `xs` after the
number `prev`: each number that differs from the one before it. -/
def dedupAfter : List Char → List (List Char) → List (List Char)
  | _, [] => []
  | prev, x :: xs => if x ≠ prev then x :: dedupAfter x xs else dedupAfter prev xs

/-- The collation sequence of a number in the specification: the collation
value of each character, then that of the terminator. -/
def collate (s : List Char) : List Int :=
  s.map (fun c => sortValue (c.toNat : Int)) ++ [sortValue 0]

/-- The alphabet of the numbers. -/
def alphabet : List Char := ['0', '1', '2', '3', '4', '5', '6', '7', '8', '9', '*', '#']

/-- A node that carries a forwarding or a source list. -/
def nonEmptyAt (m : Mem) (x : Nat) : Bool :=
  match m.trie x with
  | none => false
  | some n => n.fwdNode != 0 || n.listNode != 0

/-- The sequence `result` of `phfwdReverse` on a valid number when its loops
end, before the calls of `lexSort` and `removeDuplicates`. -/
def phfwdReverseEnum (m : Mem) (pf : PhoneForward) (s : List Char) :
    Option (Option PhoneNumbers) :=
  match phnumSafeAdd phnumNew (some s) with
  | none => some none
  | some result =>
    match trieFindNextNonEmpty m pf.rootReverse s 0 with
    | none => none
    | some (currPrefix, i) => phfwdReverseLoop m s (s.length + 1) currPrefix i (some result)

/-- The sequence `result` of `phfwdGetReverse` on a valid number when its loops
end, before the call of `lexSort`. -/
def phfwdGetReverseEnum (m : Mem) (pf : PhoneForward) (s : List Char) :
    Option (Option PhoneNumbers) :=
  match phnumNew with
  | none => some none
  | some result0 =>
    match trieFindNextNonEmpty m pf.rootFwd s 0 with
    | none => none
    | some (found, _) =>
      let seeded : Option PhoneNumbers :=
        if found = 0 then phnumSafeAdd (some result0) (some s) else some result0
      match seeded with
      | none => some none
      | some result =>
        match trieFindNextNonEmpty m pf.rootReverse s 0 with
        | none => none
        | some (currPrefix, i) =>
          phfwdGetReverseLoop m s (s.length + 1) currPrefix i (some result)

/-- Whether a call takes effect on a state: a call of `phfwdAdd` that returns
`true`, or a call of `phfwdRemove`. -/
def took (st : State) : Op → Bool
  | Op.add a b =>
    match phfwdAdd st.mem (some st.pf) a b with
    | some (true, _) => true
    | _ => false
  | Op.remove _ => true

/-- The calls of a sequence that take effect, in order. -/
def effective : State → List Op → List Op
  | _, [] => []
  | st, op :: ops =>
    match step st op with
    | none => []
    | some st1 => if took st op then op :: effective st1 ops else effective st1 ops

/-- The fresh index when the calls of `malloc` that follow `phfwdNew` have the
outcomes `o`, in order: `false` is a failure, and every call succeeds once `o`
is used up. -/
def freshWith (o : List Bool) : Option State :=
  fresh.map (fun st => ⟨{ st.mem with oracle := o }, st.pf⟩)

/-- The state after a sequence of calls on a fresh index under the outcomes
`o` of `malloc`. -/
def runWith (o : List Bool) (ops : List Op) : Option State :=
  (freshWith o).bind (fun st => run st ops)

/-- The calls that take effect in a sequence of calls on a fresh index under
the outcomes `o` of `malloc`. -/
def effectiveWith (o : List Bool) (ops : List Op) : List Op :=
  match freshWith o with
  | none => []
  | some st => effective st ops

/-- A well-formed doubly linked list: the cells `cells`, in order, start at
`head` after the cell `prev`; each cell is allocated, its `prev` is the cell
before it and its `next` the cell after it, and the last one has no `next`. -/
def linked (m : Mem) : Nat → List Nat → Nat → Bool
  | _, [], head => head == 0
  | prev, c :: cs, head =>
    head == c && c != 0 &&
      match m.list c with
      | none => false
      | some n => n.prev == prev && linked m c cs n.next

/-- The trie rooted at `root` has no dead branch: a node below the root that
carries no data has a child, and every node below the root has a node that
carries data at or below it. -/
def NoDeadBranch (m : Mem) (root : Nat) : Prop :=
  (∀ p F n, p ≠ [] → (∀ c ∈ p, isPhNumDigit (c.toNat : Int) = true) →
    trieFind m root p = some F → F ≠ 0 → m.trie F = some n →
    hasChild n = true ∨ n.fwdNode ≠ 0 ∨ n.listNode ≠ 0) ∧
  ∀ p F, p ≠ [] → (∀ c ∈ p, isPhNumDigit (c.toNat : Int) = true) →
    trieFind m root p = some F → F ≠ 0 →
    ∃ t F', (∀ c ∈ t, isPhNumDigit (c.toNat : Int) = true) ∧
      trieFind m root (p ++ t) = some F' ∧ F' ≠ 0 ∧ nonEmptyAt m F' = true ∧
      (nonEmptyAt m F = false → t ≠ [])

/-- The growth policy in the words of the specification: from a full sequence
of capacity `old` the new capacity is `max(1, old · 3/2)`. -/
def specCapacity (old : Nat) : Nat := max 1 (old * 3 / 2)

/-- The outer loop of `trieDelete`, with the list of the nodes that it hands
to `deleteFwdData` and then frees, in the order of the rounds. -/
def trieDeleteLoopLog : Nat → Mem → Nat → Nat → Option (Mem × List Nat)
  | 0, m, root, _ => if root = 0 then some (m, []) else none
  | fuel + 1, m, root, current =>
    if root = 0 then some (m, [])
    else
      match descend m m.brk current with
      | none => none
      | some current1 =>
        match trieDeleteFor root [1, 2, 3, 4, 5, 6, 7, 8, 9, 10, 11] m current1 with
        | none => none
        | some (m1, current2) =>
          match m1.trie root with
          | none => none
          | some r =>
            match deleteFwdData m1 root with
            | none => none
            | some m2 =>
              (trieDeleteLoopLog fuel (m2.freeTrie root) (r.children 0) current2).map
                (fun x => (x.1, root :: x.2))

/-- The function `trieDelete`, with the list of the nodes that it hands to
`deleteFwdData` and then frees. -/
def trieDeleteLog (m : Mem) (node : Nat) : Option (Mem × List Nat) :=
  trieDeleteLoopLog m.brk m node node

/-- The function `phfwdDelete`; `free` of a cell that is not allocated is
undefined, and the cell of the structure itself is not part of the heap of
trie and list nodes. -/
def phfwdDelete (m : Mem) (pf : Option PhoneForward) : Option Mem :=
  match pf with
  | none => some m
  | some pf =>
    match trieDelete m pf.rootFwd with
    | none => none
    | some m1 =>
      match m1.trie pf.rootReverse with
      | none => none
      | some _ => some (m1.freeTrie pf.rootReverse)

/-- No cell that is free in `m` is allocated in `m1`. -/
def Shrinks (m m1 : Mem) : Prop :=
  (∀ x, m.trie x = none → m1.trie x = none) ∧ (∀ x, m.list x = none → m1.list x = none)

/-- The node of the path `q` in the trie rooted at `root`, as `trieFind` finds
it; `0` when there is none. -/
def nodeOf (m : Mem) (root : Nat) (q : List Char) : Nat := (trieFind m root q).getD 0

/-- What `deleteDeadBranch` does to the trie `A` along the path `q ++ t`: the
nodes of the paths `q ++ t'`, with `t'` a non-empty prefix of `t`, were empty
with no child off the path and are freed, the slot of the node of `q` that led
to them is cleared, and every other cell is as it was. -/
structure ChainCut (m : Mem) (A : List Char → Nat) (q t : List Char) (m1 : Mem) : Prop where
  empties : ∀ t', t' ≠ [] → t' <+: t →
    ∃ k, m.trie (A (q ++ t')) = some k ∧ k.fwdNode = 0 ∧ k.listNode = 0
  only : ∀ t' d, t' ≠ [] → t' <+: t → A (q ++ t' ++ [d]) ≠ 0 → t' ++ [d] <+: t
  freed : ∀ t', t' ≠ [] → t' <+: t → m1.trie (A (q ++ t')) = none
  slot : ∀ c t2, t = c :: t2 → ∃ k, m.trie (A q) = some k ∧
    m1.trie (A q) = some (setChild k (charToDigit (c.toNat : Int)) 0)
  other : ∀ x, x ≠ A q → (∀ t', t' ≠ [] → t' <+: t → x ≠ A (q ++ t')) →
    m1.trie x = m.trie x
  same : t = [] → m1 = m
  list_eq : m1.list = m.list
  brk_eq : m1.brk = m.brk
  oracle_eq : m1.oracle = m.oracle

/-! ## Part 2: theorems -/

/-! ### Result sequences when their allocations succeed -/

theorem phnumNew_eq : phnumNew = some ⟨[], 0⟩ := rfl

theorem phnumAdd_eq (pnum : Option PhoneNumbers) (num : Option (List Char)) :
    phnumAdd pnum num =
      match pnum, num with
      | some p, some s =>
        if p.numbers.length = p.capacity then
          if p.capacity = maxCapacity then none
          else
            let newCapacity :=
              if p.capacity > maxCapacity / 3 * 2 then maxCapacity
              else (p.capacity * 3 % sizeModulus) / 2 + 1
            some ⟨p.numbers ++ [s], newCapacity⟩
        else some ⟨p.numbers ++ [s], p.capacity⟩
      | _, _ => none := by
  unfold phnumAdd phnumAddWith
  cases pnum <;> cases num <;> simp

/-! ### Characters and digits -/

theorem digitChar_cases (c : Char) (h : isPhNumDigit (c.toNat : Int) = true) :
    c = '0' ∨ c = '1' ∨ c = '2' ∨ c = '3' ∨ c = '4' ∨ c = '5' ∨ c = '6' ∨ c = '7' ∨
      c = '8' ∨ c = '9' ∨ c = '*' ∨ c = '#' := by
  have hc : c = Char.ofNat c.toNat := (Char.ofNat_toNat c).symm
  have hn : (48 ≤ c.toNat ∧ c.toNat ≤ 57) ∨ c.toNat = 42 ∨ c.toNat = 35 := by
    simp only [isPhNumDigit, Bool.or_eq_true, Bool.and_eq_true, decide_eq_true_eq] at h
    omega
  rcases hn with ⟨h1, h2⟩ | h1 | h1
  · have : c.toNat = 48 ∨ c.toNat = 49 ∨ c.toNat = 50 ∨ c.toNat = 51 ∨ c.toNat = 52 ∨
        c.toNat = 53 ∨ c.toNat = 54 ∨ c.toNat = 55 ∨ c.toNat = 56 ∨ c.toNat = 57 := by omega
    rcases this with h | h | h | h | h | h | h | h | h | h <;> rw [h] at hc <;> simp [hc]
  · rw [h1] at hc; simp [hc]
  · rw [h1] at hc; simp [hc]

theorem charToDigit_lt (c : Char) (h : isPhNumDigit (c.toNat : Int) = true) :
    charToDigit (c.toNat : Int) < 12 := by
  rcases digitChar_cases c h with h | h | h | h | h | h | h | h | h | h | h | h <;>
    subst h <;> decide

theorem digitToChar_charToDigit (c : Char) (h : isPhNumDigit (c.toNat : Int) = true) :
    digitToChar (charToDigit (c.toNat : Int)) = c := by
  rcases digitChar_cases c h with h | h | h | h | h | h | h | h | h | h | h | h <;>
    subst h <;> decide

theorem isPhNumDigit_digitToChar (j : Nat) (h : j < 12) :
    isPhNumDigit ((digitToChar j).toNat : Int) = true := by
  interval_cases j <;> decide

theorem charToDigit_digitToChar (j : Nat) (h : j < 12) :
    charToDigit ((digitToChar j).toNat : Int) = j := by
  interval_cases j <;> decide

theorem digitToChar_inj (i j : Nat) (hi : i < 12) (hj : j < 12)
    (h : digitToChar i = digitToChar j) : i = j := by
  have := congrArg (fun c : Char => charToDigit (c.toNat : Int)) h
  simpa [charToDigit_digitToChar i hi, charToDigit_digitToChar j hj] using this

theorem isCorrectLoop_spec (s : List Char) (i : Nat) :
    ((isCorrectLoop s i).2 = true ↔ ∀ c ∈ s, isPhNumDigit (c.toNat : Int) = true) ∧
      ((isCorrectLoop s i).2 = true → (isCorrectLoop s i).1 = i + s.length) := by
  induction s generalizing i with
  | nil => simp [isCorrectLoop]
  | cons c rest ih =>
    by_cases hc : isPhNumDigit (c.toNat : Int) = true
    · simp only [isCorrectLoop, hc, if_true, List.mem_cons, forall_eq_or_imp, true_and,
        List.length_cons]
      refine ⟨(ih (i + 1)).1, fun h => ?_⟩
      rw [(ih (i + 1)).2 h]; omega
    · simp [isCorrectLoop, hc]

theorem isCorrect_some (s : List Char) : isCorrect (some s) = true ↔ ValidNum s := by
  unfold isCorrect ValidNum
  simp only [Bool.and_eq_true, decide_eq_true_eq]
  constructor
  · rintro ⟨h1, h2⟩
    have h3 := (isCorrectLoop_spec s 0).2 h1
    refine ⟨?_, (isCorrectLoop_spec s 0).1.1 h1⟩
    rintro rfl
    simp [isCorrectLoop] at h2
  · rintro ⟨h1, h2⟩
    have h3 := (isCorrectLoop_spec s 0).1.2 h2
    refine ⟨h3, ?_⟩
    rw [(isCorrectLoop_spec s 0).2 h3]
    have : 0 < s.length := List.length_pos.mpr h1
    omega

theorem isCorrect_none : isCorrect none = false := rfl

theorem strcmp_eq_zero (a b : List Char) : strcmp a b = 0 ↔ a = b := by
  induction a generalizing b with
  | nil => cases b <;> simp [strcmp]
  | cons a as ih =>
    cases b with
    | nil => simp [strcmp]
    | cons b bs =>
      by_cases h : a = b
      · simp [strcmp, h, ih]
      · simp only [strcmp, h, if_false, List.cons.injEq, false_and, iff_false]
        split <;> simp

/-! ### Paths in a trie -/

theorem Shape.pre {m : Mem} {root : Nat} {A : List Char → Nat} (h : Shape m root A)
    (p q : List Char) (hq : A (p ++ q) ≠ 0) : A p ≠ 0 := by
  induction q using List.reverseRecOn with
  | nil => simpa using hq
  | append_singleton q c ih =>
    apply ih
    have := h.closed (p ++ q) c (by simpa [List.append_assoc] using hq)
    exact this.1

theorem Shape.digits {m : Mem} {root : Nat} {A : List Char → Nat} (h : Shape m root A)
    (p : List Char) (hp : A p ≠ 0) : ∀ c ∈ p, isPhNumDigit (c.toNat : Int) = true := by
  induction p using List.reverseRecOn with
  | nil => simp
  | append_singleton q c ih =>
    have h1 := h.closed q c hp
    intro d hd
    rcases List.mem_append.mp hd with hd | hd
    · exact ih h1.1 d hd
    · simp only [List.mem_singleton] at hd
      subst hd
      exact h1.2

theorem Shape.child {m : Mem} {root : Nat} {A : List Char → Nat} (h : Shape m root A)
    (p : List Char) (hp : A p ≠ 0) (n : TrieNode) (hn : m.trie (A p) = some n) (c : Char)
    (hc : isPhNumDigit (c.toNat : Int) = true) :
    childAt n (charToDigit (c.toNat : Int)) = some (A (p ++ [c])) := by
  obtain ⟨n1, hn1, hch⟩ := h.node p hp
  rw [hn] at hn1
  cases hn1
  have hlt := charToDigit_lt c hc
  simp only [childAt, hlt, if_true]
  rw [hch _ hlt, digitToChar_charToDigit c hc]

theorem Shape.take_ne {m : Mem} {root : Nat} {A : List Char → Nat} (h : Shape m root A)
    (p : List Char) (hp : A p ≠ 0) (k : Nat) : A (p.take k) ≠ 0 := by
  apply h.pre (p.take k) (p.drop k)
  rwa [List.take_append_drop]

theorem Shape.depth {m : Mem} {root : Nat} {A : List Char → Nat} (h : Shape m root A)
    (p : List Char) (hp : A p ≠ 0) : p.length + 2 ≤ m.brk := by
  have hnd : ((List.range (p.length + 1)).map (fun k => A (p.take k))).Nodup := by
    rw [List.nodup_map_iff_inj_on (List.nodup_range _)]
    intro x hx y hy hxy
    have h1 := h.inj _ _ (h.take_ne p hp x) hxy
    have h2 := congrArg List.length h1
    simp only [List.length_take, List.mem_range] at h2 hx hy
    omega
  have hsub : ((List.range (p.length + 1)).map (fun k => A (p.take k))) ⊆
      List.range' 1 (m.brk - 1) := by
    intro a ha
    simp only [List.mem_map, List.mem_range] at ha
    obtain ⟨k, _, rfl⟩ := ha
    simp only [List.mem_range'_1]
    have h1 := h.take_ne p hp k
    have h2 := h.lt_brk (p.take k)
    omega
  have := (List.subperm_of_subset hnd hsub).length_le
  simp only [List.length_map, List.length_range, List.length_range'] at this
  omega

theorem lengthLoop_spec {m : Mem} {root : Nat} {A : List Char → Nat} (h : Shape m root A)
    (p : List Char) (hp : A p ≠ 0) (fuel r : Nat) (hf : p.length < fuel) :
    lengthLoop m fuel (A p) r = some (r + p.length) := by
  induction p using List.reverseRecOn generalizing fuel r with
  | nil =>
    obtain ⟨f, rfl⟩ : ∃ f, fuel = f + 1 := ⟨fuel - 1, by omega⟩
    obtain ⟨n, hn, _⟩ := h.node [] hp
    have hpar := h.parent_root n (by rw [← h.root_eq]; exact hn)
    simp [lengthLoop, hn, hpar]
  | append_singleton q c ih =>
    obtain ⟨f, rfl⟩ : ∃ f, fuel = f + 1 := ⟨fuel - 1, by omega⟩
    obtain ⟨n, hn, _⟩ := h.node _ hp
    have hpar := h.parent_snoc q c n hp hn
    have hq := (h.closed q c hp).1
    simp only [List.length_append, List.length_singleton] at hf
    simp only [lengthLoop, hn, hpar, ne_eq, hq, not_false_eq_true, if_true]
    rw [ih hq f (r + 1) (by omega)]
    simp only [List.length_append, List.length_singleton]
    congr 1
    omega

theorem length_spec {m : Mem} {root : Nat} {A : List Char → Nat} (h : Shape m root A)
    (p : List Char) (hp : A p ≠ 0) : length m (A p) = some p.length := by
  have := h.depth p hp
  simp only [length, hp, if_false]
  rw [lengthLoop_spec h p hp m.brk 0 (by omega)]
  simp

theorem foldl_slot (f : Nat → Bool) (g : Nat → Char) (j0 n : Nat)
    (h : ∀ j, j < n → (f j = true ↔ j = j0)) :
    (List.range n).foldl (fun acc j => if f j = true then some (g j) else acc) none =
      if j0 < n then some (g j0) else none := by
  induction n with
  | zero => simp
  | succ n ih =>
    rw [List.range_succ, List.foldl_append, ih (fun j hj => h j (by omega))]
    simp only [List.foldl_cons, List.foldl_nil]
    by_cases hn : n = j0
    · subst hn
      simp [(h n (by omega)).mpr rfl]
    · have : ¬ f n = true := fun hf => hn ((h n (by omega)).mp hf)
      simp only [this, if_false]
      by_cases h2 : j0 < n
      · simp [h2, Nat.lt_succ_of_lt h2]
      · have : ¬ j0 < n + 1 := by omega
        simp [h2, this]

theorem slotChar_spec {m : Mem} {root : Nat} {A : List Char → Nat} (h : Shape m root A)
    (q : List Char) (c : Char) (hp : A (q ++ [c]) ≠ 0) (par : TrieNode)
    (hpar : m.trie (A q) = some par) : slotChar par (A (q ++ [c])) = some c := by
  have hq := h.closed q c hp
  obtain ⟨n1, hn1, hch⟩ := h.node q hq.1
  rw [hpar] at hn1
  cases hn1
  have hlt := charToDigit_lt c hq.2
  have key : ∀ j, j < 12 →
      (decide (par.children j = A (q ++ [c])) = true ↔ j = charToDigit (c.toNat : Int)) := by
    intro j hj
    rw [decide_eq_true_eq, hch j hj]
    constructor
    · intro e
      have e2 := h.inj _ _ (by rw [e]; exact hp) e
      have e3 : digitToChar j = c := by simpa using e2
      rw [← e3, charToDigit_digitToChar j hj]
    · rintro rfl
      rw [digitToChar_charToDigit c hq.2]
  have := foldl_slot (fun j => decide (par.children j = A (q ++ [c]))) digitToChar
    (charToDigit (c.toNat : Int)) 12 key
  simp only [decide_eq_true_eq, hlt, if_true, digitToChar_charToDigit c hq.2] at this
  exact this

theorem changePrefixUp_spec {m : Mem} {root : Nat} {A : List Char → Nat} (h : Shape m root A)
    (p : List Char) (hp : A p ≠ 0) : changePrefixUp m p.length (A p) = some p.reverse := by
  induction p using List.reverseRecOn with
  | nil => rfl
  | append_singleton q c ih =>
    obtain ⟨n, hn, _⟩ := h.node _ hp
    have hpar := h.parent_snoc q c n hp hn
    have hq := (h.closed q c hp).1
    obtain ⟨par, hparn, _⟩ := h.node q hq
    simp only [List.length_append, List.length_singleton, changePrefixUp, hn, hpar, hparn,
      slotChar_spec h q c hp par hparn, ih hq, List.reverse_append, List.reverse_cons,
      List.reverse_nil, List.nil_append, List.singleton_append]

/-! ### The functions `mirror` and `changePrefix` -/

theorem swapChars_length (l : List Char) (a b : Nat) :
    (swapChars l a b).length = l.length := by
  simp [swapChars]

theorem swapChars_getElem? (l : List Char) (a b k : Nat) (ha : a < l.length)
    (hb : b < l.length) :
    (swapChars l a b)[k]? = if k = b then l[a]? else if k = a then l[b]? else l[k]? := by
  simp only [swapChars, List.getElem?_set, List.length_set, List.getD_eq_getElem?_getD,
    List.getElem?_eq_getElem ha, List.getElem?_eq_getElem hb, Option.getD_some]
  by_cases h1 : b = k
  · subst h1
    simp [hb]
  · have h1' : ¬ k = b := fun e => h1 e.symm
    by_cases h2 : a = k
    · subst h2
      simp [h1, h1', ha]
    · have h2' : ¬ k = a := fun e => h2 e.symm
      simp [h1, h1', h2, h2']

theorem mirrorLoop_getElem? (fuel : Nat) : ∀ (l : List Char) (i : Nat), 2 * i ≤ l.length →
    l.length ≤ 2 * (i + fuel) + 1 → ∀ k,
    (mirrorLoop fuel l l.length i)[k]? =
      if i ≤ k ∧ k + i < l.length then l[l.length - 1 - k]? else l[k]? := by
  induction fuel with
  | zero =>
    intro l i h1 h2 k
    simp only [mirrorLoop]
    split_ifs with hk
    · have : l.length - 1 - k = k := by omega
      rw [this]
    · rfl
  | succ f ih =>
    intro l i h1 h2 k
    unfold mirrorLoop
    by_cases hc : 2 * i < l.length - 1
    · have hlen := swapChars_length l i (l.length - i - 1)
      have h3 := ih (swapChars l i (l.length - i - 1)) (i + 1) (by rw [hlen]; omega)
        (by rw [hlen]; omega) k
      rw [hlen] at h3
      have ha : i < l.length := by omega
      have hb : l.length - i - 1 < l.length := by omega
      rw [if_pos hc, h3]
      simp only [swapChars_getElem? l _ _ _ ha hb]
      split_ifs <;> first | rfl | (congr 1; omega)
    · rw [if_neg hc]
      split_ifs with hk
      · have : l.length - 1 - k = k := by omega
        rw [this]
      · rfl

theorem mirror_spec (l : List Char) : mirror l l.length = l.reverse := by
  unfold mirror
  split_ifs with h0
  · have : l = [] := List.length_eq_zero.mp h0
    subst this
    rfl
  · apply List.ext_getElem?
    intro k
    rw [mirrorLoop_getElem? l.length l 0 (by omega) (by omega) k]
    by_cases hk : k < l.length
    · have : 0 ≤ k ∧ k + 0 < l.length := by omega
      rw [if_pos this, List.getElem?_reverse hk]
    · have : ¬ (0 ≤ k ∧ k + 0 < l.length) := by omega
      rw [if_neg this]
      rw [List.getElem?_eq_none (by omega), List.getElem?_eq_none (by simp; omega)]

theorem changePrefix_spec {m : Mem} {root : Nat} {A : List Char → Nat} (h : Shape m root A)
    (p : List Char) (hp : A p ≠ 0) (num : List Char) (index : Nat) (hi : index ≤ num.length) :
    changePrefix m num (A p) index = some (p ++ num.drop index) := by
  unfold changePrefix
  rw [if_pos hi, length_spec h p hp]
  by_cases h0 : 0 < p.length
  · have hm := mirror_spec p.reverse
    rw [List.length_reverse, List.reverse_reverse] at hm
    simp [h0, changePrefixUp_spec h p hp, hm]
  · have : p = [] := List.length_eq_zero.mp (by omega)
    subst this
    simp

theorem changePrefix_null (m : Mem) (num : List Char) (index : Nat) (hi : index ≤ num.length) :
    changePrefix m num 0 index = some (num.drop index) := by
  simp [changePrefix, hi, length]

/-! ### Reading and writing the heap -/

@[simp] theorem setTrie_trie (m : Mem) (a : Nat) (n : TrieNode) (x : Nat) :
    (m.setTrie a n).trie x = if x = a then some n else m.trie x := rfl

@[simp] theorem setTrie_list (m : Mem) (a : Nat) (n : TrieNode) : (m.setTrie a n).list = m.list :=
  rfl

@[simp] theorem setTrie_brk (m : Mem) (a : Nat) (n : TrieNode) : (m.setTrie a n).brk = m.brk :=
  rfl

@[simp] theorem setTrie_oracle (m : Mem) (a : Nat) (n : TrieNode) :
    (m.setTrie a n).oracle = m.oracle := rfl

@[simp] theorem freeTrie_trie (m : Mem) (a x : Nat) :
    (m.freeTrie a).trie x = if x = a then none else m.trie x := rfl

@[simp] theorem freeTrie_list (m : Mem) (a : Nat) : (m.freeTrie a).list = m.list := rfl

@[simp] theorem freeTrie_brk (m : Mem) (a : Nat) : (m.freeTrie a).brk = m.brk := rfl

@[simp] theorem freeTrie_oracle (m : Mem) (a : Nat) : (m.freeTrie a).oracle = m.oracle := rfl

@[simp] theorem setList_list (m : Mem) (a : Nat) (n : ListNode) (x : Nat) :
    (m.setList a n).list x = if x = a then some n else m.list x := rfl

@[simp] theorem setList_trie (m : Mem) (a : Nat) (n : ListNode) : (m.setList a n).trie = m.trie :=
  rfl

@[simp] theorem setList_brk (m : Mem) (a : Nat) (n : ListNode) : (m.setList a n).brk = m.brk :=
  rfl

@[simp] theorem setList_oracle (m : Mem) (a : Nat) (n : ListNode) :
    (m.setList a n).oracle = m.oracle := rfl

@[simp] theorem freeList_list (m : Mem) (a x : Nat) :
    (m.freeList a).list x = if x = a then none else m.list x := rfl

@[simp] theorem freeList_trie (m : Mem) (a : Nat) : (m.freeList a).trie = m.trie := rfl

@[simp] theorem freeList_brk (m : Mem) (a : Nat) : (m.freeList a).brk = m.brk := rfl

@[simp] theorem freeList_oracle (m : Mem) (a : Nat) : (m.freeList a).oracle = m.oracle := rfl

theorem malloc_ok (m : Mem) (h : m.oracle.head? ≠ some false) :
    malloc m = (m.brk, { m with brk := m.brk + 1, oracle := m.oracle.tail }) := by
  rcases m with ⟨t, l, b, o⟩
  rcases o with _ | ⟨x, o⟩
  · rfl
  · cases x
    · exact absurd rfl h
    · rfl

theorem malloc_fail (m : Mem) (h : m.oracle.head? = some false) :
    malloc m = (0, { m with oracle := m.oracle.tail }) := by
  rcases m with ⟨t, l, b, o⟩
  rcases o with _ | ⟨x, o⟩
  · cases h
  · cases x
    · rfl
    · cases h

/-- A trie keeps its shape when none of its nodes is written. -/
theorem Shape.frame {m m1 : Mem} {root : Nat} {A : List Char → Nat} (h : Shape m root A)
    (hb : m.brk ≤ m1.brk) (hf : ∀ p, A p ≠ 0 → m1.trie (A p) = m.trie (A p)) :
    Shape m1 root A where
  root_eq := h.root_eq
  root_ne := h.root_ne
  inj := h.inj
  lt_brk := fun p => lt_of_lt_of_le (h.lt_brk p) hb
  closed := h.closed
  node := fun p hp => by rw [hf p hp]; exact h.node p hp
  parent_root := fun n hn => by
    have := hf [] (by rw [h.root_eq]; exact h.root_ne)
    rw [h.root_eq] at this
    rw [this] at hn
    exact h.parent_root n hn
  parent_snoc := fun p c n hp hn => by
    rw [hf _ hp] at hn
    exact h.parent_snoc p c n hp hn

/-! ### Walking down a trie -/

theorem trieFind_null (m : Mem) (s : List Char) : trieFind m 0 s = some 0 := by
  cases s <;> simp [trieFind]

theorem trieFind_spec {m : Mem} {root : Nat} {A : List Char → Nat} (h : Shape m root A)
    (s : List Char) (hs : ∀ c ∈ s, isPhNumDigit (c.toNat : Int) = true) :
    ∀ p, (A p = 0 → p ≠ []) → trieFind m (A p) s = some (A (p ++ s)) := by
  induction s with
  | nil => intro p _; simp [trieFind]
  | cons c rest ih =>
    intro p hp0
    by_cases hp : A p = 0
    · rw [hp, trieFind_null]
      by_contra hne
      have : A (p ++ c :: rest) ≠ 0 := fun e => hne (by rw [e])
      exact h.pre p _ this hp
    · obtain ⟨n, hn, _⟩ := h.node p hp
      have hc := hs c (List.mem_cons_self _ _)
      simp only [trieFind, hp, if_false, hn, h.child p hp n hn c hc]
      rw [ih (fun d hd => hs d (List.mem_cons_of_mem _ hd)) (p ++ [c]) (by simp)]
      simp

theorem trieAddFind_spec {m : Mem} {root : Nat} {A : List Char → Nat} (h : Shape m root A)
    (s : List Char) (hs : ∀ c ∈ s, isPhNumDigit (c.toNat : Int) = true) :
    ∀ p, A p ≠ 0 → ∃ s1 s2, s = s1 ++ s2 ∧ trieAddFind m (A p) s = some (A (p ++ s1), s2) ∧
      A (p ++ s1) ≠ 0 ∧ (∀ c, s2.head? = some c → A (p ++ s1 ++ [c]) = 0) := by
  induction s with
  | nil =>
    intro p hp
    exact ⟨[], [], rfl, by simp [trieAddFind], by simpa using hp, by simp⟩
  | cons c rest ih =>
    intro p hp
    obtain ⟨n, hn, _⟩ := h.node p hp
    have hc := hs c (List.mem_cons_self _ _)
    by_cases hch : A (p ++ [c]) = 0
    · refine ⟨[], c :: rest, rfl, ?_, by simpa using hp, ?_⟩
      · simp [trieAddFind, hn, h.child p hp n hn c hc, hch]
      · intro d hd
        simp only [List.head?_cons, Option.some.injEq] at hd
        subst hd
        simpa using hch
    · obtain ⟨s1, s2, e, h1, h2, h3⟩ :=
        ih (fun d hd => hs d (List.mem_cons_of_mem _ hd)) (p ++ [c]) hch
      refine ⟨c :: s1, s2, by rw [e]; rfl, ?_, by simpa using h2, ?_⟩
      · simp only [trieAddFind, hn, h.child p hp n hn c hc, ne_eq, hch, not_false_eq_true,
          if_true, h1]
        simp
      · intro d hd
        have := h3 d hd
        simpa using this

/-! ### The function `trieAdd` -/

theorem TrieExt.reflExt (m : Mem) (A : List Char → Nat) (s : List Char) :
    TrieExt m A m A s where
  keep := fun _ _ => rfl
  fresh := fun _ h0 h1 => absurd h0 h1
  fields := fun _ n _ hn => ⟨n, hn, rfl, rfl⟩
  other := fun _ _ _ => rfl
  list_eq := rfl
  brk_le := le_refl _
  alloc := fun x _ h1 h2 => absurd h2 (by omega)

theorem TrieExt.trans {m m1 m2 : Mem} {A A1 A2 : List Char → Nat} {s : List Char}
    (h1 : TrieExt m A m1 A1 s) (h2 : TrieExt m1 A1 m2 A2 s) : TrieExt m A m2 A2 s where
  keep := fun q hq => by
    rw [h2.keep q (by rw [h1.keep q hq]; exact hq), h1.keep q hq]
  fresh := fun q h0 hq => by
    by_cases hq1 : A1 q = 0
    · obtain ⟨a, b, c, d⟩ := h2.fresh q hq1 hq
      exact ⟨le_trans h1.brk_le a, b, c, d⟩
    · obtain ⟨a, b, c, n, hn, hn1, hn2⟩ := h1.fresh q h0 hq1
      have e := h2.keep q hq1
      obtain ⟨n1, hn3, hn4, hn5⟩ := h2.fields _ n b hn
      rw [e]
      exact ⟨a, lt_of_lt_of_le b h2.brk_le, c, n1, hn3, by rw [hn4, hn1], by rw [hn5, hn2]⟩
  fields := fun x n hx hn => by
    obtain ⟨n1, a, b, c⟩ := h1.fields x n hx hn
    obtain ⟨n2, a2, b2, c2⟩ := h2.fields x n1 (lt_of_lt_of_le hx h1.brk_le) a
    exact ⟨n2, a2, by rw [b2, b], by rw [c2, c]⟩
  other := fun x hx hq => by
    rw [h2.other x (lt_of_lt_of_le hx h1.brk_le) ?_, h1.other x hx hq]
    intro q e
    by_cases hq0 : A q = 0
    · have hx0 : x ≠ 0 := fun e0 => hq q (by rw [hq0, e0])
      have := (h1.fresh q hq0 (by rw [e]; exact hx0)).1
      omega
    · exact hq q (by rw [← h1.keep q hq0, e])
  list_eq := by rw [h2.list_eq, h1.list_eq]
  brk_le := le_trans h1.brk_le h2.brk_le
  alloc := fun x hx0 hx1 hx2 => by
    by_cases hx : x < m1.brk
    · obtain ⟨q, hq⟩ := h1.alloc x hx0 hx1 hx
      exact ⟨q, by rw [h2.keep q (by rw [hq]; exact hx0), hq]⟩
    · exact h2.alloc x hx0 (by omega) hx2

theorem snoc_ne_self (p : List Char) (c : Char) : p ++ [c] ≠ p := by
  intro e
  have := congrArg List.length e
  simp at this

theorem snoc_inj {p q : List Char} {c d : Char} (e : p ++ [c] = q ++ [d]) : p = q ∧ c = d := by
  have := List.append_inj' e rfl
  simpa using this

/-- One new node below the node of `base`. -/
theorem shape_grow {m m3 : Mem} {root : Nat} {A : List Char → Nat} (h : Shape m root A)
    (base : List Char) (c : Char) (hb : A base ≠ 0) (hc : isPhNumDigit (c.toNat : Int) = true)
    (hnew : A (base ++ [c]) = 0) (cur : TrieNode) (hcur : m.trie (A base) = some cur)
    (h3 : ∀ x, m3.trie x =
      if x = m.brk then some ⟨0, 0, fun _ => 0, A base⟩
      else if x = A base then some (setChild cur (charToDigit (c.toNat : Int)) m.brk)
      else m.trie x)
    (hbrk : m3.brk = m.brk + 1) :
    Shape m3 root (fun q => if q = base ++ [c] then m.brk else A q) := by
  have habs : ∀ t, A (base ++ [c] ++ t) = 0 := by
    intro t
    by_contra hne
    exact h.pre _ _ hne hnew
  have hbrk0 : m.brk ≠ 0 := by
    have := h.lt_brk []
    omega
  have hlt : ∀ p, A p ≠ m.brk := fun p => by
    have := h.lt_brk p
    omega
  have hbase : base ≠ base ++ [c] := by
    intro e
    have := congrArg List.length e
    simp at this
  refine ⟨?_, h.root_ne, ?_, ?_, ?_, ?_, ?_, ?_⟩
  · simp [h.root_eq]
  · intro p q hp e
    by_cases hp1 : p = base ++ [c]
    · by_cases hq1 : q = base ++ [c]
      · rw [hp1, hq1]
      · simp only [hp1, hq1, if_true, if_false] at e
        exact absurd e.symm (hlt q)
    · by_cases hq1 : q = base ++ [c]
      · simp only [hp1, hq1, if_true, if_false] at e
        exact absurd e (hlt p)
      · simp only [hp1, hq1, if_false] at e hp
        exact h.inj p q hp e
  · intro p
    rw [hbrk]
    split
    · omega
    · have := h.lt_brk p
      omega
  · intro p d hp
    by_cases e : p ++ [d] = base ++ [c]
    · obtain ⟨e1, e2⟩ := snoc_inj e
      subst e1 e2
      simp only [hbase, if_false]
      exact ⟨hb, hc⟩
    · simp only [e, if_false] at hp
      obtain ⟨a, b⟩ := h.closed p d hp
      refine ⟨?_, b⟩
      split
      · exact hbrk0
      · exact a
  · intro p hp
    by_cases hp1 : p = base ++ [c]
    · subst hp1
      refine ⟨⟨0, 0, fun _ => 0, A base⟩, by simp [h3], ?_⟩
      intro j _
      have : base ++ [c] ++ [digitToChar j] ≠ base ++ [c] := snoc_ne_self _ _
      simp only [this, if_false]
      exact (habs _).symm
    · simp only [hp1, if_false] at hp
      by_cases hp2 : p = base
      · subst hp2
        refine ⟨setChild cur (charToDigit (c.toNat : Int)) m.brk, by simp [h3, hlt, hp1], ?_⟩
        intro j hj
        obtain ⟨n1, hn1, hch⟩ := h.node p hp
        rw [hcur] at hn1
        cases hn1
        by_cases hj2 : j = charToDigit (c.toNat : Int)
        · subst hj2
          simp [setChild, digitToChar_charToDigit c hc]
        · have : ¬ p ++ [digitToChar j] = p ++ [c] := by
            intro e
            have e2 : digitToChar j = c := by simpa using e
            apply hj2
            rw [← e2, charToDigit_digitToChar j hj]
          simp only [setChild, hj2, if_false, this]
          exact hch j hj
      · have hne : A p ≠ A base := fun e => hp2 (h.inj _ _ hp e)
        obtain ⟨n1, hn1, hch⟩ := h.node p hp
        refine ⟨n1, by simp [h3, hlt, hne, hn1, hp1], ?_⟩
        intro j hj
        have : ¬ p ++ [digitToChar j] = base ++ [c] := fun e => hp2 (snoc_inj e).1
        simp only [this, if_false]
        exact hch j hj
  · intro n hn
    have hr : root ≠ m.brk := by rw [← h.root_eq]; exact hlt []
    rw [h3] at hn
    simp only [hr, if_false] at hn
    by_cases e : root = A base
    · simp only [e, if_true, Option.some.injEq] at hn
      subst hn
      simp only [setChild]
      exact h.parent_root cur (by rw [e]; exact hcur)
    · simp only [e, if_false] at hn
      exact h.parent_root n hn
  · intro p d n hp hn
    by_cases e : p ++ [d] = base ++ [c]
    · obtain ⟨e1, e2⟩ := snoc_inj e
      subst e1 e2
      simp only [if_true, h3, Option.some.injEq] at hn
      subst hn
      simp [hbase]
    · simp only [e, if_false] at hp hn
      have hp1 : p ≠ base ++ [c] := by
        rintro rfl
        exact hp (habs [d])
      simp only [hp1, if_false]
      rw [h3] at hn
      simp only [hlt, if_false] at hn
      by_cases e2 : A (p ++ [d]) = A base
      · simp only [e2, if_true, Option.some.injEq] at hn
        subst hn
        simp only [setChild]
        exact h.parent_snoc p d cur hp (by rw [e2]; exact hcur)
      · simp only [e2, if_false] at hn
        exact h.parent_snoc p d n hp hn

theorem oracle_split (o : List Bool) : o = o.take 1 ++ o.tail := by
  cases o <;> rfl

theorem oracle_take_ok (o : List Bool) (h : o.head? ≠ some false) : false ∉ o.take 1 := by
  rcases o with _ | ⟨x, o⟩
  · simp
  · cases x
    · exact absurd rfl h
    · simp

theorem oracle_take_fail (o : List Bool) (h : o.head? = some false) : false ∈ o.take 1 := by
  rcases o with _ | ⟨x, o⟩
  · cases h
  · cases x
    · simp
    · cases h

/-- A change of the oracle alone keeps the trie. -/
theorem TrieExt.reflOracle (m : Mem) (A : List Char → Nat) (s : List Char) (o : List Bool) :
    TrieExt m A { m with oracle := o } A s where
  keep := fun _ _ => rfl
  fresh := fun _ h0 h1 => absurd h0 h1
  fields := fun _ n _ hn => ⟨n, hn, rfl, rfl⟩
  other := fun _ _ _ => rfl
  list_eq := rfl
  brk_le := le_refl _
  alloc := fun x _ h1 h2 => absurd (show x < m.brk from h2) (by omega)

theorem TrieExt.mono {m m1 : Mem} {A A1 : List Char → Nat} {s s1 : List Char}
    (h : TrieExt m A m1 A1 s) (hs : s <+: s1) : TrieExt m A m1 A1 s1 where
  keep := h.keep
  fresh := fun q h0 hq => by
    obtain ⟨a, b, c, d⟩ := h.fresh q h0 hq
    exact ⟨a, b, c.trans hs, d⟩
  fields := h.fields
  other := h.other
  list_eq := h.list_eq
  brk_le := h.brk_le
  alloc := h.alloc

theorem trieNew_ok (m : Mem) (h : m.oracle.head? ≠ some false) (hb : m.brk ≠ 0) :
    trieNew m =
      (m.brk, ({ m with brk := m.brk + 1, oracle := m.oracle.tail } : Mem).setTrie m.brk
        ⟨0, 0, fun _ => 0, 0⟩) := by
  simp [trieNew, malloc_ok m h, hb]

theorem trieNew_fail (m : Mem) (h : m.oracle.head? = some false) :
    trieNew m = (0, { m with oracle := m.oracle.tail }) := by
  simp [trieNew, malloc_fail m h]

theorem trieAddGrow_cons (m : Mem) (current : Nat) (c : Char) (rest : List Char)
    (h : m.oracle.head? ≠ some false) (hb : m.brk ≠ 0) (hlt : current < m.brk) (cur : TrieNode)
    (hcur : m.trie current = some cur) (hc : charToDigit (c.toNat : Int) < 12) :
    trieAddGrow m current (c :: rest) =
      trieAddGrow
        (((({ m with brk := m.brk + 1, oracle := m.oracle.tail } : Mem).setTrie m.brk
          ⟨0, 0, fun _ => 0, 0⟩).setTrie
          current (setChild cur (charToDigit (c.toNat : Int)) m.brk)).setTrie m.brk
            ⟨0, 0, fun _ => 0, current⟩) m.brk rest := by
  have hne : current ≠ m.brk := by omega
  have hne2 : m.brk ≠ current := fun e => hne e.symm
  rw [trieAddGrow]
  simp only [trieNew_ok m h hb, hb, if_false, setTrie_trie, hne, hcur, hc, if_true, hne2]

theorem trieAddGrow_fail (m : Mem) (current : Nat) (c : Char) (rest : List Char)
    (h : m.oracle.head? = some false) :
    trieAddGrow m current (c :: rest) =
      (deleteDeadBranch { m with oracle := m.oracle.tail } current).map
        (fun m2 => (0, m2)) := by
  rw [trieAddGrow]
  simp only [trieNew_fail m h, if_true]
  cases deleteDeadBranch { m with oracle := m.oracle.tail } current <;> rfl

/-- The second loop of `trieAdd` under any outcomes `u` of `malloc`: it adds
nodes down to a path `t`; when no allocation fails `t` is the whole number,
otherwise the call ends with `deleteDeadBranch` at the node of `t`. -/
theorem trieAddGrow_spec (root : Nat) (rest : List Char) :
    ∀ (m : Mem) (A : List Char → Nat) (base : List Char), Shape m root A →
      A base ≠ 0 → (∀ c, rest.head? = some c → A (base ++ [c]) = 0) →
      (∀ c ∈ rest, isPhNumDigit (c.toNat : Int) = true) →
      ∃ m1 A1 t u, TrieExt m A m1 A1 t ∧ Shape m1 root A1 ∧ A1 t ≠ 0 ∧ base <+: t ∧
        t <+: base ++ rest ∧ m.oracle = u ++ m1.oracle ∧
        ((false ∉ u ∧ t = base ++ rest ∧ trieAddGrow m (A base) rest = some (A1 t, m1)) ∨
          (false ∈ u ∧ trieAddGrow m (A base) rest =
            (deleteDeadBranch m1 (A1 t)).map (fun m2 => (0, m2)))) := by
  induction rest with
  | nil =>
    intro m A base hS hb _ _
    refine ⟨m, A, base, [], TrieExt.reflExt m A _, hS, hb, List.prefix_refl _, by simp, rfl,
      Or.inl ⟨by simp, by simp, by simp [trieAddGrow]⟩⟩
  | cons c rest ih =>
    intro m A base hS hb hnew hd
    by_cases hfail : m.oracle.head? = some false
    · refine ⟨{ m with oracle := m.oracle.tail }, A, base, m.oracle.take 1,
        TrieExt.reflOracle m A _ _, hS.frame (le_refl _) (fun _ _ => rfl), hb,
        List.prefix_refl _, List.prefix_append _ _, oracle_split _,
        Or.inr ⟨oracle_take_fail _ hfail, trieAddGrow_fail m _ c rest hfail⟩⟩
    have hc := hd c (List.mem_cons_self _ _)
    have hnew1 := hnew c rfl
    have hbrk0 : m.brk ≠ 0 := by
      have := hS.lt_brk []
      omega
    have hlt : ∀ p, A p ≠ m.brk := fun p => by
      have := hS.lt_brk p
      omega
    obtain ⟨cur, hcur, _⟩ := hS.node base hb
    rw [trieAddGrow_cons m (A base) c rest hfail hbrk0 (hS.lt_brk base) cur hcur
      (charToDigit_lt c hc)]
    generalize hm3 : ((({ m with brk := m.brk + 1, oracle := m.oracle.tail } : Mem).setTrie m.brk
      ⟨0, 0, fun _ => 0, 0⟩).setTrie (A base)
        (setChild cur (charToDigit (c.toNat : Int)) m.brk)).setTrie m.brk
          ⟨0, 0, fun _ => 0, A base⟩ = m3
    have h3 : ∀ x, m3.trie x =
        if x = m.brk then some ⟨0, 0, fun _ => 0, A base⟩
        else if x = A base then some (setChild cur (charToDigit (c.toNat : Int)) m.brk)
        else m.trie x := by
      intro x
      subst hm3
      simp only [setTrie_trie]
      split_ifs <;> rfl
    have hbrk3 : m3.brk = m.brk + 1 := by subst hm3; rfl
    have hor3 : m3.oracle = m.oracle.tail := by subst hm3; rfl
    have hl3 : m3.list = m.list := by subst hm3; rfl
    have hS3 := shape_grow hS base c hb hc hnew1 cur hcur h3 hbrk3
    have habs : ∀ t, A (base ++ [c] ++ t) = 0 := by
      intro t
      by_contra hne
      exact hS.pre _ _ hne hnew1
    obtain ⟨m1, A2, t, u, e4, e3, e2, hpre, hsuf, hu, hres⟩ := ih m3 _ (base ++ [c]) hS3
      (by simp [hbrk0])
      (by
        intro d _
        have : base ++ [c] ++ [d] ≠ base ++ [c] := snoc_ne_self _ _
        simp only [this, if_false]
        exact habs [d])
      (fun d hd' => hd d (List.mem_cons_of_mem _ hd'))
    have eapp : base ++ [c] ++ rest = base ++ c :: rest := by simp
    rw [eapp] at hsuf hres
    simp only [if_true] at hres
    have hstep : TrieExt m A m3 (fun q => if q = base ++ [c] then m.brk else A q)
        (base ++ [c]) := by
      refine ⟨?_, ?_, ?_, ?_, hl3, by omega, ?_⟩
      · intro q hq
        have : q ≠ base ++ [c] := by
          rintro rfl
          exact hq hnew1
        simp [this]
      · intro q hq0 hq
        by_cases e : q = base ++ [c]
        · subst e
          simp only [if_true]
          exact ⟨le_refl _, by omega, List.prefix_refl _, ⟨0, 0, fun _ => 0, A base⟩,
            by simp [h3], rfl, rfl⟩
        · simp only [e, if_false] at hq
          exact absurd hq0 hq
      · intro x n hx hn
        have hx1 : x ≠ m.brk := by omega
        by_cases e : x = A base
        · subst e
          rw [hcur] at hn
          cases hn
          exact ⟨setChild cur (charToDigit (c.toNat : Int)) m.brk, by simp [h3, hx1], rfl, rfl⟩
        · exact ⟨n, by simp [h3, hx1, e, hn], rfl, rfl⟩
      · intro x hx hq
        have hx1 : x ≠ m.brk := by omega
        have e : x ≠ A base := fun e => hq base e.symm
        simp [h3, hx1, e]
      · intro x _ hx1 hx2
        exact ⟨base ++ [c], by simp; omega⟩
    refine ⟨m1, A2, t, m.oracle.take 1 ++ u, TrieExt.trans (hstep.mono hpre) e4, e3, e2,
      (List.prefix_append _ _).trans hpre, hsuf, ?_, ?_⟩
    · rw [List.append_assoc, ← hu, hor3]
      exact oracle_split _
    · rcases hres with ⟨a, b, c3⟩ | ⟨a, b⟩
      · refine Or.inl ⟨?_, b, c3⟩
        simp only [List.mem_append, not_or]
        exact ⟨oracle_take_ok _ hfail, a⟩
      · exact Or.inr ⟨List.mem_append_right _ a, b⟩

/-! ### The function `deleteDeadBranch` -/

theorem hasChild_iff (n : TrieNode) : hasChild n = true ↔ ∃ j, j < 12 ∧ n.children j ≠ 0 := by
  simp [hasChild, List.any_eq_true]

theorem unlink_fold (par : TrieNode) (current d : Nat)
    (h : ∀ j, j < 12 → (par.children j = current ↔ j = d)) (n : Nat) (hn : n ≤ 12) :
    ((List.range n).foldl (unlinkStep current) (par, true)).1 =
        (if d < n then setChild par d 0 else par) ∧
      (((List.range n).foldl (unlinkStep current) (par, true)).2 = true ↔
        ∀ j, j < n → j ≠ d → par.children j = 0) := by
  induction n with
  | zero => simp
  | succ n ih =>
    obtain ⟨ih1, ih2⟩ := ih (by omega)
    rw [List.range_succ, List.foldl_append]
    simp only [List.foldl_cons, List.foldl_nil]
    generalize (List.range n).foldl (unlinkStep current) (par, true) = st at ih1 ih2
    have hread : n ≠ d → st.1.children n = par.children n := by
      intro hnd
      rw [ih1]
      split
      · simp [setChild, hnd]
      · rfl
    by_cases hnd : n = d
    · subst hnd
      have h1 : st.1 = par := by simpa using ih1
      have h2 : st.1.children n = current := by rw [h1]; exact (h n (by omega)).mpr rfl
      have hstep : unlinkStep current st n = (setChild st.1 n 0, st.2) := by
        rw [unlinkStep, if_pos h2]
      rw [hstep]
      refine ⟨by simp [h1], ?_⟩
      show st.2 = true ↔ _
      rw [ih2]
      constructor
      · intro hh j hj hjd
        exact hh j (by omega) hjd
      · intro hh j hj hjd
        exact hh j (by omega) hjd
    · have h2 : ¬ st.1.children n = current := by
        rw [hread hnd]
        exact fun e => hnd ((h n (by omega)).mp e)
      have hlt : d < n + 1 ↔ d < n := by omega
      by_cases h3 : st.1.children n = 0
      · have hstep : unlinkStep current st n = st := by
          rw [unlinkStep, if_neg h2, if_neg (not_not.mpr h3)]
        rw [hstep]
        refine ⟨by simp only [hlt]; exact ih1, ?_⟩
        rw [ih2]
        constructor
        · intro hh j hj hjd
          by_cases e : j = n
          · subst e
            rw [← hread hnd]
            exact h3
          · exact hh j (by omega) hjd
        · intro hh j hj hjd
          exact hh j (by omega) hjd
      · have hstep : unlinkStep current st n = (st.1, false) := by
          rw [unlinkStep, if_neg h2, if_pos h3]
        rw [hstep]
        refine ⟨by simp only [hlt]; exact ih1, ?_⟩
        simp only [Bool.false_eq_true, false_iff, not_forall]
        exact ⟨n, by omega, hnd, by rw [← hread hnd]; exact h3⟩

theorem pruned_eq_self (A : List Char → Nat) (keys : List (List Char))
    (h : ∀ q, q ≠ [] → A q ≠ 0 → ∃ k ∈ keys, q <+: k) : pruned A keys = A := by
  funext q
  unfold pruned
  split_ifs with h1
  · rfl
  · by_contra h2
    exact h1 (Or.inr (h q (fun e => h1 (Or.inl e)) (fun e => h2 e.symm)))

theorem TriePrune.reflPrune (m : Mem) (A : List Char → Nat) (hA : ∀ q, A q ≠ 0 → ∃ n, m.trie (A q) = some n) :
    TriePrune m A m A where
  other := fun _ _ => rfl
  fields := fun q hq => by
    obtain ⟨n, hn⟩ := hA q hq
    exact ⟨n, n, hn, hn, rfl, rfl⟩
  freed := fun _ h0 h1 => absurd h1 h0
  list_eq := rfl
  brk_eq := rfl
  oracle_eq := rfl

/-- Removal of a leaf from a trie. -/
theorem shape_cut {m m1 : Mem} {root : Nat} {A : List Char → Nat} (h : Shape m root A)
    (q0 : List Char) (c : Char) (hp : A (q0 ++ [c]) ≠ 0)
    (hleaf : ∀ j, j < 12 → A (q0 ++ [c] ++ [digitToChar j]) = 0) (par : TrieNode)
    (hpar : m.trie (A q0) = some par)
    (h1 : ∀ x, m1.trie x =
      if x = A (q0 ++ [c]) then none
      else if x = A q0 then some (setChild par (charToDigit (c.toNat : Int)) 0)
      else m.trie x)
    (hbrk : m1.brk = m.brk) :
    Shape m1 root (fun q => if q = q0 ++ [c] then 0 else A q) := by
  obtain ⟨hq0, hc⟩ := h.closed q0 c hp
  have hne0 : q0 ≠ q0 ++ [c] := fun e => snoc_ne_self q0 c e.symm
  have hA0 : A q0 ≠ A (q0 ++ [c]) := fun e => hne0 (h.inj _ _ hq0 e)
  have hleaf2 : ∀ d, A (q0 ++ [c] ++ [d]) = 0 := by
    intro d
    by_contra hne
    have hd := (h.closed _ d hne).2
    have := hleaf _ (charToDigit_lt d hd)
    rw [digitToChar_charToDigit d hd] at this
    exact hne this
  refine ⟨?_, h.root_ne, ?_, ?_, ?_, ?_, ?_, ?_⟩
  · have : ([] : List Char) ≠ q0 ++ [c] := by simp
    simp only [this, if_false]
    exact h.root_eq
  · intro p q hp1 e
    by_cases e1 : p = q0 ++ [c]
    · simp [e1] at hp1
    · simp only [e1, if_false] at hp1 e
      by_cases e2 : q = q0 ++ [c]
      · simp only [e2, if_true] at e
        exact absurd e hp1
      · simp only [e2, if_false] at e
        exact h.inj p q hp1 e
  · intro p
    rw [hbrk]
    split
    · have := h.lt_brk []
      omega
    · exact h.lt_brk p
  · intro p d hpd
    by_cases e1 : p ++ [d] = q0 ++ [c]
    · simp [e1] at hpd
    · simp only [e1, if_false] at hpd
      have e2 : p ≠ q0 ++ [c] := by
        rintro rfl
        exact hpd (hleaf2 d)
      simp only [e2, if_false]
      exact h.closed p d hpd
  · intro p hp1
    by_cases e1 : p = q0 ++ [c]
    · simp [e1] at hp1
    · simp only [e1, if_false] at hp1
      have hx : A p ≠ A (q0 ++ [c]) := fun e => e1 (h.inj _ _ hp1 e)
      obtain ⟨n, hn, hch⟩ := h.node p hp1
      by_cases e2 : p = q0
      · subst e2
        rw [hpar] at hn
        cases hn
        refine ⟨setChild par (charToDigit (c.toNat : Int)) 0, by simp [h1, hx], ?_⟩
        intro j hj
        by_cases hj2 : j = charToDigit (c.toNat : Int)
        · subst hj2
          simp [setChild, digitToChar_charToDigit c hc]
        · have : ¬ p ++ [digitToChar j] = p ++ [c] := by
            intro e
            have e2 : digitToChar j = c := by simpa using e
            apply hj2
            rw [← e2, charToDigit_digitToChar j hj]
          simp only [setChild, hj2, if_false, this]
          exact hch j hj
      · have hne : A p ≠ A q0 := fun e => e2 (h.inj _ _ hp1 e)
        refine ⟨n, by simp [h1, hx, hne, hn, e1], ?_⟩
        intro j hj
        have : ¬ p ++ [digitToChar j] = q0 ++ [c] := fun e => e2 (snoc_inj e).1
        simp only [this, if_false]
        exact hch j hj
  · intro n hn
    have hr : root ≠ A (q0 ++ [c]) := by
      rw [← h.root_eq]
      intro e
      have := h.inj _ _ (by rw [h.root_eq]; exact h.root_ne) e
      simp at this
    rw [h1] at hn
    simp only [hr, if_false] at hn
    by_cases e : root = A q0
    · simp only [e, if_true, Option.some.injEq] at hn
      subst hn
      simp only [setChild]
      exact h.parent_root par (by rw [e]; exact hpar)
    · simp only [e, if_false] at hn
      exact h.parent_root n hn
  · intro p d n hpd hn
    by_cases e1 : p ++ [d] = q0 ++ [c]
    · simp [e1] at hpd
    · simp only [e1, if_false] at hpd hn
      have e2 : p ≠ q0 ++ [c] := by
        rintro rfl
        exact hpd (hleaf2 d)
      simp only [e2, if_false]
      have hx : A (p ++ [d]) ≠ A (q0 ++ [c]) := fun e => e1 (h.inj _ _ hpd e)
      rw [h1] at hn
      simp only [hx, if_false] at hn
      by_cases e3 : A (p ++ [d]) = A q0
      · simp only [e3, if_true, Option.some.injEq] at hn
        subst hn
        simp only [setChild]
        exact h.parent_snoc p d par hpd (by rw [e3]; exact hpar)
      · simp only [e3, if_false] at hn
        exact h.parent_snoc p d n hpd hn

theorem pruned_cut (A : List Char → Nat) (keys : List (List Char)) (p : List Char)
    (hp : p ≠ []) (hn : ¬ ∃ k ∈ keys, p <+: k) :
    pruned (fun q => if q = p then 0 else A q) keys = pruned A keys := by
  funext q
  unfold pruned
  by_cases e : q = p
  · subst e
    simp [hp, hn]
  · simp [e]

theorem TriePrune.trans_cut {m m1 m2 : Mem} {root : Nat} {A : List Char → Nat}
    {keys : List (List Char)} {p : List Char} (hS : Shape m root A) (hp : A p ≠ 0)
    (hp0 : p ≠ []) (hn : ¬ ∃ k ∈ keys, p <+: k)
    (hfree : m1.trie (A p) = none)
    (hother : ∀ x, (∀ q, A q ≠ 0 → A q ≠ x) → m1.trie x = m.trie x)
    (hfields : ∀ q, q ≠ p → A q ≠ 0 → ∃ n n1, m.trie (A q) = some n ∧
      m1.trie (A q) = some n1 ∧ n1.fwdNode = n.fwdNode ∧ n1.listNode = n.listNode)
    (hl : m1.list = m.list) (hb : m1.brk = m.brk) (ho : m1.oracle = m.oracle)
    (h2 : TriePrune m1 (fun q => if q = p then 0 else A q) m2
      (pruned (fun q => if q = p then 0 else A q) keys)) :
    TriePrune m A m2 (pruned A keys) := by
  rw [pruned_cut A keys p hp0 hn] at h2
  have hkeep : ∀ q, pruned A keys q ≠ 0 → q ≠ p ∧ A q ≠ 0 := by
    intro q hq
    unfold pruned at hq
    split_ifs at hq with h1
    · refine ⟨?_, hq⟩
      rintro rfl
      rcases h1 with h1 | h1
      · exact hp0 h1
      · exact hn h1
    · exact absurd rfl hq
  refine ⟨?_, ?_, ?_, by rw [h2.list_eq, hl], by rw [h2.brk_eq, hb], by rw [h2.oracle_eq, ho]⟩
  · intro x hx
    rw [h2.other x ?_, hother x hx]
    intro q hq
    by_cases e : q = p
    · simp [e] at hq
    · simp only [e, if_false] at hq ⊢
      exact hx q hq
  · intro q hq
    obtain ⟨e, hq0⟩ := hkeep q hq
    obtain ⟨n, n1, a, b, c, d⟩ := hfields q e hq0
    obtain ⟨n', n2, a2, b2, c2, d2⟩ := h2.fields q hq
    simp only [e, if_false] at a2 b2
    rw [b] at a2
    cases a2
    exact ⟨n, n2, a, b2, by rw [c2, c], by rw [d2, d]⟩
  · intro q hq0 hq
    by_cases e : q = p
    · subst e
      rw [h2.other (A q) ?_, hfree]
      intro q2 hq2 e2
      by_cases e3 : q2 = q
      · simp [e3] at hq2
      · simp only [e3, if_false] at hq2 e2
        exact e3 (hS.inj _ _ hq2 e2)
    · have := h2.freed q (by simp only [e, if_false]; exact hq0) hq
      simpa [e] using this

theorem deleteDeadBranchLoop_spec {root : Nat} (keys : List (List Char)) (p : List Char) :
    ∀ (m : Mem) (A : List Char → Nat) (fuel : Nat) (isLeaf : Bool), Shape m root A →
      Occupied m A keys → A p ≠ 0 → DeadOnly A keys p →
      (isLeaf = true ↔ ∀ j, j < 12 → A (p ++ [digitToChar j]) = 0) → p.length < fuel →
      ∃ m1, deleteDeadBranchLoop fuel m (A p) isLeaf = some m1 ∧
        Shape m1 root (pruned A keys) ∧ TriePrune m A m1 (pruned A keys) := by
  induction p using List.reverseRecOn with
  | nil =>
    intro m A fuel isLeaf hS hO hp hD hL hf
    obtain ⟨f, rfl⟩ : ∃ f, fuel = f + 1 := ⟨fuel - 1, by omega⟩
    obtain ⟨n, hn, _⟩ := hS.node [] hp
    have hpar := hS.parent_root n (by rw [← hS.root_eq]; exact hn)
    have hself : pruned A keys = A := by
      apply pruned_eq_self
      intro q hq hq0
      rcases hD q hq hq0 with h1 | h1
      · exact h1
      · exact absurd (List.prefix_nil.mp h1) hq
    rw [hself]
    refine ⟨m, by simp [deleteDeadBranchLoop, isEmpty, hp, hn, hpar], hS,
      TriePrune.reflPrune m A (fun q hq => ?_)⟩
    obtain ⟨n1, hn1, _⟩ := hS.node q hq
    exact ⟨n1, hn1⟩
  | append_singleton q0 c ih =>
    intro m A fuel isLeaf hS hO hp hD hL hf
    obtain ⟨f, rfl⟩ : ∃ f, fuel = f + 1 := ⟨fuel - 1, by omega⟩
    obtain ⟨n, hn, hch⟩ := hS.node _ hp
    have hpar := hS.parent_snoc q0 c n hp hn
    obtain ⟨hq0, hc⟩ := hS.closed q0 c hp
    obtain ⟨par, hparn, hpch⟩ := hS.node q0 hq0
    have hp0 : q0 ++ [c] ≠ [] := by simp
    have hemp := hO.1 _ n hp0 hp hn
    have hE : isEmpty m (A (q0 ++ [c])) =
        some (decide (n.fwdNode = 0) && decide (n.listNode = 0)) := by
      simp [isEmpty, hp, hn, hpar, hq0]
    by_cases hbody : isLeaf = true ∧ q0 ++ [c] ∉ keys
    · obtain ⟨hleaf, hk⟩ := hbody
      have hz := hemp.mpr hk
      have hleaf2 := hL.mp hleaf
      have hnn : ¬ ∃ k ∈ keys, q0 ++ [c] <+: k := by
        rintro ⟨k, hk1, t, hk2⟩
        cases t with
        | nil =>
          rw [List.append_nil] at hk2
          exact hk (hk2 ▸ hk1)
        | cons d t =>
          have h1 : A (q0 ++ [c] ++ [d]) ≠ 0 := by
            apply hS.pre _ t
            have := hO.2 k hk1
            rw [← hk2] at this
            simpa using this
          have hd := (hS.closed _ d h1).2
          have := hleaf2 _ (charToDigit_lt d hd)
          rw [digitToChar_charToDigit d hd] at this
          exact h1 this
      have key : ∀ j, j < 12 →
          (par.children j = A (q0 ++ [c]) ↔ j = charToDigit (c.toNat : Int)) := by
        intro j hj
        rw [hpch j hj]
        constructor
        · intro e
          have e2 := hS.inj _ _ (by rw [e]; exact hp) e
          have e3 : digitToChar j = c := by simpa using e2
          rw [← e3, charToDigit_digitToChar j hj]
        · rintro rfl
          rw [digitToChar_charToDigit c hc]
      obtain ⟨hf1, hf2⟩ := unlink_fold par (A (q0 ++ [c])) _ key 12 (le_refl _)
      rw [if_pos (charToDigit_lt c hc)] at hf1
      generalize hm1 : ((m.setTrie (A q0) ((List.range 12).foldl
        (unlinkStep (A (q0 ++ [c]))) (par, true)).1).freeTrie (A (q0 ++ [c]))) = m1
      have h1 : ∀ x, m1.trie x =
          if x = A (q0 ++ [c]) then none
          else if x = A q0 then some (setChild par (charToDigit (c.toNat : Int)) 0)
          else m.trie x := by
        intro x
        subst hm1
        simp only [freeTrie_trie, setTrie_trie, hf1]
      have hb1 : m1.brk = m.brk := by subst hm1; rfl
      have hl1 : m1.list = m.list := by subst hm1; rfl
      have ho1 : m1.oracle = m.oracle := by subst hm1; rfl
      have hne0 : q0 ≠ q0 ++ [c] := fun e => snoc_ne_self q0 c e.symm
      have hA0 : A q0 ≠ A (q0 ++ [c]) := fun e => hne0 (hS.inj _ _ hq0 e)
      have hS1 := shape_cut hS q0 c hp hleaf2 par hparn h1 hb1
      have hO1 : Occupied m1 (fun q => if q = q0 ++ [c] then 0 else A q) keys := by
        constructor
        · intro q nq hq hq1 hnq
          by_cases e : q = q0 ++ [c]
          · simp [e] at hq1
          · simp only [e, if_false] at hq1 hnq
            have hx : A q ≠ A (q0 ++ [c]) := fun e2 => e (hS.inj _ _ hq1 e2)
            rw [h1] at hnq
            simp only [hx, if_false] at hnq
            by_cases e2 : A q = A q0
            · simp only [e2, if_true, Option.some.injEq] at hnq
              subst hnq
              have := hO.1 q par hq hq1 (by rw [e2]; exact hparn)
              simpa [setChild] using this
            · simp only [e2, if_false] at hnq
              exact hO.1 q nq hq hq1 hnq
        · intro k hk1
          have : k ≠ q0 ++ [c] := by
            rintro rfl
            exact hk hk1
          simp only [this, if_false]
          exact hO.2 k hk1
      have hD1 : DeadOnly (fun q => if q = q0 ++ [c] then 0 else A q) keys q0 := by
        intro q hq hq1
        by_cases e : q = q0 ++ [c]
        · simp [e] at hq1
        · simp only [e, if_false] at hq1
          rcases hD q hq hq1 with h2 | h2
          · exact Or.inl h2
          · right
            rcases List.prefix_concat_iff.mp h2 with h3 | h3
            · exact absurd (by simpa using h3) e
            · exact h3
      have hL1 : ((List.range 12).foldl (unlinkStep (A (q0 ++ [c]))) (par, true)).2 = true ↔
          ∀ j, j < 12 → (fun q => if q = q0 ++ [c] then 0 else A q) (q0 ++ [digitToChar j]) = 0 := by
        rw [hf2]
        constructor
        · intro hh j hj
          by_cases e : j = charToDigit (c.toNat : Int)
          · subst e
            simp [digitToChar_charToDigit c hc]
          · have := hh j hj e
            rw [hpch j hj] at this
            simp only [this, ite_self]
        · intro hh j hj e
          have := hh j hj
          have e2 : ¬ q0 ++ [digitToChar j] = q0 ++ [c] := by
            intro e3
            have e4 : digitToChar j = c := by simpa using e3
            apply e
            rw [← e4, charToDigit_digitToChar j hj]
          simp only [e2, if_false] at this
          rw [hpch j hj]
          exact this
      simp only [List.length_append, List.length_singleton] at hf
      obtain ⟨m2, e1, e2, e3⟩ := ih m1 _ f _ hS1 hO1 (by simp only [hne0, if_false]; exact hq0)
        hD1 hL1 (by omega)
      simp only [hne0, if_false] at e1
      refine ⟨m2, ?_, ?_, ?_⟩
      · rw [deleteDeadBranchLoop, hE]
        simp only [hz.1, hz.2, decide_True, Bool.and_self, hleaf, if_true, hn, hpar, hparn]
        rw [hm1]
        exact e1
      · rw [← pruned_cut A keys _ hp0 hnn]
        exact e2
      · refine TriePrune.trans_cut hS hp hp0 hnn (by simp [h1]) ?_ ?_ hl1 hb1 ho1 e3
        · intro x hx
          have a1 : x ≠ A (q0 ++ [c]) := fun e => hx _ hp e.symm
          have a2 : x ≠ A q0 := fun e => hx _ hq0 e.symm
          simp [h1, a1, a2]
        · intro q hq hq1
          have hx : A q ≠ A (q0 ++ [c]) := fun e2 => hq (hS.inj _ _ hq1 e2)
          obtain ⟨nq, hnq, _⟩ := hS.node q hq1
          by_cases e2 : A q = A q0
          · rw [e2] at hnq
            rw [hparn] at hnq
            cases hnq
            exact ⟨par, setChild par (charToDigit (c.toNat : Int)) 0, by rw [e2]; exact hparn,
              by rw [h1]; simp [hx, e2, hA0], rfl, rfl⟩
          · exact ⟨nq, nq, hnq, by rw [h1]; simp [hx, e2, hnq], rfl, rfl⟩
    · have hneeded : ∃ k ∈ keys, q0 ++ [c] <+: k := by
        by_cases hk : q0 ++ [c] ∈ keys
        · exact ⟨_, hk, List.prefix_refl _⟩
        · have hnl : ¬ isLeaf = true := fun h => hbody ⟨h, hk⟩
          rw [hL] at hnl
          simp only [not_forall] at hnl
          obtain ⟨j, hj, hne⟩ := hnl
          rcases hD _ (by simp) hne with h1 | h1
          · obtain ⟨k, hk1, hk2⟩ := h1
            exact ⟨k, hk1, List.IsPrefix.trans (List.prefix_append _ _) hk2⟩
          · have := h1.length_le
            simp at this
      have hself : pruned A keys = A := by
        apply pruned_eq_self
        intro q hq hq1
        rcases hD q hq hq1 with h1 | h1
        · exact h1
        · obtain ⟨k, hk1, hk2⟩ := hneeded
          exact ⟨k, hk1, List.IsPrefix.trans h1 hk2⟩
      rw [hself]
      refine ⟨m, ?_, hS, TriePrune.reflPrune m A (fun q hq => ?_)⟩
      · rw [deleteDeadBranchLoop, hE]
        have : (decide (n.fwdNode = 0) && decide (n.listNode = 0) && isLeaf) = false := by
          by_contra hne
          simp only [Bool.not_eq_false, Bool.and_eq_true, decide_eq_true_eq] at hne
          exact hbody ⟨hne.2, hemp.mp hne.1⟩
        simp [this]
      · obtain ⟨n1, hn1, _⟩ := hS.node q hq
        exact ⟨n1, hn1⟩

theorem deleteDeadBranch_spec {m : Mem} {root : Nat} {A : List Char → Nat}
    (hS : Shape m root A) (keys : List (List Char)) (hO : Occupied m A keys) (p : List Char)
    (hp : A p ≠ 0) (hD : DeadOnly A keys p) :
    ∃ m1, deleteDeadBranch m (A p) = some m1 ∧ Shape m1 root (pruned A keys) ∧
      TriePrune m A m1 (pruned A keys) := by
  obtain ⟨n, hn, hch⟩ := hS.node p hp
  have hd := hS.depth p hp
  have hL : (!hasChild n) = true ↔ ∀ j, j < 12 → A (p ++ [digitToChar j]) = 0 := by
    rw [Bool.not_eq_true', ← Bool.not_eq_true, hasChild_iff]
    constructor
    · intro h j hj
      by_contra hne
      exact h ⟨j, hj, by rw [hch j hj]; exact hne⟩
    · rintro h ⟨j, hj, hne⟩
      exact hne (by rw [hch j hj]; exact h j hj)
  obtain ⟨m1, e1, e2, e3⟩ := deleteDeadBranchLoop_spec keys p m A m.brk (!hasChild n) hS hO hp
    hD hL (by omega)
  by_cases hc : hasChild n = true
  · obtain ⟨f, hf⟩ : ∃ f, m.brk = f + 1 := ⟨m.brk - 1, by omega⟩
    rw [hf, deleteDeadBranchLoop] at e1
    simp only [hc, Bool.not_true, Bool.and_false, Bool.false_eq_true, if_false] at e1
    have : (match isEmpty m (A p) with
      | none => none
      | some _ => some m) = some m1 := by
      rw [← e1]
    have e4 : m1 = m := by
      cases hE : isEmpty m (A p) with
      | none => rw [hE] at this; cases this
      | some b => rw [hE] at this; cases this; rfl
    subst e4
    exact ⟨m1, by simp [deleteDeadBranch, hn, hc], e2, e3⟩
  · refine ⟨m1, ?_, e2, e3⟩
    simp only [Bool.not_eq_true] at hc
    simp only [hc, Bool.not_false] at e1
    simp [deleteDeadBranch, hn, hc, e1]

/-! ### The source lists -/

/-- The trie `A1`, an extension of `A` on the path `t`, pruned to the keys of
`A` is `A` again when `A` has no dead branch. -/
theorem pruned_ext {m m1 : Mem} {root : Nat} {A A1 : List Char → Nat} {t : List Char}
    (hS : Shape m root A) (E : TrieExt m A m1 A1 t) (keys : List (List Char))
    (hk : ∀ k ∈ keys, A k ≠ 0) (hdead : ∀ q, q ≠ [] → A q ≠ 0 → ∃ k ∈ keys, q <+: k) :
    pruned A1 keys = A := by
  have hr : A [] ≠ 0 := by rw [hS.root_eq]; exact hS.root_ne
  funext q
  simp only [pruned]
  split_ifs with h
  · rcases h with h | ⟨k, hk1, hqk⟩
    · subst h
      exact E.keep [] hr
    · obtain ⟨r, rfl⟩ := hqk
      exact E.keep q (hS.pre q r (hk _ hk1))
  · by_contra hne
    have hq : q ≠ [] := fun e => h (Or.inl e)
    exact h (Or.inr (hdead q hq (fun e => hne e.symm)))

theorem occupied_ext {m m1 : Mem} {root : Nat} {A A1 : List Char → Nat} {t : List Char}
    (hS : Shape m root A) (E : TrieExt m A m1 A1 t) (keys : List (List Char))
    (hO : Occupied m A keys) : Occupied m1 A1 keys := by
  constructor
  · intro q n1 hq hq1 hn1
    by_cases hq0 : A q = 0
    · obtain ⟨_, _, _, n, hn, a, b⟩ := E.fresh q hq0 hq1
      rw [hn1] at hn
      cases hn
      simp only [a, b, and_self, true_iff]
      intro hk
      exact hO.2 q hk hq0
    · obtain ⟨n, hn, _⟩ := hS.node q hq0
      obtain ⟨n2, a, b, c⟩ := E.fields _ n (hS.lt_brk q) hn
      rw [E.keep q hq0, a] at hn1
      cases hn1
      rw [b, c]
      exact hO.1 q n hq hq0 hn
  · intro k hk
    rw [E.keep k (hO.2 k hk)]
    exact hO.2 k hk

/-- The function `trieAdd` under any outcomes `u` of `malloc`: when no
allocation fails it returns the node of `s` in the extended trie, otherwise it
returns `NULL` and leaves the trie as it was. -/
theorem trieAdd_spec {m : Mem} {root : Nat} {A : List Char → Nat} (h : Shape m root A)
    (keys : List (List Char)) (hO : Occupied m A keys)
    (hdead : ∀ q, q ≠ [] → A q ≠ 0 → ∃ k ∈ keys, q <+: k) (s : List Char)
    (hs : ∀ c ∈ s, isPhNumDigit (c.toNat : Int) = true) :
    ∃ r m1 u, trieAdd m root s = some (r, m1) ∧ m.oracle = u ++ m1.oracle ∧
      ((false ∉ u ∧ ∃ A1, r = A1 s ∧ A1 s ≠ 0 ∧ Shape m1 root A1 ∧ TrieExt m A m1 A1 s) ∨
        (false ∈ u ∧ r = 0 ∧ Shape m1 root A ∧ TrieSame m A m1)) := by
  have hr : A [] ≠ 0 := by rw [h.root_eq]; exact h.root_ne
  obtain ⟨s1, s2, e, h1, h2, h3⟩ := trieAddFind_spec h s hs [] hr
  simp only [List.nil_append] at h1 h2 h3
  rw [h.root_eq] at h1
  obtain ⟨m1, A1, t, u, E, hS1, ht, hpre, hsuf, hu, hres⟩ := trieAddGrow_spec root s2 m A s1 h
    h2 h3 (fun c hc => hs c (by rw [e]; exact List.mem_append_right _ hc))
  rw [← e] at hsuf hres
  rcases hres with ⟨a, b, c⟩ | ⟨a, b⟩
  · subst b
    exact ⟨A1 t, m1, u, by simp [trieAdd, h1, c], hu, Or.inl ⟨a, A1, rfl, ht, hS1, E⟩⟩
  · have hD : DeadOnly A1 keys t := by
      intro q hq hq1
      by_cases hq0 : A q = 0
      · exact Or.inr (E.fresh q hq0 hq1).2.2.1
      · exact Or.inl (hdead q hq hq0)
    obtain ⟨m2, d1, d2, d3⟩ := deleteDeadBranch_spec hS1 keys (occupied_ext h E keys hO) t ht hD
    rw [pruned_ext h E keys hO.2 hdead] at d2 d3
    rw [d1] at b
    have hb0 : m.brk ≠ 0 := by
      have := h.lt_brk []
      omega
    refine ⟨0, m2, u, by simp [trieAdd, h1, b], by rw [d3.oracle_eq]; exact hu,
      Or.inr ⟨a, rfl, d2, ?_, ?_, ?_, by rw [d3.list_eq, E.list_eq],
        by rw [d3.brk_eq]; exact E.brk_le⟩⟩
    · intro q hq
      obtain ⟨n, n1, x1, x2, x3, x4⟩ := d3.fields q hq
      obtain ⟨n0, hn0, _⟩ := h.node q hq
      obtain ⟨n', y1, y2, y3⟩ := E.fields _ n0 (h.lt_brk q) hn0
      rw [E.keep q hq] at x1 x2
      rw [y1] at x1
      cases x1
      exact ⟨n0, n1, hn0, x2, by rw [x3, y2], by rw [x4, y3]⟩
    · intro x hx hq
      rw [d3.other x ?_, E.other x hx hq]
      intro q hq1 e1
      by_cases hq0 : A q = 0
      · have := (E.fresh q hq0 hq1).1
        omega
      · exact hq q (by rw [← E.keep q hq0, e1])
    · intro x hx1 hx2
      rw [d3.brk_eq] at hx2
      obtain ⟨q, hq⟩ := E.alloc x (by omega) hx1 hx2
      have hq0 : A q = 0 := by
        by_contra hne
        have := h.lt_brk q
        rw [← E.keep q hne, hq] at this
        omega
      rw [← hq]
      exact d3.freed q (by rw [hq]; omega) hq0

theorem Chain.frameChain {m m1 : Mem} {fA fA1 : List Char → Nat} :
    ∀ (l : List Entry) (prev head : Nat), Chain m fA prev l head →
      (∀ e ∈ l, m1.list e.cell = m.list e.cell) → (∀ e ∈ l, fA1 e.src = fA e.src) →
      Chain m1 fA1 prev l head := by
  intro l
  induction l with
  | nil => intro prev head h _ _; exact h
  | cons e rest ih =>
    intro prev head h h1 h2
    obtain ⟨a, b, nx, c, d⟩ := h
    refine ⟨a, b, nx, ?_, ih _ _ d (fun x hx => h1 x (List.mem_cons_of_mem _ hx))
      (fun x hx => h2 x (List.mem_cons_of_mem _ hx))⟩
    rw [h1 e (List.mem_cons_self _ _), h2 e (List.mem_cons_self _ _)]
    exact c

theorem Chain.head_zero {m : Mem} {fA : List Char → Nat} {l : List Entry} {prev head : Nat}
    (h : Chain m fA prev l head) : head = 0 ↔ l = [] := by
  cases l with
  | nil => simpa [Chain] using h
  | cons e rest =>
    obtain ⟨a, b, _⟩ := h
    simp [a, b]

theorem Chain.cell_exists {m : Mem} {fA : List Char → Nat} :
    ∀ (l : List Entry) (prev head : Nat), Chain m fA prev l head →
      ∀ e ∈ l, e.cell ≠ 0 ∧ ∃ n, m.list e.cell = some n ∧ n.key = fA e.src := by
  intro l
  induction l with
  | nil => intro _ _ _ e he; cases he
  | cons e rest ih =>
    intro prev head h x hx
    obtain ⟨a, b, nx, c, d⟩ := h
    rcases List.mem_cons.mp hx with rfl | hx
    · exact ⟨b, _, c, rfl⟩
    · exact ih _ _ d x hx

theorem Chain.set_prev {m m1 : Mem} {fA : List Char → Nat} {e : Entry} {rest : List Entry}
    {prev head pv : Nat} (h : Chain m fA prev (e :: rest) head)
    (_hnd : ((e :: rest).map Entry.cell).Nodup)
    (h1 : ∀ x ∈ rest, m1.list x.cell = m.list x.cell)
    (h2 : ∀ n, m.list e.cell = some n → m1.list e.cell = some { n with prev := pv }) :
    Chain m1 fA pv (e :: rest) head := by
  obtain ⟨a, b, nx, c, d⟩ := h
  exact ⟨a, b, nx, by rw [h2 _ c], Chain.frameChain rest _ _ d h1 (fun _ _ => rfl)⟩

theorem listAdd_spec (m : Mem) (hor : m.oracle.head? ≠ some false) (hb : m.brk ≠ 0) (fA : List Char → Nat)
    (l : List Entry) (head : Nat) (hC : Chain m fA 0 l head)
    (hnd : (l.map Entry.cell).Nodup) (hlt : ∀ e ∈ l, e.cell < m.brk) (src dst : List Char) :
    ∃ m1, listAdd m head (fA src) = some (true, m.brk, m1) ∧
      Chain m1 fA 0 (⟨src, dst, m.brk⟩ :: l) m.brk ∧ m1.trie = m.trie ∧
      m1.brk = m.brk + 1 ∧ m1.oracle = m.oracle.tail ∧
      (∀ x, x ≠ m.brk → x ≠ head → m1.list x = m.list x) := by
  cases l with
  | nil =>
    have h0 : head = 0 := hC
    subst h0
    refine ⟨({ m with brk := m.brk + 1, oracle := m.oracle.tail } : Mem).setList m.brk ⟨fA src, 0, 0⟩, ?_, ?_, rfl, rfl,
      rfl, ?_⟩
    · simp [listAdd, malloc_ok m hor, hb]
    · exact ⟨rfl, hb, 0, by simp, rfl⟩
    · intro x hx _
      simp [hx]
  | cons e rest =>
    have hC2 := hC
    obtain ⟨a, b, nx, c, d⟩ := hC
    have hlt1 := hlt e (List.mem_cons_self _ _)
    have hne : e.cell ≠ m.brk := by omega
    have hh : head ≠ 0 := by rw [a]; exact b
    refine ⟨(({ m with brk := m.brk + 1, oracle := m.oracle.tail } : Mem).setList m.brk ⟨fA src, head, 0⟩).setList head
      ⟨fA e.src, nx, m.brk⟩, ?_, ?_, rfl, rfl, rfl, ?_⟩
    · simp [listAdd, malloc_ok m hor, hb, a, hne, c, b]
    · refine ⟨rfl, hb, head, ?_, ?_⟩
      · have : m.brk ≠ head := by rw [a]; exact fun e2 => hne e2.symm
        simp [this]
      · apply Chain.set_prev hC2 hnd
        · intro x hx
          have hx1 : x.cell ≠ m.brk := by
            have := hlt x (List.mem_cons_of_mem _ hx)
            omega
          have hx2 : x.cell ≠ e.cell := by
            simp only [List.map_cons, List.nodup_cons, List.mem_map, not_exists, not_and] at hnd
            exact fun e2 => hnd.1 x hx e2
          simp [a, hx1, hx2]
        · intro n hn
          rw [c] at hn
          cases hn
          simp [a]
    · intro x hx hx2
      simp [hx, hx2]

theorem listAdd_fail (m : Mem) (hor : m.oracle.head? = some false) (list node : Nat) :
    listAdd m list node = some (false, list, { m with oracle := m.oracle.tail }) := by
  simp [listAdd, malloc_fail m hor]

theorem listRemove_spec (m : Mem) (a k nx pv : Nat) (h : m.list a = some ⟨k, nx, pv⟩)
    (hnx : nx ≠ 0 → ∃ n, m.list nx = some n) (hpv : pv ≠ 0 → ∃ n, m.list pv = some n)
    (h1 : nx ≠ a) (h2 : pv ≠ a) (h3 : nx ≠ 0 → nx ≠ pv) :
    ∃ m1, listRemove m a = some m1 ∧ m1.trie = m.trie ∧ m1.brk = m.brk ∧
      m1.oracle = m.oracle ∧ Unlinked m m1 a nx pv := by
  by_cases e1 : nx = 0
  · by_cases e2 : pv = 0
    · refine ⟨m.freeList a, by simp [listRemove, h, e1, e2], rfl, rfl, rfl, ?_⟩
      intro x
      simp [e1, e2]
    · obtain ⟨n2, hn2⟩ := hpv e2
      refine ⟨(m.setList pv { n2 with next := nx }).freeList a,
        by simp [listRemove, h, e1, e2, hn2], rfl, rfl, rfl, ?_⟩
      intro x
      by_cases ex : x = a
      · simp [ex]
      · by_cases ex2 : x = pv
        · subst ex2
          simp [ex, e1, e2, hn2]
        · simp [ex, ex2, e1]
  · obtain ⟨n1, hn1⟩ := hnx e1
    have h3' := h3 e1
    by_cases e2 : pv = 0
    · refine ⟨(m.setList nx { n1 with prev := pv }).freeList a,
        by simp [listRemove, h, e1, e2, hn1], rfl, rfl, rfl, ?_⟩
      intro x
      by_cases ex : x = a
      · simp [ex]
      · by_cases ex2 : x = nx
        · subst ex2
          simp [ex, e1, hn1]
        · simp [ex, ex2, e2]
    · obtain ⟨n2, hn2⟩ := hpv e2
      have h4 : pv ≠ nx := fun e => h3' e.symm
      refine ⟨((m.setList nx { n1 with prev := pv }).setList pv { n2 with next := nx }).freeList a,
        by simp [listRemove, h, e1, e2, hn1, hn2, h4], rfl, rfl, rfl, ?_⟩
      intro x
      by_cases ex : x = a
      · simp [ex]
      · by_cases ex2 : x = nx
        · subst ex2
          simp [ex, e1, hn1, h3']
        · by_cases ex3 : x = pv
          · subst ex3
            simp [ex, ex2, e2, hn2]
          · simp [ex, ex2, ex3]

theorem Chain.remove {m : Mem} {fA : List Char → Nat} (e : Entry) (l2 : List Entry) :
    ∀ (l1 : List Entry) (prev head : Nat), Chain m fA prev (l1 ++ e :: l2) head →
      ((l1 ++ e :: l2).map Entry.cell).Nodup → (∀ x ∈ l1 ++ e :: l2, x.cell ≠ prev) →
      ∃ pv nx, m.list e.cell = some ⟨fA e.src, nx, pv⟩ ∧ (nx = 0 ∨ ∃ x ∈ l2, x.cell = nx) ∧
        ((l1 = [] ∧ pv = prev) ∨ ∃ x ∈ l1, x.cell = pv) ∧ (head = e.cell ↔ l1 = []) ∧
        ∀ m1, Unlinked m m1 e.cell nx pv →
          Chain m1 fA prev (l1 ++ l2) (if l1 = [] then nx else head) := by
  intro l1
  induction l1 with
  | nil =>
    intro prev head hC hnd hprev
    simp only [List.nil_append] at hC hnd hprev
    obtain ⟨a, b, nx, c, d⟩ := hC
    simp only [List.map_cons, List.nodup_cons, List.mem_map, not_exists, not_and] at hnd
    refine ⟨prev, nx, c, ?_, Or.inl ⟨rfl, rfl⟩, by simp [a], ?_⟩
    · cases l2 with
      | nil => exact Or.inl d
      | cons e2 l2 => exact Or.inr ⟨e2, List.mem_cons_self _ _, d.1.symm⟩
    · intro m1 hU
      simp only [List.nil_append, if_true]
      cases l2 with
      | nil => exact d
      | cons e2 l2 =>
        obtain ⟨a2, b2, nx2, c2, d2⟩ := d
        have hne : e2.cell ≠ e.cell := hnd.1 e2 (List.mem_cons_self _ _)
        refine ⟨a2, b2, nx2, ?_, ?_⟩
        · rw [hU]
          simp [hne, a2, b2, c2]
        · apply Chain.frameChain l2 _ _ d2 _ (fun _ _ => rfl)
          intro x hx
          have hx1 : x.cell ≠ e.cell := hnd.1 x (List.mem_cons_of_mem _ hx)
          have hx2 : x.cell ≠ nx := by
            rw [a2]
            have := hnd.2
            simp only [List.map_cons, List.nodup_cons, List.mem_map, not_exists, not_and] at this
            exact this.1 x hx
          have hx3 : x.cell ≠ prev :=
            hprev x (List.mem_cons_of_mem _ (List.mem_cons_of_mem _ hx))
          rw [hU]
          simp [hx1, hx2, hx3]
  | cons e1 l1 ih =>
    intro prev head hC hnd hprev
    obtain ⟨a, b, nx1, c, d⟩ := hC
    simp only [List.cons_append, List.map_cons, List.nodup_cons, List.mem_map, not_exists,
      not_and] at hnd
    obtain ⟨pv, nx, h1, h2, h3, h4, h5⟩ := ih e1.cell nx1 d hnd.2 (fun x hx => hnd.1 x hx)
    have hee : e1.cell ≠ e.cell := fun e2 => hnd.1 e (by simp) e2.symm
    refine ⟨pv, nx, h1, h2, ?_, ?_, ?_⟩
    · right
      rcases h3 with ⟨h3, h3'⟩ | ⟨x, hx, hx2⟩
      · exact ⟨e1, List.mem_cons_self _ _, h3'.symm⟩
      · exact ⟨x, List.mem_cons_of_mem _ hx, hx2⟩
    · simp [a, hee]
    · intro m1 hU
      have hC1 := h5 m1 hU
      simp only [List.cons_append, reduceCtorEq, if_false]
      refine ⟨a, b, _, ?_, hC1⟩
      have hnx : ¬ (e1.cell = nx ∧ nx ≠ 0) := by
        rintro ⟨e2, _⟩
        rcases h2 with h2 | ⟨x, hx, hx2⟩
        · exact b (e2.trans h2)
        · exact hnd.1 x (by simp [hx]) (hx2.trans e2.symm)
      rw [hU]
      by_cases hl : l1 = []
      · subst hl
        rcases h3 with ⟨_, h3'⟩ | ⟨x, hx, _⟩
        · simp [hee, hnx, h3', b, c]
        · cases hx
      · have hpv : ¬ (e1.cell = pv ∧ pv ≠ 0) := by
          rintro ⟨e2, _⟩
          rcases h3 with ⟨h3, _⟩ | ⟨x, hx, hx2⟩
          · exact hl h3
          · exact hnd.1 x (by simp [hx]) (hx2.trans e2.symm)
        simp [hee, hnx, hpv, hl, c]

/-! ### The function `deleteFwdData` -/

theorem Shape.frame2 {m m1 : Mem} {root : Nat} {A : List Char → Nat} (h : Shape m root A)
    (hb : m.brk ≤ m1.brk)
    (hf : ∀ p, A p ≠ 0 → ∀ n, m.trie (A p) = some n →
      ∃ n1, m1.trie (A p) = some n1 ∧ n1.children = n.children ∧ n1.parent = n.parent) :
    Shape m1 root A where
  root_eq := h.root_eq
  root_ne := h.root_ne
  inj := h.inj
  lt_brk := fun p => lt_of_lt_of_le (h.lt_brk p) hb
  closed := h.closed
  node := fun p hp => by
    obtain ⟨n, hn, hch⟩ := h.node p hp
    obtain ⟨n1, a, b, _⟩ := hf p hp n hn
    exact ⟨n1, a, fun j hj => by rw [b]; exact hch j hj⟩
  parent_root := fun n1 hn1 => by
    have hr : A [] ≠ 0 := by rw [h.root_eq]; exact h.root_ne
    obtain ⟨n, hn, _⟩ := h.node [] hr
    obtain ⟨n2, a, _, c⟩ := hf [] hr n hn
    rw [h.root_eq] at a hn
    rw [hn1] at a
    cases a
    rw [c]
    exact h.parent_root n hn
  parent_snoc := fun p c n1 hp hn1 => by
    obtain ⟨n, hn, _⟩ := h.node _ hp
    obtain ⟨n2, a, _, d⟩ := hf _ hp n hn
    rw [hn1] at a
    cases a
    rw [d]
    exact h.parent_snoc p c n hp hn

theorem cell_unique {reg : List Entry} (hnd : (reg.map Entry.cell).Nodup) {x y : Entry}
    (hx : x ∈ reg) (hy : y ∈ reg) (h : x.cell = y.cell) : x = y :=
  List.inj_on_of_nodup_map hnd hx hy h

theorem filter_dst_cut_same {reg : List Entry} (hnd : (reg.map Entry.cell).Nodup) (e : Entry)
    (l1 l2 : List Entry)
    (hs : reg.filter (fun x => decide (x.dst = e.dst)) = l1 ++ e :: l2) :
    (reg.filter (fun x => decide (x.cell ≠ e.cell))).filter (fun x => decide (x.dst = e.dst)) =
      l1 ++ l2 := by
  have hnd2 : ((l1 ++ e :: l2).map Entry.cell).Nodup := by
    rw [← hs]
    exact hnd.sublist ((List.filter_sublist _).map _)
  rw [List.filter_filter]
  have : reg.filter (fun a => decide (a.dst = e.dst) && decide (a.cell ≠ e.cell)) =
      (reg.filter (fun x => decide (x.dst = e.dst))).filter
        (fun x => decide (x.cell ≠ e.cell)) := by
    rw [List.filter_filter]
    apply List.filter_congr
    intro x _
    exact Bool.and_comm _ _
  rw [this, hs, List.filter_append, List.filter_cons]
  simp only [ne_eq, not_true_eq_false, decide_False, Bool.false_eq_true, if_false]
  rw [List.map_append] at hnd2
  have hdis := List.disjoint_of_nodup_append hnd2
  have hnd3 := (List.nodup_append.mp hnd2).2.1
  simp only [List.map_cons, List.nodup_cons, List.mem_map, not_exists, not_and] at hnd3
  congr 1
  · apply List.filter_eq_self.mpr
    intro x hx
    simp only [decide_eq_true_eq]
    intro e2
    exact hdis (List.mem_map_of_mem _ hx) (by rw [e2]; simp)
  · apply List.filter_eq_self.mpr
    intro x hx
    simp only [decide_eq_true_eq]
    exact hnd3.1 x hx

theorem filter_dst_cut_other {reg : List Entry} (hnd : (reg.map Entry.cell).Nodup) (e : Entry)
    (he : e ∈ reg) (q : List Char) (hq : q ≠ e.dst) :
    (reg.filter (fun x => decide (x.cell ≠ e.cell))).filter (fun x => decide (x.dst = q)) =
      reg.filter (fun x => decide (x.dst = q)) := by
  rw [List.filter_filter]
  apply List.filter_congr
  intro x hx
  by_cases h : x.dst = q
  · have : x.cell ≠ e.cell := by
      intro e2
      have := cell_unique hnd hx he e2
      exact hq (by rw [← h, this])
    simp [h, this]
  · simp [h]

theorem deleteFwdData_null (m : Mem) (a : Nat) (n : TrieNode) (hn : m.trie a = some n)
    (h : n.fwdNode = 0) : deleteFwdData m a = some m := by
  simp [deleteFwdData, hn, h]

theorem deleteFwdData_spec {m : Mem} {pf : PhoneForward} {g : Ghost} (hR : RevOK m pf g)
    (hdead : ∀ q, q ≠ [] → g.rA q ≠ 0 → ∃ e ∈ g.reg, q <+: e.dst) (a : Nat) (n : TrieNode)
    (hn : m.trie a = some n) (e : Entry) (he : e ∈ g.reg) (hf : n.fwdNode = g.rA e.dst)
    (hl : n.listNode = e.cell) :
    ∃ m1, deleteFwdData m a = some m1 ∧ RevOK m1 pf (cutGhost g e) ∧
      (∀ q, q ≠ [] → (cutGhost g e).rA q ≠ 0 → ∃ x ∈ (cutGhost g e).reg, q <+: x.dst) ∧
      (∀ x, (∀ q, g.rA q ≠ 0 → g.rA q ≠ x) → m1.trie x = m.trie x) ∧
      m1.brk = m.brk ∧ m1.oracle = m.oracle ∧ m1.list e.cell = none ∧
      ∀ q, g.rA q ≠ 0 → (cutGhost g e).rA q = 0 → m1.trie (g.rA q) = none := by
  obtain ⟨hfa, hra, hcl⟩ := hR.entry e he
  obtain ⟨f, hfn, hf0, hC⟩ := hR.lists e.dst hra
  have heL : e ∈ g.reg.filter (fun x => decide (x.dst = e.dst)) :=
    List.mem_filter.mpr ⟨he, by simp⟩
  obtain ⟨l1, l2, hsplit⟩ := List.append_of_mem heL
  have hndL : ((l1 ++ e :: l2).map Entry.cell).Nodup := by
    rw [← hsplit]
    exact hR.cells.sublist ((List.filter_sublist _).map _)
  have hmemL : ∀ x ∈ l1 ++ e :: l2, x ∈ g.reg ∧ x.dst = e.dst := by
    intro x hx
    rw [← hsplit] at hx
    simpa using List.mem_filter.mp hx
  rw [hsplit] at hC
  have hex := Chain.cell_exists _ _ _ hC
  obtain ⟨pv, nx, hcell, hnx, hpv, hhead, hrem⟩ :=
    Chain.remove e l2 l1 0 f.listNode hC hndL (fun x hx => (hex x hx).1)
  have hec : e.cell ≠ 0 := (hex e (by simp)).1
  have hndL2 := hndL
  rw [List.map_append] at hndL2
  have hdis := List.disjoint_of_nodup_append hndL2
  have hnd3 := (List.nodup_append.mp hndL2).2.1
  simp only [List.map_cons, List.nodup_cons, List.mem_map, not_exists, not_and] at hnd3
  have hnx1 : nx ≠ e.cell := by
    rcases hnx with h | ⟨x, hx, hx2⟩
    · rw [h]; exact fun e2 => hec e2.symm
    · rw [← hx2]; exact hnd3.1 x hx
  have hpv1 : pv ≠ e.cell := by
    rcases hpv with ⟨_, h⟩ | ⟨x, hx, hx2⟩
    · rw [h]; exact fun e2 => hec e2.symm
    · rw [← hx2]
      intro e2
      exact hdis (List.mem_map_of_mem _ hx) (by rw [e2]; simp)
  have hnxpv : nx ≠ 0 → nx ≠ pv := by
    intro h0
    rcases hnx with h | ⟨x, hx, hx2⟩
    · exact absurd h h0
    · rcases hpv with ⟨_, h⟩ | ⟨y, hy, hy2⟩
      · rw [h]; exact h0
      · rw [← hx2, ← hy2]
        intro e2
        exact hdis (List.mem_map_of_mem _ hy)
          (List.mem_map.mpr ⟨x, List.mem_cons_of_mem _ hx, e2⟩)
  have hnxe : nx ≠ 0 → ∃ c, m.list nx = some c := by
    intro h0
    rcases hnx with h | ⟨x, hx, hx2⟩
    · exact absurd h h0
    · obtain ⟨_, c, hc, _⟩ := hex x (by simp [hx])
      exact ⟨c, by rw [← hx2]; exact hc⟩
  have hpve : pv ≠ 0 → ∃ c, m.list pv = some c := by
    intro h0
    rcases hpv with ⟨_, h⟩ | ⟨x, hx, hx2⟩
    · exact absurd h h0
    · obtain ⟨_, c, hc, _⟩ := hex x (by simp [hx])
      exact ⟨c, by rw [← hx2]; exact hc⟩
  -- the heap after the head of the list has been advanced
  obtain ⟨m', hm't, hm'l, hm'b, hm'o, hstep1, hstep2⟩ : ∃ m' : Mem,
      (∀ x, m'.trie x = if x = g.rA e.dst ∧ f.listNode = e.cell
        then some { f with listNode := nx } else m.trie x) ∧
      m'.list = m.list ∧ m'.brk = m.brk ∧ m'.oracle = m.oracle ∧
      (f.listNode = e.cell → m.setTrie (g.rA e.dst) { f with listNode := nx } = m') ∧
      (f.listNode ≠ e.cell → m = m') := by
    by_cases hh : f.listNode = e.cell
    · refine ⟨m.setTrie (g.rA e.dst) { f with listNode := nx }, ?_, rfl, rfl, rfl,
        fun _ => rfl, fun h => absurd hh h⟩
      intro x
      simp [hh]
    · refine ⟨m, ?_, rfl, rfl, rfl, fun h => absurd h hh, fun _ => rfl⟩
      intro x
      simp [hh]
  obtain ⟨m2, hlr, ht2, hb2, ho2, hU⟩ := listRemove_spec m' e.cell (g.fA e.src) nx pv
    (by rw [hm'l]; exact hcell) (by rw [hm'l]; exact hnxe) (by rw [hm'l]; exact hpve)
    hnx1 hpv1 hnxpv
  have hU' : Unlinked m m2 e.cell nx pv := by
    intro x
    rw [hU x, hm'l]
  have hchainR := hrem m2 hU'
  have hinjR : ∀ q, g.rA q ≠ 0 → q ≠ e.dst → g.rA q ≠ g.rA e.dst :=
    fun q hq hne e2 => hne (hR.shape.inj _ _ hq e2)
  have hlists2 : ∀ q, g.rA q ≠ 0 → ∃ n2, m2.trie (g.rA q) = some n2 ∧ n2.fwdNode = 0 ∧
      Chain m2 g.fA 0 ((cutGhost g e).reg.filter (fun x => decide (x.dst = q))) n2.listNode ∧
      ∀ nq, m.trie (g.rA q) = some nq → n2.children = nq.children ∧ n2.parent = nq.parent := by
    intro q hq
    by_cases hqe : q = e.dst
    · subst hqe
      simp only [cutGhost]
      rw [filter_dst_cut_same hR.cells e l1 l2 hsplit]
      by_cases hh : f.listNode = e.cell
      · refine ⟨{ f with listNode := nx }, by rw [ht2, hm't]; simp [hh], hf0, ?_, ?_⟩
        · simpa [hhead.mp hh] using hchainR
        · intro nq hnq
          rw [hfn] at hnq
          cases hnq
          exact ⟨rfl, rfl⟩
      · refine ⟨f, by rw [ht2, hm't]; simp [hh, hfn], hf0, ?_, ?_⟩
        · have : l1 ≠ [] := fun e2 => hh (hhead.mpr e2)
          simpa [this] using hchainR
        · intro nq hnq
          rw [hfn] at hnq
          cases hnq
          exact ⟨rfl, rfl⟩
    · obtain ⟨nq, hnq, hnq0, hCq⟩ := hR.lists q hq
      have hne := hinjR q hq hqe
      refine ⟨nq, by rw [ht2, hm't]; simp [hne, hnq], hnq0, ?_, ?_⟩
      · simp only [cutGhost]
        rw [filter_dst_cut_other hR.cells e he q hqe]
        apply Chain.frameChain _ _ _ hCq _ (fun _ _ => rfl)
        intro x hx
        have hx' := List.mem_filter.mp hx
        simp only [decide_eq_true_eq] at hx'
        have hxne : ∀ y ∈ l1 ++ e :: l2, x.cell ≠ y.cell := by
          intro y hy e2
          have := cell_unique hR.cells hx'.1 (hmemL y hy).1 e2
          exact hqe (by rw [← hx'.2, this, (hmemL y hy).2])
        have h1 : x.cell ≠ e.cell := hxne e (by simp)
        have h2 : ¬ (x.cell = nx ∧ nx ≠ 0) := by
          rintro ⟨e2, h0⟩
          rcases hnx with h | ⟨y, hy, hy2⟩
          · exact h0 h
          · exact hxne y (by simp [hy]) (e2.trans hy2.symm)
        have h3 : ¬ (x.cell = pv ∧ pv ≠ 0) := by
          rintro ⟨e2, h0⟩
          rcases hpv with ⟨_, h⟩ | ⟨y, hy, hy2⟩
          · exact h0 h
          · exact hxne y (by simp [hy]) (e2.trans hy2.symm)
        rw [hU' x.cell]
        simp [h1, h2, h3]
      · intro nq2 hnq2
        rw [hnq] at hnq2
        cases hnq2
        exact ⟨rfl, rfl⟩
  have hS2 : Shape m2 pf.rootReverse g.rA := by
    apply hR.shape.frame2 (by rw [hb2, hm'b])
    intro p hp np hnp
    obtain ⟨n2, a1, _, _, a4⟩ := hlists2 p hp
    exact ⟨n2, a1, (a4 np hnp).1, (a4 np hnp).2⟩
  have hO2 : Occupied m2 g.rA ((cutGhost g e).reg.map Entry.dst) := by
    constructor
    · intro q nq _ hq hnq
      obtain ⟨n2, a1, a2, a3, _⟩ := hlists2 q hq
      rw [hnq] at a1
      cases a1
      have h0 := Chain.head_zero a3
      simp only [a2, true_and, h0, List.mem_map, not_exists, not_and, List.filter_eq_nil_iff,
        decide_eq_true_eq]
    · intro k hk
      simp only [cutGhost, List.mem_map, List.mem_filter] at hk
      obtain ⟨x, ⟨hx, _⟩, rfl⟩ := hk
      exact (hR.entry x hx).2.1
  have hD2 : DeadOnly g.rA ((cutGhost g e).reg.map Entry.dst) e.dst := by
    intro q hq hq0
    obtain ⟨x, hx, hxq⟩ := hdead q hq hq0
    by_cases hxe : x.cell = e.cell
    · right
      rw [← cell_unique hR.cells hx he hxe]
      exact hxq
    · left
      refine ⟨x.dst, ?_, hxq⟩
      simp only [cutGhost, List.mem_map, List.mem_filter]
      exact ⟨x, ⟨hx, by simpa using hxe⟩, rfl⟩
  obtain ⟨m3, hd3, hS3, hP3⟩ := deleteDeadBranch_spec hS2 _ hO2 e.dst hra hD2
  have hkeep : ∀ q, (cutGhost g e).rA q ≠ 0 → g.rA q ≠ 0 ∧ (cutGhost g e).rA q = g.rA q := by
    intro q hq
    simp only [cutGhost, pruned] at hq ⊢
    split_ifs at hq ⊢ with h1
    · exact ⟨hq, rfl⟩
    · exact absurd rfl hq
  refine ⟨m3, ?_, ⟨hS3, ?_, ?_, ?_⟩, ?_, ?_, by rw [hP3.brk_eq, hb2, hm'b],
    by rw [hP3.oracle_eq, ho2, hm'o], by rw [hP3.list_eq, hU e.cell]; simp,
    fun q hq hq0 => hP3.freed q hq hq0⟩
  · simp only [deleteFwdData, hn, hf, hl, hra, if_false, hfn]
    by_cases hh : f.listNode = e.cell
    · simp only [hh, if_true, getNext]
      rw [← hh, hh, hcell]
      simp only [Option.map_some']
      rw [hstep1 hh]
      simp only [hlr]
      exact hd3
    · simp only [hh, if_false]
      rw [hstep2 hh]
      simp only [hlr]
      exact hd3
  · exact hR.cells.sublist ((List.filter_sublist _).map _)
  · intro x hx
    have hx' : x ∈ g.reg := (List.mem_filter.mp hx).1
    obtain ⟨a1, a2, a3⟩ := hR.entry x hx'
    refine ⟨a1, ?_, by rw [hP3.brk_eq, hb2, hm'b]; exact a3⟩
    have : (cutGhost g e).rA x.dst = g.rA x.dst := by
      simp only [cutGhost, pruned]
      rw [if_pos]
      right
      exact ⟨x.dst, List.mem_map_of_mem _ hx, List.prefix_refl _⟩
    rw [this]
    exact a2
  · intro q hq
    obtain ⟨hq0, hqe⟩ := hkeep q hq
    obtain ⟨n2, a1, a2, a3, _⟩ := hlists2 q hq0
    obtain ⟨n2', n3, b1, b2, b3, b4⟩ := hP3.fields q hq
    rw [a1] at b1
    cases b1
    refine ⟨n3, by rw [hqe]; exact b2, by rw [b3]; exact a2, ?_⟩
    rw [b4]
    exact Chain.frameChain _ _ _ a3 (fun _ _ => by rw [hP3.list_eq]) (fun _ _ => rfl)
  · intro q hq hq0
    simp only [cutGhost, pruned] at hq0
    split_ifs at hq0 with h1
    · rcases h1 with h1 | ⟨k, hk, hk2⟩
      · exact absurd h1 hq
      · obtain ⟨x, hx, rfl⟩ := List.mem_map.mp hk
        exact ⟨x, hx, hk2⟩
    · exact absurd rfl hq0
  · intro x hx
    rw [hP3.other x hx, ht2, hm't]
    have : x ≠ g.rA e.dst := fun e2 => hx e.dst hra e2.symm
    simp [this]

/-! ### The function `phfwdAdd` -/

/-- The invariant after nodes have been added to the forward trie. -/
theorem core_extF {m m1 : Mem} {pf : PhoneForward} {g : Ghost} (h : Core m pf g)
    {s : List Char} {fA1 : List Char → Nat} (hS1 : Shape m1 pf.rootFwd fA1)
    (E : TrieExt m g.fA m1 fA1 s) : Core m1 pf { g with fA := fA1 } := by
  have hsame : ∀ p, g.rA p ≠ 0 → m1.trie (g.rA p) = m.trie (g.rA p) := by
    intro p hp
    apply E.other _ (h.rev.shape.lt_brk p)
    intro q e
    by_cases hq : g.fA q = 0
    · exact hp (by rw [← e, hq])
    · exact h.sep q p hq e
  refine ⟨hS1, ?_, ⟨?_, h.rev.cells, ?_, ?_⟩, ?_⟩
  · intro p hp
    by_cases hp0 : g.fA p = 0
    · obtain ⟨_, _, _, n, hn, hn1, hn2⟩ := E.fresh p hp0 hp
      refine ⟨n, hn, ?_, fun _ => ⟨hn1, hn2⟩⟩
      intro e he hep
      exact absurd hp0 (by rw [← hep]; exact (h.rev.entry e he).1)
    · obtain ⟨n, hn, a, b⟩ := h.data p hp0
      obtain ⟨n1, hn1, c, d⟩ := E.fields _ n (h.shapeF.lt_brk p) hn
      have ek := E.keep p hp0
      simp only at ek
      refine ⟨n1, by simp only [ek]; exact hn1, ?_, ?_⟩
      · intro e he hep
        rw [c, d]
        exact a e he hep
      · intro hh
        rw [c, d]
        exact b hh
  · exact h.rev.shape.frame E.brk_le hsame
  · intro e he
    obtain ⟨a, b, c⟩ := h.rev.entry e he
    exact ⟨by simp only [E.keep _ a]; exact a, b, lt_of_lt_of_le c E.brk_le⟩
  · intro q hq
    obtain ⟨n, hn, a, b⟩ := h.rev.lists q hq
    refine ⟨n, by rw [hsame q hq]; exact hn, a, ?_⟩
    apply Chain.frameChain _ _ _ b (fun _ _ => by rw [E.list_eq])
    intro e he
    exact E.keep _ (h.rev.entry e (List.mem_filter.mp he).1).1
  · intro p q hp
    by_cases hp0 : g.fA p = 0
    · have := (E.fresh p hp0 hp).1
      have := h.rev.shape.lt_brk q
      simp only
      omega
    · simp only [E.keep p hp0]
      exact h.sep p q hp0

/-- The invariant after nodes have been added to the reverse trie. -/
theorem core_extR {m m1 : Mem} {pf : PhoneForward} {g : Ghost} (h : Core m pf g)
    {s : List Char} {rA1 : List Char → Nat} (hS1 : Shape m1 pf.rootReverse rA1)
    (E : TrieExt m g.rA m1 rA1 s) : Core m1 pf { g with rA := rA1 } := by
  have hsame : ∀ p, g.fA p ≠ 0 → m1.trie (g.fA p) = m.trie (g.fA p) := by
    intro p hp
    apply E.other _ (h.shapeF.lt_brk p)
    intro q e
    exact h.sep p q hp e.symm
  refine ⟨h.shapeF.frame E.brk_le hsame, ?_, ⟨hS1, h.rev.cells, ?_, ?_⟩, ?_⟩
  · intro p hp
    obtain ⟨n, hn, a, b⟩ := h.data p hp
    refine ⟨n, by rw [hsame p hp]; exact hn, ?_, b⟩
    intro e he hep
    have := E.keep _ (h.rev.entry e he).2.1
    simp only [this]
    exact a e he hep
  · intro e he
    obtain ⟨a, b, c⟩ := h.rev.entry e he
    exact ⟨a, by simp only [E.keep _ b]; exact b, lt_of_lt_of_le c E.brk_le⟩
  · intro q hq
    by_cases hq0 : g.rA q = 0
    · obtain ⟨_, _, _, n, hn, hn1, hn2⟩ := E.fresh q hq0 hq
      refine ⟨n, hn, hn1, ?_⟩
      have : g.reg.filter (fun e => decide (e.dst = q)) = [] := by
        rw [List.filter_eq_nil_iff]
        intro e he
        simp only [decide_eq_true_eq]
        rintro rfl
        exact (h.rev.entry e he).2.1 hq0
      simp only [this, Chain]
      exact hn2
    · obtain ⟨n, hn, a, b⟩ := h.rev.lists q hq0
      obtain ⟨n1, hn1, c, d⟩ := E.fields _ n (h.rev.shape.lt_brk q) hn
      have ek := E.keep q hq0
      simp only at ek
      refine ⟨n1, by simp only [ek]; exact hn1, by rw [c]; exact a, ?_⟩
      rw [d]
      exact Chain.frameChain _ _ _ b (fun _ _ => by rw [E.list_eq]) (fun _ _ => rfl)
  · intro p q hp
    by_cases hq0 : g.rA q = 0
    · by_cases hq1 : rA1 q = 0
      · simp only [hq1]
        exact hp
      · have := (E.fresh q hq0 hq1).1
        have := h.shapeF.lt_brk p
        simp only
        omega
    · simp only [E.keep q hq0]
      exact h.sep p q hp

theorem RevOK.frameRev {m m1 : Mem} {pf : PhoneForward} {g : Ghost} (h : RevOK m pf g)
    (ht : ∀ q, g.rA q ≠ 0 → m1.trie (g.rA q) = m.trie (g.rA q)) (hl : m1.list = m.list)
    (hb : m.brk ≤ m1.brk) : RevOK m1 pf g where
  shape := h.shape.frame hb ht
  cells := h.cells
  entry := fun e he => by
    obtain ⟨a, b, c⟩ := h.entry e he
    exact ⟨a, b, lt_of_lt_of_le c hb⟩
  lists := fun q hq => by
    obtain ⟨n, hn, a, b⟩ := h.lists q hq
    exact ⟨n, by rw [ht q hq]; exact hn, a,
      Chain.frameChain _ _ _ b (fun _ _ => by rw [hl]) (fun _ _ => rfl)⟩

/-- The invariant is about the cells of the heap only. -/
theorem Core.setOracle {m : Mem} {pf : PhoneForward} {g : Ghost} (h : Core m pf g)
    (o : List Bool) : Core { m with oracle := o } pf g where
  shapeF := h.shapeF.frame (le_refl _) (fun _ _ => rfl)
  data := h.data
  rev := h.rev.frameRev (fun _ _ => rfl) rfl (le_refl _)
  sep := h.sep

/-- The invariant after a call that left the forward trie as it was. -/
theorem core_sameF {m m1 : Mem} {pf : PhoneForward} {g : Ghost} (h : Core m pf g)
    (hS1 : Shape m1 pf.rootFwd g.fA) (T : TrieSame m g.fA m1) : Core m1 pf g where
  shapeF := hS1
  data := fun p hp => by
    obtain ⟨n, n1, a, b, c, d⟩ := T.fields p hp
    obtain ⟨n2, hn2, x, y⟩ := h.data p hp
    rw [a] at hn2
    cases hn2
    refine ⟨n1, b, ?_, ?_⟩
    · intro e he hes
      rw [c, d]
      exact x e he hes
    · intro hh
      rw [c, d]
      exact y hh
  rev := h.rev.frameRev (fun q hq => T.other _ (h.rev.shape.lt_brk q) (fun p e => by
    by_cases hp : g.fA p = 0
    · exact hq (by rw [← e, hp])
    · exact h.sep p q hp e)) T.list_eq T.brk_le
  sep := h.sep

/-- The invariant after a call that left the reverse trie as it was. -/
theorem core_sameR {m m1 : Mem} {pf : PhoneForward} {g : Ghost} (h : Core m pf g)
    (hS1 : Shape m1 pf.rootReverse g.rA) (T : TrieSame m g.rA m1) : Core m1 pf g := by
  have hsame : ∀ p, g.fA p ≠ 0 → m1.trie (g.fA p) = m.trie (g.fA p) := fun p hp =>
    T.other _ (h.shapeF.lt_brk p) (fun q e => h.sep p q hp e.symm)
  refine ⟨h.shapeF.frame T.brk_le hsame, ?_, ⟨hS1, h.rev.cells, ?_, ?_⟩, h.sep⟩
  · intro p hp
    obtain ⟨n, hn, a, b⟩ := h.data p hp
    exact ⟨n, by rw [hsame p hp]; exact hn, a, b⟩
  · intro e he
    obtain ⟨a, b, c⟩ := h.rev.entry e he
    exact ⟨a, b, lt_of_lt_of_le c T.brk_le⟩
  · intro q hq
    obtain ⟨n, n1, a, b, c, d⟩ := T.fields q hq
    obtain ⟨n2, hn2, x, y⟩ := h.rev.lists q hq
    rw [a] at hn2
    cases hn2
    refine ⟨n1, b, by rw [c]; exact x, ?_⟩
    rw [d]
    exact Chain.frameChain _ _ _ y (fun _ _ => by rw [T.list_eq]) (fun _ _ => rfl)

theorem core_listAdd {m : Mem} {pf : PhoneForward} {g : Ghost} (h : Core m pf g)
    (hor : m.oracle.head? ≠ some false)
    (s1 s2 : List Char) (h1 : g.fA s1 ≠ 0) (h2 : g.rA s2 ≠ 0) :
    ∃ m1, addToReverseFwdList m (g.rA s2) (g.fA s1) = some (true, m1) ∧
      RevOK m1 pf { g with reg := ⟨s1, s2, m.brk⟩ :: g.reg } ∧
      (∀ x, x ≠ g.rA s2 → m1.trie x = m.trie x) ∧ m1.brk = m.brk + 1 ∧
      m1.oracle = m.oracle.tail := by
  obtain ⟨nR, hnR, hnR0, hC⟩ := h.rev.lists s2 h2
  have hb : m.brk ≠ 0 := by
    have := h.shapeF.lt_brk []
    omega
  have hndL : ((g.reg.filter (fun e => decide (e.dst = s2))).map Entry.cell).Nodup :=
    h.rev.cells.sublist ((List.filter_sublist _).map _)
  have hltL : ∀ e ∈ g.reg.filter (fun e => decide (e.dst = s2)), e.cell < m.brk :=
    fun e he => (h.rev.entry e (List.mem_filter.mp he).1).2.2
  obtain ⟨m', hadd, hC', ht', hb', ho', hfr'⟩ :=
    listAdd_spec m hor hb g.fA _ nR.listNode hC hndL hltL s1 s2
  refine ⟨m'.setTrie (g.rA s2) { nR with listNode := m.brk }, ?_, ⟨?_, ?_, ?_, ?_⟩, ?_, hb', ho'⟩
  · simp [addToReverseFwdList, hnR, hadd, ht']
  · apply h.rev.shape.frame2 (by simp only [setTrie_brk, hb']; omega)
    intro p hp n hn
    by_cases e : g.rA p = g.rA s2
    · rw [e, hnR] at hn
      cases hn
      exact ⟨{ nR with listNode := m.brk }, by simp [e], rfl, rfl⟩
    · exact ⟨n, by simp [e, ht', hn], rfl, rfl⟩
  · simp only [List.map_cons, List.nodup_cons, List.mem_map, not_exists, not_and]
    refine ⟨?_, h.rev.cells⟩
    intro x hx e
    have := (h.rev.entry x hx).2.2
    omega
  · intro e he
    rcases List.mem_cons.mp he with rfl | he
    · exact ⟨h1, h2, by simp only [setTrie_brk, hb']; omega⟩
    · obtain ⟨a, b, c⟩ := h.rev.entry e he
      exact ⟨a, b, by simp only [setTrie_brk, hb']; omega⟩
  · intro q hq
    simp only at hq
    by_cases e : q = s2
    · subst e
      refine ⟨{ nR with listNode := m.brk }, by simp, hnR0, ?_⟩
      simp only [List.filter_cons, decide_True, if_true]
      exact Chain.frameChain _ _ _ hC' (fun _ _ => rfl) (fun _ _ => rfl)
    · obtain ⟨nq, hnq, hnq0, hCq⟩ := h.rev.lists q hq
      have hne : g.rA q ≠ g.rA s2 := fun e2 => e (h.rev.shape.inj _ _ hq e2)
      refine ⟨nq, by simp [hne, ht', hnq], hnq0, ?_⟩
      have e' : ¬ s2 = q := fun e2 => e e2.symm
      simp only [List.filter_cons, e', decide_False, Bool.false_eq_true, if_false]
      apply Chain.frameChain _ _ _ hCq _ (fun _ _ => rfl)
      intro x hx
      have hx' := List.mem_filter.mp hx
      simp only [decide_eq_true_eq] at hx'
      have hx1 : x.cell ≠ m.brk := by
        have := (h.rev.entry x hx'.1).2.2
        omega
      have hx2 : x.cell ≠ nR.listNode := by
        intro e2
        cases hL : g.reg.filter (fun e => decide (e.dst = s2)) with
        | nil =>
          rw [hL] at hC
          have : nR.listNode = 0 := hC
          exact (Chain.cell_exists _ _ _ hCq x hx).1 (e2.trans this)
        | cons y ys =>
          rw [hL] at hC
          have hy : y ∈ g.reg.filter (fun e => decide (e.dst = s2)) := by rw [hL]; simp
          have hy' := List.mem_filter.mp hy
          simp only [decide_eq_true_eq] at hy'
          have := cell_unique h.rev.cells hx'.1 hy'.1 (e2.trans hC.1)
          exact e (by rw [← hx'.2, this, hy'.2])
      simp only [setTrie_list]
      exact hfr' _ hx1 hx2
  · intro x hx
    simp [hx, ht']

theorem add_detach {m3 : Mem} {pf : PhoneForward} (fA rA : List Char → Nat) (new : Entry)
    (reg : List Entry) (hR3 : RevOK m3 pf ⟨fA, rA, new :: reg⟩)
    (hdead3 : ∀ q, q ≠ [] → rA q ≠ 0 → ∃ e ∈ new :: reg, q <+: e.dst)
    (hsrcs : (reg.map Entry.src).Nodup) (F : Nat) (nF : TrieNode) (hF : m3.trie F = some nF)
    (hd1 : ∀ e ∈ reg, e.src = new.src → nF.fwdNode = rA e.dst ∧ nF.listNode = e.cell)
    (hd2 : (∀ e ∈ reg, e.src ≠ new.src) → nF.fwdNode = 0 ∧ nF.listNode = 0) :
    ∃ m4 rA4, deleteFwdData m3 F = some m4 ∧
      RevOK m4 pf ⟨fA, rA4, new :: reg.filter (fun e => decide (e.src ≠ new.src))⟩ ∧
      (∀ q, q ≠ [] → rA4 q ≠ 0 →
        ∃ e ∈ new :: reg.filter (fun e => decide (e.src ≠ new.src)), q <+: e.dst) ∧
      (∀ q, rA4 q ≠ 0 → rA4 q = rA q) ∧
      (∀ x, (∀ q, rA q ≠ 0 → rA q ≠ x) → m4.trie x = m3.trie x) ∧
      m4.brk = m3.brk ∧ m4.oracle = m3.oracle := by
  by_cases hex : ∃ e ∈ reg, e.src = new.src
  · obtain ⟨e, he, hes⟩ := hex
    have hcells := hR3.cells
    simp only [List.map_cons, List.nodup_cons, List.mem_map, not_exists, not_and] at hcells
    obtain ⟨m4, a1, a2, a3, a4, a5, a6, _, _⟩ := deleteFwdData_spec hR3 hdead3 F nF hF e
      (List.mem_cons_of_mem _ he) (hd1 e he hes).1 (hd1 e he hes).2
    have hreg : (new :: reg).filter (fun x => decide (x.cell ≠ e.cell)) =
        new :: reg.filter (fun x => decide (x.src ≠ new.src)) := by
      have h1 : new.cell ≠ e.cell := fun e2 => hcells.1 e he e2.symm
      simp only [List.filter_cons, h1, ne_eq, not_false_eq_true, decide_True, if_true]
      congr 1
      apply List.filter_congr
      intro x hx
      by_cases hxs : x.src = new.src
      · have : x = e := List.inj_on_of_nodup_map hsrcs hx he (hxs.trans hes.symm)
        simp [this, hes]
      · have : x.cell ≠ e.cell := by
          intro e2
          have := cell_unique hcells.2 hx he e2
          exact hxs (by rw [this, hes])
        simp [this, hxs]
    simp only [cutGhost, hreg] at a2 a3
    refine ⟨m4, _, a1, a2, a3, ?_, a4, a5, a6⟩
    intro q hq
    simp only [pruned] at hq ⊢
    split_ifs at hq ⊢ with h1
    · rfl
    · exact absurd rfl hq
  · have hnone : ∀ e ∈ reg, e.src ≠ new.src := fun e he hes => hex ⟨e, he, hes⟩
    have hreg : reg.filter (fun x => decide (x.src ≠ new.src)) = reg := by
      apply List.filter_eq_self.mpr
      intro x hx
      simpa using hnone x hx
    rw [hreg]
    exact ⟨m3, rA, deleteFwdData_null m3 F nF hF (hd2 hnone).1, hR3, hdead3, fun _ _ => rfl,
      fun _ _ => rfl, rfl, rfl⟩

/-! ### The function `trieFindNextNonEmpty` -/

theorem isEmpty_spec {m : Mem} {root : Nat} {A : List Char → Nat} (hS : Shape m root A)
    {keys : List (List Char)} (hO : Occupied m A keys) (q : List Char) (hq : q ≠ [])
    (hq0 : A q ≠ 0) : isEmpty m (A q) = some (decide (q ∉ keys)) := by
  obtain ⟨n, hn, _⟩ := hS.node q hq0
  obtain ⟨q0, c, rfl⟩ : ∃ q0 c, q = q0 ++ [c] := by
    rcases List.eq_nil_or_concat q with h | ⟨q0, c, h⟩
    · exact absurd h hq
    · exact ⟨q0, c, by rw [h, List.concat_eq_append]⟩
  have hpar := hS.parent_snoc q0 c n hq0 hn
  have hq00 := (hS.closed q0 c hq0).1
  have := hO.1 _ n hq hq0 hn
  simp only [isEmpty, hq0, if_false, hn, hpar, hq00]
  congr 1
  by_cases hk : q0 ++ [c] ∈ keys
  · have h2 : ¬ (n.fwdNode = 0 ∧ n.listNode = 0) := fun h3 => this.mp h3 hk
    simp only [hk, not_true_eq_false, decide_False, Bool.and_eq_false_imp, decide_eq_true_eq,
      decide_eq_false_iff_not]
    exact fun h3 h4 => h2 ⟨h3, h4⟩
  · have h2 := this.mpr hk
    simp [hk, h2.1, h2.2]

theorem findOcc_absent {m : Mem} {root : Nat} {A : List Char → Nat} (hS : Shape m root A)
    {keys : List (List Char)} (hk : ∀ k ∈ keys, A k ≠ 0) (rest : List Char) :
    ∀ (base : List Char) (i : Nat), A base = 0 → findOcc keys base rest i = none := by
  induction rest with
  | nil => intro base i _; rfl
  | cons c rest ih =>
    intro base i hb
    have h1 : A (base ++ [c]) = 0 := by
      by_contra hne
      exact (hS.closed base c hne).1 hb
    have h2 : base ++ [c] ∉ keys := fun hm => hk _ hm h1
    simp only [findOcc, h2, if_false]
    exact ih _ _ h1

theorem trieFindNextNonEmptyLoop_spec {m : Mem} {root : Nat} {A : List Char → Nat}
    (hS : Shape m root A) {keys : List (List Char)} (hO : Occupied m A keys) (orig : Nat)
    (rest : List Char) (hd : ∀ c ∈ rest, isPhNumDigit (c.toNat : Int) = true) :
    ∀ (base : List Char) (i : Nat), base ≠ [] →
      trieFindNextNonEmptyLoop m orig (A base) rest i =
        some (if base ∈ keys then (A base, i)
          else match findOcc keys base rest i with
            | none => (0, orig)
            | some (q, k) => (A q, k)) := by
  induction rest with
  | nil =>
    intro base i hb
    by_cases hb0 : A base = 0
    · have : base ∉ keys := fun hm => hO.2 _ hm hb0
      simp [trieFindNextNonEmptyLoop, trieFindNextNonEmptyEnd, hb0, isEmpty, this, findOcc]
    · simp only [trieFindNextNonEmptyLoop, trieFindNextNonEmptyEnd, isEmpty_spec hS hO base hb hb0,
        findOcc]
      by_cases hk : base ∈ keys <;> simp [hk]
  | cons c rest ih =>
    intro base i hb
    by_cases hb0 : A base = 0
    · have : base ∉ keys := fun hm => hO.2 _ hm hb0
      simp only [trieFindNextNonEmptyLoop, hb0, if_true, trieFindNextNonEmptyEnd, isEmpty,
        this, if_false, findOcc_absent hS hO.2 (c :: rest) base i hb0]
    · obtain ⟨n, hn, _⟩ := hS.node base hb0
      have hc := hd c (List.mem_cons_self _ _)
      simp only [trieFindNextNonEmptyLoop, hb0, if_false, isEmpty_spec hS hO base hb hb0, hn,
        hS.child base hb0 n hn c hc]
      by_cases hk : base ∈ keys
      · simp [hk]
      · simp only [hk, not_false_eq_true, decide_True, Bool.not_true, Bool.false_eq_true,
          if_false, findOcc]
        rw [ih (fun d hd' => hd d (List.mem_cons_of_mem _ hd')) (base ++ [c]) (i + 1) (by simp)]
        by_cases hk2 : base ++ [c] ∈ keys <;> simp [hk2]

theorem trieFindNextNonEmpty_spec {m : Mem} {root : Nat} {A : List Char → Nat}
    (hS : Shape m root A) {keys : List (List Char)} (hO : Occupied m A keys) (base : List Char)
    (hb : A base ≠ 0) (num : List Char) (i : Nat)
    (hd : ∀ c ∈ num, isPhNumDigit (c.toNat : Int) = true) :
    trieFindNextNonEmpty m (A base) num i =
      some (match findOcc keys base (num.drop i) i with
        | none => (0, i)
        | some (q, k) => (A q, k)) := by
  unfold trieFindNextNonEmpty
  cases hr : num.drop i with
  | nil => simp [findOcc]
  | cons c rest =>
    have hmem : ∀ d ∈ c :: rest, isPhNumDigit (d.toNat : Int) = true := by
      intro d hd'
      rw [← hr] at hd'
      exact hd d (List.mem_of_mem_drop hd')
    obtain ⟨n, hn, _⟩ := hS.node base hb
    simp only [hn, hS.child base hb n hn c (hmem c (List.mem_cons_self _ _))]
    rw [trieFindNextNonEmptyLoop_spec hS hO i rest
      (fun d hd' => hmem d (List.mem_cons_of_mem _ hd')) (base ++ [c]) (i + 1) (by simp)]
    simp only [findOcc]
    by_cases hk2 : base ++ [c] ∈ keys <;> simp [hk2]

theorem occupiedF {m : Mem} {pf : PhoneForward} {g : Ghost} (h : Core m pf g) :
    Occupied m g.fA (g.reg.map Entry.src) := by
  constructor
  · intro q n _ hq hn
    obtain ⟨n1, hn1, a, b⟩ := h.data q hq
    rw [hn] at hn1
    cases hn1
    simp only [List.mem_map, not_exists, not_and]
    constructor
    · intro hz e he hes
      have h1 := (a e he hes).1
      rw [hz.1] at h1
      exact (h.rev.entry e he).2.1 h1.symm
    · intro hh
      exact b hh
  · intro k hk
    obtain ⟨e, he, rfl⟩ := List.mem_map.mp hk
    exact (h.rev.entry e he).1

theorem occupiedR {m : Mem} {pf : PhoneForward} {g : Ghost} (h : RevOK m pf g) :
    Occupied m g.rA (g.reg.map Entry.dst) := by
  constructor
  · intro q n _ hq hn
    obtain ⟨n1, hn1, a, b⟩ := h.lists q hq
    rw [hn] at hn1
    cases hn1
    have h0 := Chain.head_zero b
    simp only [a, true_and, h0, List.mem_map, not_exists, not_and, List.filter_eq_nil_iff,
      decide_eq_true_eq]
  · intro k hk
    obtain ⟨e, he, rfl⟩ := List.mem_map.mp hk
    exact (h.entry e he).2.1

/-! ### The function `phfwdGet` -/

theorem findOcc_none_scan (keys : List (List Char)) (rest : List Char) :
    ∀ (base best : List Char) (i : Nat), findOcc keys base rest i = none →
      scanLongest keys base rest best = best := by
  induction rest with
  | nil => intro _ _ _ _; rfl
  | cons c rest ih =>
    intro base best i h
    by_cases hk : base ++ [c] ∈ keys
    · simp [findOcc, hk] at h
    · simp only [findOcc, hk, if_false] at h
      simp only [scanLongest, hk, if_false]
      exact ih _ _ _ h

theorem findOcc_some (keys : List (List Char)) (rest : List Char) :
    ∀ (base : List Char) (i : Nat) (q : List Char) (k : Nat),
      findOcc keys base rest i = some (q, k) →
      ∃ t1 t2, rest = t1 ++ t2 ∧ t1 ≠ [] ∧ q = base ++ t1 ∧ k = i + t1.length ∧ q ∈ keys ∧
        (∀ t, t ≠ [] → t <+: t1 → t ≠ t1 → base ++ t ∉ keys) ∧
        ∀ best, scanLongest keys base rest best = scanLongest keys q t2 q := by
  induction rest with
  | nil => intro _ _ _ _ h; cases h
  | cons c rest ih =>
    intro base i q k h
    by_cases hk : base ++ [c] ∈ keys
    · simp only [findOcc, hk, if_true, Option.some.injEq, Prod.mk.injEq] at h
      obtain ⟨rfl, rfl⟩ := h
      refine ⟨[c], rest, rfl, by simp, rfl, by simp, hk, ?_, ?_⟩
      · intro t ht htp hne
        exfalso
        have htp2 : t <+: [] ++ [c] := htp
        rcases List.prefix_concat_iff.mp htp2 with h1 | h1
        · exact hne h1
        · exact ht (List.prefix_nil.mp h1)
      · intro best
        simp [scanLongest, hk]
    · simp only [findOcc, hk, if_false] at h
      obtain ⟨t1, t2, e1, e2, e3, e4, e5, e6, e7⟩ := ih _ _ _ _ h
      refine ⟨c :: t1, t2, by rw [e1]; rfl, by simp, by rw [e3]; simp, by rw [e4]; simp; omega,
        e5, ?_, ?_⟩
      · intro t ht htp hne
        cases t with
        | nil => exact absurd rfl ht
        | cons d t =>
          obtain ⟨rfl, htp2⟩ := List.cons_prefix_cons.mp htp
          by_cases ht0 : t = []
          · subst ht0
            exact hk
          · have := e6 t ht0 htp2 (fun e => hne (by rw [e]))
            simpa using this
      · intro best
        simp only [scanLongest, hk, if_false]
        exact e7 best

theorem scanLongest_mem (keys : List (List Char)) (rest : List Char) :
    ∀ (base best : List Char), scanLongest keys base rest best ∈ keys ∨
      scanLongest keys base rest best = best := by
  induction rest with
  | nil => intro _ _; exact Or.inr rfl
  | cons c rest ih =>
    intro base best
    by_cases hk : base ++ [c] ∈ keys
    · simp only [scanLongest, hk, if_true]
      rcases ih (base ++ [c]) (base ++ [c]) with h | h
      · exact Or.inl h
      · rw [h]
        exact Or.inl hk
    · simp only [scanLongest, hk, if_false]
      exact ih _ _

theorem phfwdGetLoop_spec {m : Mem} {pf : PhoneForward} {g : Ghost} (h : Core m pf g)
    (num : List Char) (hd : ∀ c ∈ num, isPhNumDigit (c.toNat : Int) = true) (fuel : Nat) :
    ∀ (p : List Char) (i : Nat), g.fA p ≠ 0 → p = num.take i → i ≤ num.length →
      num.length < fuel + i →
      ∃ p', scanLongest (g.reg.map Entry.src) p (num.drop i) p = p' ∧
        phfwdGetLoop m num fuel (g.fA p) i = some (g.fA p', p'.length) ∧
        p' = num.take p'.length ∧ g.fA p' ≠ 0 ∧ p'.length ≤ num.length := by
  induction fuel with
  | zero => intro p i _ _ h1 h2; omega
  | succ f ih =>
    intro p i hp hpi hi hf
    have hlen : p.length = i := by rw [hpi, List.length_take]; omega
    rw [phfwdGetLoop, trieFindNextNonEmpty_spec h.shapeF (occupiedF h) p hp num i hd]
    cases hfo : findOcc (g.reg.map Entry.src) p (num.drop i) i with
    | none =>
      refine ⟨p, findOcc_none_scan _ _ _ _ _ hfo, by simp [hlen], ?_, hp, by omega⟩
      rw [hlen]
      exact hpi
    | some r =>
      obtain ⟨q, k⟩ := r
      obtain ⟨t1, t2, e1, e2, e3, e4, e5, _, e7⟩ := findOcc_some _ _ _ _ _ _ hfo
      have hq0 : g.fA q ≠ 0 := (occupiedF h).2 q e5
      have hnum : num = p ++ t1 ++ t2 := by
        rw [List.append_assoc, ← e1, hpi, List.take_append_drop]
      have hqk : q = num.take k := by
        rw [e3, hnum, e4, ← hlen, ← List.length_append, List.take_left']
        rfl
      have hk : k ≤ num.length := by
        rw [hnum, e4]
        simp only [List.length_append]
        omega
      have ht1 : 0 < t1.length := List.length_pos.mpr e2
      have hdrop : num.drop k = t2 := by
        rw [hnum, e4, ← hlen, ← List.length_append, List.drop_left']
        rfl
      obtain ⟨p', a1, a2, a3, a4, a5⟩ := ih q k hq0 hqk hk (by omega)
      refine ⟨p', ?_, ?_, a3, a4, a5⟩
      · rw [e7 p, ← hdrop]
        exact a1
      · simp only [hq0, ne_eq, not_false_eq_true, if_true]
        exact a2

theorem phnumSafeAdd_new (y : List Char) :
    phnumSafeAdd phnumNew (some y) = some ⟨[y], 1⟩ := by
  simp [phnumSafeAdd, phnumAdd_eq, phnumNew_eq, maxCapacity, sizeModulus]

theorem lookupFw_fwOf_none (reg : List Entry) (p : List Char) (h : ∀ e ∈ reg, e.src ≠ p) :
    lookupFw (fwOf reg) p = none := by
  simp only [lookupFw, fwOf, Option.map_eq_none', List.find?_eq_none, List.mem_map,
    decide_eq_true_eq, forall_exists_index, and_imp]
  rintro x e he rfl
  exact h e he

theorem lookupFw_fwOf_some (reg : List Entry) (p : List Char) (h : ∃ e ∈ reg, e.src = p) :
    ∃ e ∈ reg, e.src = p ∧ lookupFw (fwOf reg) p = some e.dst := by
  induction reg with
  | nil =>
    obtain ⟨e, he, _⟩ := h
    cases he
  | cons x reg ih =>
    by_cases hx : x.src = p
    · exact ⟨x, List.mem_cons_self _ _, hx, by simp [lookupFw, fwOf, hx]⟩
    · obtain ⟨e, he, hes⟩ := h
      rcases List.mem_cons.mp he with rfl | he
      · exact absurd hes hx
      · obtain ⟨e2, he2, a, b⟩ := ih ⟨e, he, hes⟩
        refine ⟨e2, List.mem_cons_of_mem _ he2, a, ?_⟩
        simp only [lookupFw, fwOf, List.map_cons, List.find?_cons, hx, decide_False] at b ⊢
        exact b

theorem fwOf_srcs (reg : List Entry) : (fwOf reg).map (fun e => e.1) = reg.map Entry.src := by
  simp [fwOf]

theorem phfwdGet_spec {m : Mem} {pf : PhoneForward} {g : Ghost} (h : Inv m pf g)
    (x : List Char) (hx : ValidNum x) :
    phfwdGet m (some pf) (some x) = some (some ⟨[absGet (fwOf g.reg) x], 1⟩) := by
  have hc : isCorrect (some x) = true := (isCorrect_some x).mpr hx
  have hr : g.fA [] ≠ 0 := by rw [h.shapeF.root_eq]; exact h.shapeF.root_ne
  obtain ⟨p', a1, a2, a3, a4, a5⟩ := phfwdGetLoop_spec h.toCore x hx.2 (x.length + 1) [] 0 hr
    (by simp) (by omega) (by omega)
  rw [h.shapeF.root_eq] at a2
  simp only [List.drop_zero] at a1
  obtain ⟨n, hn, hd1, hd2⟩ := h.data p' a4
  simp only [phfwdGet, hc, Bool.not_true, Bool.false_eq_true, if_false, a2, getFwdNode, hn,
    Option.map_some', absGet, fwOf_srcs, a1]
  by_cases hex : ∃ e ∈ g.reg, e.src = p'
  · obtain ⟨e, he, hes, hl⟩ := lookupFw_fwOf_some g.reg p' hex
    rw [hl, (hd1 e he hes).1,
      changePrefix_spec h.rev.shape e.dst (h.rev.entry e he).2.1 x p'.length a5]
    simp [phnumSafeAdd_new]
  · have hnone : ∀ e ∈ g.reg, e.src ≠ p' := fun e he hes => hex ⟨e, he, hes⟩
    have hp' : p' = [] := by
      rcases scanLongest_mem (g.reg.map Entry.src) x [] [] with h1 | h1
      · rw [a1] at h1
        obtain ⟨e, he, hes⟩ := List.mem_map.mp h1
        exact absurd hes (hnone e he)
      · rw [a1] at h1
        exact h1
    rw [lookupFw_fwOf_none g.reg p' hnone, (hd2 hnone).1, changePrefix_null m x _ a5, hp']
    simp [phnumSafeAdd_new]

/-! ### The functions `phfwdReverse` and `phfwdGetReverse` -/

theorem addAll_none (cands : List (List Char)) : addAll none cands = none := by
  induction cands with
  | nil => rfl
  | cons c cs ih => simpa [addAll, phnumSafeAdd, phnumAdd] using ih

theorem addAll_append (r : Option PhoneNumbers) (a b : List (List Char)) :
    addAll r (a ++ b) = addAll (addAll r a) b := by
  simp [addAll, List.foldl_append]

theorem addAll_cons (r : Option PhoneNumbers) (c : List Char) (cs : List (List Char)) :
    addAll r (c :: cs) = addAll (phnumSafeAdd r (some c)) cs := rfl

theorem findOcc_index (keys : List (List Char)) (rest : List Char) :
    ∀ (base : List Char) (i j : Nat),
      (findOcc keys base rest i).isNone = (findOcc keys base rest j).isNone := by
  induction rest with
  | nil => intro _ _ _; rfl
  | cons c rest ih =>
    intro base i j
    by_cases hk : base ++ [c] ∈ keys
    · simp [findOcc, hk]
    · simp only [findOcc, hk, if_false]
      exact ih _ _ _

theorem reg_length_lt {m : Mem} {pf : PhoneForward} {g : Ghost} (h : RevOK m pf g) :
    g.reg.length < m.brk := by
  have hsub : g.reg.map Entry.cell ⊆ List.range' 1 (m.brk - 1) := by
    intro a ha
    obtain ⟨e, he, rfl⟩ := List.mem_map.mp ha
    obtain ⟨_, b, c⟩ := h.entry e he
    obtain ⟨n, _, _, hC⟩ := h.lists e.dst b
    have := (Chain.cell_exists _ _ _ hC e (List.mem_filter.mpr ⟨he, by simp⟩)).1
    simp only [List.mem_range'_1]
    omega
  have := (List.subperm_of_subset h.cells hsub).length_le
  simp only [List.length_map, List.length_range'] at this
  have := h.shape.lt_brk []
  omega

theorem phfwdReverseList_spec {m : Mem} {root : Nat} {fA : List Char → Nat}
    (hS : Shape m root fA) (num : List Char) (i : Nat) (hi : i ≤ num.length) :
    ∀ (l : List Entry) (prev head fuel : Nat) (r : Option PhoneNumbers),
      Chain m fA prev l head → (∀ e ∈ l, fA e.src ≠ 0) → l.length < fuel →
      phfwdReverseList m num i fuel head r =
        some (addAll r (l.map (fun e => e.src ++ num.drop i))) := by
  intro l
  induction l with
  | nil =>
    intro prev head fuel r hC _ _
    have : head = 0 := hC
    subst this
    cases fuel <;> simp [phfwdReverseList, addAll]
  | cons e rest ih =>
    intro prev head fuel r hC hsrc hf
    obtain ⟨f, rfl⟩ : ∃ f, fuel = f + 1 := ⟨fuel - 1, by simp at hf; omega⟩
    obtain ⟨a, b, nx, c, d⟩ := hC
    subst a
    simp only [phfwdReverseList, b, if_false, getKey, c, Option.map_some', getNext,
      changePrefix_spec hS e.src (hsrc e (List.mem_cons_self _ _)) num i hi, List.map_cons,
      addAll_cons]
    cases hadd : phnumSafeAdd r (some (e.src ++ num.drop i)) with
    | none => simp [addAll_none]
    | some r1 =>
      simp only
      exact ih _ _ _ _ d (fun x hx => hsrc x (List.mem_cons_of_mem _ hx))
        (by simp at hf; omega)

theorem revCands_none (fw : List (List Char × List Char)) (rest : List Char) :
    ∀ (base : List Char) (i : Nat), findOcc (fw.map (fun e => e.2)) base rest i = none →
      revCands fw base rest = [] := by
  induction rest with
  | nil => intro _ _ _; rfl
  | cons c rest ih =>
    intro base i h
    by_cases hk : base ++ [c] ∈ fw.map (fun e => e.2)
    · simp [findOcc, hk] at h
    · simp only [findOcc, hk, if_false] at h
      have : fw.filter (fun e => decide (e.2 = base ++ [c])) = [] := by
        rw [List.filter_eq_nil_iff]
        intro e he
        simp only [decide_eq_true_eq]
        intro e2
        exact hk (List.mem_map.mpr ⟨e, he, e2⟩)
      simp only [revCands, this, List.map_nil, List.nil_append]
      exact ih _ _ h

theorem revCands_some (fw : List (List Char × List Char)) (rest : List Char) :
    ∀ (base : List Char) (i : Nat) (q : List Char) (k : Nat) (t2 : List Char),
      findOcc (fw.map (fun e => e.2)) base rest i = some (q, k) →
      t2 = rest.drop (k - i) →
      revCands fw base rest =
        (fw.filter (fun e => decide (e.2 = q))).map (fun e => e.1 ++ t2) ++ revCands fw q t2 := by
  induction rest with
  | nil => intro _ _ _ _ _ h; cases h
  | cons c rest ih =>
    intro base i q k t2 h ht2
    by_cases hk : base ++ [c] ∈ fw.map (fun e => e.2)
    · simp only [findOcc, hk, if_true, Option.some.injEq, Prod.mk.injEq] at h
      obtain ⟨rfl, rfl⟩ := h
      have : t2 = rest := by simpa using ht2
      subst this
      simp [revCands]
    · simp only [findOcc, hk, if_false] at h
      obtain ⟨t1, t2', e1, e2, e3, e4, _⟩ := findOcc_some _ _ _ _ _ _ h
      have : fw.filter (fun e => decide (e.2 = base ++ [c])) = [] := by
        rw [List.filter_eq_nil_iff]
        intro e he
        simp only [decide_eq_true_eq]
        intro e2
        exact hk (List.mem_map.mpr ⟨e, he, e2⟩)
      simp only [revCands, this, List.map_nil, List.nil_append]
      apply ih _ _ _ _ _ h
      rw [ht2]
      have : k - i = (k - (i + 1)) + 1 := by omega
      rw [this, List.drop_succ_cons]

theorem fwOf_dsts (reg : List Entry) : (fwOf reg).map (fun e => e.2) = reg.map Entry.dst := by
  simp [fwOf]

theorem fwOf_filter_map (reg : List Entry) (q t : List Char) :
    ((fwOf reg).filter (fun e => decide (e.2 = q))).map (fun e => e.1 ++ t) =
      (reg.filter (fun e => decide (e.dst = q))).map (fun e => e.src ++ t) := by
  induction reg with
  | nil => rfl
  | cons e reg ih =>
    simp only [fwOf, List.map_cons, List.filter_cons] at ih ⊢
    by_cases h : e.dst = q
    · simp only [h, decide_True, if_true, List.map_cons]
      rw [ih]
    · simp only [h, decide_False, Bool.false_eq_true, if_false]
      exact ih

theorem filter_length_lt {m : Mem} {pf : PhoneForward} {g : Ghost} (h : RevOK m pf g)
    (p : Entry → Bool) : (g.reg.filter p).length < m.brk :=
  lt_of_le_of_lt (List.length_filter_le _ _) (reg_length_lt h)

theorem phfwdReverseLoop_spec {m : Mem} {pf : PhoneForward} {g : Ghost} (h : Core m pf g)
    (num : List Char) (hd : ∀ c ∈ num, isPhNumDigit (c.toNat : Int) = true) (fuel : Nat) :
    ∀ (p : List Char) (i : Nat) (r : Option PhoneNumbers)
      (fo : Option (List Char × Nat)), g.rA p ≠ 0 → p = num.take i → i ≤ num.length →
      num.length < fuel + i → fo = findOcc (g.reg.map Entry.dst) p (num.drop i) i →
      phfwdReverseLoop m num fuel
          (match fo with
            | none => 0
            | some (q, _) => g.rA q)
          (match fo with
            | none => i
            | some (_, k) => k) r =
        some (addAll r (revCands (fwOf g.reg) p (num.drop i))) := by
  induction fuel with
  | zero => intro p i _ _ _ _ h1 h2 _; omega
  | succ f ih =>
    intro p i r fo hp hpi hi hf hfo
    have hlen : p.length = i := by rw [hpi, List.length_take]; omega
    cases fo with
    | none =>
      have := revCands_none (fwOf g.reg) (num.drop i) p i (by rw [fwOf_dsts]; exact hfo.symm)
      simp [phfwdReverseLoop, this, addAll]
    | some qk =>
      obtain ⟨q, k⟩ := qk
      obtain ⟨t1, t2, e1, e2, e3, e4, e5, _, _⟩ := findOcc_some _ _ _ _ _ _ hfo.symm
      have hq0 : g.rA q ≠ 0 := (occupiedR h.rev).2 q e5
      have hnum : num = p ++ t1 ++ t2 := by
        rw [List.append_assoc, ← e1, hpi, List.take_append_drop]
      have hqk : q = num.take k := by
        rw [e3, hnum, e4, ← hlen, ← List.length_append, List.take_left']
        rfl
      have hk : k ≤ num.length := by
        rw [hnum, e4]
        simp only [List.length_append]
        omega
      have ht1 : 0 < t1.length := List.length_pos.mpr e2
      have hdrop : num.drop k = t2 := by
        rw [hnum, e4, ← hlen, ← List.length_append, List.drop_left']
        rfl
      have hdrop2 : t2 = (num.drop i).drop (k - i) := by
        rw [e1, e4]
        simp
      obtain ⟨n, hn, _, hC⟩ := h.rev.lists q hq0
      have hlist := phfwdReverseList_spec h.shapeF num k hk _ 0 n.listNode m.brk r hC
        (fun e he => (h.rev.entry e (List.mem_filter.mp he).1).1) (filter_length_lt h.rev _)
      rw [revCands_some (fwOf g.reg) (num.drop i) p i q k t2 (by rw [fwOf_dsts]; exact hfo.symm)
        hdrop2, addAll_append, fwOf_filter_map, ← hdrop]
      simp only [phfwdReverseLoop, hq0, if_false, getListNode, hn, Option.map_some', hlist]
      cases hadd : addAll r ((g.reg.filter (fun e => decide (e.dst = q))).map
          (fun e => e.src ++ num.drop k)) with
      | none => simp [addAll_none]
      | some r1 =>
        simp only
        rw [trieFindNextNonEmpty_spec h.rev.shape (occupiedR h.rev) q hq0 num k hd]
        have := ih q k (some r1) _ hq0 hqk hk (by omega) rfl
        cases hfo2 : findOcc (g.reg.map Entry.dst) q (num.drop k) k with
        | none =>
          rw [hfo2] at this
          exact this
        | some qk2 =>
          rw [hfo2] at this
          exact this

theorem phfwdReverse_spec {m : Mem} {pf : PhoneForward} {g : Ghost} (h : Inv m pf g)
    (x : List Char) (hx : ValidNum x) :
    phfwdReverse m (some pf) (some x) = absReverse (fwOf g.reg) x := by
  have hc : isCorrect (some x) = true := (isCorrect_some x).mpr hx
  have hr : g.rA [] ≠ 0 := by rw [h.rev.shape.root_eq]; exact h.rev.shape.root_ne
  have hloop := phfwdReverseLoop_spec h.toCore x hx.2 (x.length + 1) [] 0
    (phnumSafeAdd phnumNew (some x)) _ hr (by simp) (by omega) (by omega) rfl
  have hfind := trieFindNextNonEmpty_spec h.rev.shape (occupiedR h.rev) [] hr x 0 hx.2
  rw [h.rev.shape.root_eq] at hfind
  simp only [List.drop_zero] at hloop hfind
  simp only [phfwdReverse, hc, Bool.not_true, Bool.false_eq_true, if_false, absReverse, hfind]
  rw [phnumSafeAdd_new] at hloop ⊢
  simp only
  cases hfo : findOcc (g.reg.map Entry.dst) [] x 0 with
  | none =>
    rw [hfo] at hloop
    simp only [hloop]
    cases addAll (some ⟨[x], 1⟩) (revCands (fwOf g.reg) [] x) <;> rfl
  | some qk =>
    rw [hfo] at hloop
    simp only [hloop]
    cases addAll (some ⟨[x], 1⟩) (revCands (fwOf g.reg) [] x) <;> rfl

theorem fwOf_filter_filter_map (reg : List Entry) (q t : List Char) (f : List Char → Bool) :
    (((fwOf reg).filter (fun e => decide (e.2 = q))).filter (fun e => f e.1)).map
        (fun e => e.1 ++ t) =
      ((reg.filter (fun e => decide (e.dst = q))).filter (fun e => f e.src)).map
        (fun e => e.src ++ t) := by
  induction reg with
  | nil => rfl
  | cons e reg ih =>
    simp only [fwOf, List.map_cons, List.filter_cons] at ih ⊢
    by_cases h : e.dst = q
    · simp only [h, decide_True, if_true, List.filter_cons]
      by_cases h2 : f e.src = true
      · simp only [h2, if_true, List.map_cons]
        rw [ih]
      · simp only [h2, Bool.false_eq_true, if_false]
        exact ih
    · simp only [h, decide_False, Bool.false_eq_true, if_false]
      exact ih

theorem phfwdGetReverseList_spec {m : Mem} {pf : PhoneForward} {g : Ghost} (h : Core m pf g)
    (num : List Char) (hd : ∀ c ∈ num, isPhNumDigit (c.toNat : Int) = true) (i : Nat)
    (hi : i ≤ num.length) :
    ∀ (l : List Entry) (prev head fuel : Nat) (r : Option PhoneNumbers),
      Chain m g.fA prev l head → (∀ e ∈ l, g.fA e.src ≠ 0) → l.length < fuel →
      phfwdGetReverseList m num i fuel head r =
        some (addAll r ((l.filter (fun e =>
          (findOcc (g.reg.map Entry.src) e.src (num.drop i) 0).isNone)).map
            (fun e => e.src ++ num.drop i))) := by
  intro l
  induction l with
  | nil =>
    intro prev head fuel r hC _ _
    have : head = 0 := hC
    subst this
    cases fuel <;> simp [phfwdGetReverseList, addAll]
  | cons e rest ih =>
    intro prev head fuel r hC hsrc hf
    obtain ⟨f, rfl⟩ : ∃ f, fuel = f + 1 := ⟨fuel - 1, by simp at hf; omega⟩
    obtain ⟨a, b, nx, c, d⟩ := hC
    subst a
    have he0 := hsrc e (List.mem_cons_self _ _)
    have hrec := fun r1 => ih e.cell nx f r1 d (fun x hx => hsrc x (List.mem_cons_of_mem _ hx))
      (by simp at hf; omega)
    simp only [phfwdGetReverseList, b, if_false, getKey, c, Option.map_some', getNext,
      trieFindNextNonEmpty_spec h.shapeF (occupiedF h) e.src he0 num i hd, List.filter_cons]
    rw [findOcc_index _ _ _ 0 i]
    cases hfo : findOcc (g.reg.map Entry.src) e.src (num.drop i) i with
    | none =>
      simp only [if_true, changePrefix_spec h.shapeF e.src he0 num i hi, Option.isNone_none,
        List.map_cons, addAll_cons]
      cases hadd : phnumSafeAdd r (some (e.src ++ num.drop i)) with
      | none => simp [addAll_none]
      | some r1 =>
        simp only
        exact hrec (some r1)
    | some qk =>
      obtain ⟨q, k⟩ := qk
      obtain ⟨_, _, _, _, _, _, e5, _, _⟩ := findOcc_some _ _ _ _ _ _ hfo
      have hq0 : g.fA q ≠ 0 := (occupiedF h).2 q e5
      simp only [hq0, if_false, Option.isNone_some, Bool.false_eq_true]
      cases r with
      | none => simp [addAll_none]
      | some r0 =>
        simp only
        exact hrec (some r0)

theorem getRevCands_none (fw : List (List Char × List Char)) (rest : List Char) :
    ∀ (base : List Char) (i : Nat), findOcc (fw.map (fun e => e.2)) base rest i = none →
      getRevCands fw base rest = [] := by
  induction rest with
  | nil => intro _ _ _; rfl
  | cons c rest ih =>
    intro base i h
    by_cases hk : base ++ [c] ∈ fw.map (fun e => e.2)
    · simp [findOcc, hk] at h
    · simp only [findOcc, hk, if_false] at h
      have : fw.filter (fun e => decide (e.2 = base ++ [c])) = [] := by
        rw [List.filter_eq_nil_iff]
        intro e he
        simp only [decide_eq_true_eq]
        intro e2
        exact hk (List.mem_map.mpr ⟨e, he, e2⟩)
      simp only [getRevCands, this, List.filter_nil, List.map_nil, List.nil_append]
      exact ih _ _ h

theorem getRevCands_some (fw : List (List Char × List Char)) (rest : List Char) :
    ∀ (base : List Char) (i : Nat) (q : List Char) (k : Nat) (t2 : List Char),
      findOcc (fw.map (fun e => e.2)) base rest i = some (q, k) →
      t2 = rest.drop (k - i) →
      getRevCands fw base rest =
        ((fw.filter (fun e => decide (e.2 = q))).filter
          (fun e => (findOcc (fw.map (fun e => e.1)) e.1 t2 0).isNone)).map
            (fun e => e.1 ++ t2) ++ getRevCands fw q t2 := by
  induction rest with
  | nil => intro _ _ _ _ _ h; cases h
  | cons c rest ih =>
    intro base i q k t2 h ht2
    by_cases hk : base ++ [c] ∈ fw.map (fun e => e.2)
    · simp only [findOcc, hk, if_true, Option.some.injEq, Prod.mk.injEq] at h
      obtain ⟨rfl, rfl⟩ := h
      have : t2 = rest := by simpa using ht2
      subst this
      simp [getRevCands]
    · simp only [findOcc, hk, if_false] at h
      obtain ⟨t1, t2', e1, e2, e3, e4, _⟩ := findOcc_some _ _ _ _ _ _ h
      have : fw.filter (fun e => decide (e.2 = base ++ [c])) = [] := by
        rw [List.filter_eq_nil_iff]
        intro e he
        simp only [decide_eq_true_eq]
        intro e2
        exact hk (List.mem_map.mpr ⟨e, he, e2⟩)
      simp only [getRevCands, this, List.filter_nil, List.map_nil, List.nil_append]
      apply ih _ _ _ _ _ h
      rw [ht2]
      have : k - i = (k - (i + 1)) + 1 := by omega
      rw [this, List.drop_succ_cons]

theorem phfwdGetReverseLoop_spec {m : Mem} {pf : PhoneForward} {g : Ghost} (h : Core m pf g)
    (num : List Char) (hd : ∀ c ∈ num, isPhNumDigit (c.toNat : Int) = true) (fuel : Nat) :
    ∀ (p : List Char) (i : Nat) (r : Option PhoneNumbers)
      (fo : Option (List Char × Nat)), g.rA p ≠ 0 → p = num.take i → i ≤ num.length →
      num.length < fuel + i → fo = findOcc (g.reg.map Entry.dst) p (num.drop i) i →
      phfwdGetReverseLoop m num fuel
          (match fo with
            | none => 0
            | some (q, _) => g.rA q)
          (match fo with
            | none => i
            | some (_, k) => k) r =
        some (addAll r (getRevCands (fwOf g.reg) p (num.drop i))) := by
  induction fuel with
  | zero => intro p i _ _ _ _ h1 h2 _; omega
  | succ f ih =>
    intro p i r fo hp hpi hi hf hfo
    have hlen : p.length = i := by rw [hpi, List.length_take]; omega
    cases fo with
    | none =>
      have := getRevCands_none (fwOf g.reg) (num.drop i) p i (by rw [fwOf_dsts]; exact hfo.symm)
      simp [phfwdGetReverseLoop, this, addAll]
    | some qk =>
      obtain ⟨q, k⟩ := qk
      obtain ⟨t1, t2, e1, e2, e3, e4, e5, _, _⟩ := findOcc_some _ _ _ _ _ _ hfo.symm
      have hq0 : g.rA q ≠ 0 := (occupiedR h.rev).2 q e5
      have hnum : num = p ++ t1 ++ t2 := by
        rw [List.append_assoc, ← e1, hpi, List.take_append_drop]
      have hqk : q = num.take k := by
        rw [e3, hnum, e4, ← hlen, ← List.length_append, List.take_left']
        rfl
      have hk : k ≤ num.length := by
        rw [hnum, e4]
        simp only [List.length_append]
        omega
      have ht1 : 0 < t1.length := List.length_pos.mpr e2
      have hdrop : num.drop k = t2 := by
        rw [hnum, e4, ← hlen, ← List.length_append, List.drop_left']
        rfl
      have hdrop2 : t2 = (num.drop i).drop (k - i) := by
        rw [e1, e4]
        simp
      obtain ⟨n, hn, _, hC⟩ := h.rev.lists q hq0
      have hlist := phfwdGetReverseList_spec h num hd k hk _ 0 n.listNode m.brk r hC
        (fun e he => (h.rev.entry e (List.mem_filter.mp he).1).1) (filter_length_lt h.rev _)
      rw [getRevCands_some (fwOf g.reg) (num.drop i) p i q k t2
        (by rw [fwOf_dsts]; exact hfo.symm) hdrop2, addAll_append, fwOf_srcs,
        fwOf_filter_filter_map g.reg q t2
          (fun s => (findOcc (g.reg.map Entry.src) s t2 0).isNone), ← hdrop]
      simp only [phfwdGetReverseLoop, hq0, if_false, getListNode, hn, Option.map_some', hlist]
      cases hadd : addAll r (((g.reg.filter (fun e => decide (e.dst = q))).filter
          (fun e => (findOcc (g.reg.map Entry.src) e.src (num.drop k) 0).isNone)).map
          (fun e => e.src ++ num.drop k)) with
      | none => simp [addAll_none]
      | some r1 =>
        simp only
        rw [trieFindNextNonEmpty_spec h.rev.shape (occupiedR h.rev) q hq0 num k hd]
        have := ih q k (some r1) _ hq0 hqk hk (by omega) rfl
        cases hfo2 : findOcc (g.reg.map Entry.dst) q (num.drop k) k with
        | none =>
          rw [hfo2] at this
          exact this
        | some qk2 =>
          rw [hfo2] at this
          exact this

theorem phfwdGetReverse_spec {m : Mem} {pf : PhoneForward} {g : Ghost} (h : Inv m pf g)
    (x : List Char) (hx : ValidNum x) :
    phfwdGetReverse m (some pf) (some x) = absGetReverse (fwOf g.reg) x := by
  have hc : isCorrect (some x) = true := (isCorrect_some x).mpr hx
  have hr : g.rA [] ≠ 0 := by rw [h.rev.shape.root_eq]; exact h.rev.shape.root_ne
  have hrF : g.fA [] ≠ 0 := by rw [h.shapeF.root_eq]; exact h.shapeF.root_ne
  have hfindF := trieFindNextNonEmpty_spec h.shapeF (occupiedF h.toCore) [] hrF x 0 hx.2
  rw [h.shapeF.root_eq] at hfindF
  have hfind := trieFindNextNonEmpty_spec h.rev.shape (occupiedR h.rev) [] hr x 0 hx.2
  rw [h.rev.shape.root_eq] at hfind
  simp only [List.drop_zero] at hfind hfindF
  have hnew : phnumSafeAdd (some ⟨[], 0⟩) (some x) = some ⟨[x], 1⟩ := phnumSafeAdd_new x
  have hloop := fun seeded => phfwdGetReverseLoop_spec h.toCore x hx.2 (x.length + 1) [] 0
    seeded _ hr (by simp) (by omega) (by omega) rfl
  simp only [List.drop_zero] at hloop
  simp only [phfwdGetReverse, hc, Bool.not_true, Bool.false_eq_true, if_false, absGetReverse,
    hfind, hfindF, phnumNew_eq, fwOf_srcs]
  cases hfoF : findOcc (g.reg.map Entry.src) [] x 0 with
  | none =>
    simp only [if_true, hnew, Option.isNone_none]
    cases hfoR : findOcc (g.reg.map Entry.dst) [] x 0 with
    | none =>
      simp only [hfoR] at hloop
      simp only [hloop]
      cases addAll (some ⟨[x], 1⟩) (getRevCands (fwOf g.reg) [] x) <;> rfl
    | some qk =>
      simp only [hfoR] at hloop
      simp only [hloop]
      cases addAll (some ⟨[x], 1⟩) (getRevCands (fwOf g.reg) [] x) <;> rfl
  | some qk =>
    obtain ⟨q, k⟩ := qk
    obtain ⟨_, _, _, _, _, _, e5, _, _⟩ := findOcc_some _ _ _ _ _ _ hfoF
    have hq0 : g.fA q ≠ 0 := (occupiedF h.toCore).2 q e5
    simp only [hq0, if_false, Option.isNone_some, Bool.false_eq_true]
    cases hfoR : findOcc (g.reg.map Entry.dst) [] x 0 with
    | none =>
      simp only [hfoR] at hloop
      simp only [hloop]
      cases addAll (some ⟨[], 0⟩) (getRevCands (fwOf g.reg) [] x) <;> rfl
    | some qk =>
      simp only [hfoR] at hloop
      simp only [hloop]
      cases addAll (some ⟨[], 0⟩) (getRevCands (fwOf g.reg) [] x) <;> rfl

/-- The heap of a fresh index. -/
theorem fresh_eq : fresh = some ⟨((Mem.mk (fun _ => none) (fun _ => none) 3 []).setTrie 2
    ⟨0, 0, fun _ => 0, 0⟩ |>.setTrie 3 ⟨0, 0, fun _ => 0, 0⟩ |> fun m => { m with brk := 4 }),
    ⟨2, 3⟩⟩ := by
  simp [fresh, phfwdNew, trieNew, malloc, Mem.empty, Mem.setTrie]

theorem shape_single (m : Mem) (r : Nat) (hr : r ≠ 0) (hb : r < m.brk)
    (hn : m.trie r = some ⟨0, 0, fun _ => 0, 0⟩) :
    Shape m r (fun q => if q = [] then r else 0) where
  root_eq := by simp
  root_ne := hr
  inj := by
    intro p q hp _
    by_cases h1 : p = []
    · by_cases h2 : q = []
      · rw [h1, h2]
      · simp [h1, h2, hr] at *
    · simp [h1] at hp
  lt_brk := by
    intro p
    by_cases h1 : p = []
    · simp [h1, hb]
    · simp only [h1, if_false]; omega
  closed := by
    intro p c h
    simp at h
  node := by
    intro p hp
    by_cases h1 : p = []
    · subst h1
      refine ⟨_, by simpa using hn, ?_⟩
      intro j _
      simp
    · simp [h1] at hp
  parent_root := by
    intro n h
    rw [hn] at h
    cases h
    rfl
  parent_snoc := by
    intro p c n h
    simp at h

/-- The fresh index satisfies the invariant, with no forwarding. -/
theorem fresh_inv : ∃ st fA rA, fresh = some st ∧ Inv st.mem st.pf ⟨fA, rA, []⟩ := by
  refine ⟨_, fun q => if q = [] then 2 else 0, fun q => if q = [] then 3 else 0, fresh_eq, ?_⟩
  have hF := shape_single (((Mem.mk (fun _ => none) (fun _ => none) 3 []).setTrie 2
    ⟨0, 0, fun _ => 0, 0⟩ |>.setTrie 3 ⟨0, 0, fun _ => 0, 0⟩ |> fun m => { m with brk := 4 }))
    2 (by decide) (by simp) (by simp [Mem.setTrie])
  have hR := shape_single (((Mem.mk (fun _ => none) (fun _ => none) 3 []).setTrie 2
    ⟨0, 0, fun _ => 0, 0⟩ |>.setTrie 3 ⟨0, 0, fun _ => 0, 0⟩ |> fun m => { m with brk := 4 }))
    3 (by decide) (by simp) (by simp [Mem.setTrie])
  refine ⟨⟨hF, ?_, ⟨hR, by simp, by simp, ?_⟩, ?_⟩, by simp, ?_, ?_, by simp⟩
  · intro p hp
    by_cases h1 : p = []
    · subst h1
      exact ⟨⟨0, 0, fun _ => 0, 0⟩, by simp [Mem.setTrie], by simp, by simp⟩
    · simp [h1] at hp
  · intro q hq
    by_cases h1 : q = []
    · subst h1
      exact ⟨⟨0, 0, fun _ => 0, 0⟩, by simp [Mem.setTrie], rfl, by simp [Chain]⟩
    · simp [h1] at hq
  · intro p q hp
    by_cases h1 : p = [] <;> by_cases h2 : q = [] <;> simp [h1, h2] at hp ⊢
  · intro p hp hp2
    simp [hp] at hp2
  · intro p hp hp2
    simp [hp] at hp2

/-! ### Trees of trie nodes -/

theorem labels_graft : ∀ (t s : GT), (graft t s).labels = t.labels ++ s.labels := by
  intro t s
  induction t with
  | nil => simp [graft, GT.labels]
  | node p kids ih =>
    simp only [graft, GT.labels, List.flatMap_cons, List.flatMap_nil, if_true,
      List.append_nil, List.cons_append, List.append_assoc]
    simp [ih 0]

theorem lastD_graft : ∀ (t s : GT) (d : List Char),
    (graft t s).lastD d = s.lastD (t.lastD d) := by
  intro t
  induction t with
  | nil => intro s d; simp [graft, GT.lastD]
  | node p kids ih =>
    intro s d
    simp only [graft, GT.lastD, if_true]
    exact ih 0 s p

theorem addr_graft (A : List Char → Nat) (p : List Char) (kids : Nat → GT) (s : GT) :
    (graft (GT.node p kids) s).addr A = A p := rfl

theorem lastD_node (t : GT) (ht : t ≠ GT.nil) (d d2 : List Char) : t.lastD d = t.lastD d2 := by
  cases t with
  | nil => exact absurd rfl ht
  | node p kids => rfl

theorem mem_labels_node (p : List Char) (kids : Nat → GT) (q : List Char) :
    q ∈ (GT.node p kids).labels ↔ q = p ∨ ∃ j, j < 12 ∧ q ∈ (kids j).labels := by
  simp only [GT.labels, List.flatMap_cons, List.flatMap_nil, List.append_nil, List.mem_cons,
    List.mem_append]
  constructor
  · intro h
    rcases h with h | h
    · exact Or.inl h
    · right
      rcases h with h | h
      · rcases h with h | h | h | h | h | h | h | h | h | h | h
        exacts [⟨1, by omega, h⟩, ⟨2, by omega, h⟩, ⟨3, by omega, h⟩, ⟨4, by omega, h⟩,
          ⟨5, by omega, h⟩, ⟨6, by omega, h⟩, ⟨7, by omega, h⟩, ⟨8, by omega, h⟩,
          ⟨9, by omega, h⟩, ⟨10, by omega, h⟩, ⟨11, by omega, h⟩]
      · exact ⟨0, by omega, h⟩
  · intro h
    rcases h with h | ⟨j, hj, h⟩
    · exact Or.inl h
    · right
      interval_cases j
      · exact Or.inr h
      all_goals simp [h]

theorem lastD_mem : ∀ (t : GT) (d : List Char), t ≠ GT.nil → t.lastD d ∈ t.labels := by
  intro t
  induction t with
  | nil => intro d h; exact absurd rfl h
  | node p kids ih =>
    intro d _
    rw [mem_labels_node]
    simp only [GT.lastD]
    by_cases h0 : kids 0 = GT.nil
    · left
      rw [h0]
      rfl
    · right
      exact ⟨0, by omega, ih 0 p h0⟩

theorem PristineT.frameTree {m m1 : Mem} {A : List Char → Nat} : ∀ (t : GT),
    (∀ q ∈ t.labels, m1.trie (A q) = m.trie (A q)) → PristineT m A t → PristineT m1 A t := by
  intro t
  induction t with
  | nil => intro _ _; trivial
  | node p kids ih =>
    intro hf h
    obtain ⟨h1, ⟨n, hn, hc⟩, h3⟩ := h
    refine ⟨h1, ⟨n, ?_, hc⟩, ?_⟩
    · rw [hf p ((mem_labels_node _ _ _).mpr (Or.inl rfl))]
      exact hn
    · intro j hj
      exact ih j (fun q hq => hf q ((mem_labels_node _ _ _).mpr (Or.inr ⟨j, hj, hq⟩))) (h3 j hj)

theorem PristineT.ne {m : Mem} {A : List Char → Nat} : ∀ (t : GT), PristineT m A t →
    ∀ q ∈ t.labels, A q ≠ 0 := by
  intro t
  induction t with
  | nil => intro _ q hq; simp [GT.labels] at hq
  | node p kids ih =>
    intro h q hq
    obtain ⟨h1, _, h3⟩ := h
    rcases (mem_labels_node _ _ _).mp hq with rfl | ⟨j, hj, hq2⟩
    · exact h1
    · exact ih j (h3 j hj) q hq2

theorem labels_kid_length (p : List Char) (kids : Nat → GT) (j : Nat) (hj : j < 12) :
    (kids j).labels.length < (GT.node p kids).labels.length := by
  simp only [GT.labels, List.flatMap_cons, List.flatMap_nil, List.append_nil, List.length_cons,
    List.length_append]
  interval_cases j <;> omega

theorem descend_tree {m : Mem} {A : List Char → Nat} : ∀ (fuel : Nat) (p : List Char)
    (kids : Nat → GT), PristineT m A (GT.node p kids) →
    (GT.node p kids).labels.length ≤ fuel →
    descend m fuel (A p) = some (A ((kids 0).lastD p)) := by
  intro fuel
  induction fuel with
  | zero =>
    intro p kids _ hl
    simp [GT.labels] at hl
  | succ fuel ih =>
    intro p kids h hl
    obtain ⟨_, ⟨n, hn, hc⟩, h3⟩ := h
    have hk := labels_kid_length p kids 0 (by omega)
    simp only [descend, hn, hc 0 (by omega)]
    cases hk0 : kids 0 with
    | nil => simp [GT.addr, GT.lastD]
    | node q k2 =>
      have hp0 := h3 0 (by omega)
      rw [hk0] at hp0 hk
      have hq : A q ≠ 0 := hp0.1
      simp only [GT.addr, hq, ne_eq, not_false_eq_true, if_true, GT.lastD]
      exact ih q k2 hp0 (by omega)

theorem last_node {m : Mem} {A : List Char → Nat} : ∀ (t : GT) (d : List Char),
    PristineT m A t → t ≠ GT.nil →
    ∃ n, m.trie (A (t.lastD d)) = some n ∧ n.children 0 = 0 := by
  intro t
  induction t with
  | nil => intro d _ h; exact absurd rfl h
  | node p kids ih =>
    intro d h _
    obtain ⟨_, ⟨n, hn, hc⟩, h3⟩ := h
    simp only [GT.lastD]
    by_cases h0 : kids 0 = GT.nil
    · rw [h0]
      refine ⟨n, hn, ?_⟩
      rw [hc 0 (by omega), h0]
      rfl
    · exact ih 0 p (h3 0 (by omega)) h0

/-- After the slot `0` of a node is set to the root of a tree, the walk down
the slot-`0` chain ends at the last node of that tree. -/
theorem descend_after {m : Mem} {A : List Char → Nat} (fuel : Nat) (lbl : List Char)
    (c : TrieNode) (s : GT) (hc : m.trie (A lbl) = some c) (h0 : c.children 0 = s.addr A)
    (hs : PristineT m A s) (hl : s.labels.length + 1 ≤ fuel) :
    descend m fuel (A lbl) = some (A (s.lastD lbl)) := by
  obtain ⟨f, rfl⟩ : ∃ f, fuel = f + 1 := ⟨fuel - 1, by omega⟩
  simp only [descend, hc, h0]
  cases s with
  | nil => simp [GT.addr, GT.lastD]
  | node q k2 =>
    have hq : A q ≠ 0 := hs.1
    simp only [GT.addr, hq, ne_eq, not_false_eq_true, if_true, GT.lastD]
    exact descend_tree f q k2 hs (by omega)

theorem labels_eq (p : List Char) (kids : Nat → GT) : (GT.node p kids).labels =
    p :: [1, 2, 3, 4, 5, 6, 7, 8, 9, 10, 11, 0].flatMap (fun j => (kids j).labels) := by
  simp [GT.labels]

theorem mem_hang (kids : Nat → GT) (q : List Char) :
    q ∈ [1, 2, 3, 4, 5, 6, 7, 8, 9, 10, 11].flatMap (fun j => (kids j).labels) ↔
      ∃ j, 0 < j ∧ j < 12 ∧ q ∈ (kids j).labels := by
  rw [List.mem_flatMap]
  constructor
  · rintro ⟨j, hj, hq⟩
    simp only [List.mem_cons, List.mem_singleton, List.not_mem_nil, or_false] at hj
    exact ⟨j, by omega, by omega, hq⟩
  · rintro ⟨j, h1, h2, hq⟩
    refine ⟨j, ?_, hq⟩
    simp only [List.mem_cons, List.mem_singleton, List.not_mem_nil, or_false]
    omega

/-- Hanging the tree `s` below the last node of the slot-`0` chain of `t` is
one write to that node. -/
theorem graft_write {m : Mem} {A : List Char → Nat}
    (hinj : ∀ p q, A p ≠ 0 → A p = A q → p = q) : ∀ (t s : GT) (d : List Char),
    PristineT m A t → PristineT m A s → t ≠ GT.nil → (t.labels ++ s.labels).Nodup →
    ∃ n, m.trie (A (t.lastD d)) = some n ∧ n.children 0 = 0 ∧
      PristineT (m.setTrie (A (t.lastD d)) (setChild n 0 (s.addr A))) A (graft t s) := by
  intro t
  induction t with
  | nil => intro s d _ _ h; exact absurd rfl h
  | node p kids ih =>
    intro s d ht hs _ hnd
    obtain ⟨hp, ⟨n, hn, hc⟩, h3⟩ := ht
    have hne := PristineT.ne (GT.node p kids) ⟨hp, ⟨n, hn, hc⟩, h3⟩
    simp only [GT.labels, List.cons_append, List.nodup_cons, List.mem_append, not_or,
      List.append_assoc] at hnd
    obtain ⟨⟨hp1, hp2, hp3⟩, hnd2⟩ := hnd
    have hd1 := List.disjoint_of_nodup_append hnd2
    have hnd3 := (List.nodup_append.mp hnd2).2.1
    -- a node of a hanging subtree is not on the slot-0 side
    have hside : ∀ j, j < 12 → j ≠ 0 → ∀ q ∈ (kids j).labels, ∀ x,
        (x = p ∨ x ∈ (kids 0).labels ∨ x ∈ s.labels) → A q ≠ A x := by
      intro j hj hj0 q hq x hx e
      have hqh : q ∈ [1, 2, 3, 4, 5, 6, 7, 8, 9, 10, 11].flatMap (fun j => (kids j).labels) :=
        (mem_hang kids q).mpr ⟨j, by omega, hj, hq⟩
      have hq0 : A q ≠ 0 := hne q ((mem_labels_node _ _ _).mpr (Or.inr ⟨j, hj, hq⟩))
      have := hinj q x hq0 e
      subst this
      rcases hx with hx | hx | hx
      · exact hp1 (hx ▸ hqh)
      · exact hd1 hqh (List.mem_append_left _ hx)
      · exact hd1 hqh (List.mem_append_right _ hx)
    simp only [GT.lastD, graft]
    by_cases h0 : kids 0 = GT.nil
    · rw [h0]
      simp only [GT.lastD]
      refine ⟨n, hn, by rw [hc 0 (by omega), h0]; rfl, hp, ⟨setChild n 0 (s.addr A), by simp, ?_⟩,
        ?_⟩
      · intro j hj
        by_cases hj0 : j = 0
        · subst hj0
          simp [setChild, graft]
        · simp only [setChild, hj0, if_false]
          exact hc j hj
      · intro j hj
        by_cases hj0 : j = 0
        · subst hj0
          simp only [if_true, graft]
          apply PristineT.frameTree s _ hs
          intro q hq
          have : A q ≠ A p := by
            intro e
            have := hinj q p (PristineT.ne s hs q hq) e
            exact hp3 (this ▸ hq)
          simp [this]
        · simp only [hj0, if_false]
          apply PristineT.frameTree (kids j) _ (h3 j hj)
          intro q hq
          have := hside j hj hj0 q hq p (Or.inl rfl)
          simp [this]
    · have hnd0 : ((kids 0).labels ++ s.labels).Nodup := hnd3
      obtain ⟨n0, hn0, hz, hP⟩ := ih 0 s p (h3 0 (by omega)) hs h0 hnd0
      have hlast := lastD_mem (kids 0) p h0
      have hlast0 : A ((kids 0).lastD p) ≠ 0 :=
        hne _ ((mem_labels_node _ _ _).mpr (Or.inr ⟨0, by omega, hlast⟩))
      have hpl : A ((kids 0).lastD p) ≠ A p := by
        intro e
        have := hinj _ _ hlast0 e
        exact hp2 (this ▸ hlast)
      refine ⟨n0, hn0, hz, hp, ⟨n, by simp [Ne.symm hpl, hn], ?_⟩, ?_⟩
      · intro j hj
        by_cases hj0 : j = 0
        · subst hj0
          simp only [if_true]
          rw [hc 0 (by omega)]
          cases hk : kids 0 with
          | nil => exact absurd hk h0
          | node q k2 => rfl
        · simp only [hj0, if_false]
          exact hc j hj
      · intro j hj
        by_cases hj0 : j = 0
        · subst hj0
          simpa using hP
        · simp only [hj0, if_false]
          apply PristineT.frameTree (kids j) _ (h3 j hj)
          intro q hq
          have := hside j hj hj0 q hq _ (Or.inr (Or.inl hlast))
          simp [this]

/-- Distinct live nodes are fewer than the break. -/
theorem labels_length_lt {A : List Char → Nat} (hinj : ∀ p q, A p ≠ 0 → A p = A q → p = q)
    (b : Nat) (hlt : ∀ p, A p < b) (L : List (List Char)) (hnd : L.Nodup)
    (hne : ∀ q ∈ L, A q ≠ 0) : L.length + 1 ≤ b := by
  have hnd2 : (L.map A).Nodup := by
    rw [List.nodup_map_iff_inj_on hnd]
    intro x hx y _ e
    exact hinj x y (hne x hx) e
  have hsub : L.map A ⊆ List.range' 1 (b - 1) := by
    intro a ha
    obtain ⟨q, hq, rfl⟩ := List.mem_map.mp ha
    have := hne q hq
    have := hlt q
    simp only [List.mem_range'_1]
    omega
  have := (List.subperm_of_subset hnd2 hsub).length_le
  simp only [List.length_map, List.length_range'] at this
  have := hlt []
  omega

/-! ### The tree below a path -/

theorem build_labels (A : List Char → Nat) : ∀ (h : Nat) (p q : List Char),
    q ∈ (build A h p).labels → p <+: q ∧ A q ≠ 0 := by
  intro h
  induction h with
  | zero => intro p q hq; simp [build, GT.labels] at hq
  | succ h ih =>
    intro p q hq
    simp only [build] at hq
    split_ifs at hq with h0
    · simp [GT.labels] at hq
    · rcases (mem_labels_node _ _ _).mp hq with rfl | ⟨j, _, hq2⟩
      · exact ⟨List.prefix_refl _, h0⟩
      · obtain ⟨a, b⟩ := ih _ _ hq2
        exact ⟨(List.prefix_append _ _).trans a, b⟩

theorem build_nodup (A : List Char → Nat) : ∀ (h : Nat) (p : List Char),
    (build A h p).labels.Nodup := by
  intro h
  induction h with
  | zero => intro p; simp [build, GT.labels]
  | succ h ih =>
    intro p
    simp only [build]
    split_ifs with h0
    · simp [GT.labels]
    · rw [labels_eq, List.nodup_cons, List.nodup_flatMap]
      refine ⟨?_, fun j _ => ih _, ?_⟩
      · intro hp
        obtain ⟨j, _, hq⟩ := List.mem_flatMap.mp hp
        have := (build_labels A h _ _ hq).1.length_le
        simp at this
      · apply List.Nodup.pairwise_of_forall_ne (by decide)
        intro a ha b hb hab
        have ha2 : a < 12 := by
          simp only [List.mem_cons, List.mem_singleton, List.not_mem_nil, or_false] at ha
          omega
        have hb2 : b < 12 := by
          simp only [List.mem_cons, List.mem_singleton, List.not_mem_nil, or_false] at hb
          omega
        intro q hqa hqb
        have h1 := (build_labels A h _ _ hqa).1
        have h2 := (build_labels A h _ _ hqb).1
        have := List.prefix_of_prefix_length_le h1 h2 (by simp)
        have := List.IsPrefix.eq_of_length this (by simp)
        exact hab (digitToChar_inj a b ha2 hb2 (snoc_inj this).2)

theorem build_addr (A : List Char → Nat) (h : Nat) (q : List Char)
    (hb : ∀ x, A x ≠ 0 → q <+: x → x.length < q.length + h) : (build A h q).addr A = A q := by
  cases h with
  | zero =>
    by_cases h0 : A q = 0
    · simp [build, GT.addr, h0]
    · have := hb q h0 (List.prefix_refl _)
      omega
  | succ h =>
    simp only [build]
    split_ifs with h0
    · simp [GT.addr, h0]
    · rfl

theorem build_pristine {m : Mem} {root : Nat} {A : List Char → Nat} (hS : Shape m root A) :
    ∀ (h : Nat) (p : List Char), (∀ x, A x ≠ 0 → p <+: x → x.length < p.length + h) →
      PristineT m A (build A h p) := by
  intro h
  induction h with
  | zero => intro p _; simp [build, PristineT]
  | succ h ih =>
    intro p hb
    simp only [build]
    split_ifs with h0
    · trivial
    · have hb2 : ∀ j, ∀ x, A x ≠ 0 → p ++ [digitToChar j] <+: x →
          x.length < (p ++ [digitToChar j]).length + h := by
        intro j x hx hpx
        have := hb x hx ((List.prefix_append _ _).trans hpx)
        simp only [List.length_append, List.length_singleton]
        omega
      obtain ⟨n, hn, hc⟩ := hS.node p h0
      refine ⟨h0, ⟨n, hn, fun j hj => ?_⟩, fun j _ => ih _ (hb2 j)⟩
      rw [hc j hj, build_addr A h _ (hb2 j)]

theorem build_cover {m : Mem} {root : Nat} {A : List Char → Nat} (hS : Shape m root A) :
    ∀ (h : Nat) (p : List Char), (∀ x, A x ≠ 0 → p <+: x → x.length < p.length + h) →
      ∀ q, p <+: q → A q ≠ 0 → q ∈ (build A h p).labels := by
  intro h
  induction h with
  | zero =>
    intro p hb q hpq hq
    have := hb q hq hpq
    have := hpq.length_le
    omega
  | succ h ih =>
    intro p hb q hpq hq
    obtain ⟨t, rfl⟩ := hpq
    have h0 : A p ≠ 0 := hS.pre p t hq
    simp only [build, h0, if_false]
    rw [mem_labels_node]
    cases t with
    | nil => left; simp
    | cons c t =>
      right
      have hq2 : A ((p ++ [c]) ++ t) ≠ 0 := by simpa using hq
      have hpc := hS.pre _ _ hq2
      have hc := (hS.closed p c hpc).2
      refine ⟨charToDigit (c.toNat : Int), charToDigit_lt c hc, ?_⟩
      rw [digitToChar_charToDigit c hc]
      apply ih (p ++ [c])
      · intro x hx hpx
        have := hb x hx ((List.prefix_append _ _).trans hpx)
        simp only [List.length_append, List.length_singleton]
        omega
      · exact ⟨t, by simp⟩
      · exact hq

/-- One round of the `for` loop of `trieDelete`: the subtree `s` of the root
`p` is hung below the last node of the slot-`0` chain. -/
theorem root_write {m : Mem} {A : List Char → Nat}
    (hinj : ∀ p q, A p ≠ 0 → A p = A q → p = q) (hlt : ∀ q, A q < m.brk) (p : List Char)
    (_hp : A p ≠ 0) (n : TrieNode) (hn : m.trie (A p) = some n) (G s : GT)
    (h0 : n.children 0 = G.addr A) (hG : PristineT m A G) (hs : PristineT m A s)
    (hnd : (p :: (G.labels ++ s.labels)).Nodup) :
    ∃ c, m.trie (A (G.lastD p)) = some c ∧
      (∃ n1, (m.setTrie (A (G.lastD p)) (setChild c 0 (s.addr A))).trie (A p) = some n1 ∧
        n1.children 0 = (graft G s).addr A ∧ ∀ j, j ≠ 0 → n1.children j = n.children j) ∧
      PristineT (m.setTrie (A (G.lastD p)) (setChild c 0 (s.addr A))) A (graft G s) ∧
      descend (m.setTrie (A (G.lastD p)) (setChild c 0 (s.addr A))) m.brk (A (G.lastD p)) =
        some (A ((graft G s).lastD p)) ∧
      (∃ x ∈ p :: G.labels, A (G.lastD p) = A x) := by
  simp only [List.nodup_cons, List.mem_append, not_or] at hnd
  obtain ⟨⟨hp1, hp2⟩, hnd2⟩ := hnd
  have hsl : s.labels.length + 1 ≤ m.brk :=
    labels_length_lt hinj m.brk hlt s.labels (List.Nodup.of_append_right hnd2)
      (PristineT.ne s hs)
  have hsp : ∀ q ∈ s.labels, A q ≠ A p := by
    intro q hq e
    have := hinj q p (PristineT.ne s hs q hq) e
    exact hp2 (this ▸ hq)
  cases hGc : G with
  | nil =>
    simp only [GT.lastD, graft]
    rw [hGc] at h0
    have hs1 : PristineT (m.setTrie (A p) (setChild n 0 (s.addr A))) A s := by
      apply PristineT.frameTree s _ hs
      intro q hq
      simp [hsp q hq]
    refine ⟨n, hn, ⟨setChild n 0 (s.addr A), by simp, by simp [setChild], ?_⟩, hs1, ?_,
      ⟨p, by simp, rfl⟩⟩
    · intro j hj
      simp [setChild, hj]
    · exact descend_after m.brk p (setChild n 0 (s.addr A)) s (by simp) (by simp [setChild])
        hs1 hsl
  | node q k2 =>
    have hne : GT.node q k2 ≠ GT.nil := by simp
    rw [hGc] at hG hnd2 hp1 h0
    obtain ⟨c, hc, _, hP⟩ := graft_write hinj (GT.node q k2) s p hG hs hne hnd2
    have hlast := lastD_mem (GT.node q k2) p hne
    have hlast0 := PristineT.ne _ hG _ hlast
    have hpl : A ((GT.node q k2).lastD p) ≠ A p := by
      intro e
      have := hinj _ _ hlast0 e
      exact hp1 (this ▸ hlast)
    have hs1 : PristineT (m.setTrie (A ((GT.node q k2).lastD p)) (setChild c 0 (s.addr A))) A
        s := by
      apply PristineT.frameTree s _ hs
      intro x hx
      have : A x ≠ A ((GT.node q k2).lastD p) := by
        intro e
        have := hinj _ _ (PristineT.ne s hs x hx) e
        exact List.disjoint_of_nodup_append hnd2 hlast (this ▸ hx)
      simp [this]
    refine ⟨c, hc, ⟨n, by simp [Ne.symm hpl, hn], ?_, fun _ _ => rfl⟩, hP, ?_,
      ⟨_, List.mem_cons_of_mem _ hlast, rfl⟩⟩
    · rw [h0]
      rfl
    · rw [lastD_graft]
      exact descend_after m.brk _ (setChild c 0 (s.addr A)) s (by simp) (by simp [setChild])
        hs1 hsl

/-- The `for` loop of `trieDelete` hangs the subtrees of the root, one after
the other, below the slot-`0` chain. -/
theorem trieDeleteFor_spec {A : List Char → Nat} (hinj : ∀ p q, A p ≠ 0 → A p = A q → p = q)
    (p : List Char) (hp : A p ≠ 0) (kids : Nat → GT) : ∀ (is : List Nat) (m : Mem) (G : GT),
    (∀ q, A q < m.brk) →
    (∃ n, m.trie (A p) = some n ∧ n.children 0 = G.addr A ∧
      ∀ j ∈ is, n.children j = (kids j).addr A) →
    PristineT m A G → (∀ j ∈ is, PristineT m A (kids j)) →
    (p :: (G.labels ++ is.flatMap (fun j => (kids j).labels))).Nodup → 0 ∉ is →
    ∃ m1, trieDeleteFor (A p) is m (A (G.lastD p)) =
        some (m1, A ((is.foldl (fun G i => graft G (kids i)) G).lastD p)) ∧
      (∃ n1, m1.trie (A p) = some n1 ∧
        n1.children 0 = (is.foldl (fun G i => graft G (kids i)) G).addr A) ∧
      PristineT m1 A (is.foldl (fun G i => graft G (kids i)) G) ∧
      (∀ x, (∀ q ∈ p :: (G.labels ++ is.flatMap (fun j => (kids j).labels)), A q ≠ x) →
        m1.trie x = m.trie x) ∧
      (∀ x, (m1.trie x).map (fun n => (n.fwdNode, n.listNode)) =
        (m.trie x).map (fun n => (n.fwdNode, n.listNode))) ∧
      m1.list = m.list ∧ m1.brk = m.brk ∧ m1.oracle = m.oracle := by
  intro is
  induction is with
  | nil =>
    intro m G _ hr hG _ _ _
    obtain ⟨n, hn, h0, _⟩ := hr
    exact ⟨m, rfl, ⟨n, hn, h0⟩, hG, fun _ _ => rfl, fun _ => rfl, rfl, rfl, rfl⟩
  | cons i is ih =>
    intro m G hlt hr hG hk hnd hz
    obtain ⟨n, hn, h0, hch⟩ := hr
    simp only [List.flatMap_cons] at hnd
    have hnd1 : (p :: (G.labels ++ (kids i).labels)).Nodup := by
      rw [← List.append_assoc] at hnd
      have := List.Nodup.of_append_left (List.cons_append _ _ _ ▸ hnd)
      exact this
    obtain ⟨c, hc, ⟨n1, hn1, h10, h1j⟩, hP, hdesc, ⟨xl, hxl, hxe⟩⟩ :=
      root_write hinj hlt p hp n hn G (kids i) h0 hG (hk i (List.mem_cons_self _ _)) hnd1
    have hnd2 : (p :: ((graft G (kids i)).labels ++
        is.flatMap (fun j => (kids j).labels))).Nodup := by
      rw [labels_graft, List.append_assoc]
      exact hnd
    have hz2 : 0 ∉ is := fun h => hz (List.mem_cons_of_mem _ h)
    have hcur : ∀ j ∈ is, ∀ q ∈ (kids j).labels, A q ≠ A (G.lastD p) := by
      intro j hj q hq e
      rw [hxe] at e
      have hq0 := PristineT.ne _ (hk j (List.mem_cons_of_mem _ hj)) q hq
      have := hinj _ _ hq0 e
      subst this
      have hqf : q ∈ is.flatMap (fun j => (kids j).labels) := List.mem_flatMap.mpr ⟨j, hj, hq⟩
      simp only [List.nodup_cons, List.mem_append, not_or] at hnd
      rcases List.mem_cons.mp hxl with h | h
      · exact hnd.1.2.2 (h ▸ hqf)
      · have := List.disjoint_of_nodup_append hnd.2 h
        exact this (List.mem_append_right _ hqf)
    obtain ⟨m2, a1, a2, a3, a4, a5, a6, a7, a8⟩ := ih
      (m.setTrie (A (G.lastD p)) (setChild c 0 ((kids i).addr A))) (graft G (kids i))
      (by simpa using hlt)
      ⟨n1, hn1, h10, fun j hj => by
        rw [h1j j (fun e => hz2 (e ▸ hj))]
        exact hch j (List.mem_cons_of_mem _ hj)⟩
      hP
      (fun j hj => by
        apply PristineT.frameTree (kids j) _ (hk j (List.mem_cons_of_mem _ hj))
        intro q hq
        simp [hcur j hj q hq])
      hnd2 hz2
    refine ⟨m2, ?_, a2, a3, ?_, ?_, by rw [a6]; rfl, by rw [a7]; rfl, by rw [a8]; rfl⟩
    · have hdesc2 : descend (m.setTrie (A (G.lastD p)) (setChild c 0 (n.children i)))
          (m.setTrie (A (G.lastD p)) (setChild c 0 (n.children i))).brk (A (G.lastD p)) =
          some (A ((graft G (kids i)).lastD p)) := by
        rw [hch i (List.mem_cons_self _ _)]
        exact hdesc
      simp only [trieDeleteFor, hn, hc, hdesc2, List.foldl_cons]
      rw [hch i (List.mem_cons_self _ _)]
      exact a1
    · intro x hx
      rw [a4 x]
      · have : x ≠ A (G.lastD p) := by
          intro e
          rw [hxe] at e
          refine hx xl ?_ e.symm
          rcases List.mem_cons.mp hxl with h | h
          · rw [h]; exact List.mem_cons_self _ _
          · exact List.mem_cons_of_mem _ (List.mem_append_left _ h)
        simp [this]
      · intro q hq
        apply hx
        rw [labels_graft, List.append_assoc] at hq
        simpa [List.flatMap_cons] using hq
    · intro x
      rw [a5 x]
      by_cases hxc : x = A (G.lastD p)
      · subst hxc
        simp [hc, setChild]
      · simp [hxc]

/-- What `deleteFwdData` does to the node of the source `s`: the forwarding
of `s`, if there is one, leaves the source list of its target. -/
theorem detach_spec {m : Mem} {pf : PhoneForward} (fA rA : List Char → Nat)
    (reg : List Entry) (hR : RevOK m pf ⟨fA, rA, reg⟩)
    (hdead : ∀ q, q ≠ [] → rA q ≠ 0 → ∃ e ∈ reg, q <+: e.dst)
    (hsrcs : (reg.map Entry.src).Nodup) (s : List Char) (F : Nat) (nF : TrieNode)
    (hF : m.trie F = some nF)
    (hd1 : ∀ e ∈ reg, e.src = s → nF.fwdNode = rA e.dst ∧ nF.listNode = e.cell)
    (hd2 : (∀ e ∈ reg, e.src ≠ s) → nF.fwdNode = 0 ∧ nF.listNode = 0) :
    ∃ m4 rA4, deleteFwdData m F = some m4 ∧
      RevOK m4 pf ⟨fA, rA4, reg.filter (fun e => decide (e.src ≠ s))⟩ ∧
      (∀ q, q ≠ [] → rA4 q ≠ 0 →
        ∃ e ∈ reg.filter (fun e => decide (e.src ≠ s)), q <+: e.dst) ∧
      (∀ q, rA4 q ≠ 0 → rA4 q = rA q) ∧
      (∀ x, (∀ q, rA q ≠ 0 → rA q ≠ x) → m4.trie x = m.trie x) ∧
      m4.brk = m.brk ∧ m4.oracle = m.oracle ∧
      (∀ e ∈ reg, e.src = s → m4.list e.cell = none) ∧
      ∀ q, rA q ≠ 0 → rA4 q = 0 → m4.trie (rA q) = none := by
  by_cases hex : ∃ e ∈ reg, e.src = s
  · obtain ⟨e, he, hes⟩ := hex
    have hcells := hR.cells
    obtain ⟨m4, a1, a2, a3, a4, a5, a6, a7, a8⟩ := deleteFwdData_spec hR hdead F nF hF e
      he (hd1 e he hes).1 (hd1 e he hes).2
    have hreg : reg.filter (fun x => decide (x.cell ≠ e.cell)) =
        reg.filter (fun x => decide (x.src ≠ s)) := by
      apply List.filter_congr
      intro x hx
      by_cases hxs : x.src = s
      · have : x = e := List.inj_on_of_nodup_map hsrcs hx he (hxs.trans hes.symm)
        simp [this, hes]
      · have : x.cell ≠ e.cell := by
          intro e2
          have := cell_unique hcells hx he e2
          exact hxs (by rw [this, hes])
        simp [this, hxs]
    simp only [cutGhost, hreg] at a2 a3 a8
    refine ⟨m4, _, a1, a2, a3, ?_, a4, a5, a6, ?_, a8⟩
    · intro q hq
      simp only [pruned] at hq ⊢
      split_ifs at hq ⊢ with h1
      · rfl
      · exact absurd rfl hq
    · intro x hx hxs
      have : x = e := List.inj_on_of_nodup_map hsrcs hx he (hxs.trans hes.symm)
      rw [this]
      exact a7
  · have hnone : ∀ e ∈ reg, e.src ≠ s := fun e he hes => hex ⟨e, he, hes⟩
    have hreg : reg.filter (fun x => decide (x.src ≠ s)) = reg := by
      apply List.filter_eq_self.mpr
      intro x hx
      simpa using hnone x hx
    rw [hreg]
    exact ⟨m, rA, deleteFwdData_null m F nF hF (hd2 hnone).1, hR, hdead, fun _ _ => rfl,
      fun _ _ => rfl, rfl, rfl, fun e he hes => absurd hes (hnone e he),
      fun q hq hq0 => absurd hq0 hq⟩

theorem foldl_graft_labels (kids : Nat → GT) : ∀ (is : List Nat) (G : GT),
    (is.foldl (fun G i => graft G (kids i)) G).labels =
      G.labels ++ is.flatMap (fun j => (kids j).labels) := by
  intro is
  induction is with
  | nil => intro G; simp
  | cons i is ih =>
    intro G
    rw [List.foldl_cons, ih, labels_graft, List.flatMap_cons, List.append_assoc]

theorem delGhost_reg_step (P : List Char) (reg0 : List Entry) (L L1 : List (List Char))
    (p : List Char) (hpP : P <+: p) (hmem : ∀ q, q ∈ L1 ↔ q ∈ L ∧ q ≠ p) :
    reg0.filter (fun e => decide (¬ P <+: e.src ∨ e.src ∈ L1)) =
      (reg0.filter (fun e => decide (¬ P <+: e.src ∨ e.src ∈ L))).filter
        (fun e => decide (e.src ≠ p)) := by
  rw [List.filter_filter]
  apply List.filter_congr
  intro e _
  rw [Bool.eq_iff_iff]
  simp only [Bool.and_eq_true, decide_eq_true_eq, hmem]
  constructor
  · rintro (h | ⟨h1, h2⟩)
    · exact ⟨fun e2 => h (e2 ▸ hpP), Or.inl h⟩
    · exact ⟨h2, Or.inr h1⟩
  · rintro ⟨h1, h | h⟩
    · exact Or.inl h
    · exact Or.inr ⟨h, h1⟩

/-- One round of the outer loop of `trieDelete`: the root of the tree is
freed, its forwarding is removed, and its subtrees form the new tree. -/
theorem del_step {pf : PhoneForward} {P : List Char} {fA0 : List Char → Nat}
    {reg0 : List Entry} (hinj : ∀ p q, fA0 p ≠ 0 → fA0 p = fA0 q → p = q)
    (hsrcs : (reg0.map Entry.src).Nodup) (m : Mem) (rA : List Char → Nat) (p : List Char)
    (kids : Nat → GT) (hlt : ∀ q, fA0 q < m.brk)
    (h : DelInv m pf P fA0 reg0 rA (GT.node p kids)) :
    ∃ m1 n1 m2 rA2,
      trieDeleteFor (fA0 p) [1, 2, 3, 4, 5, 6, 7, 8, 9, 10, 11] m (fA0 ((kids 0).lastD p)) =
        some (m1, fA0 (([1, 2, 3, 4, 5, 6, 7, 8, 9, 10, 11].foldl
          (fun G i => graft G (kids i)) (kids 0)).lastD p)) ∧
      m1.trie (fA0 p) = some n1 ∧
      n1.children 0 = ([1, 2, 3, 4, 5, 6, 7, 8, 9, 10, 11].foldl
          (fun G i => graft G (kids i)) (kids 0)).addr fA0 ∧
      deleteFwdData m1 (fA0 p) = some m2 ∧
      DelInv (m2.freeTrie (fA0 p)) pf P fA0 reg0 rA2 ([1, 2, 3, 4, 5, 6, 7, 8, 9, 10, 11].foldl
          (fun G i => graft G (kids i)) (kids 0)) ∧
      m2.brk = m.brk ∧
      ([1, 2, 3, 4, 5, 6, 7, 8, 9, 10, 11].foldl
          (fun G i => graft G (kids i)) (kids 0)).labels.length + 1 =
        (GT.node p kids).labels.length ∧
      (∀ e ∈ reg0, e.src = p → m2.list e.cell = none) ∧
      (∀ q, rA q ≠ 0 → rA2 q = 0 → m2.trie (rA q) = none) ∧
      (∀ q, rA2 q ≠ 0 → rA2 q = rA q) := by
  obtain ⟨hp, ⟨n, hn, hc⟩, h3⟩ := h.pristine
  have hne := PristineT.ne _ h.pristine
  have hL : (GT.node p kids).labels = p :: ([1, 2, 3, 4, 5, 6, 7, 8, 9, 10, 11].flatMap
      (fun j => (kids j).labels) ++ (kids 0).labels) := rfl
  have hnd := h.nodup
  rw [hL, List.nodup_cons, List.mem_append, not_or] at hnd
  have hnd1 : (p :: ((kids 0).labels ++ [1, 2, 3, 4, 5, 6, 7, 8, 9, 10, 11].flatMap
      (fun j => (kids j).labels))).Nodup := by
    rw [List.nodup_cons, List.mem_append, not_or]
    exact ⟨⟨hnd.1.2, hnd.1.1⟩, List.nodup_append_comm.mp hnd.2⟩
  have hin : ∀ j ∈ [1, 2, 3, 4, 5, 6, 7, 8, 9, 10, 11], j < 12 := by
    intro j hj
    simp only [List.mem_cons, List.mem_singleton, List.not_mem_nil, or_false] at hj
    omega
  obtain ⟨m1, b1, ⟨n1, hn1, b2⟩, b3, b4, b5, b6, b7, b8⟩ := trieDeleteFor_spec hinj p hp kids
    [1, 2, 3, 4, 5, 6, 7, 8, 9, 10, 11] m (kids 0) hlt
    ⟨n, hn, hc 0 (by omega), fun j hj => hc j (hin j hj)⟩ (h3 0 (by omega))
    (fun j hj => h3 j (hin j hj)) hnd1 (by decide)
  have hG1 := foldl_graft_labels kids [1, 2, 3, 4, 5, 6, 7, 8, 9, 10, 11] (kids 0)
  generalize hG : [1, 2, 3, 4, 5, 6, 7, 8, 9, 10, 11].foldl
    (fun G i => graft G (kids i)) (kids 0) = G1 at *
  have hmem : ∀ q, q ∈ G1.labels ↔ q ∈ (GT.node p kids).labels ∧ q ≠ p := by
    intro q
    rw [hG1, hL]
    simp only [List.mem_append, List.mem_cons]
    constructor
    · rintro (hq | hq)
      · exact ⟨Or.inr (Or.inr hq), fun e => hnd.1.2 (e ▸ hq)⟩
      · exact ⟨Or.inr (Or.inl hq), fun e => hnd.1.1 (e ▸ hq)⟩
    · rintro ⟨hq | hq | hq, hqp⟩
      · exact absurd hq hqp
      · exact Or.inr hq
      · exact Or.inl hq
  have hpL : p ∈ (GT.node p kids).labels := by rw [hL]; exact List.mem_cons_self _ _
  have hpP : P <+: p := h.pend p hpL
  -- frames
  have hF1 : ∀ x, (∀ q ∈ (GT.node p kids).labels, fA0 q ≠ x) → m1.trie x = m.trie x := by
    intro x hx
    apply b4
    intro q hq
    apply hx
    rw [hL]
    simp only [List.mem_cons, List.mem_append] at hq ⊢
    tauto
  have hsepL : ∀ q ∈ (GT.node p kids).labels, ∀ x, fA0 q ≠ rA x :=
    fun q hq x => h.sep q x (hne q hq)
  -- the reverse side in `m1`
  have hR1 : RevOK m1 pf (delGhost P fA0 reg0 rA (GT.node p kids).labels) :=
    h.rev.frameRev (fun q _ => hF1 _ (fun x hx => hsepL x hx q)) b6 (le_of_eq b7.symm)
  have hgp : (delGhost P fA0 reg0 rA (GT.node p kids).labels).fA p = fA0 p := by
    simp [delGhost, hpL]
  obtain ⟨nd, hnd0, hd1, hd2⟩ := h.data p (by rw [hgp]; exact hp)
  rw [hgp, hn] at hnd0
  cases hnd0
  have hf1 := b5 (fA0 p)
  rw [hn1, hn] at hf1
  simp only [Option.map_some', Option.some.injEq, Prod.mk.injEq] at hf1
  have hsrcs1 : ((delGhost P fA0 reg0 rA (GT.node p kids).labels).reg.map Entry.src).Nodup :=
    hsrcs.sublist (List.Sublist.map _ (List.filter_sublist _))
  obtain ⟨m2, rA2, c1, c2, c3, c4, c5, c6, c7, c8, c9⟩ := detach_spec _ _ _ hR1 h.deadR hsrcs1 p
    (fA0 p) n1 hn1 (fun e he hes => by rw [hf1.1, hf1.2]; exact hd1 e he hes)
    (fun hx => by rw [hf1.1, hf1.2]; exact hd2 hx)
  have hreg := delGhost_reg_step P reg0 (GT.node p kids).labels G1.labels p hpP hmem
  have hsep2 : ∀ x q, fA0 x ≠ 0 → fA0 x ≠ rA2 q := by
    intro x q hx
    by_cases hq : rA2 q = 0
    · rw [hq]; exact hx
    · rw [c4 q hq]; exact h.sep x q hx
  -- a forward node other than `p` is where it was
  have hkeep : ∀ q, fA0 q ≠ 0 → q ≠ p →
      (m2.freeTrie (fA0 p)).trie (fA0 q) = m1.trie (fA0 q) := by
    intro q hq hqp
    have : fA0 q ≠ fA0 p := fun e => hqp (hinj q p hq e)
    simp only [freeTrie_trie, this, if_false]
    exact c5 _ (fun x _ e => h.sep q x hq e.symm)
  refine ⟨m1, n1, m2, rA2, b1, hn1, b2, c1, ⟨?_, ?_, ?_, ?_, ?_, ?_, ?_, hsep2⟩,
    by rw [c6, b7], ?_, ?_, c9, c4⟩
  · apply PristineT.frameTree G1 _ b3
    intro q hq
    obtain ⟨hq1, hq2⟩ := (hmem q).mp hq
    exact hkeep q (hne q hq1) hq2
  · rw [hG1]
    exact hnd1.of_cons
  · intro q hq
    exact h.pend q ((hmem q).mp hq).1
  · rcases h.shapeT with hP0 | hST
    · exact Or.inl hP0
    right
    apply hST.frame (by simp [c6, b7])
    intro q hq
    by_cases hPq : P <+: q
    · simp [hPq] at hq
    · simp only [hPq, if_false] at hq ⊢
      have hqp : q ≠ p := fun e => hPq (e ▸ hpP)
      rw [hkeep q hq hqp]
      apply hF1
      intro x hx e
      have := hinj x q (hne x hx) e
      exact hPq (this ▸ h.pend x hx)
  · intro q hq
    simp only [delGhost] at hq
    have hqp : q ≠ p := by
      intro e
      subst e
      have : q ∉ G1.labels := fun hq2 => ((hmem q).mp hq2).2 rfl
      simp [hpP, this] at hq
    have hq0 : fA0 q ≠ 0 := by
      split_ifs at hq
      · exact absurd rfl hq
      · exact hq
    have hqk : (delGhost P fA0 reg0 rA (GT.node p kids).labels).fA q ≠ 0 := by
      simp only [delGhost]
      rw [if_neg]
      · exact hq0
      · rintro ⟨h1, h2⟩
        have : q ∉ G1.labels := fun hx => h2 ((hmem q).mp hx).1
        simp [h1, this] at hq
    obtain ⟨nq, hnq, e1, e2⟩ := h.data q hqk
    have hgq : (delGhost P fA0 reg0 rA (GT.node p kids).labels).fA q = fA0 q := by
      simp only [delGhost] at hqk ⊢
      split_ifs at hqk ⊢
      · exact absurd rfl hqk
      · rfl
    rw [hgq] at hnq
    have hfq := b5 (fA0 q)
    rw [hnq] at hfq
    obtain ⟨nq1, hnq1, hfe⟩ := Option.map_eq_some'.mp hfq
    simp only [Prod.mk.injEq] at hfe
    have hgq1 : (delGhost P fA0 reg0 rA2 G1.labels).fA q = fA0 q := by
      simp only [delGhost] at hq ⊢
      split_ifs at hq ⊢
      · exact absurd rfl hq
      · rfl
    refine ⟨nq1, by rw [hgq1, hkeep q hq0 hqp]; exact hnq1, ?_, ?_⟩
    · intro e he hes
      have he' : e ∈ (delGhost P fA0 reg0 rA (GT.node p kids).labels).reg := by
        simp only [delGhost] at he ⊢
        rw [hreg] at he
        exact (List.mem_filter.mp he).1
      have he2 : e ∈ (delGhost P fA0 reg0 rA (GT.node p kids).labels).reg.filter
          (fun e => decide (e.src ≠ p)) := by
        simp only [delGhost] at he ⊢
        rw [hreg] at he
        exact he
      obtain ⟨x1, x2⟩ := e1 e he' hes
      have hr := (c2.entry e he2).2.1
      simp only at hr
      simp only [delGhost] at x1 ⊢
      rw [hfe.1, hfe.2, c4 _ hr]
      exact ⟨x1, x2⟩
    · intro hx
      rw [hfe.1, hfe.2]
      apply e2
      intro e he hes
      refine hx e ?_ hes
      simp only [delGhost] at he ⊢
      rw [hreg]
      exact List.mem_filter.mpr ⟨he, by simpa [hes] using hqp⟩
  · have hfe : ∀ e ∈ (delGhost P fA0 reg0 rA2 G1.labels).reg,
        (delGhost P fA0 reg0 rA2 G1.labels).fA e.src =
          (delGhost P fA0 reg0 rA (GT.node p kids).labels).fA e.src := by
      intro e he
      simp only [delGhost] at he ⊢
      rw [hreg] at he
      have hep : e.src ≠ p := by simpa using (List.mem_filter.mp he).2
      by_cases hPe : P <+: e.src
      · simp only [hPe, true_and, hmem, not_and, hep, ne_eq, not_false_eq_true, and_true]
      · simp [hPe]
    refine ⟨?_, ?_, ?_, ?_⟩
    · apply c2.shape.frame (by simp)
      intro q hq
      simp only [delGhost] at hq ⊢
      have : rA2 q ≠ fA0 p := fun e => hsep2 p q hp e.symm
      simp [this]
    · simp only [delGhost]
      rw [hreg]
      exact c2.cells
    · intro e he
      have he2 : e ∈ (delGhost P fA0 reg0 rA (GT.node p kids).labels).reg.filter
          (fun e => decide (e.src ≠ p)) := by
        simp only [delGhost] at he ⊢
        rw [hreg] at he
        exact he
      obtain ⟨x1, x2, x3⟩ := c2.entry e he2
      exact ⟨by rw [hfe e he]; exact x1, x2, by simpa using x3⟩
    · intro q hq
      obtain ⟨nq, hnq, x1, x2⟩ := c2.lists q hq
      have : rA2 q ≠ fA0 p := fun e => hsep2 p q hp e.symm
      refine ⟨nq, by simpa [delGhost, this] using hnq, x1, ?_⟩
      simp only [delGhost] at x2 ⊢
      rw [hreg]
      refine Chain.frameChain _ _ _ x2 (fun _ _ => rfl) ?_
      intro e he
      have he3 := (List.mem_filter.mp he).1
      have := hfe e (by simp only [delGhost]; rw [hreg]; exact he3)
      simpa [delGhost] using this
  · intro q hq hq2
    obtain ⟨e, he, hqe⟩ := c3 q hq hq2
    refine ⟨e, ?_, hqe⟩
    simp only [delGhost] at he ⊢
    rw [hreg]
    exact he
  · rw [hG1, hL]
    simp only [List.length_cons, List.length_append]
    omega
  · intro e he hes
    apply c8 e _ hes
    exact List.mem_filter.mpr ⟨he, by
      rw [hes]
      simp only [decide_eq_true_eq]
      exact Or.inr hpL⟩

/-- The outer loop of `trieDelete` frees every node of the tree. -/
theorem trieDeleteLoop_spec {pf : PhoneForward} {P : List Char} {fA0 : List Char → Nat}
    {reg0 : List Entry} (hinj : ∀ p q, fA0 p ≠ 0 → fA0 p = fA0 q → p = q)
    (hsrcs : (reg0.map Entry.src).Nodup) : ∀ (fuel : Nat) (T : GT) (m : Mem)
    (rA : List Char → Nat) (current : Nat), (∀ q, fA0 q < m.brk) → T.labels.length ≤ fuel →
    DelInv m pf P fA0 reg0 rA T →
    (T = GT.nil ∨ current = T.addr fA0 ∨ current = fA0 (T.lastD [])) →
    ∃ m1 rA1, trieDeleteLoop fuel m (T.addr fA0) current = some m1 ∧
      DelInv m1 pf P fA0 reg0 rA1 GT.nil ∧ m1.brk = m.brk := by
  intro fuel
  induction fuel with
  | zero =>
    intro T m rA current _ hl h _
    cases T with
    | nil => exact ⟨m, rA, by simp [trieDeleteLoop, GT.addr], h, rfl⟩
    | node p kids => simp [GT.labels] at hl
  | succ fuel ih =>
    intro T m rA current hlt hl h hcur
    cases T with
    | nil => exact ⟨m, rA, by simp [trieDeleteLoop, GT.addr], h, rfl⟩
    | node p kids =>
      have hp : fA0 p ≠ 0 := h.pristine.1
      have hlen := labels_length_lt hinj m.brk hlt _ h.nodup (PristineT.ne _ h.pristine)
      have hdesc : descend m m.brk current = some (fA0 ((kids 0).lastD p)) := by
        rcases hcur with hc | hc | hc
        · cases hc
        · rw [hc]
          exact descend_tree m.brk p kids h.pristine (by omega)
        · obtain ⟨n, hn, h0⟩ := last_node (GT.node p kids) [] h.pristine (by simp)
          rw [hc]
          obtain ⟨f, hf⟩ : ∃ f, m.brk = f + 1 := ⟨m.brk - 1, by omega⟩
          rw [hf]
          simp only [descend, hn, h0, ne_eq, not_true_eq_false, if_false]
          rfl
      obtain ⟨m1, n1, m2, rA2, a1, a2, a3, a4, a5, a6, a7, _⟩ :=
        del_step hinj hsrcs m rA p kids hlt h
      obtain ⟨m3, rA3, b1, b2, b3⟩ := ih _ (m2.freeTrie (fA0 p)) rA2
        (fA0 (([1, 2, 3, 4, 5, 6, 7, 8, 9, 10, 11].foldl
          (fun G i => graft G (kids i)) (kids 0)).lastD p))
        (by simpa [a6] using hlt) (by omega) a5 (by
          by_cases hG : [1, 2, 3, 4, 5, 6, 7, 8, 9, 10, 11].foldl
            (fun G i => graft G (kids i)) (kids 0) = GT.nil
          · exact Or.inl hG
          · right; right
            rw [lastD_node _ hG p []])
      refine ⟨m3, rA3, ?_, b2, by rw [b3]; simpa using a6⟩
      simp only [trieDeleteLoop, GT.addr, hp, if_false, hdesc, a1, a2, a4, a3]
      exact b1

/-- The function `trieDelete` on the subtree of the path `P`, detached from
its parent: all its nodes are freed and their forwardings removed. -/
theorem trieDelete_spec {pf : PhoneForward} {P : List Char} {fA0 : List Char → Nat}
    {reg0 : List Entry} (hinj : ∀ p q, fA0 p ≠ 0 → fA0 p = fA0 q → p = q)
    (hsrcs : (reg0.map Entry.src).Nodup) (T : GT) (m : Mem) (rA : List Char → Nat)
    (hlt : ∀ q, fA0 q < m.brk) (h : DelInv m pf P fA0 reg0 rA T) :
    ∃ m1 rA1, trieDelete m (T.addr fA0) = some m1 ∧
      DelInv m1 pf P fA0 reg0 rA1 GT.nil ∧ m1.brk = m.brk := by
  have hlen := labels_length_lt hinj m.brk hlt _ h.nodup (PristineT.ne _ h.pristine)
  exact trieDeleteLoop_spec hinj hsrcs m.brk T m rA (T.addr fA0) hlt (by omega) h
    (Or.inr (Or.inl rfl))

theorem clear_fold (par : TrieNode) (x d : Nat)
    (h : ∀ j, j < 12 → (par.children j = x ↔ j = d)) (n : Nat) (hn : n ≤ 12) :
    (List.range n).foldl (fun p i => if p.children i = x then setChild p i 0 else p) par =
      if d < n then setChild par d 0 else par := by
  induction n with
  | zero => simp
  | succ n ih =>
    rw [List.range_succ, List.foldl_append, ih (by omega)]
    simp only [List.foldl_cons, List.foldl_nil]
    by_cases hdn : d < n
    · have h1 : ¬ (setChild par d 0).children n = x := by
        have : n ≠ d := by omega
        simp only [setChild, this, if_false]
        rw [h n (by omega)]
        exact this
      simp [hdn, h1, Nat.lt_succ_of_lt hdn]
    · simp only [hdn, if_false]
      by_cases hnd : n = d
      · subst hnd
        have h1 : par.children n = x := (h n (by omega)).mpr rfl
        simp [h1]
      · have h1 : ¬ par.children n = x := fun e => hnd ((h n (by omega)).mp e)
        have h2 : ¬ d < n + 1 := by omega
        simp [h1, h2]

/-- Collecting the dead branch of the forward trie from the path `p`. -/
theorem core_pruneF {m : Mem} {pf : PhoneForward} {g : Ghost} (hC : Core m pf g)
    (p : List Char) (hp : g.fA p ≠ 0) (hD : DeadOnly g.fA (g.reg.map Entry.src) p) :
    ∃ m1, deleteDeadBranch m (g.fA p) = some m1 ∧
      Core m1 pf { g with fA := pruned g.fA (g.reg.map Entry.src) } ∧
      TriePrune m g.fA m1 (pruned g.fA (g.reg.map Entry.src)) := by
  obtain ⟨m1, a1, a2, a3⟩ := deleteDeadBranch_spec hC.shapeF (g.reg.map Entry.src)
    (occupiedF hC) p hp hD
  have hkey : ∀ e ∈ g.reg, pruned g.fA (g.reg.map Entry.src) e.src = g.fA e.src := by
    intro e he
    simp only [pruned]
    rw [if_pos]
    exact Or.inr ⟨e.src, List.mem_map.mpr ⟨e, he, rfl⟩, List.prefix_refl _⟩
  have hsub : ∀ q, pruned g.fA (g.reg.map Entry.src) q ≠ 0 →
      pruned g.fA (g.reg.map Entry.src) q = g.fA q := by
    intro q hq
    simp only [pruned] at hq ⊢
    split_ifs at hq ⊢
    · rfl
    · exact absurd rfl hq
  refine ⟨m1, a1, ⟨a2, ?_, ⟨?_, hC.rev.cells, ?_, ?_⟩, ?_⟩, a3⟩
  · intro q hq
    obtain ⟨n, n1, b1, b2, b3, b4⟩ := a3.fields q hq
    have hq2 : g.fA q ≠ 0 := by rw [← hsub q hq]; exact hq
    obtain ⟨n', c1, c2, c3⟩ := hC.data q hq2
    rw [b1] at c1
    cases c1
    refine ⟨n1, ?_, ?_, ?_⟩
    · show m1.trie (pruned g.fA (g.reg.map Entry.src) q) = some n1
      rw [hsub q hq]
      exact b2
    · intro e he hes
      rw [b3, b4]
      exact c2 e he hes
    · intro hx
      rw [b3, b4]
      exact c3 hx
  · apply hC.rev.shape.frame (le_of_eq a3.brk_eq.symm)
    intro q hq
    exact a3.other _ (fun x hx e => hC.sep x q hx e)
  · intro e he
    obtain ⟨x1, x2, x3⟩ := hC.rev.entry e he
    refine ⟨?_, x2, by rw [a3.brk_eq]; exact x3⟩
    show pruned g.fA (g.reg.map Entry.src) e.src ≠ 0
    rw [hkey e he]
    exact x1
  · intro q hq
    obtain ⟨n, hn, x1, x2⟩ := hC.rev.lists q hq
    refine ⟨n, ?_, x1, ?_⟩
    · show m1.trie (g.rA q) = some n
      rw [a3.other _ (fun x hx e => hC.sep x q hx e)]
      exact hn
    · refine Chain.frameChain _ _ _ x2 (fun _ _ => by rw [a3.list_eq]) ?_
      intro e he
      exact hkey e (List.mem_filter.mp he).1
  · intro x q hx
    have hx2 : pruned g.fA (g.reg.map Entry.src) x ≠ 0 := hx
    show pruned g.fA (g.reg.map Entry.src) x ≠ g.rA q
    rw [hsub x hx2]
    exact hC.sep x q (by rw [← hsub x hx2]; exact hx2)

/-- Collecting the dead branch of the forward trie from the path `p` restores
the invariant. -/
theorem inv_pruneF {m : Mem} {pf : PhoneForward} {g : Ghost} (hC : Core m pf g)
    (hsrcs : (g.reg.map Entry.src).Nodup)
    (hdeadR : ∀ q, q ≠ [] → g.rA q ≠ 0 → ∃ e ∈ g.reg, q <+: e.dst)
    (hsrc : ∀ e ∈ g.reg, e.src ≠ []) (p : List Char) (hp : g.fA p ≠ 0)
    (hD : DeadOnly g.fA (g.reg.map Entry.src) p) :
    ∃ m1, deleteDeadBranch m (g.fA p) = some m1 ∧
      Inv m1 pf { g with fA := pruned g.fA (g.reg.map Entry.src) } ∧ m1.brk = m.brk := by
  obtain ⟨m1, a1, a2, a3⟩ := core_pruneF hC p hp hD
  refine ⟨m1, a1, ⟨a2, hsrcs, ?_, hdeadR, hsrc⟩, a3.brk_eq⟩
  intro q hq hq2
  have hq3 : pruned g.fA (g.reg.map Entry.src) q ≠ 0 := hq2
  simp only [pruned] at hq3
  split_ifs at hq3 with h1
  · rcases h1 with h1 | ⟨k, hk, hqk⟩
    · exact absurd h1 hq
    · obtain ⟨e, he, rfl⟩ := List.mem_map.mp hk
      exact ⟨e, he, hqk⟩
  · exact absurd rfl hq3

/-- Collecting the dead branch of the reverse trie from the path `p`. -/
theorem core_pruneR {m : Mem} {pf : PhoneForward} {g : Ghost} (hC : Core m pf g)
    (p : List Char) (hp : g.rA p ≠ 0) (hD : DeadOnly g.rA (g.reg.map Entry.dst) p) :
    ∃ m1, deleteDeadBranch m (g.rA p) = some m1 ∧
      Core m1 pf { g with rA := pruned g.rA (g.reg.map Entry.dst) } ∧
      TriePrune m g.rA m1 (pruned g.rA (g.reg.map Entry.dst)) := by
  obtain ⟨m1, a1, a2, a3⟩ := deleteDeadBranch_spec hC.rev.shape (g.reg.map Entry.dst)
    (occupiedR hC.rev) p hp hD
  have hkey : ∀ e ∈ g.reg, pruned g.rA (g.reg.map Entry.dst) e.dst = g.rA e.dst := by
    intro e he
    simp only [pruned]
    rw [if_pos]
    exact Or.inr ⟨e.dst, List.mem_map.mpr ⟨e, he, rfl⟩, List.prefix_refl _⟩
  have hsub : ∀ q, pruned g.rA (g.reg.map Entry.dst) q ≠ 0 →
      pruned g.rA (g.reg.map Entry.dst) q = g.rA q := by
    intro q hq
    simp only [pruned] at hq ⊢
    split_ifs at hq ⊢
    · rfl
    · exact absurd rfl hq
  have hsame : ∀ q, g.fA q ≠ 0 → m1.trie (g.fA q) = m.trie (g.fA q) := fun q hq =>
    a3.other _ (fun x _ e => hC.sep q x hq e.symm)
  refine ⟨m1, a1, ⟨hC.shapeF.frame (le_of_eq a3.brk_eq.symm) hsame, ?_,
    ⟨a2, hC.rev.cells, ?_, ?_⟩, ?_⟩, a3⟩
  · intro q hq
    obtain ⟨n, hn, c2, c3⟩ := hC.data q hq
    refine ⟨n, by rw [hsame q hq]; exact hn, ?_, c3⟩
    intro e he hes
    show n.fwdNode = pruned g.rA (g.reg.map Entry.dst) e.dst ∧ _
    rw [hkey e he]
    exact c2 e he hes
  · intro e he
    obtain ⟨x1, x2, x3⟩ := hC.rev.entry e he
    refine ⟨x1, ?_, by rw [a3.brk_eq]; exact x3⟩
    show pruned g.rA (g.reg.map Entry.dst) e.dst ≠ 0
    rw [hkey e he]
    exact x2
  · intro q hq
    have hq1 : pruned g.rA (g.reg.map Entry.dst) q ≠ 0 := hq
    obtain ⟨n, n1, b1, b2, b3, b4⟩ := a3.fields q hq1
    have hq2 : g.rA q ≠ 0 := by rw [← hsub q hq1]; exact hq1
    obtain ⟨n', c1, c2, c3⟩ := hC.rev.lists q hq2
    rw [b1] at c1
    cases c1
    refine ⟨n1, ?_, by rw [b3]; exact c2, ?_⟩
    · show m1.trie (pruned g.rA (g.reg.map Entry.dst) q) = some n1
      rw [hsub q hq1]
      exact b2
    · rw [b4]
      exact Chain.frameChain _ _ _ c3 (fun _ _ => by rw [a3.list_eq]) (fun _ _ => rfl)
  · intro x q hx
    show g.fA x ≠ pruned g.rA (g.reg.map Entry.dst) q
    by_cases hq : pruned g.rA (g.reg.map Entry.dst) q = 0
    · rw [hq]
      exact hx
    · rw [hsub q hq]
      exact hC.sep x q hx

/-- The function `phfwdAdd` on two valid, different numbers under any
outcomes `u` of `malloc`: when no allocation fails it returns `true` and the
new forwarding replaces the one of its source; otherwise it returns `false`
and leaves the index as it was, with every node it made freed again. -/
theorem phfwdAdd_gen {m : Mem} {pf : PhoneForward} {g : Ghost} (h : Inv m pf g)
    (s1 s2 : List Char) (hv1 : ValidNum s1) (hv2 : ValidNum s2) (hne : s1 ≠ s2) :
    ∃ r m1 u, phfwdAdd m (some pf) (some s1) (some s2) = some (r, m1) ∧
      m.oracle = u ++ m1.oracle ∧ m.brk ≤ m1.brk ∧
      ((r = true ∧ false ∉ u ∧ ∃ g1 c, Inv m1 pf g1 ∧
          g1.reg = ⟨s1, s2, c⟩ :: g.reg.filter (fun e => decide (e.src ≠ s1))) ∨
        (r = false ∧ false ∈ u ∧ Inv m1 pf g ∧ m1.list = m.list ∧
          ∀ x, m.brk ≤ x → x < m1.brk → m1.trie x = none)) := by
  have hc1 : isCorrect (some s1) = true := (isCorrect_some s1).mpr hv1
  have hc2 : isCorrect (some s2) = true := (isCorrect_some s2).mpr hv2
  have hcmp : ¬ strcmp s1 s2 = 0 := fun e => hne ((strcmp_eq_zero s1 s2).mp e)
  have hdF : ∀ q, q ≠ [] → g.fA q ≠ 0 → ∃ k ∈ g.reg.map Entry.src, q <+: k := by
    intro q hq hq0
    obtain ⟨e, he, hpre⟩ := h.deadF q hq hq0
    exact ⟨e.src, List.mem_map_of_mem _ he, hpre⟩
  have hdR : ∀ q, q ≠ [] → g.rA q ≠ 0 → ∃ k ∈ g.reg.map Entry.dst, q <+: k := by
    intro q hq hq0
    obtain ⟨e, he, hpre⟩ := h.deadR q hq hq0
    exact ⟨e.dst, List.mem_map_of_mem _ he, hpre⟩
  have hb0 : m.brk ≠ 0 := by
    have := h.shapeF.lt_brk []
    omega
  obtain ⟨r1, m1, u1, a1, ho1, hres1⟩ :=
    trieAdd_spec h.shapeF _ (occupiedF h.toCore) hdF s1 hv1.2
  rcases hres1 with ⟨hu1, fA1, rfl, a2, hS1, E1⟩ | ⟨hu1, rfl, hS1, T1⟩
  swap
  · refine ⟨false, m1, u1, ?_, ho1, T1.brk_le, Or.inr ⟨rfl, hu1,
      ⟨core_sameF h.toCore hS1 T1, h.srcs, h.deadF, h.deadR, h.src_ne⟩, T1.list_eq, T1.freed⟩⟩
    simp only [phfwdAdd, hc1, hc2, hcmp, Bool.not_true, Bool.or_self, decide_False,
      Bool.false_eq_true, if_false, a1, if_true]
  have hC1 : Core m1 pf ⟨fA1, g.rA, g.reg⟩ := core_extF h.toCore hS1 E1
  obtain ⟨r2, m2, u2, b1, ho2, hres2⟩ :=
    trieAdd_spec hC1.rev.shape _ (occupiedR hC1.rev) hdR s2 hv2.2
  have hDF : DeadOnly fA1 (g.reg.map Entry.src) s1 := by
    intro q hq hq1
    by_cases hq0 : g.fA q = 0
    · exact Or.inr (E1.fresh q hq0 hq1).2.2.1
    · exact Or.inl (hdF q hq hq0)
  have hprF : pruned fA1 (g.reg.map Entry.src) = g.fA :=
    pruned_ext h.shapeF E1 _ (occupiedF h.toCore).2 hdF
  have hfreeF : ∀ (m' m'' : Mem), TriePrune m' fA1 m'' g.fA →
      ∀ x, m.brk ≤ x → x < m1.brk → m''.trie x = none := by
    intro m' m'' hP x hx1 hx2
    obtain ⟨q, hq⟩ := E1.alloc x (by omega) hx1 hx2
    have hq0 : g.fA q = 0 := by
      by_contra hne0
      have := h.shapeF.lt_brk q
      rw [← E1.keep q hne0, hq] at this
      omega
    rw [← hq]
    exact hP.freed q (by rw [hq]; omega) hq0
  rcases hres2 with ⟨hu2, rA2, rfl, b2, hS2, E2⟩ | ⟨hu2, rfl, hS2, T2⟩
  swap
  · have hC2 : Core m2 pf ⟨fA1, g.rA, g.reg⟩ := core_sameR hC1 hS2 T2
    obtain ⟨m3, d1, d2, d3⟩ := core_pruneF hC2 s1 a2 hDF
    simp only at d1 d2 d3
    rw [hprF] at d2 d3
    refine ⟨false, m3, u1 ++ u2, ?_, ?_, ?_, Or.inr ⟨rfl, List.mem_append_right _ hu2,
      ⟨d2, h.srcs, h.deadF, h.deadR, h.src_ne⟩, ?_, ?_⟩⟩
    · simp only [phfwdAdd, hc1, hc2, hcmp, Bool.not_true, Bool.or_self, decide_False,
        Bool.false_eq_true, if_false, a1, a2, b1, if_true, d1, Option.map_some']
    · rw [List.append_assoc, d3.oracle_eq, ← ho2]
      exact ho1
    · rw [d3.brk_eq]
      exact le_trans E1.brk_le T2.brk_le
    · rw [d3.list_eq, T2.list_eq, E1.list_eq]
    · intro x hx1 hx2
      rw [d3.brk_eq] at hx2
      by_cases hx : x < m1.brk
      · exact hfreeF _ _ d3 x hx1 hx
      · rw [d3.other x ?_]
        · exact T2.freed x (by omega) hx2
        · intro q _ e
          have := hS1.lt_brk q
          omega
  have hC2 : Core m2 pf ⟨fA1, rA2, g.reg⟩ := core_extR hC1 hS2 E2
  have hDR : DeadOnly rA2 (g.reg.map Entry.dst) s2 := by
    intro q hq hq1
    by_cases hq0 : g.rA q = 0
    · exact Or.inr (E2.fresh q hq0 hq1).2.2.1
    · exact Or.inl (hdR q hq hq0)
  have hprR : pruned rA2 (g.reg.map Entry.dst) = g.rA :=
    pruned_ext hC1.rev.shape E2 _ (occupiedR hC1.rev).2 hdR
  by_cases hl : m2.oracle.head? = some false
  · obtain ⟨nR, hnR, _, _⟩ := hC2.rev.lists s2 b2
    simp only at hnR
    have hC3 : Core { m2 with oracle := m2.oracle.tail } pf ⟨fA1, rA2, g.reg⟩ :=
      hC2.setOracle _
    have c1 : addToReverseFwdList m2 (rA2 s2) (fA1 s1) =
        some (false, { m2 with oracle := m2.oracle.tail }) := by
      simp only [addToReverseFwdList, hnR, listAdd_fail m2 hl]
      congr 2
      rcases m2 with ⟨t, l, b, o⟩
      simp only [Mem.setTrie]
      congr 1
      funext x
      split_ifs with hx
      · rw [hx]
        exact hnR.symm
      · rfl
    obtain ⟨m4, d1, d2, d3⟩ := core_pruneF hC3 s1 a2 hDF
    simp only at d1 d2 d3
    rw [hprF] at d2 d3
    obtain ⟨m5, e1, e2, e3⟩ := core_pruneR d2 s2 b2 hDR
    simp only at e1 e2 e3
    rw [hprR] at e2 e3
    refine ⟨false, m5, u1 ++ (u2 ++ m2.oracle.take 1), ?_, ?_, ?_, Or.inr ⟨rfl, ?_,
      ⟨e2, h.srcs, h.deadF, h.deadR, h.src_ne⟩, ?_, ?_⟩⟩
    · simp only [phfwdAdd, hc1, hc2, hcmp, Bool.not_true, Bool.or_self, decide_False,
        Bool.false_eq_true, if_false, a1, a2, b1, b2, c1, Bool.not_false, if_true, d1,
        Option.some_bind, e1, Option.map_some']
    · rw [ho1, ho2, e3.oracle_eq, d3.oracle_eq, List.append_assoc, List.append_assoc]
      congr 2
      exact oracle_split _
    · rw [e3.brk_eq, d3.brk_eq]
      exact le_trans E1.brk_le E2.brk_le
    · exact List.mem_append_right _ (List.mem_append_right _ (oracle_take_fail _ hl))
    · rw [e3.list_eq, d3.list_eq]
      show m2.list = m.list
      rw [E2.list_eq, E1.list_eq]
    · intro x hx1 hx2
      rw [e3.brk_eq, d3.brk_eq] at hx2
      have hx2' : x < m2.brk := hx2
      by_cases hx : x < m1.brk
      · rw [e3.other x ?_]
        · exact hfreeF _ _ d3 x hx1 hx
        · intro q hq e
          obtain ⟨p, hp⟩ := E1.alloc x (by omega) hx1 hx
          exact hC2.sep p q (show fA1 p ≠ 0 by rw [hp]; omega) (show fA1 p = rA2 q by rw [hp, e])
      · obtain ⟨q, hq⟩ := E2.alloc x (by omega) (by omega) hx2'
        have hq0 : g.rA q = 0 := by
          by_contra hne0
          have := hC1.rev.shape.lt_brk q
          simp only at this
          rw [← E2.keep q hne0, hq] at this
          omega
        rw [← hq]
        exact e3.freed q (by rw [hq]; omega) hq0
  obtain ⟨m3, c1, hR3, hfr3, hb3, ho3⟩ := core_listAdd hC2 hl s1 s2 a2 b2
  simp only at c1 hR3 hfr3
  have hsepR : ∀ p q, fA1 p ≠ 0 → rA2 q ≠ fA1 p := fun p q hp e => hC2.sep p q hp e.symm
  obtain ⟨nF, hnF, hdF1, hdF2⟩ := hC2.data s1 a2
  simp only at hnF hdF1 hdF2
  have hF3 : m3.trie (fA1 s1) = some nF := by
    rw [hfr3 _ (fun e => hsepR s1 s2 a2 e.symm)]
    exact hnF
  have hdead3 : ∀ q, q ≠ [] → rA2 q ≠ 0 → ∃ e ∈ (⟨s1, s2, m2.brk⟩ : Entry) :: g.reg,
      q <+: e.dst := by
    intro q hq hq0
    by_cases hq1 : g.rA q = 0
    · exact ⟨_, List.mem_cons_self _ _, (E2.fresh q hq1 hq0).2.2.1⟩
    · obtain ⟨e, he, hpre⟩ := h.deadR q hq hq1
      exact ⟨e, List.mem_cons_of_mem _ he, hpre⟩
  obtain ⟨m4, rA4, d1, hR4, hdead4, hkeep4, hfr4, hb4, ho4⟩ :=
    add_detach fA1 rA2 ⟨s1, s2, m2.brk⟩ g.reg hR3 hdead3 h.srcs (fA1 s1) nF hF3 hdF1 hdF2
  simp only at hR4 hdead4
  have hfwd4 : ∀ p, fA1 p ≠ 0 → m4.trie (fA1 p) = m2.trie (fA1 p) := by
    intro p hp
    rw [hfr4 _ (fun q _ => hsepR p q hp), hfr3 _ (fun e => hsepR p s2 hp e.symm)]
  have hF4 : m4.trie (fA1 s1) = some nF := by rw [hfwd4 s1 a2]; exact hnF
  have hnew4 := hR4.entry ⟨s1, s2, m2.brk⟩ (List.mem_cons_self _ _)
  simp only at hnew4
  have hR4eq : rA4 s2 = rA2 s2 := hkeep4 s2 hnew4.2.1
  have hFR : fA1 s1 ≠ rA2 s2 := fun e => hsepR s1 s2 a2 e.symm
  obtain ⟨nR4, hnR4, _, hCR4⟩ := hR4.lists s2 hnew4.2.1
  simp only [List.filter_cons, decide_True, if_true] at hCR4
  have hl4 : nR4.listNode = m2.brk := hCR4.1
  simp only [hR4eq] at hnR4
  generalize hm6 : (m4.setTrie (fA1 s1) { nF with fwdNode := rA2 s2 }).setTrie (fA1 s1)
    { nF with fwdNode := rA2 s2, listNode := m2.brk } = m6
  have h6 : ∀ x, m6.trie x =
      if x = fA1 s1 then some { nF with fwdNode := rA2 s2, listNode := m2.brk }
      else m4.trie x := by
    intro x
    subst hm6
    simp only [setTrie_trie]
    split_ifs <;> rfl
  have hl6 : m6.list = m4.list := by subst hm6; rfl
  have hb6 : m6.brk = m4.brk := by subst hm6; rfl
  have ho6 : m6.oracle = m4.oracle := by subst hm6; rfl
  refine ⟨true, m6, u1 ++ (u2 ++ m2.oracle.take 1), ?_, ?_, ?_, Or.inl ⟨rfl, ?_,
    ⟨fA1, rA4, ⟨s1, s2, m2.brk⟩ :: g.reg.filter (fun e => decide (e.src ≠ s1))⟩,
    m2.brk, ⟨⟨?_, ?_, ?_, ?_⟩, ?_, ?_, hdead4, ?_⟩, rfl⟩⟩
  · have hc1 : isCorrect (some s1) = true := (isCorrect_some s1).mpr hv1
    have hc2 : isCorrect (some s2) = true := (isCorrect_some s2).mpr hv2
    have hcmp : ¬ strcmp s1 s2 = 0 := fun e => hne ((strcmp_eq_zero s1 s2).mp e)
    simp only [phfwdAdd, hc1, hc2, hcmp, Bool.not_true, Bool.or_self, decide_False,
      Bool.false_eq_true, if_false, a1, a2, b1, b2, c1, d1, setFwdNode, hF4, Option.map_some',
      getListNode, setTrie_trie, hFR.symm, hnR4, hl4, setListNode, if_true]
    rw [hm6]
  · rw [ho1, ho2, ho6, ho4, ho3, List.append_assoc, List.append_assoc]
    congr 2
    exact oracle_split _
  · rw [hb6, hb4, hb3]
    have := E1.brk_le
    have := E2.brk_le
    omega
  · simp only [List.mem_append, not_or]
    exact ⟨hu1, hu2, oracle_take_ok _ hl⟩
  · apply hC2.shapeF.frame2 (by rw [hb6, hb4, hb3]; omega)
    intro p hp n hn
    simp only at hp hn ⊢
    by_cases e : fA1 p = fA1 s1
    · rw [e, hnF] at hn
      cases hn
      exact ⟨{ nF with fwdNode := rA2 s2, listNode := m2.brk }, by rw [h6]; simp [e], rfl, rfl⟩
    · exact ⟨n, by rw [h6]; simp [e, hfwd4 p hp, hn], rfl, rfl⟩
  · intro p hp
    simp only at hp
    by_cases e : p = s1
    · subst e
      refine ⟨{ nF with fwdNode := rA2 s2, listNode := m2.brk }, by rw [h6]; simp, ?_, ?_⟩
      · intro x hx hxs
        rcases List.mem_cons.mp hx with rfl | hx
        · exact ⟨hR4eq.symm, rfl⟩
        · have := (List.mem_filter.mp hx).2
          simp only [decide_eq_true_eq] at this
          exact absurd hxs this
      · intro hh
        exact absurd rfl (hh _ (List.mem_cons_self _ _))
    · have hne2 : fA1 p ≠ fA1 s1 := fun e2 => e (hC2.shapeF.inj _ _ hp e2)
      obtain ⟨n, hn, hd1, hd2⟩ := hC2.data p hp
      simp only at hn hd1 hd2
      refine ⟨n, by rw [h6]; simp [hne2, hfwd4 p hp, hn], ?_, ?_⟩
      · intro x hx hxs
        rcases List.mem_cons.mp hx with rfl | hx
        · exact absurd hxs.symm e
        · have hx' := (List.mem_filter.mp hx).1
          have := hd1 x hx' hxs
          have hk := hkeep4 _ (hR4.entry x (List.mem_cons_of_mem _ hx)).2.1
          simp only [hk]
          exact this
      · intro hh
        apply hd2
        intro x hx hxs
        exact hh x (List.mem_cons_of_mem _ (List.mem_filter.mpr ⟨hx, by simpa [hxs] using e⟩)) hxs
  · apply hR4.frameRev _ hl6 (by rw [hb6])
    intro q hq
    have := hsepR s1 q a2
    simp only at hq ⊢
    rw [h6, if_neg]
    rw [hkeep4 q hq]
    exact this
  · intro p q hp
    simp only at hp ⊢
    by_cases hq : rA4 q = 0
    · rw [hq]; exact hp
    · rw [hkeep4 q hq]
      exact hC2.sep p q hp
  · simp only [List.map_cons, List.nodup_cons, List.mem_map, not_exists, not_and]
    refine ⟨?_, h.srcs.sublist ((List.filter_sublist _).map _)⟩
    intro x hx
    simpa using (List.mem_filter.mp hx).2
  · intro p hp hp0
    simp only at hp0
    by_cases hp1 : g.fA p = 0
    · exact ⟨_, List.mem_cons_self _ _, (E1.fresh p hp1 hp0).2.2.1⟩
    · obtain ⟨e, he, hpre⟩ := h.deadF p hp hp1
      by_cases hes : e.src = s1
      · exact ⟨_, List.mem_cons_self _ _, by rw [← hes]; exact hpre⟩
      · exact ⟨e, List.mem_cons_of_mem _ (List.mem_filter.mpr ⟨he, by simpa using hes⟩), hpre⟩
  · intro e he
    rcases List.mem_cons.mp he with rfl | he
    · exact hv1.1
    · exact h.src_ne e (List.mem_filter.mp he).1

/-- The function `phfwdAdd` on two valid, different numbers when no allocation
fails: it returns `true`, keeps the invariant, and the new forwarding replaces
the one of its source. -/
theorem phfwdAdd_inv {m : Mem} {pf : PhoneForward} {g : Ghost} (h : Inv m pf g)
    (hor : m.oracle = []) (s1 s2 : List Char) (hv1 : ValidNum s1) (hv2 : ValidNum s2)
    (hne : s1 ≠ s2) :
    ∃ m1 g1 c, phfwdAdd m (some pf) (some s1) (some s2) = some (true, m1) ∧ Inv m1 pf g1 ∧
      g1.reg = ⟨s1, s2, c⟩ :: g.reg.filter (fun e => decide (e.src ≠ s1)) ∧
      m1.oracle = [] := by
  obtain ⟨r, m1, u, a, b, _, hres⟩ := phfwdAdd_gen h s1 s2 hv1 hv2 hne
  rw [hor] at b
  obtain ⟨hu, hm⟩ := List.append_eq_nil.mp b.symm
  rcases hres with ⟨rfl, _, g1, c, x, y⟩ | ⟨_, hf, _⟩
  · exact ⟨m1, g1, c, a, x, y, hm⟩
  · rw [hu] at hf
    cases hf

/-- The trie after the slot of the path `P0 ++ [c]` in its parent is cleared. -/
theorem shape_detach {m : Mem} {root : Nat} {A : List Char → Nat} (hS : Shape m root A)
    (P0 : List Char) (c : Char) (hP : A (P0 ++ [c]) ≠ 0) (par : TrieNode)
    (hpar : m.trie (A P0) = some par) :
    Shape (m.setTrie (A P0) (setChild par (charToDigit (c.toNat : Int)) 0)) root
      (fun q => if P0 ++ [c] <+: q then 0 else A q) := by
  have hP0 : A P0 ≠ 0 := (hS.closed P0 c hP).1
  have hc : isPhNumDigit (c.toNat : Int) = true := (hS.closed P0 c hP).2
  have hval : ∀ q, (if P0 ++ [c] <+: q then 0 else A q) ≠ 0 →
      ¬ P0 ++ [c] <+: q ∧ A q ≠ 0 := by
    intro q hq
    split_ifs at hq with h1
    · exact absurd rfl hq
    · exact ⟨h1, hq⟩
  have hnode : ∀ q, A q ≠ 0 → q ≠ P0 →
      (m.setTrie (A P0) (setChild par (charToDigit (c.toNat : Int)) 0)).trie (A q) =
        m.trie (A q) := by
    intro q hq hqp
    have : A q ≠ A P0 := fun e => hqp (hS.inj q P0 hq e)
    simp [this]
  refine ⟨?_, hS.root_ne, ?_, ?_, ?_, ?_, ?_, ?_⟩
  · have : ¬ P0 ++ [c] <+: [] := by simp
    simp only [this, if_false]
    exact hS.root_eq
  · intro p q hp e
    obtain ⟨h1, h2⟩ := hval p hp
    have hq : (if P0 ++ [c] <+: q then 0 else A q) ≠ 0 := by rw [← e]; exact hp
    obtain ⟨h3, _⟩ := hval q hq
    simp only [h1, h3, if_false] at e
    exact hS.inj p q h2 e
  · intro p
    simp only [setTrie_brk]
    split_ifs
    · have := hS.lt_brk []
      omega
    · exact hS.lt_brk p
  · intro p c1 hp
    obtain ⟨h1, h2⟩ := hval _ hp
    have h3 : ¬ P0 ++ [c] <+: p := fun hx => h1 (hx.trans (List.prefix_append _ _))
    simp only [h3, if_false]
    exact hS.closed p c1 h2
  · intro p hp
    obtain ⟨h1, h2⟩ := hval _ hp
    simp only [h1, if_false]
    obtain ⟨n, hn, hch⟩ := hS.node p h2
    by_cases hpp : p = P0
    · subst hpp
      rw [hpar] at hn
      cases hn
      refine ⟨setChild par (charToDigit (c.toNat : Int)) 0, by simp, ?_⟩
      intro j hj
      by_cases hjd : j = charToDigit (c.toNat : Int)
      · subst hjd
        simp [setChild, digitToChar_charToDigit c hc]
      · have : ¬ p ++ [c] <+: p ++ [digitToChar j] := by
          intro hx
          have := List.IsPrefix.eq_of_length hx (by simp)
          have := (snoc_inj this).2
          rw [this, charToDigit_digitToChar j hj] at hjd
          exact hjd rfl
        simp only [setChild, hjd, if_false, this]
        exact hch j hj
    · refine ⟨n, by rw [hnode p h2 hpp]; exact hn, ?_⟩
      intro j hj
      have : ¬ P0 ++ [c] <+: p ++ [digitToChar j] := by
        intro hx
        rcases List.prefix_concat_iff.mp hx with hx | hx
        · exact hpp (snoc_inj hx).1.symm
        · exact h1 hx
      simp only [this, if_false]
      exact hch j hj
  · intro n hn
    by_cases hr : root = A P0
    · rw [hr] at hn
      simp only [setTrie_trie, if_true, Option.some.injEq] at hn
      subst hn
      exact hS.parent_root par (by rw [hr]; exact hpar)
    · simp only [setTrie_trie, hr, if_false] at hn
      exact hS.parent_root n hn
  · intro p c1 n hp hn
    obtain ⟨h1, h2⟩ := hval _ hp
    have h3 : ¬ P0 ++ [c] <+: p := fun hx => h1 (hx.trans (List.prefix_append _ _))
    simp only [h1, h3, if_false] at hn ⊢
    by_cases hr : A (p ++ [c1]) = A P0
    · rw [hr] at hn
      simp only [setTrie_trie, if_true, Option.some.injEq] at hn
      subst hn
      exact hS.parent_snoc p c1 par h2 (by rw [hr]; exact hpar)
    · simp only [setTrie_trie, hr, if_false] at hn
      exact hS.parent_snoc p c1 n h2 hn

/-- The function `trieRemove` on the forward trie keeps the invariant and
removes the forwardings whose source has the prefix `P`. -/
theorem trieRemove_inv {m : Mem} {pf : PhoneForward} {g : Ghost} (h : Inv m pf g)
    (P : List Char) (hP : ValidNum P) :
    ∃ m1 g1, trieRemove m pf.rootFwd P = some m1 ∧ Inv m1 pf g1 ∧
      g1.reg = g.reg.filter (fun e => decide (¬ P <+: e.src)) ∧ m1.brk = m.brk := by
  have hfind : trieFind m pf.rootFwd P = some (g.fA P) := by
    have := trieFind_spec h.shapeF P hP.2 []
      (fun h0 => absurd (h.shapeF.root_eq ▸ h0) h.shapeF.root_ne)
    rw [h.shapeF.root_eq] at this
    simpa using this
  by_cases hz : g.fA P = 0
  · refine ⟨m, g, by simp [trieRemove, hfind, hz], h, ?_, rfl⟩
    symm
    apply List.filter_eq_self.mpr
    intro e he
    simp only [decide_eq_true_eq]
    rintro ⟨t, ht⟩
    have := (h.rev.entry e he).1
    rw [← ht] at this
    exact h.shapeF.pre P t this hz
  · obtain ⟨P0, c, rfl⟩ : ∃ P0 c, P = P0 ++ [c] := by
      rcases List.eq_nil_or_concat P with h0 | ⟨L, b, hb⟩
      · exact absurd h0 hP.1
      · exact ⟨L, b, by rw [hb, List.concat_eq_append]⟩
    obtain ⟨hP0, hc⟩ := h.shapeF.closed P0 c hz
    obtain ⟨nP, hnP, _⟩ := h.shapeF.node _ hz
    have hpar := h.shapeF.parent_snoc P0 c nP hz hnP
    obtain ⟨par, hparn, hch⟩ := h.shapeF.node P0 hP0
    have hclear := clear_fold par (g.fA (P0 ++ [c])) (charToDigit (c.toNat : Int)) (by
      intro j hj
      rw [hch j hj]
      constructor
      · intro e
        have := h.shapeF.inj _ _ (by rw [e]; exact hz) e
        have := (snoc_inj this).2
        rw [← this, charToDigit_digitToChar j hj]
      · intro e
        rw [e, digitToChar_charToDigit c hc]) 12 (le_refl _)
    rw [if_pos (charToDigit_lt c hc)] at hclear
    have hlt : ∀ q, g.fA q < (m.setTrie (g.fA P0)
        (setChild par (charToDigit (c.toNat : Int)) 0)).brk := by
      intro q
      simpa using h.shapeF.lt_brk q
    have hbound : ∀ x, g.fA x ≠ 0 → P0 ++ [c] <+: x →
        x.length < (P0 ++ [c]).length + m.brk := by
      intro x hx _
      have := h.shapeF.depth x hx
      omega
    have hcov := build_cover h.shapeF m.brk (P0 ++ [c]) hbound
    have hg0 : delGhost (P0 ++ [c]) g.fA g.reg g.rA (build g.fA m.brk (P0 ++ [c])).labels =
        g := by
      cases g with
      | mk fA rA reg =>
        simp only [delGhost, Ghost.mk.injEq, true_and]
        constructor
        · funext q
          split_ifs with h1
          · by_contra h2
            exact h1.2 (hcov q h1.1 (Ne.symm h2))
          · rfl
        · apply List.filter_eq_self.mpr
          intro e he
          simp only [decide_eq_true_eq]
          by_cases hPe : P0 ++ [c] <+: e.src
          · exact Or.inr (hcov _ hPe (h.rev.entry e he).1)
          · exact Or.inl hPe
    have hother : ∀ q, g.fA q ≠ 0 → q ≠ P0 →
        (m.setTrie (g.fA P0) (setChild par (charToDigit (c.toNat : Int)) 0)).trie (g.fA q) =
          m.trie (g.fA q) := by
      intro q hq hqp
      have : g.fA q ≠ g.fA P0 := fun e => hqp (h.shapeF.inj q P0 hq e)
      simp [this]
    have hD : DelInv (m.setTrie (g.fA P0) (setChild par (charToDigit (c.toNat : Int)) 0)) pf
        (P0 ++ [c]) g.fA g.reg g.rA (build g.fA m.brk (P0 ++ [c])) := by
      refine ⟨?_, build_nodup _ _ _, fun q hq => (build_labels _ _ _ _ hq).1,
        Or.inr (shape_detach h.shapeF P0 c hz par hparn), ?_, ?_, ?_, h.sep⟩
      · apply PristineT.frameTree _ _ (build_pristine h.shapeF m.brk _ hbound)
        intro q hq
        obtain ⟨x1, x2⟩ := build_labels _ _ _ _ hq
        apply hother q x2
        intro e
        rw [e] at x1
        have := x1.length_le
        simp at this
      · rw [hg0]
        intro q hq
        obtain ⟨n, hn, x1, x2⟩ := h.data q hq
        by_cases hqp : q = P0
        · subst hqp
          rw [hparn] at hn
          cases hn
          exact ⟨setChild par (charToDigit (c.toNat : Int)) 0, by simp, x1, x2⟩
        · exact ⟨n, by rw [hother q hq hqp]; exact hn, x1, x2⟩
      · rw [hg0]
        refine h.rev.frameRev ?_ rfl (le_refl _)
        intro q _
        have : g.rA q ≠ g.fA P0 := fun e => h.sep P0 q hP0 e.symm
        simp [this]
      · rw [hg0]
        exact h.deadR
    have haddr : (build g.fA m.brk (P0 ++ [c])).addr g.fA = g.fA (P0 ++ [c]) :=
      build_addr _ _ _ hbound
    obtain ⟨m2, rA2, b1, b2, b3⟩ := trieDelete_spec h.shapeF.inj h.srcs _ _ g.rA hlt hD
    rw [haddr] at b1
    have hg2 : delGhost (P0 ++ [c]) g.fA g.reg rA2 GT.nil.labels =
        ⟨fun q => if P0 ++ [c] <+: q then 0 else g.fA q, rA2,
          g.reg.filter (fun e => decide (¬ P0 ++ [c] <+: e.src))⟩ := by
      simp [delGhost, GT.labels]
    have hC2 : Core m2 pf ⟨fun q => if P0 ++ [c] <+: q then 0 else g.fA q, rA2,
        g.reg.filter (fun e => decide (¬ P0 ++ [c] <+: e.src))⟩ := by
      refine ⟨b2.shapeT.resolve_left (by simp), hg2 ▸ b2.data, hg2 ▸ b2.rev, ?_⟩
      intro x q hx
      have hx2 : (if P0 ++ [c] <+: x then 0 else g.fA x) ≠ 0 := hx
      show (if P0 ++ [c] <+: x then 0 else g.fA x) ≠ rA2 q
      split_ifs at hx2 ⊢
      · exact absurd rfl hx2
      · exact b2.sep x q hx2
    have hnP0 : ¬ P0 ++ [c] <+: P0 := by
      intro hx
      have := hx.length_le
      simp at this
    obtain ⟨m3, d1, d2, d3⟩ := inv_pruneF hC2
      (h.srcs.sublist (List.Sublist.map _ (List.filter_sublist _)))
      (by
        intro q hq hq2
        have := b2.deadR q hq hq2
        rw [hg2] at this
        exact this)
      (fun e he => h.src_ne e (List.mem_filter.mp he).1) P0
      (by
        show (if P0 ++ [c] <+: P0 then 0 else g.fA P0) ≠ 0
        simp only [hnP0, if_false]
        exact hP0)
      (by
        intro q hq hq2
        have hq3 : (if P0 ++ [c] <+: q then 0 else g.fA q) ≠ 0 := hq2
        split_ifs at hq3 with hPq
        · exact absurd rfl hq3
        · obtain ⟨e, he, hqe⟩ := h.deadF q hq hq3
          by_cases hPe : P0 ++ [c] <+: e.src
          · right
            rcases List.prefix_or_prefix_of_prefix hPe hqe with hx | hx
            · exact absurd hx hPq
            · rcases List.prefix_concat_iff.mp hx with hy | hy
              · exact absurd (hy ▸ List.prefix_refl _) hPq
              · exact hy
          · left
            exact ⟨e.src, List.mem_map.mpr ⟨e, List.mem_filter.mpr ⟨he, by simpa using hPe⟩,
              rfl⟩, hqe⟩)
    refine ⟨m3, _, ?_, d2, rfl, by rw [d3, b3]; rfl⟩
    have hd1 : deleteDeadBranch m2 (g.fA P0) = some m3 := by
      have e : (if P0 ++ [c] <+: P0 then 0 else g.fA P0) = g.fA P0 := by
        simp only [hnP0, if_false]
      rw [← e]
      exact d1
    simp only [trieRemove, hfind, hz, ne_eq, not_false_eq_true, if_true, hnP, hpar, hparn,
      hclear, b1, hd1]

/-- The function `phfwdRemove` on a valid number keeps the invariant and
removes the forwardings whose source has that number as a prefix. -/
theorem phfwdRemove_inv {m : Mem} {pf : PhoneForward} {g : Ghost} (h : Inv m pf g)
    (P : List Char) (hP : ValidNum P) :
    ∃ m1 g1, phfwdRemove m (some pf) (some P) = some m1 ∧ Inv m1 pf g1 ∧
      g1.reg = g.reg.filter (fun e => decide (¬ P <+: e.src)) ∧ m1.brk = m.brk := by
  have hc : isCorrect (some P) = true := (isCorrect_some P).mpr hP
  simp only [phfwdRemove, hc, Bool.not_true, Bool.false_eq_true, if_false]
  exact trieRemove_inv h P hP

/-! ### Runs of calls -/

theorem fwOf_filter (reg : List Entry) (f : List Char → Bool) :
    fwOf (reg.filter (fun e => f e.src)) = (fwOf reg).filter (fun e => f e.1) := by
  induction reg with
  | nil => rfl
  | cons e reg ih =>
    simp only [fwOf, List.filter_cons, List.map_cons] at ih ⊢
    by_cases h : f e.src = true
    · simp [h, ih]
    · simp [h, ih]

/-! ### The oracle of `malloc` in `phfwdRemove` -/

theorem listRemove_oracle {m m1 : Mem} {a : Nat} (h : listRemove m a = some m1) :
    m1.oracle = m.oracle := by
  unfold listRemove at h
  split at h
  · cases h
  · simp only at h
    split at h
    · cases h
    · rename_i m2 hm2
      split at h
      · cases h
      · rename_i m3 hm3
        cases h
        have e3 : m3.oracle = m2.oracle := by
          split at hm3
          · split at hm3
            · cases hm3
            · cases hm3
              rfl
          · cases hm3
            rfl
        have e2 : m2.oracle = m.oracle := by
          split at hm2
          · split at hm2
            · cases hm2
            · cases hm2
              rfl
          · cases hm2
            rfl
        show m3.oracle = m.oracle
        rw [e3, e2]

theorem deleteDeadBranchLoop_oracle : ∀ (fuel : Nat) {m m1 : Mem} {cur : Nat} {b : Bool},
    deleteDeadBranchLoop fuel m cur b = some m1 → m1.oracle = m.oracle := by
  intro fuel
  induction fuel with
  | zero => intro m m1 cur b h; cases h
  | succ fuel ih =>
    intro m m1 cur b h
    unfold deleteDeadBranchLoop at h
    split at h
    · cases h
    · split at h
      · split at h
        · cases h
        · split at h
          · cases h
          · have := ih h
            exact this
      · cases h
        rfl

theorem deleteDeadBranch_oracle {m m1 : Mem} {a : Nat} (h : deleteDeadBranch m a = some m1) :
    m1.oracle = m.oracle := by
  unfold deleteDeadBranch at h
  split at h
  · cases h
  · split at h
    · cases h
      rfl
    · exact deleteDeadBranchLoop_oracle _ h

theorem deleteFwdData_oracle {m m1 : Mem} {a : Nat} (h : deleteFwdData m a = some m1) :
    m1.oracle = m.oracle := by
  unfold deleteFwdData at h
  split at h
  · cases h
  · split at h
    · cases h
      rfl
    · split at h
      · cases h
      · simp only at h
        split at h
        · cases h
        · rename_i m2 hm2
          split at h
          · cases h
          · rename_i m3 hm3
            have e2 : m2.oracle = m.oracle := by
              split at hm2
              · split at hm2
                · cases hm2
                · cases hm2
                  rfl
              · cases hm2
                rfl
            rw [deleteDeadBranch_oracle h, listRemove_oracle hm3, e2]

theorem trieDeleteFor_oracle (root : Nat) : ∀ (is : List Nat) {m m1 : Mem} {cur cur1 : Nat},
    trieDeleteFor root is m cur = some (m1, cur1) → m1.oracle = m.oracle := by
  intro is
  induction is with
  | nil =>
    intro m m1 cur cur1 h
    simp only [trieDeleteFor, Option.some.injEq, Prod.mk.injEq] at h
    rw [← h.1]
  | cons i is ih =>
    intro m m1 cur cur1 h
    unfold trieDeleteFor at h
    split at h
    · simp only at h
      split at h
      · cases h
      · have := ih h
        exact this
    · cases h

theorem trieDeleteLoop_oracle : ∀ (fuel : Nat) {m m1 : Mem} {root cur : Nat},
    trieDeleteLoop fuel m root cur = some m1 → m1.oracle = m.oracle := by
  intro fuel
  induction fuel with
  | zero =>
    intro m m1 root cur h
    unfold trieDeleteLoop at h
    split at h
    · cases h
      rfl
    · cases h
  | succ fuel ih =>
    intro m m1 root cur h
    unfold trieDeleteLoop at h
    split at h
    · cases h
      rfl
    · split at h
      · cases h
      · split at h
        · cases h
        · rename_i m2 c2 hm2
          split at h
          · cases h
          · split at h
            · cases h
            · rename_i m3 hm3
              rw [ih h]
              show m3.oracle = m.oracle
              rw [deleteFwdData_oracle hm3, trieDeleteFor_oracle _ _ hm2]

theorem trieRemove_oracle {m m1 : Mem} {t : Nat} {s : List Char}
    (h : trieRemove m t s = some m1) : m1.oracle = m.oracle := by
  unfold trieRemove at h
  split at h
  · cases h
  · split at h
    · split at h
      · cases h
      · split at h
        · cases h
        · simp only at h
          split at h
          · cases h
          · rename_i m2 hm2
            rw [deleteDeadBranch_oracle h]
            unfold trieDelete at hm2
            rw [trieDeleteLoop_oracle _ hm2]
            rfl
    · cases h
      rfl

theorem phfwdRemove_oracle {m m1 : Mem} {pf : Option PhoneForward} {s : Option (List Char)}
    (h : phfwdRemove m pf s = some m1) : m1.oracle = m.oracle := by
  unfold phfwdRemove at h
  split at h
  · split at h
    · cases h
      rfl
    · exact trieRemove_oracle h
  · cases h
    rfl

/-! ### Calls on a state -/

/-- One call on a state that satisfies the invariant: it is defined, keeps the
invariant, and changes the forwardings as `absStep` says. -/
theorem step_inv {st : State} {g : Ghost} (h : Inv st.mem st.pf g)
    (hor : st.mem.oracle = []) (op : Op) :
    ∃ st1 g1, step st op = some st1 ∧ st1.pf = st.pf ∧ Inv st1.mem st1.pf g1 ∧
      fwOf g1.reg = absStep (fwOf g.reg) op ∧ st1.mem.oracle = [] := by
  cases op with
  | add a b =>
    cases a with
    | none => exact ⟨st, g, by simp [step, phfwdAdd], rfl, h, rfl, hor⟩
    | some a =>
      cases b with
      | none => exact ⟨st, g, by simp [step, phfwdAdd], rfl, h, rfl, hor⟩
      | some b =>
        by_cases hv : ValidNum a ∧ ValidNum b ∧ a ≠ b
        · obtain ⟨m1, g1, c, h1, h2, h3, h4⟩ := phfwdAdd_inv h hor a b hv.1 hv.2.1 hv.2.2
          refine ⟨⟨m1, st.pf⟩, g1, by simp [step, h1], rfl, h2, ?_, h4⟩
          rw [h3]
          simp only [absStep, hv, and_self, ne_eq, not_false_eq_true, if_true]
          have := fwOf_filter g.reg (fun s => decide (s ≠ a))
          simp only [fwOf, List.map_cons] at this ⊢
          rw [this]
        · have hc : (!isCorrect (some a) || !isCorrect (some b) ||
              decide (strcmp a b = 0)) = true := by
            by_cases h1 : ValidNum a
            · by_cases h2 : ValidNum b
              · have h3 : a = b := by
                  by_contra h3
                  exact hv ⟨h1, h2, h3⟩
                simp [(strcmp_eq_zero a b).mpr h3]
              · have : isCorrect (some b) = false := by
                  rw [← Bool.not_eq_true, isCorrect_some]; exact h2
                simp [this]
            · have : isCorrect (some a) = false := by
                rw [← Bool.not_eq_true, isCorrect_some]; exact h1
              simp [this]
          refine ⟨st, g, ?_, rfl, h, ?_, hor⟩
          · simp only [step, phfwdAdd, hc, if_true, Option.map_some']
          · simp only [absStep, hv, if_false]
  | remove p =>
    cases p with
    | none => exact ⟨st, g, by simp [step, phfwdRemove], rfl, h, rfl, hor⟩
    | some p =>
      by_cases hv : ValidNum p
      · obtain ⟨m1, g1, h1, h2, h3, _⟩ := phfwdRemove_inv h p hv
        refine ⟨⟨m1, st.pf⟩, g1, by simp [step, h1], rfl, h2, ?_,
          (phfwdRemove_oracle h1).trans hor⟩
        rw [h3]
        simp only [absStep, hv, if_true]
        exact fwOf_filter g.reg (fun s => decide (¬ p <+: s))
      · have : isCorrect (some p) = false := by
          rw [← Bool.not_eq_true, isCorrect_some]; exact hv
        refine ⟨st, g, ?_, rfl, h, ?_, hor⟩
        · simp [step, phfwdRemove, this]
        · simp only [absStep, hv, if_false]

/-- A sequence of calls on a state that satisfies the invariant. -/
theorem run_inv (ops : List Op) : ∀ {st : State} {g : Ghost}, Inv st.mem st.pf g →
    st.mem.oracle = [] →
    ∃ st1 g1, run st ops = some st1 ∧ st1.pf = st.pf ∧ Inv st1.mem st1.pf g1 ∧
      fwOf g1.reg = absRun (fwOf g.reg) ops ∧ st1.mem.oracle = [] := by
  induction ops with
  | nil => intro st g h hor; exact ⟨st, g, rfl, rfl, h, rfl, hor⟩
  | cons op ops ih =>
    intro st g h hor
    obtain ⟨st1, g1, a1, a2, a3, a4, a5⟩ := step_inv h hor op
    obtain ⟨st2, g2, b1, b2, b3, b4, b5⟩ := ih a3 a5
    refine ⟨st2, g2, by simp [run, a1, b1], by rw [b2, a2], b3, ?_, b5⟩
    rw [b4, a4]
    rfl

theorem fresh_oracle {st : State} (h : fresh = some st) : st.mem.oracle = [] := by
  rw [fresh_eq] at h
  cases h
  rfl

/-- Every sequence of calls on a fresh index is defined and leads to a state
that satisfies the invariant and holds the forwardings `forwardings ops`. -/
theorem runFresh_inv (ops : List Op) :
    ∃ st g, runFresh ops = some st ∧ Inv st.mem st.pf g ∧ fwOf g.reg = forwardings ops := by
  obtain ⟨st0, fA, rA, h0, hI⟩ := fresh_inv
  obtain ⟨st1, g1, a1, _, a3, a4, _⟩ := run_inv ops hI (fresh_oracle h0)
  exact ⟨st1, g1, by simp [runFresh, h0, a1], a3, a4⟩

/-- No call on a fresh index consumes an outcome of `malloc` when none is
set. -/
theorem run_oracle {ops : List Op} {st : State} (hst : runFresh ops = some st) :
    st.mem.oracle = [] := by
  obtain ⟨st0, fA, rA, h0, hI⟩ := fresh_inv
  obtain ⟨st1, g1, a1, _, _, _, a5⟩ := run_inv ops hI (fresh_oracle h0)
  simp only [runFresh, h0, Option.some_bind, a1, Option.some.injEq] at hst
  rw [← hst]
  exact a5

theorem absStep_ok (fw : List (List Char × List Char)) (h : FwOK fw) (op : Op) :
    FwOK (absStep fw op) := by
  have hfil : ∀ f : List Char × List Char → Bool, FwOK (fw.filter f) := by
    intro f
    refine ⟨h.1.sublist (List.Sublist.map _ (List.filter_sublist _)), ?_⟩
    intro e he
    exact h.2 e (List.mem_filter.mp he).1
  cases op with
  | add a b =>
    cases a with
    | none => exact h
    | some a =>
      cases b with
      | none => exact h
      | some b =>
        simp only [absStep]
        split_ifs with hv
        · refine ⟨?_, ?_⟩
          · simp only [List.map_cons, List.nodup_cons, List.mem_map, not_exists, not_and]
            refine ⟨?_, (hfil _).1⟩
            intro e he
            simpa using (List.mem_filter.mp he).2
          · intro e he
            rcases List.mem_cons.mp he with rfl | he
            · exact hv
            · exact (hfil _).2 e he
        · exact h
  | remove p =>
    cases p with
    | none => exact h
    | some p =>
      simp only [absStep]
      split_ifs
      · exact hfil _
      · exact h

theorem absRun_ok (ops : List Op) : ∀ (fw : List (List Char × List Char)), FwOK fw →
    FwOK (absRun fw ops) := by
  induction ops with
  | nil => intro fw h; exact h
  | cons op ops ih =>
    intro fw h
    exact ih _ (absStep_ok fw h op)

theorem forwardings_ok (ops : List Op) : FwOK (forwardings ops) :=
  absRun_ok ops [] ⟨by simp, by simp⟩

theorem absRun_append (fw : List (List Char × List Char)) (a b : List Op) :
    absRun fw (a ++ b) = absRun (absRun fw a) b := by
  simp [absRun, List.foldl_append]

/-! ### The query `get` on the level of forwardings -/

theorem scanLongest_spec (keys : List (List Char)) (rest : List Char) :
    ∀ (base best : List Char),
      (scanLongest keys base rest best = best ∧
        ∀ t, t ≠ [] → t <+: rest → base ++ t ∉ keys) ∨
      ∃ t, t ≠ [] ∧ t <+: rest ∧ base ++ t ∈ keys ∧
        scanLongest keys base rest best = base ++ t ∧
        ∀ t', t' <+: rest → base ++ t' ∈ keys → t'.length ≤ t.length := by
  induction rest with
  | nil =>
    intro base best
    left
    refine ⟨rfl, ?_⟩
    intro t ht htp
    exact absurd (List.prefix_nil.mp htp) ht
  | cons c rest ih =>
    intro base best
    have hsplit : ∀ t, t ≠ [] → t <+: c :: rest → ∃ u, t = c :: u ∧ u <+: rest := by
      intro t ht htp
      cases t with
      | nil => exact absurd rfl ht
      | cons d u =>
        obtain ⟨h1, h2⟩ := List.cons_prefix_cons.mp htp
        exact ⟨u, by rw [h1], h2⟩
    by_cases hk : base ++ [c] ∈ keys
    · right
      simp only [scanLongest, hk, if_true]
      rcases ih (base ++ [c]) (base ++ [c]) with ⟨h1, h2⟩ | ⟨t, h1, h2, h3, h4, h5⟩
      · refine ⟨[c], by simp, by simp, hk, h1, ?_⟩
        intro t' htp hin
        cases t' with
        | nil => simp
        | cons d u =>
          obtain ⟨u', hu, hup⟩ := hsplit (d :: u) (by simp) htp
          cases hu
          by_cases hu0 : u = []
          · simp [hu0]
          · exact absurd (by simpa using hin) (h2 u hu0 hup)
      · refine ⟨c :: t, by simp, by simpa using h2, by simpa using h3, by simpa using h4, ?_⟩
        intro t' htp hin
        cases t' with
        | nil => simp
        | cons d u =>
          obtain ⟨u', hu, hup⟩ := hsplit (d :: u) (by simp) htp
          cases hu
          have := h5 u hup (by simpa using hin)
          simp only [List.length_cons]
          omega
    · simp only [scanLongest, hk, if_false]
      rcases ih (base ++ [c]) best with ⟨h1, h2⟩ | ⟨t, h1, h2, h3, h4, h5⟩
      · left
        refine ⟨h1, ?_⟩
        intro t ht htp hin
        obtain ⟨u, hu, hup⟩ := hsplit t ht htp
        subst hu
        by_cases hu0 : u = []
        · subst hu0
          exact hk hin
        · exact h2 u hu0 hup (by simpa using hin)
      · right
        refine ⟨c :: t, by simp, by simpa using h2, by simpa using h3, by simpa using h4, ?_⟩
        intro t' htp hin
        cases t' with
        | nil => simp
        | cons d u =>
          obtain ⟨u', hu, hup⟩ := hsplit (d :: u) (by simp) htp
          cases hu
          have := h5 u hup (by simpa using hin)
          simp only [List.length_cons]
          omega

theorem lookupFw_none (fw : List (List Char × List Char)) (a : List Char)
    (h : ∀ e ∈ fw, e.1 ≠ a) : lookupFw fw a = none := by
  simp only [lookupFw, Option.map_eq_none', List.find?_eq_none, decide_eq_true_eq]
  exact h

theorem lookupFw_some (fw : List (List Char × List Char))
    (hnd : (fw.map (fun e => e.1)).Nodup) (a b : List Char) (h : (a, b) ∈ fw) :
    lookupFw fw a = some b := by
  induction fw with
  | nil => simp at h
  | cons e fw ih =>
    simp only [List.map_cons, List.nodup_cons, List.mem_map, not_exists, not_and] at hnd
    rcases List.mem_cons.mp h with h1 | h1
    · subst h1
      simp [lookupFw]
    · have : e.1 ≠ a := fun e2 => hnd.1 (a, b) h1 e2.symm
      have ih2 := ih hnd.2 h1
      simp only [lookupFw, List.find?_cons, this, decide_False] at ih2 ⊢
      exact ih2

/-- A number that no source is a prefix of is forwarded to itself. -/
theorem absGet_none (fw : List (List Char × List Char)) (x : List Char)
    (h : ∀ e ∈ fw, ¬ e.1 <+: x) : absGet fw x = x := by
  have hs : scanLongest (fw.map (fun e => e.1)) [] x [] = [] := by
    rcases scanLongest_spec (fw.map (fun e => e.1)) x [] [] with ⟨h1, _⟩ | ⟨t, _, h2, h3, _⟩
    · exact h1
    · obtain ⟨e, he, he2⟩ := List.mem_map.mp h3
      simp only [List.nil_append] at he2
      exact absurd (he2 ▸ h2) (h e he)
  have hl : lookupFw fw [] = none := by
    apply lookupFw_none
    intro e he e2
    exact h e he (e2 ▸ List.nil_prefix)
  simp only [absGet, hs, hl]

/-- A number with a forwarded prefix: the longest one is replaced by its
target. -/
theorem absGet_some (fw : List (List Char × List Char)) (hnd : (fw.map (fun e => e.1)).Nodup)
    (x a b : List Char) (hab : (a, b) ∈ fw) (ha : a ≠ []) (hax : a <+: x)
    (hmax : ∀ e ∈ fw, e.1 <+: x → e.1.length ≤ a.length) :
    absGet fw x = b ++ x.drop a.length := by
  have hs : scanLongest (fw.map (fun e => e.1)) [] x [] = a := by
    have hin : a ∈ fw.map (fun e => e.1) := List.mem_map.mpr ⟨(a, b), hab, rfl⟩
    rcases scanLongest_spec (fw.map (fun e => e.1)) x [] [] with ⟨_, h2⟩ | ⟨t, _, h2, h3, h4, h5⟩
    · exact absurd (by simpa using hin) (h2 a ha hax)
    · simp only [List.nil_append] at h3 h4 h5
      rw [h4]
      obtain ⟨e, he, he2⟩ := List.mem_map.mp h3
      have h6 := hmax e he (by rw [he2]; exact h2)
      rw [he2] at h6
      have h7 := h5 a hax hin
      have := List.prefix_of_prefix_length_le h2 hax h6
      exact List.IsPrefix.eq_of_length this (by omega)
  simp only [absGet, hs, lookupFw_some fw hnd a b hab]

/-! ### Forwardings after a sequence of additions -/

theorem absRun_addCalls_sub (adds : List (List Char × List Char)) :
    ∀ (fw : List (List Char × List Char)), ∀ e ∈ absRun fw (addCalls adds), e ∈ fw ∨ e ∈ adds := by
  induction adds with
  | nil => intro fw e he; exact Or.inl he
  | cons p adds ih =>
    intro fw e he
    have he2 : e ∈ absRun (absStep fw (Op.add (some p.1) (some p.2))) (addCalls adds) := he
    rcases ih _ e he2 with h | h
    · simp only [absStep] at h
      split_ifs at h
      · rcases List.mem_cons.mp h with h | h
        · right; rw [h]; exact List.mem_cons_self _ _
        · left; exact (List.mem_filter.mp h).1
      · left; exact h
    · right; exact List.mem_cons_of_mem _ h

theorem absRun_addCalls_keep (post : List (List Char × List Char)) (a b : List Char)
    (hp : ∀ e ∈ post, e.1 ≠ a) : ∀ (fw : List (List Char × List Char)), (a, b) ∈ fw →
    (a, b) ∈ absRun fw (addCalls post) := by
  induction post with
  | nil => intro fw h; exact h
  | cons p post ih =>
    intro fw h
    have hpa : p.1 ≠ a := hp p (List.mem_cons_self _ _)
    apply ih (fun e he => hp e (List.mem_cons_of_mem _ he))
    simp only [absStep]
    split_ifs
    · apply List.mem_cons_of_mem
      exact List.mem_filter.mpr ⟨h, by simpa using Ne.symm hpa⟩
    · exact h

/-- The most recent addition for a source is a forwarding of the index. -/
theorem forwardings_addCalls_mem (adds : List (List Char × List Char))
    (hv : ∀ e ∈ adds, ValidNum e.1 ∧ ValidNum e.2 ∧ e.1 ≠ e.2)
    (pre post : List (List Char × List Char)) (a b : List Char)
    (hs : adds = pre ++ (a, b) :: post) (hp : ∀ e ∈ post, e.1 ≠ a) :
    (a, b) ∈ forwardings (addCalls adds) := by
  subst hs
  have hv1 := hv (a, b) (by simp)
  have e1 : addCalls (pre ++ (a, b) :: post) =
      addCalls pre ++ ([Op.add (some a) (some b)] ++ addCalls post) := by
    simp [addCalls]
  rw [forwardings, e1, absRun_append, absRun_append]
  apply absRun_addCalls_keep post a b hp
  simp only [absRun, List.foldl_cons, List.foldl_nil, absStep]
  rw [if_pos hv1]
  exact List.mem_cons_self _ _

/-! ### Calls with arguments that are not valid -/

theorem isCorrect_false (s : List Char) (h : ¬ ValidNum s) : isCorrect (some s) = false := by
  rw [← Bool.not_eq_true, isCorrect_some]
  exact h

theorem phfwdAdd_invalid (m : Mem) (pf : PhoneForward) (a b : List Char)
    (hv : ¬ (ValidNum a ∧ ValidNum b ∧ a ≠ b)) :
    phfwdAdd m (some pf) (some a) (some b) = some (false, m) := by
  have hc : (!isCorrect (some a) || !isCorrect (some b) || decide (strcmp a b = 0)) = true := by
    by_cases h1 : ValidNum a
    · by_cases h2 : ValidNum b
      · have h3 : a = b := by
          by_contra h3
          exact hv ⟨h1, h2, h3⟩
        simp [(strcmp_eq_zero a b).mpr h3]
      · simp [isCorrect_false b h2]
    · simp [isCorrect_false a h1]
  simp only [phfwdAdd, hc, if_true]

/-- The three queries depend on the heap only through the forwardings. -/
theorem queries_congr {m m1 : Mem} {pf pf1 : PhoneForward} {g g1 : Ghost} (h : Inv m pf g)
    (h1 : Inv m1 pf1 g1) (e : fwOf g.reg = fwOf g1.reg) (s : Option (List Char)) :
    phfwdGet m (some pf) s = phfwdGet m1 (some pf1) s ∧
      phfwdReverse m (some pf) s = phfwdReverse m1 (some pf1) s ∧
      phfwdGetReverse m (some pf) s = phfwdGetReverse m1 (some pf1) s := by
  cases s with
  | none => exact ⟨rfl, rfl, rfl⟩
  | some s =>
    by_cases hv : ValidNum s
    · rw [phfwdGet_spec h s hv, phfwdGet_spec h1 s hv, phfwdReverse_spec h s hv,
        phfwdReverse_spec h1 s hv, phfwdGetReverse_spec h s hv, phfwdGetReverse_spec h1 s hv, e]
      exact ⟨rfl, rfl, rfl⟩
    · have := isCorrect_false s hv
      simp [phfwdGet, phfwdReverse, phfwdGetReverse, this]

/-- A query with an argument that is not a valid number returns `phnumNew`,
the empty sequence of a successful allocation. -/
theorem queries_invalid (m : Mem) (pf : PhoneForward) (s : Option (List Char))
    (hs : ¬ ∃ a, s = some a ∧ ValidNum a) :
    phfwdGet m (some pf) s = some phnumNew ∧ phfwdReverse m (some pf) s = some phnumNew ∧
      phfwdGetReverse m (some pf) s = some phnumNew ∧ phfwdRemove m (some pf) s = some m := by
  cases s with
  | none => exact ⟨rfl, rfl, rfl, rfl⟩
  | some s =>
    have hv : ¬ ValidNum s := fun hv => hs ⟨s, rfl, hv⟩
    have := isCorrect_false s hv
    simp [phfwdGet, phfwdReverse, phfwdGetReverse, phfwdRemove, this]

/-- A query with an argument that is not a valid number returns what the call
`phnumNew()` returns: the empty sequence, or `NULL` when its `malloc` fails. -/
theorem queriesWith_invalid (ok : Bool) (m : Mem) (pf : PhoneForward)
    (s : Option (List Char)) (hs : ¬ ∃ a, s = some a ∧ ValidNum a) :
    phfwdGetWith ok m (some pf) s = some (phnumNewWith ok) ∧
      phfwdReverseWith ok m (some pf) s = some (phnumNewWith ok) ∧
      phfwdGetReverseWith ok m (some pf) s = some (phnumNewWith ok) := by
  have hc : isCorrect s = false := by
    cases s with
    | none => rfl
    | some s => exact isCorrect_false s (fun hv => hs ⟨s, rfl, hv⟩)
  simp [phfwdGetWith, phfwdReverseWith, phfwdGetReverseWith, hc]

/-- When the `malloc` of `phnumNew` succeeds, the queries with its outcome are
the queries. -/
theorem queriesWith_ok (m : Mem) (pf : Option PhoneForward) (s : Option (List Char)) :
    phfwdGetWith true m pf s = phfwdGet m pf s ∧
      phfwdReverseWith true m pf s = phfwdReverse m pf s ∧
      phfwdGetReverseWith true m pf s = phfwdGetReverse m pf s := by
  cases pf with
  | none => exact ⟨rfl, rfl, rfl⟩
  | some pf =>
    by_cases hv : ∃ a, s = some a ∧ ValidNum a
    · obtain ⟨a, rfl, ha⟩ := hv
      have hc : isCorrect (some a) = true := (isCorrect_some a).mpr ha
      simp [phfwdGetWith, phfwdReverseWith, phfwdGetReverseWith, hc]
    · obtain ⟨h1, h2, h3⟩ := queriesWith_invalid true m pf s hv
      obtain ⟨g1, g2, g3, _⟩ := queries_invalid m pf s hv
      rw [h1, h2, h3, g1, g2, g3]
      exact ⟨rfl, rfl, rfl⟩

theorem run_state {ops : List Op} {st : State} (hst : runFresh ops = some st) :
    ∃ g, Inv st.mem st.pf g ∧ fwOf g.reg = forwardings ops := by
  obtain ⟨st1, g, h1, h2, h3⟩ := runFresh_inv ops
  rw [hst] at h1
  cases h1
  exact ⟨g, h2, h3⟩

/-! ### Adding a forwarding again -/

theorem absStep_add_add (fw : List (List Char × List Char)) (a b1 b2 : List Char)
    (h1 : ValidNum a ∧ ValidNum b1 ∧ a ≠ b1) (h2 : ValidNum a ∧ ValidNum b2 ∧ a ≠ b2) :
    absRun fw [Op.add (some a) (some b1), Op.add (some a) (some b2)] =
      absRun fw [Op.add (some a) (some b2)] := by
  simp only [absRun, List.foldl_cons, List.foldl_nil, absStep]
  rw [if_pos h1, if_pos h2, if_pos h2]
  congr 1
  simp only [List.filter_cons, ne_eq, not_true_eq_false, decide_False, Bool.false_eq_true,
    if_false, List.filter_filter, Bool.and_self]

/-- After `phfwdAdd(a, b)` the number `a` is forwarded to `b`. -/
theorem absGet_added (fw : List (List Char × List Char)) (hok : FwOK fw) (a b : List Char)
    (h : ValidNum a ∧ ValidNum b ∧ a ≠ b) :
    absGet (absRun fw [Op.add (some a) (some b)]) a = b := by
  have hok2 := absRun_ok [Op.add (some a) (some b)] fw hok
  have hmem : (a, b) ∈ absRun fw [Op.add (some a) (some b)] := by
    simp only [absRun, List.foldl_cons, List.foldl_nil, absStep]
    rw [if_pos h]
    exact List.mem_cons_self _ _
  rw [absGet_some _ hok2.1 a a b hmem h.1.1 (List.prefix_refl _)
    (fun e _ he => he.length_le)]
  simp

/-- Two runs from a state that lead to the same forwardings cannot be told
apart by the queries. -/
theorem run_congr {st : State} {g : Ghost} (hI : Inv st.mem st.pf g)
    (hor : st.mem.oracle = []) (ops1 ops2 : List Op)
    (e : absRun (fwOf g.reg) ops1 = absRun (fwOf g.reg) ops2) :
    ∃ st1 st2 g1, run st ops1 = some st1 ∧ run st ops2 = some st2 ∧
      Inv st1.mem st1.pf g1 ∧ fwOf g1.reg = absRun (fwOf g.reg) ops1 ∧
      ∀ s : Option (List Char),
        phfwdGet st1.mem (some st1.pf) s = phfwdGet st2.mem (some st2.pf) s ∧
        phfwdReverse st1.mem (some st1.pf) s = phfwdReverse st2.mem (some st2.pf) s ∧
        phfwdGetReverse st1.mem (some st1.pf) s = phfwdGetReverse st2.mem (some st2.pf) s := by
  obtain ⟨st1, g1, a1, _, a3, a4, _⟩ := run_inv ops1 hI hor
  obtain ⟨st2, g2, b1, _, b3, b4, _⟩ := run_inv ops2 hI hor
  exact ⟨st1, st2, g1, a1, b1, a3, a4, fun s => queries_congr a3 b3 (by rw [a4, b4, e]) s⟩

/-! ### Result sequences below the capacity bound -/

theorem maxCapacity_eq : maxCapacity = 2305843009213693951 := by decide

theorem phnumAdd_ok (p : PhoneNumbers) (s : List Char) (h1 : p.numbers.length ≤ p.capacity)
    (h2 : p.capacity ≤ maxCapacity) (h3 : p.numbers.length < maxCapacity) :
    ∃ p1, phnumAdd (some p) (some s) = some p1 ∧ p1.numbers = p.numbers ++ [s] ∧
      p1.numbers.length ≤ p1.capacity ∧ p1.capacity ≤ maxCapacity := by
  have hM := maxCapacity_eq
  simp only [phnumAdd_eq]
  by_cases hc : p.numbers.length = p.capacity
  · have hne : p.capacity ≠ maxCapacity := by omega
    rw [if_pos hc, if_neg hne]
    refine ⟨_, rfl, rfl, ?_, ?_⟩
    · simp only [List.length_append, List.length_singleton]
      split_ifs with hbig
      · omega
      · have hmod : p.capacity * 3 % sizeModulus = p.capacity * 3 := by
          apply Nat.mod_eq_of_lt
          simp only [sizeModulus]
          omega
        rw [hmod]
        omega
    · simp only []
      split_ifs with hbig
      · exact le_refl _
      · have hmod : p.capacity * 3 % sizeModulus = p.capacity * 3 := by
          apply Nat.mod_eq_of_lt
          simp only [sizeModulus]
          omega
        rw [hmod]
        omega
  · rw [if_neg hc]
    refine ⟨_, rfl, rfl, ?_, h2⟩
    simp only [List.length_append, List.length_singleton]
    omega

theorem addAll_ok (cands : List (List Char)) : ∀ (p : PhoneNumbers),
    p.numbers.length ≤ p.capacity → p.capacity ≤ maxCapacity →
    p.numbers.length + cands.length ≤ maxCapacity →
    ∃ p1, addAll (some p) cands = some p1 ∧ p1.numbers = p.numbers ++ cands ∧
      p1.numbers.length ≤ p1.capacity ∧ p1.capacity ≤ maxCapacity := by
  induction cands with
  | nil => intro p h1 h2 _; exact ⟨p, rfl, by simp, h1, h2⟩
  | cons c cands ih =>
    intro p h1 h2 h3
    simp only [List.length_cons] at h3
    obtain ⟨p1, a1, a2, a3, a4⟩ := phnumAdd_ok p c h1 h2 (by omega)
    obtain ⟨p2, b1, b2, b3, b4⟩ := ih p1 a3 a4 (by
      rw [a2]
      simp only [List.length_append, List.length_singleton]
      omega)
    refine ⟨p2, ?_, ?_, b3, b4⟩
    · rw [addAll_cons]
      simp only [phnumSafeAdd, a1]
      exact b1
    · rw [b2, a2]
      simp

theorem filter_length_add {α : Type} (p q r : α → Bool) (l : List α)
    (hp : ∀ x, p x = true → r x = true) (hq : ∀ x, q x = true → r x = true)
    (hd : ∀ x, p x = true → q x = true → False) :
    (l.filter p).length + (l.filter q).length ≤ (l.filter r).length := by
  induction l with
  | nil => simp
  | cons a l ih =>
    simp only [List.filter_cons]
    by_cases h1 : p a = true
    · have h2 : ¬ q a = true := fun h2 => hd a h1 h2
      rw [if_pos h1, if_neg h2, if_pos (hp a h1)]
      simp only [List.length_cons]
      omega
    · by_cases h2 : q a = true
      · rw [if_neg h1, if_pos h2, if_pos (hq a h2)]
        simp only [List.length_cons]
        omega
      · rw [if_neg h1, if_neg h2]
        split_ifs
        · simp only [List.length_cons]
          omega
        · exact ih

theorem revCands_length (fw : List (List Char × List Char)) (rest : List Char) :
    ∀ base : List Char, (revCands fw base rest).length ≤
      (fw.filter (fun e => decide (base.length < e.2.length))).length := by
  induction rest with
  | nil => intro base; simp [revCands]
  | cons c rest ih =>
    intro base
    simp only [revCands, List.length_append, List.length_map]
    refine le_trans (Nat.add_le_add_left (ih (base ++ [c])) _) ?_
    apply filter_length_add
    · intro x hx
      simp only [decide_eq_true_eq] at hx ⊢
      rw [hx]
      simp
    · intro x hx
      simp only [decide_eq_true_eq, List.length_append, List.length_singleton] at hx ⊢
      omega
    · intro x h1 h2
      simp only [decide_eq_true_eq, List.length_append, List.length_singleton] at h1 h2
      rw [h1] at h2
      simp at h2

theorem getRevCands_length (fw : List (List Char × List Char)) (rest : List Char) :
    ∀ base : List Char, (getRevCands fw base rest).length ≤
      (fw.filter (fun e => decide (base.length < e.2.length))).length := by
  induction rest with
  | nil => intro base; simp [getRevCands]
  | cons c rest ih =>
    intro base
    simp only [getRevCands, List.length_append, List.length_map]
    refine le_trans (Nat.add_le_add (List.length_filter_le _ _) (ih (base ++ [c]))) ?_
    apply filter_length_add
    · intro x hx
      simp only [decide_eq_true_eq] at hx ⊢
      rw [hx]
      simp
    · intro x hx
      simp only [decide_eq_true_eq, List.length_append, List.length_singleton] at hx ⊢
      omega
    · intro x h1 h2
      simp only [decide_eq_true_eq, List.length_append, List.length_singleton] at h1 h2
      rw [h1] at h2
      simp at h2

/-- The state of a run holds fewer forwardings than the heap has cells. -/
theorem forwardings_length_lt {ops : List Op} {st : State} (hst : runFresh ops = some st) :
    (forwardings ops).length < st.mem.brk := by
  obtain ⟨g, hI, hfw⟩ := run_state hst
  rw [← hfw]
  simpa [fwOf] using reg_length_lt hI.rev

/-! ### The order of the numbers -/

theorem sortValue_digit (c : Char) (h : isPhNumDigit (c.toNat : Int) = true) :
    sortValue (c.toNat : Int) = (charToDigit (c.toNat : Int) : Int) ∧
      charToDigit (c.toNat : Int) < 12 := by
  rcases digitChar_cases c h with h | h | h | h | h | h | h | h | h | h | h | h <;>
    subst h <;> decide

theorem sortValue_inj (a b : Char) (ha : isPhNumDigit (a.toNat : Int) = true)
    (hb : isPhNumDigit (b.toNat : Int) = true)
    (h : sortValue (a.toNat : Int) = sortValue (b.toNat : Int)) : a = b := by
  rw [(sortValue_digit a ha).1, (sortValue_digit b hb).1] at h
  have h2 : charToDigit (a.toNat : Int) = charToDigit (b.toNat : Int) := by exact_mod_cast h
  rw [← digitToChar_charToDigit a ha, ← digitToChar_charToDigit b hb, h2]

theorem lexLt_irrefl : ∀ a : List Char, ¬ lexLt a a := by
  intro a
  induction a with
  | nil => simp [lexLt]
  | cons c a ih => simp [lexLt, ih]

theorem lexLt_trans : ∀ a b c : List Char, lexLt a b → lexLt b c → lexLt a c := by
  intro a
  induction a with
  | nil =>
    intro b c h1 h2
    cases b with
    | nil => simp [lexLt] at h1
    | cons y b =>
      cases c with
      | nil => simp [lexLt] at h2
      | cons z c => simp [lexLt]
  | cons x a ih =>
    intro b c h1 h2
    cases b with
    | nil => simp [lexLt] at h1
    | cons y b =>
      cases c with
      | nil => simp [lexLt] at h2
      | cons z c =>
        simp only [lexLt] at h1 h2 ⊢
        rcases h1 with h1 | ⟨h1, h1'⟩
        · rcases h2 with h2 | ⟨h2, _⟩
          · left; omega
          · left; rw [← h2]; exact h1
        · rcases h2 with h2 | ⟨h2, h2'⟩
          · left; rw [h1]; exact h2
          · right; exact ⟨h1.trans h2, ih b c h1' h2'⟩

/-- On numbers made of digits `lexCompare` decides the order `lexLt`. -/
theorem lexCompare_spec : ∀ a b : List Char,
    (∀ c ∈ a, isPhNumDigit (c.toNat : Int) = true) →
    (∀ c ∈ b, isPhNumDigit (c.toNat : Int) = true) →
    (lexCompare a b < 0 ∧ lexLt a b) ∨ (lexCompare a b = 0 ∧ a = b) ∨
      (0 < lexCompare a b ∧ lexLt b a) := by
  intro a
  induction a with
  | nil =>
    intro b _ hb
    cases b with
    | nil => right; left; exact ⟨by decide, rfl⟩
    | cons y b =>
      left
      have := sortValue_digit y (hb y (List.mem_cons_self _ _))
      refine ⟨?_, by simp [lexLt]⟩
      simp only [lexCompare, headCode]
      rw [this.1]
      have : sortValue 0 = -1 := by decide
      omega
  | cons x a ih =>
    intro b ha hb
    cases b with
    | nil =>
      right; right
      have := sortValue_digit x (ha x (List.mem_cons_self _ _))
      refine ⟨?_, by simp [lexLt]⟩
      simp only [lexCompare, headCode]
      rw [this.1]
      have : sortValue 0 = -1 := by decide
      omega
    | cons y b =>
      have hx := ha x (List.mem_cons_self _ _)
      have hy := hb y (List.mem_cons_self _ _)
      by_cases hxy : x = y
      · subst hxy
        simp only [lexCompare, if_true, lexLt, lt_self_iff_false, true_and, false_or,
          List.cons.injEq]
        exact ih b (fun c hc => ha c (List.mem_cons_of_mem _ hc))
          (fun c hc => hb c (List.mem_cons_of_mem _ hc))
      · have hne : sortValue (x.toNat : Int) ≠ sortValue (y.toNat : Int) :=
          fun e => hxy (sortValue_inj x y hx hy e)
        simp only [lexCompare, hxy, if_false, lexLt]
        rcases lt_or_gt_of_ne hne with h | h
        · left; exact ⟨by omega, Or.inl h⟩
        · right; right; exact ⟨by omega, Or.inl h⟩

theorem lexCompare_le (a b : List Char) (ha : ∀ c ∈ a, isPhNumDigit (c.toNat : Int) = true)
    (hb : ∀ c ∈ b, isPhNumDigit (c.toNat : Int) = true) :
    (lexCompare a b ≤ 0 → lexLt a b ∨ a = b) ∧ (¬ lexCompare a b ≤ 0 → lexLt b a) := by
  rcases lexCompare_spec a b ha hb with ⟨h1, h2⟩ | ⟨h1, h2⟩ | ⟨h1, h2⟩
  · exact ⟨fun _ => Or.inl h2, fun h => absurd (le_of_lt h1) h⟩
  · exact ⟨fun _ => Or.inr h2, fun h => absurd (le_of_eq h1) h⟩
  · exact ⟨fun h => absurd h (not_le.mpr h1), fun _ => h2⟩

/-! ### Sorting and removing duplicates -/

theorem qsortInsert_perm (cmp : List Char → List Char → Int) (x : List Char) :
    ∀ l : List (List Char), List.Perm (qsortInsert cmp x l) (x :: l) := by
  intro l
  induction l with
  | nil => exact List.Perm.refl _
  | cons y ys ih =>
    simp only [qsortInsert]
    split_ifs
    · exact List.Perm.refl _
    · exact (List.Perm.cons y ih).trans (List.Perm.swap x y ys)

theorem qsort_perm (cmp : List Char → List Char → Int) :
    ∀ l : List (List Char), List.Perm (qsort cmp l) l := by
  intro l
  induction l with
  | nil => exact List.Perm.refl _
  | cons x xs ih =>
    simp only [qsort]
    exact (qsortInsert_perm cmp x _).trans (List.Perm.cons x ih)

theorem qsortInsert_sorted (x : List Char)
    (hx : ∀ c ∈ x, isPhNumDigit (c.toNat : Int) = true) : ∀ l : List (List Char),
    (∀ y ∈ l, ∀ c ∈ y, isPhNumDigit (c.toNat : Int) = true) →
    l.Pairwise (fun a b => lexLt a b ∨ a = b) →
    (qsortInsert lexCompare x l).Pairwise (fun a b => lexLt a b ∨ a = b) := by
  intro l
  induction l with
  | nil => intro _ _; simp [qsortInsert]
  | cons y ys ih =>
    intro hd hs
    have hy := hd y (List.mem_cons_self _ _)
    obtain ⟨h1, h2⟩ := lexCompare_le x y hx hy
    simp only [qsortInsert]
    rw [List.pairwise_cons] at hs
    split_ifs with hc
    · rw [List.pairwise_cons]
      refine ⟨?_, List.pairwise_cons.mpr hs⟩
      intro z hz
      rcases List.mem_cons.mp hz with rfl | hz
      · exact h1 hc
      · rcases h1 hc with h | h
        · rcases hs.1 z hz with h3 | h3
          · exact Or.inl (lexLt_trans _ _ _ h h3)
          · exact Or.inl (h3 ▸ h)
        · rw [h]; exact hs.1 z hz
    · rw [List.pairwise_cons]
      refine ⟨?_, ih (fun z hz => hd z (List.mem_cons_of_mem _ hz)) hs.2⟩
      intro z hz
      rcases List.mem_cons.mp ((qsortInsert_perm lexCompare x ys).mem_iff.mp hz) with rfl | hz
      · exact Or.inl (h2 hc)
      · exact hs.1 z hz

theorem qsort_sorted : ∀ l : List (List Char),
    (∀ y ∈ l, ∀ c ∈ y, isPhNumDigit (c.toNat : Int) = true) →
    (qsort lexCompare l).Pairwise (fun a b => lexLt a b ∨ a = b) := by
  intro l
  induction l with
  | nil => intro _; simp [qsort]
  | cons x xs ih =>
    intro hd
    simp only [qsort]
    apply qsortInsert_sorted x (hd x (List.mem_cons_self _ _))
    · intro y hy
      exact hd y (List.mem_cons_of_mem _ ((qsort_perm lexCompare xs).mem_iff.mp hy))
    · exact ih (fun y hy => hd y (List.mem_cons_of_mem _ hy))

theorem dedupAfter_length : ∀ (xs : List (List Char)) (prev : List Char),
    (dedupAfter prev xs).length ≤ xs.length := by
  intro xs
  induction xs with
  | nil => intro prev; simp [dedupAfter]
  | cons x xs ih =>
    intro prev
    simp only [dedupAfter]
    split_ifs
    · simp only [List.length_cons]
      have := ih x
      omega
    · simp only [List.length_cons]
      have := ih prev
      omega

theorem dedupAfter_mem : ∀ (xs : List (List Char)) (prev y : List Char),
    y ∈ prev :: dedupAfter prev xs ↔ y ∈ prev :: xs := by
  intro xs
  induction xs with
  | nil => intro prev y; simp [dedupAfter]
  | cons x xs ih =>
    intro prev y
    simp only [dedupAfter]
    by_cases hx : x = prev
    · subst hx
      simp only [ne_eq, not_true_eq_false, if_false]
      rw [ih x y]
      simp
    · simp only [ne_eq, hx, not_false_eq_true, if_true]
      have := ih x y
      simp only [List.mem_cons] at this ⊢
      rw [this]

theorem dedupAfter_sorted : ∀ (xs : List (List Char)) (prev : List Char),
    (prev :: xs).Pairwise (fun a b => lexLt a b ∨ a = b) →
    (prev :: dedupAfter prev xs).Pairwise lexLt := by
  intro xs
  induction xs with
  | nil => intro prev _; simp [dedupAfter]
  | cons x xs ih =>
    intro prev hs
    rw [List.pairwise_cons] at hs
    simp only [dedupAfter]
    by_cases hx : x = prev
    · subst hx
      simp only [ne_eq, not_true_eq_false, if_false]
      exact ih x hs.2
    · simp only [ne_eq, hx, not_false_eq_true, if_true]
      have hlt : lexLt prev x := by
        rcases hs.1 x (List.mem_cons_self _ _) with h | h
        · exact h
        · exact absurd h.symm hx
      rw [List.pairwise_cons]
      refine ⟨?_, ih x hs.2⟩
      intro z hz
      rcases List.mem_cons.mp ((dedupAfter_mem xs x z).mp hz) with rfl | hz2
      · exact hlt
      · rcases (List.pairwise_cons.mp hs.2).1 z hz2 with h | h
        · exact lexLt_trans _ _ _ hlt h
        · exact h ▸ hlt

theorem removeDuplicatesLoop_spec : ∀ (xs : List (List Char)) (prev : List Char)
    (new : PhoneNumbers), new.numbers.length ≤ new.capacity → new.capacity ≤ maxCapacity →
    new.numbers.length + xs.length ≤ maxCapacity →
    ∃ p1, removeDuplicatesLoop prev xs (some new) = some p1 ∧
      p1.numbers = new.numbers ++ dedupAfter prev xs := by
  intro xs
  induction xs with
  | nil => intro prev new _ _ _; exact ⟨new, rfl, by simp [dedupAfter]⟩
  | cons x xs ih =>
    intro prev new h1 h2 h3
    simp only [List.length_cons] at h3
    simp only [removeDuplicatesLoop, dedupAfter]
    by_cases hx : x = prev
    · subst hx
      have : strcmp x x = 0 := (strcmp_eq_zero x x).mpr rfl
      simp only [this, ne_eq, not_true_eq_false, if_false]
      exact ih x new h1 h2 (by omega)
    · have : strcmp x prev ≠ 0 := fun e => hx ((strcmp_eq_zero x prev).mp e)
      obtain ⟨p1, a1, a2, a3, a4⟩ := phnumAdd_ok new x h1 h2 (by omega)
      simp only [this, ne_eq, not_false_eq_true, if_true, a1, hx]
      obtain ⟨p2, b1, b2⟩ := ih x p1 a3 a4 (by
        rw [a2]
        simp only [List.length_append, List.length_singleton]
        omega)
      exact ⟨p2, b1, by rw [b2, a2]; simp⟩

theorem removeDuplicates_spec (pnum : PhoneNumbers) (x : List Char) (xs : List (List Char))
    (hn : pnum.numbers = x :: xs) (hl : pnum.numbers.length ≤ maxCapacity) :
    ∃ p1, removeDuplicates pnum = some (some p1) ∧ p1.numbers = x :: dedupAfter x xs := by
  rw [hn] at hl
  simp only [List.length_cons] at hl
  have hM := maxCapacity_eq
  obtain ⟨p0, a1, a2, a3, a4⟩ := phnumAdd_ok ⟨[], 0⟩ x (by simp) (by simp) (by simp; omega)
  obtain ⟨p1, b1, b2⟩ := removeDuplicatesLoop_spec xs x p0 a3 a4 (by
    rw [a2]
    simp only [List.nil_append, List.length_singleton]
    omega)
  refine ⟨p1, ?_, by rw [b2, a2]; simp⟩
  simp only [removeDuplicates, hn, phnumNew_eq, a1, b1]

/-! ### The numbers that the reverse queries collect -/

theorem mem_revCands (fw : List (List Char × List Char)) (rest : List Char) :
    ∀ (base y : List Char), y ∈ revCands fw base rest ↔
      ∃ t u a b, rest = t ++ u ∧ t ≠ [] ∧ (a, b) ∈ fw ∧ b = base ++ t ∧ y = a ++ u := by
  induction rest with
  | nil =>
    intro base y
    simp only [revCands, List.not_mem_nil, false_iff, not_exists, not_and]
    intro t u a b h ht
    have := List.append_eq_nil.mp h.symm
    exact absurd this.1 ht
  | cons c rest ih =>
    intro base y
    simp only [revCands, List.mem_append, List.mem_map, List.mem_filter, decide_eq_true_eq]
    rw [ih]
    constructor
    · rintro (⟨e, ⟨he, he2⟩, rfl⟩ | ⟨t, u, a, b, h1, h2, h3, h4, h5⟩)
      · exact ⟨[c], rest, e.1, e.2, rfl, by simp, he, he2, rfl⟩
      · exact ⟨c :: t, u, a, b, by simp [h1], by simp, h3, by simp [h4], h5⟩
    · rintro ⟨t, u, a, b, h1, h2, h3, h4, h5⟩
      cases t with
      | nil => exact absurd rfl h2
      | cons d t =>
        simp only [List.cons_append, List.cons.injEq] at h1
        obtain ⟨rfl, h1⟩ := h1
        by_cases ht : t = []
        · subst ht
          left
          exact ⟨(a, b), ⟨h3, h4⟩, by simp at h1; rw [h5, h1]⟩
        · right
          exact ⟨t, u, a, b, h1, ht, h3, by simp [h4], h5⟩

theorem findOcc_none_iff (keys : List (List Char)) (rest : List Char) :
    ∀ (base : List Char) (i : Nat), findOcc keys base rest i = none ↔
      ∀ t, t ≠ [] → t <+: rest → base ++ t ∉ keys := by
  induction rest with
  | nil =>
    intro base i
    simp only [findOcc, true_iff]
    intro t ht htp
    exact absurd (List.prefix_nil.mp htp) ht
  | cons c rest ih =>
    intro base i
    simp only [findOcc]
    by_cases hk : base ++ [c] ∈ keys
    · simp only [hk, if_true]
      constructor
      · intro h
        cases h
      · intro h
        exact absurd hk (h [c] (by simp) (by simp))
    · simp only [hk, if_false]
      rw [ih]
      constructor
      · intro h t ht htp
        cases t with
        | nil => exact absurd rfl ht
        | cons d t =>
          obtain ⟨rfl, htp2⟩ := List.cons_prefix_cons.mp htp
          by_cases ht0 : t = []
          · subst ht0
            exact hk
          · have := h t ht0 htp2
            simpa using this
      · intro h t ht htp
        have := h (c :: t) (by simp) (List.cons_prefix_cons.mpr ⟨rfl, htp⟩)
        simpa using this

theorem mem_getRevCands (fw : List (List Char × List Char)) (rest : List Char) :
    ∀ (base y : List Char), y ∈ getRevCands fw base rest ↔
      ∃ t u a b, rest = t ++ u ∧ t ≠ [] ∧ (a, b) ∈ fw ∧ b = base ++ t ∧ y = a ++ u ∧
        ∀ t', t' ≠ [] → t' <+: u → a ++ t' ∉ fw.map (fun e => e.1) := by
  induction rest with
  | nil =>
    intro base y
    simp only [getRevCands, List.not_mem_nil, false_iff, not_exists, not_and]
    intro t u a b h ht
    have := List.append_eq_nil.mp h.symm
    exact absurd this.1 ht
  | cons c rest ih =>
    intro base y
    rw [getRevCands, List.mem_append, ih]
    constructor
    · rintro (h | ⟨t, u, a, b, h1, h2, h3, h4, h5, h6⟩)
      · obtain ⟨e, he, rfl⟩ := List.mem_map.mp h
        obtain ⟨he1, he3⟩ := List.mem_filter.mp he
        obtain ⟨he, he2⟩ := List.mem_filter.mp he1
        exact ⟨[c], rest, e.1, e.2, rfl, by simp, he, by simpa using he2, rfl,
          (findOcc_none_iff _ _ _ _).mp (Option.isNone_iff_eq_none.mp he3)⟩
      · exact ⟨c :: t, u, a, b, by simp [h1], by simp, h3, by simp [h4], h5, h6⟩
    · rintro ⟨t, u, a, b, h1, h2, h3, h4, h5, h6⟩
      cases t with
      | nil => exact absurd rfl h2
      | cons d t =>
        simp only [List.cons_append, List.cons.injEq] at h1
        obtain ⟨rfl, h1⟩ := h1
        by_cases ht : t = []
        · subst ht
          left
          simp only [List.nil_append] at h1
          subst h1
          refine List.mem_map.mpr ⟨(a, b), List.mem_filter.mpr ⟨List.mem_filter.mpr
            ⟨h3, by simpa using h4⟩, ?_⟩, h5.symm⟩
          exact Option.isNone_iff_eq_none.mpr ((findOcc_none_iff _ _ _ _).mpr h6)
        · right
          exact ⟨t, u, a, b, h1, ht, h3, by simp [h4], h5, h6⟩

/-- The two cases of `absGet`: no source is a prefix of `y`, or `y` is a
longest source followed by a rest. -/
theorem absGet_cases (fw : List (List Char × List Char)) (hok : FwOK fw) (y : List Char) :
    ((∀ e ∈ fw, ¬ e.1 <+: y) ∧ absGet fw y = y) ∨
      ∃ a b u, (a, b) ∈ fw ∧ y = a ++ u ∧
        (∀ t', t' ≠ [] → t' <+: u → a ++ t' ∉ fw.map (fun e => e.1)) ∧
        absGet fw y = b ++ u := by
  by_cases hex : ∃ e ∈ fw, e.1 <+: y
  · right
    obtain ⟨e0, he0, hp0⟩ := hex
    have hin0 : e0.1 ∈ fw.map (fun e => e.1) := List.mem_map.mpr ⟨e0, he0, rfl⟩
    rcases scanLongest_spec (fw.map (fun e => e.1)) y [] [] with ⟨_, h2⟩ | ⟨t, _, h2, h3, _, h5⟩
    · exact absurd (by simpa using hin0) (h2 e0.1 (hok.2 e0 he0).1.1 hp0)
    · simp only [List.nil_append] at h3 h5
      obtain ⟨e, he, rfl⟩ := List.mem_map.mp h3
      obtain ⟨u, hu⟩ := h2
      have hmax : ∀ e' ∈ fw, e'.1 <+: y → e'.1.length ≤ e.1.length :=
        fun e' he' hp => h5 e'.1 hp (List.mem_map.mpr ⟨e', he', rfl⟩)
      refine ⟨e.1, e.2, u, he, hu.symm, ?_, ?_⟩
      · intro t' ht' htp hin
        obtain ⟨e', he', he2⟩ := List.mem_map.mp hin
        have hp : e'.1 <+: y := by
          rw [he2, ← hu]
          exact (List.prefix_append_right_inj _).mpr htp
        have := hmax e' he' hp
        rw [he2] at this
        simp only [List.length_append] at this
        have : t'.length = 0 := by omega
        exact ht' (List.length_eq_zero.mp this)
      · rw [absGet_some fw hok.1 y e.1 e.2 he (hok.2 e he).1.1 ⟨u, hu⟩ hmax, ← hu]
        simp
  · left
    have hno : ∀ e ∈ fw, ¬ e.1 <+: y := fun e he hp => hex ⟨e, he, hp⟩
    exact ⟨hno, absGet_none fw y hno⟩

/-- The numbers that `phfwdGetReverse` collects for `x` are the numbers that
are forwarded to `x`. -/
theorem getRev_mem_iff (fw : List (List Char × List Char)) (hok : FwOK fw) (x y : List Char) :
    ((y = x ∧ findOcc (fw.map (fun e => e.1)) [] x 0 = none) ∨ y ∈ getRevCands fw [] x) ↔
      absGet fw y = x := by
  constructor
  · rintro (⟨rfl, h⟩ | h)
    · apply absGet_none
      intro e he hp
      have := (findOcc_none_iff _ _ _ _).mp h e.1 (hok.2 e he).1.1 hp
      rw [List.nil_append] at this
      exact this (List.mem_map.mpr ⟨e, he, rfl⟩)
    · obtain ⟨t, u, a, b, h1, _, h3, h4, h5, h6⟩ := (mem_getRevCands fw x [] y).mp h
      simp only [List.nil_append] at h4
      have hmax : ∀ e ∈ fw, e.1 <+: y → e.1.length ≤ a.length := by
        intro e he hp
        by_contra hlt
        have hae : a <+: e.1 :=
          List.prefix_of_prefix_length_le ⟨u, h5.symm⟩ hp (by omega)
        obtain ⟨t', ht'⟩ := hae
        have ht0 : t' ≠ [] := by
          intro e2
          rw [e2] at ht'
          simp only [List.append_nil] at ht'
          rw [ht'] at hlt
          exact hlt (le_refl _)
        have htu : t' <+: u := by
          rw [h5, ← ht'] at hp
          exact (List.prefix_append_right_inj _).mp hp
        exact h6 t' ht0 htu (by rw [ht']; exact List.mem_map.mpr ⟨e, he, rfl⟩)
      rw [absGet_some fw hok.1 y a b h3 (hok.2 _ h3).1.1 ⟨u, h5.symm⟩ hmax, h5, h1, h4]
      simp
  · intro h
    rcases absGet_cases fw hok y with ⟨h1, h2⟩ | ⟨a, b, u, h1, h2, h3, h4⟩
    · left
      rw [h2] at h
      subst h
      refine ⟨rfl, (findOcc_none_iff _ _ _ _).mpr ?_⟩
      intro t _ htp hin
      rw [List.nil_append] at hin
      obtain ⟨e, he, he2⟩ := List.mem_map.mp hin
      exact h1 e he (he2 ▸ htp)
    · right
      rw [h4] at h
      exact (mem_getRevCands fw x [] y).mpr
        ⟨b, u, a, b, h.symm, (hok.2 _ h1).2.1.1, h1, by simp, h2, h3⟩

/-- A number that is forwarded to `x` is among the numbers that `phfwdReverse`
collects for `x`. -/
theorem rev_mem_of_get (fw : List (List Char × List Char)) (hok : FwOK fw) (x y : List Char)
    (h : absGet fw y = x) : y = x ∨ y ∈ revCands fw [] x := by
  rcases absGet_cases fw hok y with ⟨_, h2⟩ | ⟨a, b, u, h1, h2, _, h4⟩
  · left
    rw [h2] at h
    exact h
  · right
    rw [h4] at h
    exact (mem_revCands fw x [] y).mpr ⟨b, u, a, b, h.symm, (hok.2 _ h1).2.1.1, h1, by simp, h2⟩

/-! ### The results of the reverse queries -/

theorem revCands_digits (fw : List (List Char × List Char)) (hok : FwOK fw) (x : List Char)
    (hx : ValidNum x) : ∀ y ∈ x :: revCands fw [] x,
    ∀ c ∈ y, isPhNumDigit (c.toNat : Int) = true := by
  intro y hy c hc
  rcases List.mem_cons.mp hy with rfl | hy
  · exact hx.2 c hc
  · obtain ⟨t, u, a, b, h1, _, h3, _, h5⟩ := (mem_revCands fw x [] y).mp hy
    rw [h5] at hc
    rcases List.mem_append.mp hc with h | h
    · exact (hok.2 _ h3).1.2 c h
    · exact hx.2 c (by rw [h1]; exact List.mem_append_right _ h)

/-- Below the capacity bound `phfwdReverse` returns the number itself and the
numbers collected, in strictly increasing order. -/
theorem absReverse_ok (fw : List (List Char × List Char)) (hok : FwOK fw) (x : List Char)
    (hx : ValidNum x) (hb : fw.length < maxCapacity) :
    ∃ r, absReverse fw x = some (some r) ∧
      (∀ y, y ∈ r.numbers ↔ (y = x ∨ y ∈ revCands fw [] x)) ∧
      r.numbers.Pairwise lexLt := by
  have hM := maxCapacity_eq
  have hlen : (revCands fw [] x).length ≤ fw.length :=
    le_trans (revCands_length fw x []) (List.length_filter_le _ _)
  obtain ⟨p1, a1, a2, a3, a4⟩ := addAll_ok (revCands fw [] x) ⟨[x], 1⟩ (by simp)
    (by simp only []; omega) (by simp only [List.length_singleton]; omega)
  have hperm := qsort_perm lexCompare p1.numbers
  have hsorted := qsort_sorted p1.numbers (by
    rw [a2]
    exact revCands_digits fw hok x hx)
  cases hq : qsort lexCompare p1.numbers with
  | nil =>
    rw [hq] at hperm
    have := hperm.length_eq
    rw [a2] at this
    simp at this
  | cons y0 ys =>
    rw [hq] at hperm hsorted
    obtain ⟨p2, b1, b2⟩ := removeDuplicates_spec (lexSort p1) y0 ys (by simp [lexSort, hq]) (by
      simp only [lexSort, hq]
      rw [hperm.length_eq, a2]
      simp only [List.singleton_append, List.length_cons]
      omega)
    refine ⟨p2, ?_, ?_, ?_⟩
    · simp only [absReverse, phnumSafeAdd_new, a1, b1]
    · intro y
      rw [b2, dedupAfter_mem, hperm.mem_iff, a2]
      simp
    · rw [b2]
      exact dedupAfter_sorted ys y0 hsorted

/-- Below the capacity bound `phfwdGetReverse` returns the numbers
collected. -/
theorem absGetReverse_ok (fw : List (List Char × List Char)) (x : List Char)
    (hb : fw.length < maxCapacity) :
    ∃ r, absGetReverse fw x = some (some r) ∧
      ∀ y, y ∈ r.numbers ↔
        ((y = x ∧ findOcc (fw.map (fun e => e.1)) [] x 0 = none) ∨
          y ∈ getRevCands fw [] x) := by
  have hM := maxCapacity_eq
  have hlen : (getRevCands fw [] x).length ≤ fw.length :=
    le_trans (getRevCands_length fw x []) (List.length_filter_le _ _)
  cases hfo : findOcc (fw.map (fun e => e.1)) [] x 0 with
  | none =>
    obtain ⟨p1, a1, a2, _, _⟩ := addAll_ok (getRevCands fw [] x) ⟨[x], 1⟩ (by simp)
      (by simp only []; omega) (by simp only [List.length_singleton]; omega)
    refine ⟨lexSort p1, ?_, ?_⟩
    · simp only [absGetReverse, hfo, Option.isNone_none, if_true, phnumSafeAdd_new, a1]
    · intro y
      show y ∈ qsort lexCompare p1.numbers ↔ _
      rw [(qsort_perm lexCompare p1.numbers).mem_iff, a2]
      simp
  | some v =>
    obtain ⟨p1, a1, a2, _, _⟩ := addAll_ok (getRevCands fw [] x) ⟨[], 0⟩ (by simp)
      (by simp) (by simp only [List.length_nil]; omega)
    refine ⟨lexSort p1, ?_, ?_⟩
    · simp only [absGetReverse, hfo, Option.isNone_some, Bool.false_eq_true, if_false, phnumNew_eq,
        a1]
    · intro y
      show y ∈ qsort lexCompare p1.numbers ↔ _
      rw [(qsort_perm lexCompare p1.numbers).mem_iff, a2]
      simp

/-! ### The queries on the state of a run -/

theorem brk_of_eval {ops : List Op} {st : State} (hst : runFresh ops = some st)
    (h : (runFresh ops).map (fun st => decide (st.mem.brk ≤ maxCapacity)) = some true) :
    st.mem.brk ≤ maxCapacity := by
  rw [hst] at h
  simpa using h

theorem run_get {ops : List Op} {st : State} (hst : runFresh ops = some st) (y : List Char)
    (hy : ValidNum y) :
    numbersOf (phfwdGet st.mem (some st.pf) (some y)) = some [absGet (forwardings ops) y] := by
  obtain ⟨g, hI, hfw⟩ := run_state hst
  rw [phfwdGet_spec hI y hy, hfw]
  rfl

theorem run_reverse {ops : List Op} {st : State} (hst : runFresh ops = some st)
    (hb : st.mem.brk ≤ maxCapacity) (x : List Char) (hx : ValidNum x) :
    ∃ r, phfwdReverse st.mem (some st.pf) (some x) = some (some r) ∧
      (∀ y, y ∈ r.numbers ↔ (y = x ∨ y ∈ revCands (forwardings ops) [] x)) ∧
      r.numbers.Pairwise lexLt := by
  obtain ⟨g, hI, hfw⟩ := run_state hst
  have hlen := forwardings_length_lt hst
  obtain ⟨r, h1, h2, h3⟩ := absReverse_ok (forwardings ops) (forwardings_ok ops) x hx
    (by omega)
  exact ⟨r, by rw [phfwdReverse_spec hI x hx, hfw]; exact h1, h2, h3⟩

theorem run_getReverse {ops : List Op} {st : State} (hst : runFresh ops = some st)
    (hb : st.mem.brk ≤ maxCapacity) (x : List Char) (hx : ValidNum x) :
    ∃ r, phfwdGetReverse st.mem (some st.pf) (some x) = some (some r) ∧
      ∀ y, y ∈ r.numbers ↔ absGet (forwardings ops) y = x := by
  obtain ⟨g, hI, hfw⟩ := run_state hst
  have hlen := forwardings_length_lt hst
  obtain ⟨r, h1, h2⟩ := absGetReverse_ok (forwardings ops) x (by omega)
  refine ⟨r, by rw [phfwdGetReverse_spec hI x hx, hfw]; exact h1, ?_⟩
  intro y
  rw [h2 y]
  exact getRev_mem_iff (forwardings ops) (forwardings_ok ops) x y

theorem revCands_nil (rest : List Char) : ∀ base : List Char, revCands [] base rest = [] := by
  induction rest with
  | nil => intro base; rfl
  | cons c rest ih => intro base; simp [revCands, ih]

/-! ### The reverse query does not depend on the order of the forwardings -/

theorem revCands_perm {fw fw1 : List (List Char × List Char)} (h : List.Perm fw fw1)
    (rest : List Char) : ∀ base : List Char,
    List.Perm (revCands fw base rest) (revCands fw1 base rest) := by
  induction rest with
  | nil => intro base; exact List.Perm.refl _
  | cons c rest ih =>
    intro base
    simp only [revCands]
    exact List.Perm.append (List.Perm.map _ (List.Perm.filter _ h)) (ih _)

theorem phnumAdd_shape (p q : PhoneNumbers) (s t : List Char)
    (hl : p.numbers.length = q.numbers.length) (hc : p.capacity = q.capacity) :
    (phnumAdd (some p) (some s) = none ∧ phnumAdd (some q) (some t) = none) ∨
      ∃ p1 q1, phnumAdd (some p) (some s) = some p1 ∧ phnumAdd (some q) (some t) = some q1 ∧
        p1.numbers = p.numbers ++ [s] ∧ q1.numbers = q.numbers ++ [t] ∧
        p1.capacity = q1.capacity := by
  simp only [phnumAdd_eq, hl, hc]
  by_cases h1 : q.numbers.length = q.capacity
  · by_cases h2 : q.capacity = maxCapacity
    · left
      simp [h1, h2]
    · right
      simp only [h1, if_true, h2, if_false]
      exact ⟨_, _, rfl, rfl, rfl, rfl, rfl⟩
  · right
    simp only [h1, if_false]
    exact ⟨_, _, rfl, rfl, rfl, rfl, rfl⟩

theorem addAll_shape : ∀ (l l1 : List (List Char)) (p q : PhoneNumbers),
    l.length = l1.length → p.numbers.length = q.numbers.length → p.capacity = q.capacity →
    (addAll (some p) l = none ∧ addAll (some q) l1 = none) ∨
      ∃ p1 q1, addAll (some p) l = some p1 ∧ addAll (some q) l1 = some q1 ∧
        p1.numbers = p.numbers ++ l ∧ q1.numbers = q.numbers ++ l1 ∧
        p1.capacity = q1.capacity := by
  intro l
  induction l with
  | nil =>
    intro l1 p q hl hn hc
    cases l1 with
    | nil => right; exact ⟨p, q, rfl, rfl, by simp, by simp, hc⟩
    | cons b l1 => simp at hl
  | cons a l ih =>
    intro l1 p q hl hn hc
    cases l1 with
    | nil => simp at hl
    | cons b l1 =>
      simp only [List.length_cons, add_left_inj] at hl
      rw [addAll_cons, addAll_cons]
      simp only [phnumSafeAdd]
      rcases phnumAdd_shape p q a b hn hc with ⟨h1, h2⟩ | ⟨p1, q1, h1, h2, h3, h4, h5⟩
      · left
        rw [h1, h2]
        exact ⟨addAll_none _, addAll_none _⟩
      · rw [h1, h2]
        rcases ih l1 p1 q1 hl (by rw [h3, h4]; simp [hn]) h5 with ⟨a1, a2⟩ |
          ⟨p2, q2, a1, a2, a3, a4, a5⟩
        · left; exact ⟨a1, a2⟩
        · right
          exact ⟨p2, q2, a1, a2, by rw [a3, h3]; simp, by rw [a4, h4]; simp, a5⟩

theorem qsort_eq_of_perm (l l1 : List (List Char)) (h : List.Perm l l1)
    (hd : ∀ y ∈ l, ∀ c ∈ y, isPhNumDigit (c.toNat : Int) = true) :
    qsort lexCompare l = qsort lexCompare l1 := by
  haveI : IsAntisymm (List Char) (fun a b => lexLt a b ∨ a = b) := ⟨by
    intro a b h1 h2
    rcases h1 with h1 | h1
    · rcases h2 with h2 | h2
      · exact absurd (lexLt_trans _ _ _ h1 h2) (lexLt_irrefl a)
      · exact h2.symm
    · exact h1⟩
  exact @List.eq_of_perm_of_sorted _ (fun a b => lexLt a b ∨ a = b) _ _ _
    (((qsort_perm lexCompare l).trans h).trans (qsort_perm lexCompare l1).symm)
    (qsort_sorted l hd) (qsort_sorted l1 (fun y hy => hd y (h.mem_iff.mpr hy)))

/-- The result of `phfwdReverse` is the same for the same forwardings in
another order. -/
theorem absReverse_perm {fw fw1 : List (List Char × List Char)} (h : List.Perm fw fw1)
    (hok : FwOK fw) (x : List Char) (hx : ValidNum x) :
    absReverse fw x = absReverse fw1 x := by
  have hp := revCands_perm h x []
  simp only [absReverse, phnumSafeAdd_new]
  rcases addAll_shape (revCands fw [] x) (revCands fw1 [] x) ⟨[x], 1⟩ ⟨[x], 1⟩ hp.length_eq
    rfl rfl with ⟨h1, h2⟩ | ⟨p1, q1, h1, h2, h3, h4, h5⟩
  · rw [h1, h2]
  · rw [h1, h2]
    have hq : qsort lexCompare p1.numbers = qsort lexCompare q1.numbers := by
      apply qsort_eq_of_perm
      · rw [h3, h4]
        exact List.Perm.append (List.Perm.refl _) hp
      · rw [h3]
        exact revCands_digits fw hok x hx
    have : lexSort p1 = lexSort q1 := by
      simp only [lexSort, hq, h5]
    simp only [this]

/-! ### The source lists -/

theorem listKeys_chain {m : Mem} {fA : List Char → Nat} : ∀ (l : List Entry)
    (prev head fuel : Nat), Chain m fA prev l head → l.length ≤ fuel →
    listKeys m fuel head = some (l.map (fun e => fA e.src)) := by
  intro l
  induction l with
  | nil =>
    intro prev head fuel h _
    have h0 : head = 0 := h
    subst h0
    cases fuel <;> simp [listKeys]
  | cons e rest ih =>
    intro prev head fuel h hl
    obtain ⟨h1, h2, nx, h3, h4⟩ := h
    obtain ⟨f, rfl⟩ : ∃ f, fuel = f + 1 := ⟨fuel - 1, by simp at hl; omega⟩
    subst h1
    simp only [listKeys, h2, if_false, h3]
    rw [ih _ _ f h4 (by simp at hl; omega)]
    rfl

/-- The source list of the target of a forwarding holds the forward node of
its source exactly once. -/
theorem source_list_once {m : Mem} {pf : PhoneForward} {g : Ghost} (h : Inv m pf g)
    (A B : List Char) (hA : ValidNum A) (hB : ValidNum B) (hAB : (A, B) ∈ fwOf g.reg) :
    ∃ F R n keys, trieFind m pf.rootFwd A = some F ∧ F ≠ 0 ∧
      trieFind m pf.rootReverse B = some R ∧ m.trie R = some n ∧
      listKeys m m.brk n.listNode = some keys ∧ keys.count F = 1 := by
  obtain ⟨e, he, hee⟩ := List.mem_map.mp hAB
  simp only [Prod.mk.injEq] at hee
  obtain ⟨hs, hd⟩ := hee
  obtain ⟨x1, x2, _⟩ := h.rev.entry e he
  rw [hs] at x1
  rw [hd] at x2
  have hfF : trieFind m pf.rootFwd A = some (g.fA A) := by
    have := trieFind_spec h.shapeF A hA.2 []
      (fun h0 => absurd (h.shapeF.root_eq ▸ h0) h.shapeF.root_ne)
    rw [h.shapeF.root_eq] at this
    simpa using this
  have hfR : trieFind m pf.rootReverse B = some (g.rA B) := by
    have := trieFind_spec h.rev.shape B hB.2 []
      (fun h0 => absurd (h.rev.shape.root_eq ▸ h0) h.rev.shape.root_ne)
    rw [h.rev.shape.root_eq] at this
    simpa using this
  obtain ⟨n, hn, _, hC⟩ := h.rev.lists B x2
  have hk := listKeys_chain _ _ _ m.brk hC (le_of_lt (filter_length_lt h.rev _))
  refine ⟨g.fA A, g.rA B, n, _, hfF, x1, hfR, hn, hk, ?_⟩
  apply List.count_eq_one_of_mem
  · have hnd : (g.reg.filter (fun e => decide (e.dst = B))).Nodup :=
      (List.Nodup.of_map _ h.srcs).sublist (List.filter_sublist _)
    rw [List.nodup_map_iff_inj_on hnd]
    intro x hx y hy exy
    have hx1 := (h.rev.entry x (List.mem_filter.mp hx).1).1
    have := h.shapeF.inj _ _ hx1 exy
    exact List.inj_on_of_nodup_map h.srcs (List.mem_filter.mp hx).1 (List.mem_filter.mp hy).1 this
  · exact List.mem_map.mpr ⟨e, List.mem_filter.mpr ⟨he, by simpa using hd⟩, by rw [hs]⟩

/-- No forward node is forwarded to the reverse node of its own number. -/
theorem no_self_map {m : Mem} {pf : PhoneForward} {g : Ghost} (h : Inv m pf g)
    (hok : FwOK (fwOf g.reg)) (A : List Char) (hA : ValidNum A) :
    ∃ F, trieFind m pf.rootFwd A = some F ∧
      (F ≠ 0 → ∀ nF, m.trie F = some nF → nF.fwdNode ≠ 0 →
        trieFind m pf.rootReverse A ≠ some nF.fwdNode) := by
  have hfF : trieFind m pf.rootFwd A = some (g.fA A) := by
    have := trieFind_spec h.shapeF A hA.2 []
      (fun h0 => absurd (h.shapeF.root_eq ▸ h0) h.shapeF.root_ne)
    rw [h.shapeF.root_eq] at this
    simpa using this
  have hfR : trieFind m pf.rootReverse A = some (g.rA A) := by
    have := trieFind_spec h.rev.shape A hA.2 []
      (fun h0 => absurd (h.rev.shape.root_eq ▸ h0) h.rev.shape.root_ne)
    rw [h.rev.shape.root_eq] at this
    simpa using this
  refine ⟨g.fA A, hfF, ?_⟩
  intro hz nF hnF hne
  rw [hfR]
  obtain ⟨n, hn, d1, d2⟩ := h.data A hz
  rw [hnF] at hn
  cases hn
  by_cases hex : ∃ e ∈ g.reg, e.src = A
  · obtain ⟨e, he, hes⟩ := hex
    obtain ⟨f1, _⟩ := d1 e he hes
    rw [f1]
    intro e2
    simp only [Option.some.injEq] at e2
    have hr := (h.rev.entry e he).2.1
    have := h.rev.shape.inj _ _ hr e2.symm
    have hne2 := (hok.2 (e.src, e.dst) (List.mem_map.mpr ⟨e, he, rfl⟩)).2.2
    exact hne2 (by rw [hes]; exact this.symm)
  · have := d2 (fun e he hes => hex ⟨e, he, hes⟩)
    exact absurd this.1 hne

/-- A number that is a prefix of no source has no node in the forward trie. -/
theorem no_node_of_no_source {m : Mem} {pf : PhoneForward} {g : Ghost} (h : Inv m pf g)
    (A : List Char) (hA : ValidNum A) (hno : ∀ e ∈ fwOf g.reg, ¬ A <+: e.1) :
    trieFind m pf.rootFwd A = some 0 := by
  have hfF : trieFind m pf.rootFwd A = some (g.fA A) := by
    have := trieFind_spec h.shapeF A hA.2 []
      (fun h0 => absurd (h.shapeF.root_eq ▸ h0) h.shapeF.root_ne)
    rw [h.shapeF.root_eq] at this
    simpa using this
  rw [hfF]
  by_contra hne
  have hz : g.fA A ≠ 0 := fun e => hne (by rw [e])
  obtain ⟨e, he, hp⟩ := h.deadF A hA.1 hz
  exact hno (e.src, e.dst) (List.mem_map.mpr ⟨e, he, rfl⟩) hp

/-! ### The alphabet and the order of the specification -/

theorem isPhNumDigit_iff (c : Char) : isPhNumDigit (c.toNat : Int) = true ↔ c ∈ alphabet := by
  constructor
  · intro h
    rcases digitChar_cases c h with h | h | h | h | h | h | h | h | h | h | h | h <;>
      subst h <;> decide
  · intro h
    simp only [alphabet, List.mem_cons, List.mem_singleton, List.not_mem_nil, or_false] at h
    rcases h with h | h | h | h | h | h | h | h | h | h | h | h <;> subst h <;> decide

theorem sortValue_nonneg (c : Char) (h : isPhNumDigit (c.toNat : Int) = true) :
    0 ≤ sortValue (c.toNat : Int) := by
  rw [(sortValue_digit c h).1]
  exact Int.natCast_nonneg _

theorem lex_cons_cons (p q : Int) (l l' : List Int) :
    List.Lex (fun x y : Int => x < y) (p :: l) (q :: l') ↔
      p < q ∨ (p = q ∧ List.Lex (fun x y : Int => x < y) l l') := by
  constructor
  · intro h
    cases h with
    | cons h => exact Or.inr ⟨rfl, h⟩
    | rel h => exact Or.inl h
  · rintro (h | ⟨rfl, h⟩)
    · exact List.Lex.rel h
    · exact List.Lex.cons h

theorem lexLt_iff_collate : ∀ a b : List Char,
    (∀ c ∈ a, isPhNumDigit (c.toNat : Int) = true) →
    (∀ c ∈ b, isPhNumDigit (c.toNat : Int) = true) →
    (lexLt a b ↔ List.Lex (fun x y : Int => x < y) (collate a) (collate b)) := by
  have h0 : sortValue 0 = -1 := by decide
  have hnil : ¬ List.Lex (fun x y : Int => x < y) [] [] := fun h => by cases h
  intro a
  induction a with
  | nil =>
    intro b _ hb
    cases b with
    | nil =>
      simp only [lexLt, collate, List.map_nil, List.nil_append, false_iff, lex_cons_cons,
        lt_self_iff_false, true_and, false_or]
      exact hnil
    | cons y bs =>
      have := sortValue_nonneg y (hb y (List.mem_cons_self _ _))
      simp only [lexLt, collate, List.map_nil, List.nil_append, true_iff, List.map_cons,
        List.cons_append, lex_cons_cons, h0]
      left
      omega
  | cons x as ih =>
    intro b ha hb
    have hx := sortValue_nonneg x (ha x (List.mem_cons_self _ _))
    cases b with
    | nil =>
      simp only [lexLt, collate, List.map_nil, List.nil_append, false_iff, List.map_cons,
        List.cons_append, lex_cons_cons, h0]
      rintro (h | ⟨h, _⟩) <;> omega
    | cons y bs =>
      have ih' := ih bs (fun c hc => ha c (List.mem_cons_of_mem _ hc))
        (fun c hc => hb c (List.mem_cons_of_mem _ hc))
      simp only [lexLt, collate, List.map_cons, List.cons_append, lex_cons_cons]
      constructor
      · rintro (h | ⟨rfl, h⟩)
        · exact Or.inl h
        · exact Or.inr ⟨rfl, ih'.mp h⟩
      · rintro (h | ⟨h1, h⟩)
        · exact Or.inl h
        · exact Or.inr ⟨sortValue_inj x y (ha x (List.mem_cons_self _ _))
            (hb y (List.mem_cons_self _ _)) h1, ih'.mpr h⟩

theorem lexLt_extend : ∀ a t : List Char, t ≠ [] → lexLt a (a ++ t) := by
  intro a
  induction a with
  | nil =>
    intro t ht
    cases t with
    | nil => exact absurd rfl ht
    | cons c t => simp [lexLt]
  | cons x as ih =>
    intro t ht
    simp only [List.cons_append, lexLt]
    exact Or.inr ⟨trivial, ih t ht⟩

theorem lexLt_asymm (a b : List Char) (h1 : lexLt a b) (h2 : lexLt b a) : False :=
  lexLt_irrefl a (lexLt_trans a b a h1 h2)

theorem lexCompare_neg_iff (a b : List Char)
    (ha : ∀ c ∈ a, isPhNumDigit (c.toNat : Int) = true)
    (hb : ∀ c ∈ b, isPhNumDigit (c.toNat : Int) = true) :
    (lexCompare a b < 0 ↔ lexLt a b) ∧ (lexCompare a b = 0 ↔ a = b) ∧
      (0 < lexCompare a b ↔ lexLt b a) := by
  rcases lexCompare_spec a b ha hb with ⟨h1, h2⟩ | ⟨h1, h2⟩ | ⟨h1, h2⟩
  · refine ⟨⟨fun _ => h2, fun _ => h1⟩, ⟨fun h => by omega, ?_⟩, ⟨fun h => by omega, ?_⟩⟩
    · rintro rfl
      exact absurd h2 (lexLt_irrefl a)
    · intro h
      exact (lexLt_asymm a b h2 h).elim
  · subst h2
    refine ⟨⟨fun h => by omega, fun h => absurd h (lexLt_irrefl a)⟩, ⟨fun _ => rfl, fun _ => h1⟩,
      ⟨fun h => by omega, fun h => absurd h (lexLt_irrefl a)⟩⟩
  · refine ⟨⟨fun h => by omega, ?_⟩, ⟨fun h => by omega, ?_⟩, ⟨fun _ => h2, fun _ => h1⟩⟩
    · intro h
      exact (lexLt_asymm a b h h2).elim
    · rintro rfl
      exact absurd h2 (lexLt_irrefl a)

/-! ### The next non-empty node and the sequences that the reverse queries fill -/

theorem isEmpty_node {m : Mem} {root : Nat} {A : List Char → Nat} (hS : Shape m root A)
    (q : List Char) (hq : q ≠ []) (hq0 : A q ≠ 0) :
    isEmpty m (A q) = some (!nonEmptyAt m (A q)) := by
  obtain ⟨n, hn, _⟩ := hS.node q hq0
  obtain ⟨q0, c, rfl⟩ : ∃ q0 c, q = q0 ++ [c] := by
    rcases List.eq_nil_or_concat q with h | ⟨q0, c, h⟩
    · exact absurd h hq
    · exact ⟨q0, c, by simpa using h⟩
  have hp := hS.parent_snoc q0 c n hq0 hn
  have hp0 : n.parent ≠ 0 := by rw [hp]; exact (hS.closed q0 c hq0).1
  simp only [isEmpty, hq0, if_false, hn, hp0, nonEmptyAt]
  by_cases h1 : n.fwdNode = 0 <;> by_cases h2 : n.listNode = 0 <;> simp [h1, h2]

theorem nextLoop_found {m : Mem} {root : Nat} {A : List Char → Nat} (hS : Shape m root A)
    (orig : Nat) (rest : List Char) (hd : ∀ c ∈ rest, isPhNumDigit (c.toNat : Int) = true) :
    ∀ (base : List Char) (i : Nat) (t : List Char), base ≠ [] → t <+: rest →
      A (base ++ t) ≠ 0 → nonEmptyAt m (A (base ++ t)) = true →
      (∀ t', t' <+: t → t' ≠ t → nonEmptyAt m (A (base ++ t')) = false) →
      trieFindNextNonEmptyLoop m orig (A base) rest i = some (A (base ++ t), i + t.length) := by
  induction rest with
  | nil =>
    intro base i t hb ht h0 h1 _
    have : t = [] := List.prefix_nil.mp ht
    subst this
    rw [List.append_nil] at h0 h1
    simp [trieFindNextNonEmptyLoop, trieFindNextNonEmptyEnd, isEmpty_node hS base hb h0, h1]
  | cons c rest ih =>
    intro base i t hb ht h0 h1 h2
    have hb0 : A base ≠ 0 := hS.pre base t h0
    obtain ⟨n, hn, _⟩ := hS.node base hb0
    have hc := hd c (List.mem_cons_self _ _)
    cases t with
    | nil =>
      rw [List.append_nil] at h0 h1
      simp [trieFindNextNonEmptyLoop, hb0, isEmpty_node hS base hb h0, h1]
    | cons c' t' =>
      obtain ⟨rfl, ht'⟩ : c' = c ∧ t' <+: rest := by
        obtain ⟨u, hu⟩ := ht
        simp only [List.cons_append, List.cons.injEq] at hu
        exact ⟨hu.1, u, hu.2⟩
      have he := h2 [] List.nil_prefix (by simp)
      rw [List.append_nil] at he
      have e : base ++ c' :: t' = base ++ [c'] ++ t' := by simp
      rw [e] at h0 h1
      simp only [trieFindNextNonEmptyLoop, hb0, if_false, isEmpty_node hS base hb hb0, he,
        Bool.not_false, Bool.not_true, Bool.false_eq_true, hn, hS.child base hb0 n hn c' hc]
      rw [ih (fun d hd' => hd d (List.mem_cons_of_mem _ hd')) (base ++ [c']) (i + 1) t'
        (by simp) ht' h0 h1 ?_, e]
      · simp only [List.length_cons]
        congr 2
        omega
      · intro t'' h3 h4
        have := h2 (c' :: t'') (by
          obtain ⟨u, hu⟩ := h3
          exact ⟨u, by rw [← hu]; simp⟩) (by simpa using h4)
        simpa using this

theorem nextLoop_none {m : Mem} {root : Nat} {A : List Char → Nat} (hS : Shape m root A)
    (orig : Nat) (rest : List Char) (hd : ∀ c ∈ rest, isPhNumDigit (c.toNat : Int) = true) :
    ∀ (base : List Char) (i : Nat), base ≠ [] →
      (∀ t, t <+: rest → A (base ++ t) ≠ 0 → nonEmptyAt m (A (base ++ t)) = false) →
      trieFindNextNonEmptyLoop m orig (A base) rest i = some (0, orig) := by
  induction rest with
  | nil =>
    intro base i hb h
    by_cases hb0 : A base = 0
    · simp [trieFindNextNonEmptyLoop, trieFindNextNonEmptyEnd, hb0, isEmpty]
    · have := h [] (List.prefix_refl _) (by simpa using hb0)
      rw [List.append_nil] at this
      simp [trieFindNextNonEmptyLoop, trieFindNextNonEmptyEnd, isEmpty_node hS base hb hb0, this]
  | cons c rest ih =>
    intro base i hb h
    by_cases hb0 : A base = 0
    · simp [trieFindNextNonEmptyLoop, trieFindNextNonEmptyEnd, hb0, isEmpty]
    · have he := h [] List.nil_prefix (by simpa using hb0)
      rw [List.append_nil] at he
      obtain ⟨n, hn, _⟩ := hS.node base hb0
      have hc := hd c (List.mem_cons_self _ _)
      simp only [trieFindNextNonEmptyLoop, hb0, if_false, isEmpty_node hS base hb hb0, he,
        Bool.not_false, Bool.not_true, Bool.false_eq_true, hn, hS.child base hb0 n hn c hc]
      apply ih (fun d hd' => hd d (List.mem_cons_of_mem _ hd')) (base ++ [c]) (i + 1) (by simp)
      intro t ht h0
      have := h (c :: t) (by
        obtain ⟨u, hu⟩ := ht
        exact ⟨u, by rw [← hu]; simp⟩) (by simpa using h0)
      simpa using this

theorem nextLoop_total {m : Mem} {root : Nat} {A : List Char → Nat} (hS : Shape m root A)
    (orig : Nat) (rest : List Char) (hd : ∀ c ∈ rest, isPhNumDigit (c.toNat : Int) = true) :
    ∀ (base : List Char) (i : Nat), base ≠ [] →
      ∃ r k, trieFindNextNonEmptyLoop m orig (A base) rest i = some (r, k) ∧
        ((r = 0 ∧ k = orig) ∨ ∃ t, r = A (base ++ t) ∧ r ≠ 0) := by
  induction rest with
  | nil =>
    intro base i hb
    by_cases hb0 : A base = 0
    · exact ⟨0, orig, by simp [trieFindNextNonEmptyLoop, trieFindNextNonEmptyEnd, hb0, isEmpty],
        Or.inl ⟨rfl, rfl⟩⟩
    · cases he : nonEmptyAt m (A base) with
      | false =>
        exact ⟨0, orig, by simp [trieFindNextNonEmptyLoop, trieFindNextNonEmptyEnd,
          isEmpty_node hS base hb hb0, he], Or.inl ⟨rfl, rfl⟩⟩
      | true =>
        exact ⟨A base, i, by simp [trieFindNextNonEmptyLoop, trieFindNextNonEmptyEnd,
          isEmpty_node hS base hb hb0, he], Or.inr ⟨[], by simp, hb0⟩⟩
  | cons c rest ih =>
    intro base i hb
    by_cases hb0 : A base = 0
    · exact ⟨0, orig, by simp [trieFindNextNonEmptyLoop, trieFindNextNonEmptyEnd, hb0, isEmpty],
        Or.inl ⟨rfl, rfl⟩⟩
    · obtain ⟨n, hn, _⟩ := hS.node base hb0
      have hc := hd c (List.mem_cons_self _ _)
      cases he : nonEmptyAt m (A base) with
      | true =>
        exact ⟨A base, i, by simp [trieFindNextNonEmptyLoop, hb0, isEmpty_node hS base hb hb0, he],
          Or.inr ⟨[], by simp, hb0⟩⟩
      | false =>
        obtain ⟨r, k, h1, h2⟩ := ih (fun d hd' => hd d (List.mem_cons_of_mem _ hd'))
          (base ++ [c]) (i + 1) (by simp)
        refine ⟨r, k, ?_, ?_⟩
        · simp only [trieFindNextNonEmptyLoop, hb0, if_false, isEmpty_node hS base hb hb0, he,
            Bool.not_false, Bool.not_true, Bool.false_eq_true, hn, hS.child base hb0 n hn c hc]
          exact h1
        · rcases h2 with h2 | ⟨t, ht⟩
          · exact Or.inl h2
          · exact Or.inr ⟨c :: t, by rw [ht.1]; simp, ht.2⟩

/-- A forward node carries data exactly when its path is a source. -/
theorem nonEmptyAt_fwd {m : Mem} {pf : PhoneForward} {g : Ghost} (h : Core m pf g)
    (p : List Char) (hne : p ≠ []) (hp : g.fA p ≠ 0) :
    nonEmptyAt m (g.fA p) = true ↔ p ∈ (fwOf g.reg).map (fun e => e.1) := by
  obtain ⟨n, hn, _⟩ := h.shapeF.node p hp
  have := (occupiedF h).1 p n hne hp hn
  rw [fwOf_srcs]
  simp only [nonEmptyAt, hn]
  by_cases h1 : n.fwdNode = 0 <;> by_cases h2 : n.listNode = 0 <;> simp_all

/-- A reverse node carries data exactly when its path is a target. -/
theorem nonEmptyAt_rev {m : Mem} {pf : PhoneForward} {g : Ghost} (h : Core m pf g)
    (p : List Char) (hne : p ≠ []) (hp : g.rA p ≠ 0) :
    nonEmptyAt m (g.rA p) = true ↔ p ∈ (fwOf g.reg).map (fun e => e.2) := by
  obtain ⟨n, hn, _⟩ := h.rev.shape.node p hp
  have := (occupiedR h.rev).1 p n hne hp hn
  rw [fwOf_dsts]
  simp only [nonEmptyAt, hn]
  by_cases h1 : n.fwdNode = 0 <;> by_cases h2 : n.listNode = 0 <;> simp_all

/-- The nodes of a forwarding of the index exist. -/
theorem fw_nodes {m : Mem} {pf : PhoneForward} {g : Ghost} (h : Core m pf g)
    (a b : List Char) (hab : (a, b) ∈ fwOf g.reg) : g.fA a ≠ 0 ∧ g.rA b ≠ 0 := by
  obtain ⟨e, he, hh⟩ := List.mem_map.mp hab
  simp only [Prod.mk.injEq] at hh
  obtain ⟨x1, x2, _⟩ := h.rev.entry e he
  rw [← hh.1, ← hh.2]
  exact ⟨x1, x2⟩

/-- The function `phfwdReverse` on a valid number sorts the sequence that its
loops have filled and removes the duplicates. -/
theorem phfwdReverse_enum (m : Mem) (pf : PhoneForward) (s : List Char)
    (hc : isCorrect (some s) = true) :
    phfwdReverse m (some pf) (some s) =
      match phfwdReverseEnum m pf s with
      | none => none
      | some none => some none
      | some (some r) => removeDuplicates (lexSort r) := by
  simp only [phfwdReverse, phfwdReverseEnum, hc, Bool.not_true, Bool.false_eq_true, if_false]
  cases phnumSafeAdd phnumNew (some s) with
  | none => rfl
  | some result =>
    simp only
    cases trieFindNextNonEmpty m pf.rootReverse s 0 with
    | none => rfl
    | some r => rfl

/-- The function `phfwdGetReverse` on a valid number sorts the sequence that
its loops have filled. -/
theorem phfwdGetReverse_enum (m : Mem) (pf : PhoneForward) (s : List Char)
    (hc : isCorrect (some s) = true) :
    phfwdGetReverse m (some pf) (some s) =
      match phfwdGetReverseEnum m pf s with
      | none => none
      | some none => some none
      | some (some r) => some (some (lexSort r)) := by
  simp only [phfwdGetReverse, phfwdGetReverseEnum, hc, Bool.not_true, Bool.false_eq_true,
    if_false, phnumNew_eq]
  cases trieFindNextNonEmpty m pf.rootFwd s 0 with
  | none => rfl
  | some r =>
    obtain ⟨found, k⟩ := r
    simp only
    cases (if found = 0 then phnumSafeAdd (some ⟨[], 0⟩) (some s) else some ⟨[], 0⟩) with
    | none => rfl
    | some result =>
      simp only
      cases trieFindNextNonEmpty m pf.rootReverse s 0 with
      | none => rfl
      | some r => rfl

theorem phfwdReverseEnum_spec {m : Mem} {pf : PhoneForward} {g : Ghost} (h : Inv m pf g)
    (x : List Char) (hx : ValidNum x) :
    phfwdReverseEnum m pf x = some (addAll (some ⟨[x], 1⟩) (revCands (fwOf g.reg) [] x)) := by
  have hr : g.rA [] ≠ 0 := by rw [h.rev.shape.root_eq]; exact h.rev.shape.root_ne
  have hloop := phfwdReverseLoop_spec h.toCore x hx.2 (x.length + 1) [] 0
    (phnumSafeAdd phnumNew (some x)) _ hr (by simp) (by omega) (by omega) rfl
  have hfind := trieFindNextNonEmpty_spec h.rev.shape (occupiedR h.rev) [] hr x 0 hx.2
  rw [h.rev.shape.root_eq] at hfind
  simp only [List.drop_zero] at hloop hfind
  simp only [phfwdReverseEnum, hfind]
  rw [phnumSafeAdd_new] at hloop ⊢
  simp only
  cases hfo : findOcc (g.reg.map Entry.dst) [] x 0 with
  | none =>
    rw [hfo] at hloop
    simp only [hloop]
  | some qk =>
    rw [hfo] at hloop
    simp only [hloop]

theorem phfwdGetReverseEnum_spec {m : Mem} {pf : PhoneForward} {g : Ghost} (h : Inv m pf g)
    (x : List Char) (hx : ValidNum x) :
    phfwdGetReverseEnum m pf x =
      some (addAll
        (if (findOcc ((fwOf g.reg).map (fun e => e.1)) [] x 0).isNone then some ⟨[x], 1⟩
          else some ⟨[], 0⟩)
        (getRevCands (fwOf g.reg) [] x)) := by
  have hr : g.rA [] ≠ 0 := by rw [h.rev.shape.root_eq]; exact h.rev.shape.root_ne
  have hrF : g.fA [] ≠ 0 := by rw [h.shapeF.root_eq]; exact h.shapeF.root_ne
  have hfindF := trieFindNextNonEmpty_spec h.shapeF (occupiedF h.toCore) [] hrF x 0 hx.2
  rw [h.shapeF.root_eq] at hfindF
  have hfind := trieFindNextNonEmpty_spec h.rev.shape (occupiedR h.rev) [] hr x 0 hx.2
  rw [h.rev.shape.root_eq] at hfind
  simp only [List.drop_zero] at hfind hfindF
  have hnew : phnumSafeAdd (some ⟨[], 0⟩) (some x) = some ⟨[x], 1⟩ := phnumSafeAdd_new x
  have hloop := fun seeded => phfwdGetReverseLoop_spec h.toCore x hx.2 (x.length + 1) [] 0
    seeded _ hr (by simp) (by omega) (by omega) rfl
  simp only [List.drop_zero] at hloop
  simp only [phfwdGetReverseEnum, hfind, hfindF, phnumNew_eq, fwOf_srcs]
  cases hfoF : findOcc (g.reg.map Entry.src) [] x 0 with
  | none =>
    simp only [if_true, hnew, Option.isNone_none]
    cases hfoR : findOcc (g.reg.map Entry.dst) [] x 0 with
    | none =>
      simp only [hfoR] at hloop
      simp only [hloop]
    | some qk =>
      simp only [hfoR] at hloop
      simp only [hloop]
  | some qk =>
    obtain ⟨q, k⟩ := qk
    obtain ⟨_, _, _, _, _, _, e5, _, _⟩ := findOcc_some _ _ _ _ _ _ hfoF
    have hq0 : g.fA q ≠ 0 := (occupiedF h.toCore).2 q e5
    simp only [hq0, if_false, Option.isNone_some, Bool.false_eq_true]
    cases hfoR : findOcc (g.reg.map Entry.dst) [] x 0 with
    | none =>
      simp only [hfoR] at hloop
      simp only [hloop]
    | some qk =>
      simp only [hfoR] at hloop
      simp only [hloop]

/-- The candidates of `phfwdGetReverse` are pairwise different. -/
theorem getRevCands_nodup (fw : List (List Char × List Char)) (hok : FwOK fw)
    (rest : List Char) : ∀ base : List Char, (getRevCands fw base rest).Nodup := by
  induction rest with
  | nil => intro base; simp [getRevCands]
  | cons c rest ih =>
    intro base
    rw [getRevCands, List.nodup_append]
    refine ⟨?_, ih _, ?_⟩
    · apply List.Nodup.map_on
      · intro x hx y hy hxy
        have hx1 := (List.mem_filter.mp (List.mem_filter.mp hx).1).1
        have hy1 := (List.mem_filter.mp (List.mem_filter.mp hy).1).1
        have hx2 := (List.mem_filter.mp (List.mem_filter.mp hx).1).2
        have hy2 := (List.mem_filter.mp (List.mem_filter.mp hy).1).2
        simp only [decide_eq_true_eq] at hx2 hy2
        have e1 : x.1 = y.1 := List.append_cancel_right hxy
        exact Prod.ext e1 (hx2.trans hy2.symm)
      · have : fw.Nodup := List.Nodup.of_map _ hok.1
        exact (this.filter _).filter _
    · intro y hy1 hy2
      obtain ⟨e, he, rfl⟩ := List.mem_map.mp hy1
      have he2 := (List.mem_filter.mp he).2
      obtain ⟨t, u, a, b, h1, h2, h3, _, h5, _⟩ := (mem_getRevCands fw rest _ _).mp hy2
      rw [h1, ← List.append_assoc] at h5
      have e1 : e.1 ++ t = a := List.append_cancel_right h5
      have hnone : findOcc (fw.map (fun e => e.1)) e.1 rest 0 = none := by
        simpa using he2
      have := (findOcc_none_iff _ _ _ _).mp hnone t h2 ⟨u, h1.symm⟩
      exact this (by rw [e1]; exact List.mem_map.mpr ⟨(a, b), h3, rfl⟩)

/-- The number asked for is not among the candidates when it is added first. -/
theorem seed_not_cand (fw : List (List Char × List Char)) (hok : FwOK fw) (x : List Char)
    (h : findOcc (fw.map (fun e => e.1)) [] x 0 = none) : x ∉ getRevCands fw [] x := by
  intro hx
  obtain ⟨t, u, a, b, h1, _, h3, _, h5, _⟩ := (mem_getRevCands fw x [] x).mp hx
  have := (findOcc_none_iff _ _ _ _).mp h a (hok.2 _ h3).1.1 ⟨u, h5.symm⟩
  rw [List.nil_append] at this
  exact this (List.mem_map.mpr ⟨(a, b), h3, rfl⟩)

theorem getRevCands_digits (fw : List (List Char × List Char)) (hok : FwOK fw) (x : List Char)
    (hx : ValidNum x) : ∀ y ∈ x :: getRevCands fw [] x,
    ∀ c ∈ y, isPhNumDigit (c.toNat : Int) = true := by
  intro y hy c hc
  rcases List.mem_cons.mp hy with rfl | hy
  · exact hx.2 c hc
  · obtain ⟨t, u, a, b, h1, _, h3, _, h5, _⟩ := (mem_getRevCands fw x [] y).mp hy
    rw [h5] at hc
    rcases List.mem_append.mp hc with h | h
    · exact (hok.2 _ h3).1.2 c h
    · exact hx.2 c (by rw [h1]; exact List.mem_append_right _ h)

/-- Sorting a sequence without duplicates gives a strictly increasing one. -/
theorem qsort_strict (l : List (List Char)) (hnd : l.Nodup)
    (hd : ∀ y ∈ l, ∀ c ∈ y, isPhNumDigit (c.toNat : Int) = true) :
    (qsort lexCompare l).Pairwise lexLt := by
  have h1 := qsort_sorted l hd
  have h2 : (qsort lexCompare l).Nodup := (qsort_perm lexCompare l).nodup_iff.mpr hnd
  have h3 := List.Pairwise.and h1 h2
  refine h3.imp ?_
  rintro a b ⟨h | h, hne⟩
  · exact h
  · exact absurd h hne

/-- Below the capacity bound the loops of `phfwdGetReverse` fill a sequence
without duplicates, and the function returns that sequence sorted. -/
theorem getReverse_enum_ok {m : Mem} {pf : PhoneForward} {g : Ghost} (h : Inv m pf g)
    (hok : FwOK (fwOf g.reg)) (hb : m.brk ≤ maxCapacity) (x : List Char) (hx : ValidNum x) :
    ∃ e, phfwdGetReverseEnum m pf x = some (some e) ∧ e.numbers.Nodup ∧
      phfwdGetReverse m (some pf) (some x) = some (some (lexSort e)) ∧
      (lexSort e).numbers.Pairwise lexLt := by
  have hM := maxCapacity_eq
  have hlen0 := reg_length_lt h.rev
  have hlen : (getRevCands (fwOf g.reg) [] x).length ≤ g.reg.length := by
    refine le_trans (getRevCands_length (fwOf g.reg) x []) (le_trans (List.length_filter_le _ _) ?_)
    simp [fwOf]
  have hnd := getRevCands_nodup (fwOf g.reg) hok x []
  have hdig := getRevCands_digits (fwOf g.reg) hok x hx
  have hc : isCorrect (some x) = true := (isCorrect_some x).mpr hx
  rw [phfwdGetReverse_enum m pf x hc, phfwdGetReverseEnum_spec h x hx]
  cases hfo : findOcc ((fwOf g.reg).map (fun e => e.1)) [] x 0 with
  | none =>
    obtain ⟨p1, a1, a2, _, _⟩ := addAll_ok (getRevCands (fwOf g.reg) [] x) ⟨[x], 1⟩ (by simp)
      (by simp only []; omega) (by simp only [List.length_singleton]; omega)
    simp only [Option.isNone_none, if_true, a1]
    have hnd1 : p1.numbers.Nodup := by
      rw [a2]
      simp only [List.singleton_append, List.nodup_cons]
      exact ⟨seed_not_cand _ hok x hfo, hnd⟩
    refine ⟨p1, rfl, hnd1, rfl, ?_⟩
    apply qsort_strict _ hnd1
    rw [a2]
    exact hdig
  | some qk =>
    obtain ⟨p1, a1, a2, _, _⟩ := addAll_ok (getRevCands (fwOf g.reg) [] x) ⟨[], 0⟩ (by simp)
      (by simp only []; omega) (by simp only [List.length_nil]; omega)
    simp only [Option.isNone_some, Bool.false_eq_true, if_false, a1]
    have hnd1 : p1.numbers.Nodup := by
      rw [a2]
      simpa using hnd
    refine ⟨p1, rfl, hnd1, rfl, ?_⟩
    apply qsort_strict _ hnd1
    rw [a2]
    intro y hy
    exact hdig y (List.mem_cons_of_mem _ (by simpa using hy))

theorem filter_or_perm {α : Type} (p q1 q2 : α → Bool) : ∀ l : List α,
    (∀ x ∈ l, p x = (q1 x || q2 x)) → (∀ x ∈ l, q1 x = true → q2 x = false) →
    List.Perm (l.filter p) (l.filter q1 ++ l.filter q2) := by
  intro l
  induction l with
  | nil => intro _ _; exact List.Perm.refl _
  | cons x l ih =>
    intro h1 h2
    have ih' := ih (fun y hy => h1 y (List.mem_cons_of_mem _ hy))
      (fun y hy => h2 y (List.mem_cons_of_mem _ hy))
    have hx := h1 x (List.mem_cons_self _ _)
    cases hq1 : q1 x with
    | true =>
      have hq2 := h2 x (List.mem_cons_self _ _) hq1
      simp only [List.filter_cons, hx, hq1, hq2, Bool.or_false, if_true, Bool.false_eq_true,
        if_false, List.cons_append]
      exact List.Perm.cons x ih'
    | false =>
      cases hq2 : q2 x with
      | true =>
        simp only [List.filter_cons, hx, hq1, hq2, Bool.or_true, if_true, Bool.false_eq_true,
          if_false]
        exact (List.Perm.cons x ih').trans List.perm_middle.symm
      | false =>
        simp only [List.filter_cons, hx, hq1, hq2, Bool.or_false, Bool.false_eq_true, if_false]
        exact ih'

/-- The candidates of `phfwdReverse`: one for each forwarding whose target lies
on the path read, that is the source followed by what is left of the path. -/
theorem revCands_filter (fw : List (List Char × List Char)) (rest : List Char) :
    ∀ base : List Char, List.Perm (revCands fw base rest)
      ((fw.filter (fun e => decide (base.length < e.2.length ∧ e.2 <+: base ++ rest))).map
        (fun e => e.1 ++ (base ++ rest).drop e.2.length)) := by
  induction rest with
  | nil =>
    intro base
    have : fw.filter (fun e => decide (base.length < e.2.length ∧ e.2 <+: base ++ [])) = [] := by
      rw [List.filter_eq_nil_iff]
      intro e _
      simp only [List.append_nil, decide_eq_true_eq, not_and]
      intro h1 h2
      have := h2.length_le
      omega
    rw [this]
    exact List.Perm.refl _
  | cons c rest ih =>
    intro base
    have e0 : base ++ c :: rest = base ++ [c] ++ rest := by simp
    simp only [revCands]
    refine List.Perm.trans ?_ (List.Perm.map _ (filter_or_perm _
      (fun e => decide (e.2 = base ++ [c]))
      (fun e => decide ((base ++ [c]).length < e.2.length ∧ e.2 <+: base ++ [c] ++ rest)) fw
      ?_ ?_).symm)
    · rw [List.map_append]
      refine List.Perm.append ?_ ?_
      · apply List.Perm.of_eq
        apply List.map_congr_left
        intro e he
        have := (List.mem_filter.mp he).2
        simp only [decide_eq_true_eq] at this
        rw [this]
        simp
      · rw [e0]
        exact ih (base ++ [c])
    · intro e _
      rw [Bool.eq_iff_iff]
      simp only [Bool.or_eq_true, decide_eq_true_eq, List.length_append, List.length_singleton]
      constructor
      · rintro ⟨h1, h2⟩
        by_cases h3 : e.2.length = base.length + 1
        · left
          obtain ⟨u, hu⟩ := h2
          have h4 : e.2 = (base ++ c :: rest).take (base.length + 1) := by
            rw [← hu, ← h3, List.take_left']
            rfl
          rw [h4, List.take_append_eq_append_take]
          simp
        · right
          rw [← e0]
          exact ⟨by omega, h2⟩
      · rintro (h | ⟨h1, h2⟩)
        · rw [h]
          exact ⟨by simp, ⟨rest, by simp⟩⟩
        · rw [← e0] at h2
          exact ⟨by omega, h2⟩
    · intro e _ h1
      simp only [decide_eq_true_eq] at h1
      simp only [decide_eq_false_iff_not, not_and, h1, lt_self_iff_false, false_implies]

/-- Below the capacity bound the loops of `phfwdReverse` fill the sequence of
the number asked for and one candidate for each forwarding whose target is a
prefix of it, and the function returns the numbers of that sequence. -/
theorem reverse_enum_ok {m : Mem} {pf : PhoneForward} {g : Ghost} (h : Inv m pf g)
    (hok : FwOK (fwOf g.reg)) (hb : m.brk ≤ maxCapacity) (x : List Char) (hx : ValidNum x) :
    ∃ e r, phfwdReverseEnum m pf x = some (some e) ∧
      List.Perm e.numbers (x :: (((fwOf g.reg).filter (fun f => decide (f.2 <+: x))).map
        (fun f => f.1 ++ x.drop f.2.length))) ∧
      phfwdReverse m (some pf) (some x) = some (some r) ∧
      (∀ y, y ∈ r.numbers ↔ y ∈ e.numbers) ∧ r.numbers.Pairwise lexLt := by
  have hM := maxCapacity_eq
  have hlen0 := reg_length_lt h.rev
  have hlen : (revCands (fwOf g.reg) [] x).length ≤ g.reg.length := by
    refine le_trans (revCands_length (fwOf g.reg) x []) (le_trans (List.length_filter_le _ _) ?_)
    simp [fwOf]
  obtain ⟨p1, a1, a2, _, _⟩ := addAll_ok (revCands (fwOf g.reg) [] x) ⟨[x], 1⟩ (by simp)
    (by simp only []; omega) (by simp only [List.length_singleton]; omega)
  obtain ⟨r, b1, b2, b3⟩ := absReverse_ok (fwOf g.reg) hok x hx (by
    simp only [fwOf, List.length_map]
    omega)
  have hperm := revCands_filter (fwOf g.reg) x []
  simp only [List.nil_append, List.length_nil] at hperm
  have hfil : (fwOf g.reg).filter (fun e => decide (0 < e.2.length ∧ e.2 <+: x)) =
      (fwOf g.reg).filter (fun f => decide (f.2 <+: x)) := by
    apply List.filter_congr
    intro e he
    have : 0 < e.2.length := List.length_pos.mpr (hok.2 e he).2.1.1
    simp [this]
  rw [hfil] at hperm
  refine ⟨p1, r, by rw [phfwdReverseEnum_spec h x hx, a1], ?_, by
    rw [phfwdReverse_spec h x hx]; exact b1, ?_, b3⟩
  · rw [a2]
    exact List.Perm.cons x hperm
  · intro y
    rw [b2 y, a2]
    simp

/-! ### Runs under any outcomes of `malloc` -/

/-- One call on a state that satisfies the invariant, under any outcomes of
`malloc`: it is defined and keeps the invariant; the forwardings change as
`absStep` says when the call takes effect and stay as they are otherwise. -/
theorem step_gen {st : State} {g : Ghost} (h : Inv st.mem st.pf g) (op : Op) :
    ∃ st1 g1, step st op = some st1 ∧ st1.pf = st.pf ∧ Inv st1.mem st1.pf g1 ∧
      fwOf g1.reg = (if took st op then absStep (fwOf g.reg) op else fwOf g.reg) ∧
      st.mem.brk ≤ st1.mem.brk := by
  cases op with
  | add a b =>
    cases a with
    | none => exact ⟨st, g, by simp [step, phfwdAdd], rfl, h, by simp [took, phfwdAdd],
        le_refl _⟩
    | some a =>
      cases b with
      | none => exact ⟨st, g, by simp [step, phfwdAdd], rfl, h, by simp [took, phfwdAdd],
          le_refl _⟩
      | some b =>
        by_cases hv : ValidNum a ∧ ValidNum b ∧ a ≠ b
        · obtain ⟨r, m1, u, h1, _, hbrk, hres⟩ := phfwdAdd_gen h a b hv.1 hv.2.1 hv.2.2
          rcases hres with ⟨rfl, _, g1, c, h2, h3⟩ | ⟨rfl, _, h2, _, _⟩
          · refine ⟨⟨m1, st.pf⟩, g1, by simp [step, h1], rfl, h2, ?_, hbrk⟩
            rw [h3]
            simp only [took, h1, if_true, absStep, hv, and_self, ne_eq, not_false_eq_true]
            have := fwOf_filter g.reg (fun s => decide (s ≠ a))
            simp only [fwOf, List.map_cons] at this ⊢
            rw [this]
          · exact ⟨⟨m1, st.pf⟩, g, by simp [step, h1], rfl, h2, by simp [took, h1], hbrk⟩
        · have h1 := phfwdAdd_invalid st.mem st.pf a b hv
          exact ⟨st, g, by simp [step, h1], rfl, h, by simp [took, h1], le_refl _⟩
  | remove p =>
    cases p with
    | none => exact ⟨st, g, by simp [step, phfwdRemove], rfl, h, by simp [took, absStep],
        le_refl _⟩
    | some p =>
      by_cases hv : ValidNum p
      · obtain ⟨m1, g1, h1, h2, h3, h4⟩ := phfwdRemove_inv h p hv
        refine ⟨⟨m1, st.pf⟩, g1, by simp [step, h1], rfl, h2, ?_, le_of_eq h4.symm⟩
        rw [h3]
        simp only [took, if_true, absStep, hv]
        exact fwOf_filter g.reg (fun s => decide (¬ p <+: s))
      · have : isCorrect (some p) = false := by
          rw [← Bool.not_eq_true, isCorrect_some]; exact hv
        refine ⟨st, g, ?_, rfl, h, ?_, le_refl _⟩
        · simp [step, phfwdRemove, this]
        · simp only [took, if_true, absStep, hv, if_false]

/-- A sequence of calls on a state that satisfies the invariant, under any
outcomes of `malloc`. -/
theorem run_gen (ops : List Op) : ∀ {st : State} {g : Ghost}, Inv st.mem st.pf g →
    ∃ st1 g1, run st ops = some st1 ∧ st1.pf = st.pf ∧ Inv st1.mem st1.pf g1 ∧
      fwOf g1.reg = absRun (fwOf g.reg) (effective st ops) := by
  induction ops with
  | nil => intro st g h; exact ⟨st, g, rfl, rfl, h, rfl⟩
  | cons op ops ih =>
    intro st g h
    obtain ⟨st1, g1, a1, a2, a3, a4, _⟩ := step_gen h op
    obtain ⟨st2, g2, b1, b2, b3, b4⟩ := ih a3
    refine ⟨st2, g2, by simp [run, a1, b1], by rw [b2, a2], b3, ?_⟩
    rw [b4, a4]
    simp only [effective, a1]
    cases took st op with
    | true => rfl
    | false => rfl

theorem freshWith_inv (o : List Bool) :
    ∃ st fA rA, freshWith o = some st ∧ Inv st.mem st.pf ⟨fA, rA, []⟩ := by
  obtain ⟨st, fA, rA, h1, h2⟩ := fresh_inv
  refine ⟨⟨{ st.mem with oracle := o }, st.pf⟩, fA, rA, by simp [freshWith, h1], ?_⟩
  exact ⟨h2.toCore.setOracle o, h2.srcs, h2.deadF, h2.deadR, h2.src_ne⟩

/-- Every sequence of calls on a fresh index, under any outcomes of `malloc`,
is defined and leads to a state that satisfies the invariant and holds the
forwardings of the calls that took effect. -/
theorem runWith_inv (o : List Bool) (ops : List Op) :
    ∃ st g, runWith o ops = some st ∧ Inv st.mem st.pf g ∧
      fwOf g.reg = forwardings (effectiveWith o ops) := by
  obtain ⟨st0, fA, rA, h0, hI⟩ := freshWith_inv o
  obtain ⟨st1, g1, a1, _, a3, a4⟩ := run_gen ops hI
  exact ⟨st1, g1, by simp [runWith, h0, a1], a3, by simpa [effectiveWith, h0] using a4⟩

theorem runWith_state {o : List Bool} {ops : List Op} {st : State}
    (hst : runWith o ops = some st) :
    ∃ g, Inv st.mem st.pf g ∧ fwOf g.reg = forwardings (effectiveWith o ops) := by
  obtain ⟨st1, g, h1, h2, h3⟩ := runWith_inv o ops
  rw [hst] at h1
  cases h1
  exact ⟨g, h2, h3⟩

/-- With no outcome set, a run is a run with no allocation failing. -/
theorem runWith_nil (ops : List Op) : runWith [] ops = runFresh ops := by
  simp only [runWith, runFresh, freshWith, fresh_eq, Option.map_some', Option.some_bind]
  rfl

theorem brk_of_evalWith {o : List Bool} {ops : List Op} {st : State}
    (hst : runWith o ops = some st)
    (h : (runWith o ops).map (fun st => decide (st.mem.brk ≤ maxCapacity)) = some true) :
    st.mem.brk ≤ maxCapacity := by
  rw [hst] at h
  simpa using h

theorem forwardings_okWith (o : List Bool) (ops : List Op) :
    FwOK (forwardings (effectiveWith o ops)) := forwardings_ok _

/-! ### The links between the forward nodes and the source lists -/

theorem chain_linked {m : Mem} {fA : List Char → Nat} : ∀ (l : List Entry) (prev head : Nat),
    Chain m fA prev l head → linked m prev (l.map Entry.cell) head = true := by
  intro l
  induction l with
  | nil =>
    intro prev head h
    have h0 : head = 0 := h
    simp [linked, h0]
  | cons e rest ih =>
    intro prev head h
    obtain ⟨a, b, nx, c, d⟩ := h
    simp [linked, a, b, c, ih _ _ d]

theorem trieFind_root {m : Mem} {root : Nat} {A : List Char → Nat} (h : Shape m root A)
    (p : List Char) (hp : ∀ c ∈ p, isPhNumDigit (c.toNat : Int) = true) :
    trieFind m root p = some (A p) := by
  have hr : A [] ≠ 0 := by rw [h.root_eq]; exact h.root_ne
  have := trieFind_spec h p hp [] (fun e => absurd e hr)
  rw [h.root_eq, List.nil_append] at this
  exact this

/-- The forward nodes and the source lists point at each other. -/
theorem links_ok {m : Mem} {pf : PhoneForward} {g : Ghost} (h : Inv m pf g) :
    (∀ p F nF, (∀ c ∈ p, isPhNumDigit (c.toNat : Int) = true) →
      trieFind m pf.rootFwd p = some F → F ≠ 0 → m.trie F = some nF → nF.fwdNode ≠ 0 →
      ∃ q nR cells, (∀ c ∈ q, isPhNumDigit (c.toNat : Int) = true) ∧
        trieFind m pf.rootReverse q = some nF.fwdNode ∧ m.trie nF.fwdNode = some nR ∧
        linked m 0 cells nR.listNode = true ∧ cells.Nodup ∧ nF.listNode ∈ cells ∧
        ∀ c ∈ cells, ∃ n, m.list c = some n ∧ (n.key = F ↔ c = nF.listNode)) ∧
    (∀ q R nR, (∀ c ∈ q, isPhNumDigit (c.toNat : Int) = true) →
      trieFind m pf.rootReverse q = some R → R ≠ 0 → m.trie R = some nR →
      ∃ cells, linked m 0 cells nR.listNode = true ∧ cells.Nodup ∧
        ∀ c ∈ cells, ∃ n p nF, m.list c = some n ∧
          (∀ d ∈ p, isPhNumDigit (d.toNat : Int) = true) ∧
          trieFind m pf.rootFwd p = some n.key ∧ n.key ≠ 0 ∧ m.trie n.key = some nF ∧
          nF.fwdNode = R ∧ nF.listNode = c) := by
  constructor
  · intro p F nF hp hF hF0 hnF hfw
    rw [trieFind_root h.shapeF p hp] at hF
    cases hF
    obtain ⟨n, hn, d1, d2⟩ := h.data p hF0
    rw [hnF] at hn
    cases hn
    have hex : ∃ e ∈ g.reg, e.src = p := by
      by_contra hno
      exact hfw (d2 (fun e he hes => hno ⟨e, he, hes⟩)).1
    obtain ⟨e, he, hes⟩ := hex
    obtain ⟨f1, f2⟩ := d1 e he hes
    obtain ⟨x1, x2, _⟩ := h.rev.entry e he
    obtain ⟨nR, hnR, _, hC⟩ := h.rev.lists e.dst x2
    have hndL : ((g.reg.filter (fun x => decide (x.dst = e.dst))).map Entry.cell).Nodup :=
      h.rev.cells.sublist ((List.filter_sublist _).map _)
    have heL : e ∈ g.reg.filter (fun x => decide (x.dst = e.dst)) :=
      List.mem_filter.mpr ⟨he, by simp⟩
    refine ⟨e.dst, nR, (g.reg.filter (fun x => decide (x.dst = e.dst))).map Entry.cell,
      h.rev.shape.digits _ x2, ?_, by rw [f1]; exact hnR, chain_linked _ _ _ hC, hndL, ?_, ?_⟩
    · rw [f1]
      exact trieFind_root h.rev.shape _ (h.rev.shape.digits _ x2)
    · rw [f2]
      exact List.mem_map_of_mem _ heL
    · intro c hc
      obtain ⟨e', he', rfl⟩ := List.mem_map.mp hc
      obtain ⟨_, n', hn', hk⟩ := Chain.cell_exists _ _ _ hC e' he'
      have he'' := (List.mem_filter.mp he').1
      refine ⟨n', hn', ?_⟩
      rw [hk, f2]
      constructor
      · intro e1
        have : e'.src = p := h.shapeF.inj _ _ (h.rev.entry e' he'').1 e1
        rw [List.inj_on_of_nodup_map h.srcs he'' he (this.trans hes.symm)]
      · intro e1
        rw [cell_unique h.rev.cells he'' he e1, hes]
  · intro q R nR hq hR hR0 hnR
    rw [trieFind_root h.rev.shape q hq] at hR
    cases hR
    obtain ⟨n, hn, _, hC⟩ := h.rev.lists q hR0
    rw [hnR] at hn
    cases hn
    refine ⟨(g.reg.filter (fun x => decide (x.dst = q))).map Entry.cell, chain_linked _ _ _ hC,
      h.rev.cells.sublist ((List.filter_sublist _).map _), ?_⟩
    intro c hc
    obtain ⟨e, he, rfl⟩ := List.mem_map.mp hc
    obtain ⟨_, n', hn', hk⟩ := Chain.cell_exists _ _ _ hC e he
    have he' := List.mem_filter.mp he
    simp only [decide_eq_true_eq] at he'
    obtain ⟨x1, x2, _⟩ := h.rev.entry e he'.1
    obtain ⟨nF, hnF, d1, _⟩ := h.data e.src x1
    obtain ⟨f1, f2⟩ := d1 e he'.1 rfl
    refine ⟨n', e.src, nF, hn', h.shapeF.digits _ x1, ?_, by rw [hk]; exact x1, by rw [hk]; exact hnF,
      by rw [f1, he'.2], f2⟩
    rw [hk]
    exact trieFind_root h.shapeF _ (h.shapeF.digits _ x1)

theorem noDead_of {m : Mem} {root : Nat} {A : List Char → Nat} (hS : Shape m root A)
    {keys : List (List Char)} (hO : Occupied m A keys)
    (hdead : ∀ q, q ≠ [] → A q ≠ 0 → ∃ k ∈ keys, q <+: k) : NoDeadBranch m root := by
  have hne : ∀ k n, k ≠ [] → k ∈ keys → m.trie (A k) = some n →
      ¬ (n.fwdNode = 0 ∧ n.listNode = 0) := by
    intro k n hk hkk hn hz
    exact (hO.1 k n hk (hO.2 k hkk) hn).mp hz hkk
  constructor
  · intro p F n hp hd hF hF0 hn
    rw [trieFind_root hS p hd] at hF
    cases hF
    obtain ⟨k, hk, t, rfl⟩ := hdead p hp hF0
    cases t with
    | nil =>
      rw [List.append_nil] at hk
      have := hne p n hp hk hn
      by_cases h1 : n.fwdNode = 0
      · exact Or.inr (Or.inr (fun h2 => this ⟨h1, h2⟩))
      · exact Or.inr (Or.inl h1)
    | cons c t =>
      left
      have hk0 := hO.2 _ hk
      have e : p ++ c :: t = p ++ [c] ++ t := by simp
      rw [e] at hk0
      have hc0 := hS.pre _ _ hk0
      have hc := (hS.closed p c hc0).2
      obtain ⟨n1, hn1, hch⟩ := hS.node p hF0
      rw [hn] at hn1
      cases hn1
      rw [hasChild_iff]
      refine ⟨charToDigit (c.toNat : Int), charToDigit_lt c hc, ?_⟩
      rw [hch _ (charToDigit_lt c hc), digitToChar_charToDigit c hc]
      exact hc0
  · intro p F hp hd hF hF0
    rw [trieFind_root hS p hd] at hF
    cases hF
    obtain ⟨k, hk, t, rfl⟩ := hdead p hp hF0
    have hk0 := hO.2 _ hk
    have hkd := hS.digits _ hk0
    obtain ⟨n, hn, _⟩ := hS.node _ hk0
    have hne' := hne _ n (by simp [hp]) hk hn
    have hnon : nonEmptyAt m (A (p ++ t)) = true := by
      simp only [nonEmptyAt, hn]
      by_cases h1 : n.fwdNode = 0
      · have h2 : n.listNode ≠ 0 := fun h2 => hne' ⟨h1, h2⟩
        simp [h2]
      · simp [h1]
    refine ⟨t, A (p ++ t), fun c hc => hkd c (List.mem_append_right _ hc),
      trieFind_root hS _ hkd, hk0, hnon, ?_⟩
    rintro he rfl
    rw [List.append_nil] at hnon
    rw [hnon] at he
    cases he

theorem inv_noDead {m : Mem} {pf : PhoneForward} {g : Ghost} (h : Inv m pf g) :
    NoDeadBranch m pf.rootFwd ∧ NoDeadBranch m pf.rootReverse := by
  constructor
  · apply noDead_of h.shapeF (occupiedF h.toCore)
    intro q hq hq0
    obtain ⟨e, he, hpre⟩ := h.deadF q hq hq0
    exact ⟨e.src, List.mem_map_of_mem _ he, hpre⟩
  · apply noDead_of h.rev.shape (occupiedR h.rev)
    intro q hq hq0
    obtain ⟨e, he, hpre⟩ := h.deadR q hq hq0
    exact ⟨e.dst, List.mem_map_of_mem _ he, hpre⟩

/-! ### Removal and the order of additions on the level of forwardings -/

/-- Removing the forwardings whose source has the prefix `P` does not change
where a number without the prefix `P` is forwarded to. -/
theorem absGet_filter_frame (fw : List (List Char × List Char)) (hok : FwOK fw)
    (P x : List Char) (hnp : ¬ P <+: x) :
    absGet (fw.filter (fun e => decide (¬ P <+: e.1))) x = absGet fw x := by
  rcases absGet_cases fw hok x with ⟨h1, h2⟩ | ⟨a, b, u, h1, h2, h3, h4⟩
  · rw [h2]
    apply absGet_none
    intro e he
    exact h1 e (List.mem_filter.mp he).1
  · rw [h4]
    have hax : a <+: x := ⟨u, h2.symm⟩
    have hPa : ¬ P <+: a := fun hp => hnp (hp.trans hax)
    have hmem : (a, b) ∈ fw.filter (fun e => decide (¬ P <+: e.1)) :=
      List.mem_filter.mpr ⟨h1, by simpa using hPa⟩
    have hnd : ((fw.filter (fun e => decide (¬ P <+: e.1))).map (fun e => e.1)).Nodup :=
      hok.1.sublist (List.Sublist.map _ (List.filter_sublist _))
    have hmax : ∀ e ∈ fw.filter (fun e => decide (¬ P <+: e.1)), e.1 <+: x →
        e.1.length ≤ a.length := by
      intro e he hp
      by_contra hlt
      have hlt2 : a.length ≤ e.1.length := by omega
      obtain ⟨t, ht⟩ := List.prefix_of_prefix_length_le hax hp hlt2
      have htne : t ≠ [] := by
        rintro rfl
        rw [List.append_nil] at ht
        rw [ht] at hlt
        exact hlt (le_refl _)
      have htu : t <+: u := by
        obtain ⟨v, hv⟩ := hp
        rw [← ht, h2, List.append_assoc] at hv
        exact ⟨v, List.append_cancel_left hv⟩
      exact h3 t htne htu (List.mem_map.mpr ⟨e, (List.mem_filter.mp he).1, ht.symm⟩)
    rw [absGet_some _ hnd x a b hmem (hok.2 _ h1).1.1 hax hmax, h2, List.drop_left]

/-- The result of `phfwdGet` depends on the forwardings as a set. -/
theorem absGet_perm {fw fw1 : List (List Char × List Char)} (h : List.Perm fw fw1)
    (hok : FwOK fw) (x : List Char) : absGet fw x = absGet fw1 x := by
  rcases absGet_cases fw hok x with ⟨h1, h2⟩ | ⟨a, b, u, h1, h2, h3, h4⟩
  · rw [h2]
    symm
    apply absGet_none
    intro e he
    exact h1 e (h.mem_iff.mpr he)
  · rw [h4]
    have hax : a <+: x := ⟨u, h2.symm⟩
    have hnd : (fw1.map (fun e => e.1)).Nodup := (h.map _).nodup_iff.mp hok.1
    have hmax : ∀ e ∈ fw1, e.1 <+: x → e.1.length ≤ a.length := by
      intro e he hp
      by_contra hlt
      have hlt2 : a.length ≤ e.1.length := by omega
      obtain ⟨t, ht⟩ := List.prefix_of_prefix_length_le hax hp hlt2
      have htne : t ≠ [] := by
        rintro rfl
        rw [List.append_nil] at ht
        rw [ht] at hlt
        exact hlt (le_refl _)
      have htu : t <+: u := by
        obtain ⟨v, hv⟩ := hp
        rw [← ht, h2, List.append_assoc] at hv
        exact ⟨v, List.append_cancel_left hv⟩
      exact h3 t htne htu (List.mem_map.mpr ⟨e, h.mem_iff.mpr he, ht.symm⟩)
    symm
    rw [absGet_some _ hnd x a b (h.mem_iff.mp h1) (hok.2 _ h1).1.1 hax hmax, h2, List.drop_left]

theorem findOcc_congr {keys keys1 : List (List Char)} (h : ∀ k, k ∈ keys ↔ k ∈ keys1)
    (rest : List Char) : ∀ (base : List Char) (i : Nat),
    findOcc keys base rest i = findOcc keys1 base rest i := by
  induction rest with
  | nil => intro _ _; rfl
  | cons c rest ih =>
    intro base i
    simp only [findOcc, h, ih]

theorem getRevCands_perm {fw fw1 : List (List Char × List Char)} (h : List.Perm fw fw1)
    (rest : List Char) : ∀ base : List Char,
    List.Perm (getRevCands fw base rest) (getRevCands fw1 base rest) := by
  have hk : ∀ k, k ∈ fw.map (fun e => e.1) ↔ k ∈ fw1.map (fun e => e.1) :=
    fun k => (h.map _).mem_iff
  induction rest with
  | nil => intro base; exact List.Perm.refl _
  | cons c rest ih =>
    intro base
    simp only [getRevCands]
    refine List.Perm.append (List.Perm.map _ ?_) (ih _)
    have : (fun e : List Char × List Char =>
        (findOcc (fw.map (fun e => e.1)) e.1 rest 0).isNone) =
        (fun e => (findOcc (fw1.map (fun e => e.1)) e.1 rest 0).isNone) := by
      funext e
      rw [findOcc_congr hk]
    rw [this]
    exact List.Perm.filter _ (List.Perm.filter _ h)

/-- The result of `phfwdGetReverse` is the same for the same forwardings in
another order. -/
theorem absGetReverse_perm {fw fw1 : List (List Char × List Char)} (h : List.Perm fw fw1)
    (hok : FwOK fw) (x : List Char) (hx : ValidNum x) :
    absGetReverse fw x = absGetReverse fw1 x := by
  have hp := getRevCands_perm h x []
  have hk : ∀ k, k ∈ fw.map (fun e => e.1) ↔ k ∈ fw1.map (fun e => e.1) :=
    fun k => (h.map _).mem_iff
  have hnew : phnumSafeAdd (some ⟨[], 0⟩) (some x) = some ⟨[x], 1⟩ := phnumSafeAdd_new x
  simp only [absGetReverse, ← findOcc_congr hk x [] 0, phnumNew_eq, hnew]
  cases hfo : (findOcc (fw.map (fun e => e.1)) [] x 0).isNone with
  | true =>
    simp only [if_true]
    rcases addAll_shape (getRevCands fw [] x) (getRevCands fw1 [] x) ⟨[x], 1⟩ ⟨[x], 1⟩
      hp.length_eq rfl rfl with ⟨h1, h2⟩ | ⟨p1, q1, h1, h2, h3, h4, h5⟩
    · rw [h1, h2]
    · rw [h1, h2]
      have hq : qsort lexCompare p1.numbers = qsort lexCompare q1.numbers := by
        apply qsort_eq_of_perm
        · rw [h3, h4]
          exact List.Perm.append (List.Perm.refl _) hp
        · rw [h3]
          exact getRevCands_digits fw hok x hx
      have : lexSort p1 = lexSort q1 := by
        simp only [lexSort, hq, h5]
      simp only [this]
  | false =>
    simp only [Bool.false_eq_true, if_false]
    rcases addAll_shape (getRevCands fw [] x) (getRevCands fw1 [] x) ⟨[], 0⟩ ⟨[], 0⟩
      hp.length_eq rfl rfl with ⟨h1, h2⟩ | ⟨p1, q1, h1, h2, h3, h4, h5⟩
    · rw [h1, h2]
    · rw [h1, h2]
      have hq : qsort lexCompare p1.numbers = qsort lexCompare q1.numbers := by
        apply qsort_eq_of_perm
        · rw [h3, h4]
          exact List.Perm.append (List.Perm.refl _) hp
        · rw [h3]
          intro y hy
          exact getRevCands_digits fw hok x hx y (List.mem_cons_of_mem _ (by simpa using hy))
      have : lexSort p1 = lexSort q1 := by
        simp only [lexSort, hq, h5]
      simp only [this]

/-- Two heaps that hold the same forwardings in another order answer every
query alike. -/
theorem queries_perm {m m1 : Mem} {pf pf1 : PhoneForward} {g g1 : Ghost} (h : Inv m pf g)
    (h1 : Inv m1 pf1 g1) (hp : List.Perm (fwOf g.reg) (fwOf g1.reg)) (hok : FwOK (fwOf g.reg))
    (s : Option (List Char)) :
    phfwdGet m (some pf) s = phfwdGet m1 (some pf1) s ∧
      phfwdReverse m (some pf) s = phfwdReverse m1 (some pf1) s ∧
      phfwdGetReverse m (some pf) s = phfwdGetReverse m1 (some pf1) s := by
  cases s with
  | none => exact ⟨rfl, rfl, rfl⟩
  | some s =>
    by_cases hv : ValidNum s
    · rw [phfwdGet_spec h s hv, phfwdGet_spec h1 s hv, phfwdReverse_spec h s hv,
        phfwdReverse_spec h1 s hv, phfwdGetReverse_spec h s hv, phfwdGetReverse_spec h1 s hv,
        absGet_perm hp hok, absReverse_perm hp hok s hv, absGetReverse_perm hp hok s hv]
      exact ⟨rfl, rfl, rfl⟩
    · have := isCorrect_false s hv
      simp [phfwdGet, phfwdReverse, phfwdGetReverse, this]

/-- A call of `phfwdAdd` with valid different numbers succeeds when no
allocation fails. -/
theorem phfwdAdd_succ {m : Mem} {pf : PhoneForward} {g : Ghost} (h : Inv m pf g)
    (hor : false ∉ m.oracle) (s1 s2 : List Char) (hv1 : ValidNum s1) (hv2 : ValidNum s2)
    (hne : s1 ≠ s2) :
    ∃ m1 g1, phfwdAdd m (some pf) (some s1) (some s2) = some (true, m1) ∧ Inv m1 pf g1 ∧
      fwOf g1.reg = (s1, s2) :: (fwOf g.reg).filter (fun e => decide (e.1 ≠ s1)) ∧
      false ∉ m1.oracle := by
  obtain ⟨r, m1, u, a1, a2, _, a4⟩ := phfwdAdd_gen h s1 s2 hv1 hv2 hne
  rw [a2] at hor
  rcases a4 with ⟨rfl, _, g1, c, b1, b2⟩ | ⟨_, b, _⟩
  · refine ⟨m1, g1, a1, b1, ?_, fun hm => hor (List.mem_append_right _ hm)⟩
    rw [b2]
    simp only [fwOf, List.map_cons]
    congr 1
    exact fwOf_filter g.reg (fun s => decide (s ≠ s1))
  · exact absurd (List.mem_append_left _ b) hor

/-- The states after two calls of `phfwdAdd` with different sources, in the
two orders, hold the same forwardings up to order. -/
theorem add_add_perm (fw : List (List Char × List Char)) (a1 b1 a2 b2 : List Char)
    (hne : a1 ≠ a2) :
    List.Perm
      ((a2, b2) :: ((a1, b1) :: fw.filter (fun e => decide (e.1 ≠ a1))).filter
        (fun e => decide (e.1 ≠ a2)))
      ((a1, b1) :: ((a2, b2) :: fw.filter (fun e => decide (e.1 ≠ a2))).filter
        (fun e => decide (e.1 ≠ a1))) := by
  have h1 : decide (a1 ≠ a2) = true := by simpa using hne
  have h2 : decide (a2 ≠ a1) = true := by simpa using hne.symm
  simp only [List.filter_cons, h1, h2, if_true, List.filter_filter]
  refine (List.Perm.swap _ _ _).trans ?_
  refine List.Perm.cons _ (List.Perm.cons _ ?_)
  rw [show (fun a : List Char × List Char => decide (a.1 ≠ a2) && decide (a.1 ≠ a1)) =
    (fun a => decide (a.1 ≠ a1) && decide (a.1 ≠ a2)) from by
      funext a; exact Bool.and_comm _ _]

/-! ### The cells that `trieDelete` frees -/

theorem Shrinks.same (m : Mem) : Shrinks m m := ⟨fun _ h => h, fun _ h => h⟩

theorem Shrinks.andThen {m m1 m2 : Mem} (h1 : Shrinks m m1) (h2 : Shrinks m1 m2) : Shrinks m m2 :=
  ⟨fun x h => h2.1 x (h1.1 x h), fun x h => h2.2 x (h1.2 x h)⟩

theorem setTrie_shrinks {m : Mem} {a : Nat} {n : TrieNode} (n1 : TrieNode)
    (h : m.trie a = some n) : Shrinks m (m.setTrie a n1) := by
  refine ⟨fun x hx => ?_, fun _ hx => hx⟩
  have : x ≠ a := by
    rintro rfl
    rw [h] at hx
    cases hx
  simp [Mem.setTrie, this, hx]

theorem setList_shrinks {m : Mem} {a : Nat} {n : ListNode} (n1 : ListNode)
    (h : m.list a = some n) : Shrinks m (m.setList a n1) := by
  refine ⟨fun _ hx => hx, fun x hx => ?_⟩
  have : x ≠ a := by
    rintro rfl
    rw [h] at hx
    cases hx
  simp [Mem.setList, this, hx]

theorem freeTrie_shrinks (m : Mem) (a : Nat) : Shrinks m (m.freeTrie a) := by
  refine ⟨fun x hx => ?_, fun _ hx => hx⟩
  simp only [Mem.freeTrie]
  split_ifs
  · rfl
  · exact hx

theorem freeList_shrinks (m : Mem) (a : Nat) : Shrinks m (m.freeList a) := by
  refine ⟨fun _ hx => hx, fun x hx => ?_⟩
  simp only [Mem.freeList]
  split_ifs
  · rfl
  · exact hx

theorem listRemove_shrinks {m m1 : Mem} {a : Nat} (h : listRemove m a = some m1) :
    Shrinks m m1 := by
  unfold listRemove at h
  split at h
  · cases h
  · simp only at h
    split at h
    · cases h
    · rename_i m2 hm2
      split at h
      · cases h
      · rename_i m3 hm3
        cases h
        have e2 : Shrinks m m2 := by
          split at hm2
          · split at hm2
            · cases hm2
            · rename_i nx hnx
              cases hm2
              exact setList_shrinks _ hnx
          · cases hm2
            exact Shrinks.same _
        have e3 : Shrinks m2 m3 := by
          split at hm3
          · split at hm3
            · cases hm3
            · rename_i pv hpv
              cases hm3
              exact setList_shrinks _ hpv
          · cases hm3
            exact Shrinks.same _
        exact (e2.andThen e3).andThen (freeList_shrinks _ _)

theorem deleteDeadBranchLoop_shrinks : ∀ (fuel : Nat) {m m1 : Mem} {cur : Nat} {b : Bool},
    deleteDeadBranchLoop fuel m cur b = some m1 → Shrinks m m1 := by
  intro fuel
  induction fuel with
  | zero => intro m m1 cur b h; cases h
  | succ fuel ih =>
    intro m m1 cur b h
    unfold deleteDeadBranchLoop at h
    split at h
    · cases h
    · split at h
      · split at h
        · cases h
        · split at h
          · cases h
          · rename_i par hpar
            have := ih h
            exact ((setTrie_shrinks _ hpar).andThen (freeTrie_shrinks _ _)).andThen this
      · cases h
        exact Shrinks.same _

theorem deleteDeadBranch_shrinks {m m1 : Mem} {a : Nat} (h : deleteDeadBranch m a = some m1) :
    Shrinks m m1 := by
  unfold deleteDeadBranch at h
  split at h
  · cases h
  · split at h
    · cases h
      exact Shrinks.same _
    · exact deleteDeadBranchLoop_shrinks _ h

theorem deleteFwdData_shrinks {m m1 : Mem} {a : Nat} (h : deleteFwdData m a = some m1) :
    Shrinks m m1 := by
  unfold deleteFwdData at h
  split at h
  · cases h
  · split at h
    · cases h
      exact Shrinks.same _
    · split at h
      · cases h
      · rename_i f hf
        simp only at h
        split at h
        · cases h
        · rename_i m2 hm2
          split at h
          · cases h
          · rename_i m3 hm3
            have e2 : Shrinks m m2 := by
              split at hm2
              · split at hm2
                · cases hm2
                · cases hm2
                  exact setTrie_shrinks _ hf
              · cases hm2
                exact Shrinks.same _
            exact (e2.andThen (listRemove_shrinks hm3)).andThen (deleteDeadBranch_shrinks h)

theorem trieDeleteFor_shrinks (root : Nat) : ∀ (is : List Nat) {m m1 : Mem} {cur cur1 : Nat},
    trieDeleteFor root is m cur = some (m1, cur1) → Shrinks m m1 := by
  intro is
  induction is with
  | nil =>
    intro m m1 cur cur1 h
    simp only [trieDeleteFor, Option.some.injEq, Prod.mk.injEq] at h
    rw [← h.1]
    exact Shrinks.same _
  | cons i is ih =>
    intro m m1 cur cur1 h
    unfold trieDeleteFor at h
    split at h
    · rename_i r c hr hc
      simp only at h
      split at h
      · cases h
      · have := ih h
        exact (setTrie_shrinks _ hc).andThen this
    · cases h

theorem trieDeleteLoop_shrinks : ∀ (fuel : Nat) {m m1 : Mem} {root cur : Nat},
    trieDeleteLoop fuel m root cur = some m1 → Shrinks m m1 := by
  intro fuel
  induction fuel with
  | zero =>
    intro m m1 root cur h
    unfold trieDeleteLoop at h
    split at h
    · cases h
      exact Shrinks.same _
    · cases h
  | succ fuel ih =>
    intro m m1 root cur h
    unfold trieDeleteLoop at h
    split at h
    · cases h
      exact Shrinks.same _
    · split at h
      · cases h
      · split at h
        · cases h
        · rename_i m2 c2 hm2
          split at h
          · cases h
          · split at h
            · cases h
            · rename_i m3 hm3
              exact (((trieDeleteFor_shrinks _ _ hm2).andThen (deleteFwdData_shrinks hm3)).andThen
                (freeTrie_shrinks _ _)).andThen (ih h)

/-- The loop with the list of nodes is the loop of `trieDelete`. -/
theorem trieDeleteLoopLog_fst : ∀ (fuel : Nat) (m : Mem) (root cur : Nat),
    (trieDeleteLoopLog fuel m root cur).map Prod.fst = trieDeleteLoop fuel m root cur := by
  intro fuel
  induction fuel with
  | zero =>
    intro m root cur
    unfold trieDeleteLoopLog trieDeleteLoop
    split_ifs <;> rfl
  | succ fuel ih =>
    intro m root cur
    unfold trieDeleteLoopLog trieDeleteLoop
    split_ifs
    · rfl
    · cases descend m m.brk cur with
      | none => rfl
      | some c1 =>
        simp only
        cases trieDeleteFor root [1, 2, 3, 4, 5, 6, 7, 8, 9, 10, 11] m c1 with
        | none => rfl
        | some r1 =>
          obtain ⟨m1, c2⟩ := r1
          simp only
          cases m1.trie root with
          | none => rfl
          | some r =>
            simp only
            cases deleteFwdData m1 root with
            | none => rfl
            | some m2 =>
              simp only [Option.map_map]
              rw [← ih]
              rfl

theorem trieDeleteLog_fst (m : Mem) (node : Nat) :
    (trieDeleteLog m node).map Prod.fst = trieDelete m node :=
  trieDeleteLoopLog_fst _ _ _ _

/-- The outer loop of `trieDelete` hands every node of the tree once to
`deleteFwdData` and frees it; the list cells of the forwardings of these nodes
and the reverse nodes that are no longer needed are freed. -/
theorem trieDeleteLoopLog_spec {pf : PhoneForward} {P : List Char} {fA0 : List Char → Nat}
    {reg0 : List Entry} (hinj : ∀ p q, fA0 p ≠ 0 → fA0 p = fA0 q → p = q)
    (hsrcs : (reg0.map Entry.src).Nodup) : ∀ (fuel : Nat) (T : GT) (m : Mem)
    (rA : List Char → Nat) (current : Nat), (∀ q, fA0 q < m.brk) → T.labels.length ≤ fuel →
    DelInv m pf P fA0 reg0 rA T →
    (T = GT.nil ∨ current = T.addr fA0 ∨ current = fA0 (T.lastD [])) →
    ∃ m1 rA1 L, trieDeleteLoopLog fuel m (T.addr fA0) current = some (m1, L.map fA0) ∧
      DelInv m1 pf P fA0 reg0 rA1 GT.nil ∧ m1.brk = m.brk ∧ List.Perm L T.labels ∧
      (∀ q ∈ L, m1.trie (fA0 q) = none) ∧
      (∀ e ∈ reg0, e.src ∈ T.labels → m1.list e.cell = none) ∧
      (∀ q, rA q ≠ 0 → rA1 q = rA q ∨ (rA1 q = 0 ∧ m1.trie (rA q) = none)) ∧
      (∀ q, rA1 q ≠ 0 → rA1 q = rA q) ∧ Shrinks m m1 := by
  intro fuel
  induction fuel with
  | zero =>
    intro T m rA current _ hl h _
    cases T with
    | nil =>
      exact ⟨m, rA, [], by simp [trieDeleteLoopLog, GT.addr], h, rfl, by simp [GT.labels],
        by simp, by simp [GT.labels], fun q _ => Or.inl rfl, fun _ _ => rfl, Shrinks.same m⟩
    | node p kids => simp [GT.labels] at hl
  | succ fuel ih =>
    intro T m rA current hlt hl h hcur
    cases T with
    | nil =>
      exact ⟨m, rA, [], by simp [trieDeleteLoopLog, GT.addr], h, rfl, by simp [GT.labels],
        by simp, by simp [GT.labels], fun q _ => Or.inl rfl, fun _ _ => rfl, Shrinks.same m⟩
    | node p kids =>
      have hp : fA0 p ≠ 0 := h.pristine.1
      have hlen := labels_length_lt hinj m.brk hlt _ h.nodup (PristineT.ne _ h.pristine)
      have hdesc : descend m m.brk current = some (fA0 ((kids 0).lastD p)) := by
        rcases hcur with hc | hc | hc
        · cases hc
        · rw [hc]
          exact descend_tree m.brk p kids h.pristine (by omega)
        · obtain ⟨n, hn, h0⟩ := last_node (GT.node p kids) [] h.pristine (by simp)
          rw [hc]
          obtain ⟨f, hf⟩ : ∃ f, m.brk = f + 1 := ⟨m.brk - 1, by omega⟩
          rw [hf]
          simp only [descend, hn, h0, ne_eq, not_true_eq_false, if_false]
          rfl
      obtain ⟨m1, n1, m2, rA2, a1, a2, a3, a4, a5, a6, a7, a8, a9, a10⟩ :=
        del_step hinj hsrcs m rA p kids hlt h
      have hG1 := foldl_graft_labels kids [1, 2, 3, 4, 5, 6, 7, 8, 9, 10, 11] (kids 0)
      obtain ⟨m3, rA3, L, b1, b2, b3, b4, b5, b6, b7, b8, b9⟩ := ih _ (m2.freeTrie (fA0 p)) rA2
        (fA0 (([1, 2, 3, 4, 5, 6, 7, 8, 9, 10, 11].foldl
          (fun G i => graft G (kids i)) (kids 0)).lastD p))
        (by simpa [a6] using hlt) (by omega) a5 (by
          by_cases hG : [1, 2, 3, 4, 5, 6, 7, 8, 9, 10, 11].foldl
            (fun G i => graft G (kids i)) (kids 0) = GT.nil
          · exact Or.inl hG
          · right; right
            rw [lastD_node _ hG p []])
      have hL : (GT.node p kids).labels = p :: ([1, 2, 3, 4, 5, 6, 7, 8, 9, 10, 11].flatMap
          (fun j => (kids j).labels) ++ (kids 0).labels) := rfl
      have hperm : List.Perm (p :: L) (GT.node p kids).labels := by
        rw [hL]
        refine List.Perm.cons p (b4.trans ?_)
        rw [hG1]
        exact List.perm_append_comm
      refine ⟨m3, rA3, p :: L, ?_, b2, by rw [b3]; simpa using a6, hperm, ?_, ?_, ?_, ?_, ?_⟩
      · have e : trieDeleteLoopLog (fuel + 1) m ((GT.node p kids).addr fA0) current =
            (trieDeleteLoopLog fuel (m2.freeTrie (fA0 p))
              (([1, 2, 3, 4, 5, 6, 7, 8, 9, 10, 11].foldl
                (fun G i => graft G (kids i)) (kids 0)).addr fA0)
              (fA0 (([1, 2, 3, 4, 5, 6, 7, 8, 9, 10, 11].foldl
                (fun G i => graft G (kids i)) (kids 0)).lastD p))).map
              (fun x => (x.1, fA0 p :: x.2)) := by
          simp only [trieDeleteLoopLog, GT.addr, hp, if_false, hdesc, a1, a2, a4, a3]
        rw [e, b1]
        rfl
      · intro q hq
        rcases List.mem_cons.mp hq with rfl | hq
        · apply b9.1
          simp
        · exact b5 q hq
      · intro e he hes
        by_cases hep : e.src = p
        · apply b9.2
          show m2.list e.cell = none
          exact a8 e he hep
        · apply b6 e he
          have := hperm.mem_iff.mpr hes
          rcases List.mem_cons.mp this with h1 | h1
          · exact absurd h1 hep
          · exact b4.mem_iff.mp h1
      · intro q hq
        by_cases hq2 : rA2 q = 0
        · right
          have h3 : rA3 q = 0 := by
            by_contra hne
            exact hne (by rw [b8 q hne]; exact hq2)
          refine ⟨h3, b9.1 _ ?_⟩
          have := a9 q hq hq2
          simp only [freeTrie_trie]
          split_ifs
          · rfl
          · exact this
        · have e2 := a10 q hq2
          rcases b7 q hq2 with h3 | ⟨h3, h4⟩
          · exact Or.inl (h3.trans e2)
          · exact Or.inr ⟨h3, by rw [← e2]; exact h4⟩
      · intro q hq
        have h2 := b8 q hq
        have h3 : rA2 q ≠ 0 := by rw [← h2]; exact hq
        rw [h2, a10 q h3]
      · have s1 := trieDeleteFor_shrinks _ _ a1
        have s2 := deleteFwdData_shrinks a4
        exact ((s1.andThen s2).andThen (freeTrie_shrinks _ _)).andThen b9

/-- The invariant of `trieDelete` at the root of the forward trie. -/
theorem delInv_root {m : Mem} {pf : PhoneForward} {g : Ghost} (h : Inv m pf g) :
    DelInv m pf [] g.fA g.reg g.rA (build g.fA m.brk []) ∧
      (build g.fA m.brk []).addr g.fA = pf.rootFwd ∧
      ∀ q, g.fA q ≠ 0 → q ∈ (build g.fA m.brk []).labels := by
  have hbound : ∀ x, g.fA x ≠ 0 → [] <+: x → x.length < ([] : List Char).length + m.brk := by
    intro x hx _
    have := h.shapeF.depth x hx
    simp only [List.length_nil]
    omega
  have hcov := build_cover h.shapeF m.brk [] hbound
  have hg0 : delGhost [] g.fA g.reg g.rA (build g.fA m.brk []).labels = g := by
    cases g with
    | mk fA rA reg =>
      simp only [delGhost, Ghost.mk.injEq, true_and]
      constructor
      · funext q
        split_ifs with h1
        · by_contra h2
          exact h1.2 (hcov q h1.1 (Ne.symm h2))
        · rfl
      · apply List.filter_eq_self.mpr
        intro e he
        simp only [decide_eq_true_eq]
        exact Or.inr (hcov _ List.nil_prefix (h.rev.entry e he).1)
  refine ⟨⟨build_pristine h.shapeF m.brk _ hbound, build_nodup _ _ _,
    fun q _ => List.nil_prefix, Or.inl rfl, ?_, ?_, ?_, h.sep⟩, ?_,
    fun q hq => hcov q List.nil_prefix hq⟩
  · rw [hg0]
    exact h.data
  · rw [hg0]
    exact h.rev
  · rw [hg0]
    exact h.deadR
  · rw [build_addr _ _ _ hbound]
    exact h.shapeF.root_eq

/-- The invariant of `trieDelete` at the node of `P0 ++ [c]`, detached from
its parent as `trieRemove` does. -/
theorem delInv_detach {m : Mem} {pf : PhoneForward} {g : Ghost} (h : Inv m pf g)
    (P0 : List Char) (c : Char) (hz : g.fA (P0 ++ [c]) ≠ 0) (par : TrieNode)
    (hparn : m.trie (g.fA P0) = some par) :
    DelInv (m.setTrie (g.fA P0) (setChild par (charToDigit (c.toNat : Int)) 0)) pf
        (P0 ++ [c]) g.fA g.reg g.rA (build g.fA m.brk (P0 ++ [c])) ∧
      (build g.fA m.brk (P0 ++ [c])).addr g.fA = g.fA (P0 ++ [c]) ∧
      ∀ q, P0 ++ [c] <+: q → g.fA q ≠ 0 → q ∈ (build g.fA m.brk (P0 ++ [c])).labels := by
  obtain ⟨hP0, hc⟩ := h.shapeF.closed P0 c hz
  have hbound : ∀ x, g.fA x ≠ 0 → P0 ++ [c] <+: x →
      x.length < (P0 ++ [c]).length + m.brk := by
    intro x hx _
    have := h.shapeF.depth x hx
    omega
  have hcov := build_cover h.shapeF m.brk (P0 ++ [c]) hbound
  have hg0 : delGhost (P0 ++ [c]) g.fA g.reg g.rA (build g.fA m.brk (P0 ++ [c])).labels =
      g := by
    cases g with
    | mk fA rA reg =>
      simp only [delGhost, Ghost.mk.injEq, true_and]
      constructor
      · funext q
        split_ifs with h1
        · by_contra h2
          exact h1.2 (hcov q h1.1 (Ne.symm h2))
        · rfl
      · apply List.filter_eq_self.mpr
        intro e he
        simp only [decide_eq_true_eq]
        by_cases hPe : P0 ++ [c] <+: e.src
        · exact Or.inr (hcov _ hPe (h.rev.entry e he).1)
        · exact Or.inl hPe
  have hother : ∀ q, g.fA q ≠ 0 → q ≠ P0 →
      (m.setTrie (g.fA P0) (setChild par (charToDigit (c.toNat : Int)) 0)).trie (g.fA q) =
        m.trie (g.fA q) := by
    intro q hq hqp
    have : g.fA q ≠ g.fA P0 := fun e => hqp (h.shapeF.inj q P0 hq e)
    simp [this]
  refine ⟨⟨?_, build_nodup _ _ _, fun q hq => (build_labels _ _ _ _ hq).1,
    Or.inr (shape_detach h.shapeF P0 c hz par hparn), ?_, ?_, ?_, h.sep⟩,
    build_addr _ _ _ hbound, hcov⟩
  · apply PristineT.frameTree _ _ (build_pristine h.shapeF m.brk _ hbound)
    intro q hq
    obtain ⟨x1, x2⟩ := build_labels _ _ _ _ hq
    apply hother q x2
    intro e
    rw [e] at x1
    have := x1.length_le
    simp at this
  · rw [hg0]
    intro q hq
    obtain ⟨n, hn, x1, x2⟩ := h.data q hq
    by_cases hqp : q = P0
    · subst hqp
      rw [hparn] at hn
      cases hn
      exact ⟨setChild par (charToDigit (c.toNat : Int)) 0, by simp, x1, x2⟩
    · exact ⟨n, by rw [hother q hq hqp]; exact hn, x1, x2⟩
  · rw [hg0]
    refine h.rev.frameRev ?_ rfl (le_refl _)
    intro q _
    have : g.rA q ≠ g.fA P0 := fun e => h.sep P0 q hP0 e.symm
    simp [this]
  · rw [hg0]
    exact h.deadR

/-! ### The function `trieDelete` on the state of a run -/

theorem nodeOf_eq {m : Mem} {root : Nat} {A : List Char → Nat} (h : Shape m root A)
    (q : List Char) (hq : A q ≠ 0) : nodeOf m root q = A q := by
  simp only [nodeOf, trieFind_root h q (h.digits q hq), Option.getD_some]

theorem nodeOf_map {m : Mem} {root : Nat} {A : List Char → Nat} (h : Shape m root A)
    (L : List (List Char)) (hL : ∀ q ∈ L, A q ≠ 0) : L.map A = L.map (nodeOf m root) := by
  apply List.map_congr_left
  intro q hq
  exact (nodeOf_eq h q (hL q hq)).symm

theorem node_iff {m : Mem} {root : Nat} {A : List Char → Nat} (h : Shape m root A)
    (q : List Char) : A q ≠ 0 ↔ (∀ c ∈ q, isPhNumDigit (c.toNat : Int) = true) ∧
      ∃ x, x ≠ 0 ∧ trieFind m root q = some x := by
  constructor
  · intro hq
    exact ⟨h.digits q hq, A q, hq, trieFind_root h q (h.digits q hq)⟩
  · rintro ⟨hd, x, hx, hf⟩
    rw [trieFind_root h q hd] at hf
    cases hf
    exact hx

theorem linked_unique (m : Mem) : ∀ (cs1 cs2 : List Nat) (prev head : Nat),
    linked m prev cs1 head = true → linked m prev cs2 head = true → cs1 = cs2 := by
  intro cs1
  induction cs1 with
  | nil =>
    intro cs2 prev head h1 h2
    cases cs2 with
    | nil => rfl
    | cons c cs =>
      simp only [linked, beq_iff_eq] at h1
      simp only [linked, Bool.and_eq_true, beq_iff_eq, bne_iff_ne] at h2
      exact absurd (h2.1.1.symm.trans h1) h2.1.2
  | cons c cs ih =>
    intro cs2 prev head h1 h2
    cases cs2 with
    | nil =>
      simp only [linked, beq_iff_eq] at h2
      simp only [linked, Bool.and_eq_true, beq_iff_eq, bne_iff_ne] at h1
      exact absurd (h1.1.1.symm.trans h2) h1.1.2
    | cons c2 cs2 =>
      simp only [linked, Bool.and_eq_true, beq_iff_eq, bne_iff_ne] at h1 h2
      have e : c = c2 := h1.1.1.symm.trans h2.1.1
      subst e
      cases hn : m.list c with
      | none => simp [hn] at h1
      | some n =>
        simp only [hn, Bool.and_eq_true, beq_iff_eq] at h1 h2
        rw [ih cs2 c n.next h1.2.2 h2.2.2]

/-- The function `trieDelete` on the root of the forward trie: every forward
node is handed once to `deleteFwdData` and freed, every list cell and every
reverse node but the root is freed. -/
theorem trieDelete_root_ok {m : Mem} {pf : PhoneForward} {g : Ghost} (h : Inv m pf g) :
    ∃ (m2 : Mem) (L : List (List Char)), trieDeleteLog m pf.rootFwd = some (m2, L.map g.fA) ∧
      L.Nodup ∧
      (∀ q, q ∈ L ↔ g.fA q ≠ 0) ∧ (∀ q ∈ L, m2.trie (g.fA q) = none) ∧
      (∀ e ∈ g.reg, m2.list e.cell = none) ∧
      (∀ q, q ≠ [] → g.rA q ≠ 0 → m2.trie (g.rA q) = none) ∧
      ∃ nR, m2.trie pf.rootReverse = some nR ∧ hasChild nR = false ∧ nR.fwdNode = 0 ∧
        nR.listNode = 0 ∧ nR.parent = 0 := by
  obtain ⟨hD, haddr, hcov⟩ := delInv_root h
  have hlt : ∀ q, g.fA q < m.brk := h.shapeF.lt_brk
  have hlen := labels_length_lt h.shapeF.inj m.brk hlt _ hD.nodup (PristineT.ne _ hD.pristine)
  obtain ⟨m2, rA2, L, b1, b2, _, b4, b5, b6, b7, b8, _⟩ :=
    trieDeleteLoopLog_spec h.shapeF.inj h.srcs m.brk _ m g.rA
      ((build g.fA m.brk []).addr g.fA) hlt (by omega) hD (Or.inr (Or.inl rfl))
  rw [haddr] at b1
  have hreg : (delGhost [] g.fA g.reg rA2 GT.nil.labels).reg = [] := by
    simp [delGhost, GT.labels]
  have hdead : ∀ q, q ≠ [] → rA2 q = 0 := by
    intro q hq
    by_contra hne
    obtain ⟨e, he, _⟩ := b2.deadR q hq hne
    rw [hreg] at he
    cases he
  have hroot : rA2 [] = pf.rootReverse := b2.rev.shape.root_eq
  have hr0 : rA2 [] ≠ 0 := by rw [hroot]; exact b2.rev.shape.root_ne
  refine ⟨m2, L, b1, b4.nodup_iff.mpr hD.nodup, ?_, b5, ?_, ?_, ?_⟩
  · intro q
    rw [b4.mem_iff]
    exact ⟨fun hq => (build_labels _ _ _ _ hq).2, hcov q⟩
  · intro e he
    exact b6 e he (hcov _ (h.rev.entry e he).1)
  · intro q hq hq0
    rcases b7 q hq0 with h1 | ⟨_, h1⟩
    · exact absurd (h1.symm.trans (hdead q hq)) hq0
    · exact h1
  · obtain ⟨nR, hnR, hf0, hC⟩ := b2.rev.lists [] hr0
    obtain ⟨nR', hnR', hch⟩ := b2.rev.shape.node [] hr0
    have hnR2 : m2.trie (rA2 []) = some nR := hnR
    have hnR3 : m2.trie (rA2 []) = some nR' := hnR'
    have hch2 : ∀ j, j < 12 → nR'.children j = rA2 ([] ++ [digitToChar j]) := hch
    rw [hnR2] at hnR3
    cases hnR3
    rw [hroot] at hnR2
    refine ⟨nR, hnR2, ?_, hf0, ?_, b2.rev.shape.parent_root nR hnR2⟩
    · rw [← Bool.not_eq_true, hasChild_iff]
      rintro ⟨j, hj, hne⟩
      rw [hch2 j hj] at hne
      exact hne (hdead _ (by simp))
    · have hl : (delGhost [] g.fA g.reg rA2 GT.nil.labels).reg.filter
          (fun e => decide (e.dst = [])) = [] := by
        rw [hreg]
        rfl
      rw [hl] at hC
      exact hC

/-- The function `trieDelete` on a node detached from its parent as
`trieRemove` does: every node of its subtree is handed once to
`deleteFwdData` and freed, and the nodes outside the subtree stay. -/
theorem trieDelete_sub_ok {m : Mem} {pf : PhoneForward} {g : Ghost} (h : Inv m pf g)
    (P0 : List Char) (c : Char) (hz : g.fA (P0 ++ [c]) ≠ 0) (par : TrieNode)
    (hparn : m.trie (g.fA P0) = some par) :
    ∃ (m2 : Mem) (L : List (List Char)), trieDeleteLog
        (m.setTrie (g.fA P0) (setChild par (charToDigit (c.toNat : Int)) 0))
        (g.fA (P0 ++ [c])) = some (m2, L.map g.fA) ∧ L.Nodup ∧
      (∀ q, q ∈ L ↔ P0 ++ [c] <+: q ∧ g.fA q ≠ 0) ∧ (∀ q ∈ L, m2.trie (g.fA q) = none) ∧
      ∀ q, ¬ P0 ++ [c] <+: q → g.fA q ≠ 0 → m2.trie (g.fA q) ≠ none := by
  obtain ⟨hD, haddr, hcov⟩ := delInv_detach h P0 c hz par hparn
  have hlt : ∀ q, g.fA q < (m.setTrie (g.fA P0)
      (setChild par (charToDigit (c.toNat : Int)) 0)).brk := by
    intro q
    simpa using h.shapeF.lt_brk q
  have hlen := labels_length_lt h.shapeF.inj _ hlt _ hD.nodup (PristineT.ne _ hD.pristine)
  obtain ⟨m2, rA2, L, b1, b2, _, b4, b5, _, _, _, _⟩ :=
    trieDeleteLoopLog_spec h.shapeF.inj h.srcs (m.setTrie (g.fA P0)
      (setChild par (charToDigit (c.toNat : Int)) 0)).brk _ _ g.rA
      ((build g.fA m.brk (P0 ++ [c])).addr g.fA) hlt (by omega) hD (Or.inr (Or.inl rfl))
  rw [haddr] at b1
  refine ⟨m2, L, b1, b4.nodup_iff.mpr hD.nodup, ?_, b5, ?_⟩
  · intro q
    rw [b4.mem_iff]
    exact ⟨fun hq => build_labels _ _ _ _ hq, fun hq => hcov q hq.1 hq.2⟩
  · intro q hq hq0
    have hS := b2.shapeT.resolve_left (by simp)
    obtain ⟨n, hn, _⟩ := hS.node q (by simp only [hq, if_false]; exact hq0)
    simp only [hq, if_false] at hn
    rw [hn]
    simp

/-! ### The chain that `deleteDeadBranch` frees -/

theorem ChainCut.none (m : Mem) (A : List Char → Nat) (q : List Char) : ChainCut m A q [] m where
  empties := fun t' h1 h2 => absurd (List.prefix_nil.mp h2) h1
  only := fun t' _ h1 h2 => absurd (List.prefix_nil.mp h2) h1
  freed := fun t' h1 h2 => absurd (List.prefix_nil.mp h2) h1
  slot := fun c t2 h => by cases h
  other := fun _ _ _ => rfl
  same := fun _ => rfl
  list_eq := rfl
  brk_eq := rfl
  oracle_eq := rfl

theorem cut_none (A : List Char → Nat) (p : List Char) :
    (fun x : List Char => if p.length < x.length ∧ x <+: p then 0 else A x) = A := by
  funext x
  split_ifs with h
  · have := h.2.length_le
    omega
  · rfl

theorem deleteDeadBranchLoop_chain {root : Nat} (p : List Char) :
    ∀ (m : Mem) (A : List Char → Nat) (fuel : Nat) (isLeaf : Bool), Shape m root A →
      A p ≠ 0 → (isLeaf = true ↔ ∀ j, j < 12 → A (p ++ [digitToChar j]) = 0) →
      p.length < fuel →
      ∃ q t m1, p = q ++ t ∧ deleteDeadBranchLoop fuel m (A p) isLeaf = some m1 ∧
        ChainCut m A q t m1 ∧
        (q = [] ∨ (t = [] ∧ isLeaf = false) ∨
          (∃ k, m.trie (A q) = some k ∧ ¬ (k.fwdNode = 0 ∧ k.listNode = 0)) ∨
          (t ≠ [] ∧ ∃ d, A (q ++ [d]) ≠ 0 ∧ ¬ [d] <+: t)) ∧
        Shape m1 root (fun x => if q.length < x.length ∧ x <+: p then 0 else A x) := by
  induction p using List.reverseRecOn with
  | nil =>
    intro m A fuel isLeaf hS hp hL hf
    obtain ⟨f, rfl⟩ : ∃ f, fuel = f + 1 := ⟨fuel - 1, by omega⟩
    obtain ⟨n, hn, _⟩ := hS.node [] hp
    have hpar := hS.parent_root n (by rw [← hS.root_eq]; exact hn)
    refine ⟨[], [], m, rfl, by simp [deleteDeadBranchLoop, isEmpty, hp, hn, hpar],
      ChainCut.none m A [], Or.inl rfl, ?_⟩
    rw [cut_none A []]
    exact hS
  | append_singleton q0 c ih =>
    intro m A fuel isLeaf hS hp hL hf
    obtain ⟨f, rfl⟩ : ∃ f, fuel = f + 1 := ⟨fuel - 1, by omega⟩
    obtain ⟨n, hn, hch⟩ := hS.node _ hp
    have hpar := hS.parent_snoc q0 c n hp hn
    obtain ⟨hq0, hc⟩ := hS.closed q0 c hp
    obtain ⟨par, hparn, hpch⟩ := hS.node q0 hq0
    have hE : isEmpty m (A (q0 ++ [c])) =
        some (decide (n.fwdNode = 0) && decide (n.listNode = 0)) := by
      simp [isEmpty, hp, hn, hpar, hq0]
    by_cases hbody : isLeaf = true ∧ n.fwdNode = 0 ∧ n.listNode = 0
    · obtain ⟨hleaf, hz⟩ := hbody
      have hleaf2 := hL.mp hleaf
      have key : ∀ j, j < 12 →
          (par.children j = A (q0 ++ [c]) ↔ j = charToDigit (c.toNat : Int)) := by
        intro j hj
        rw [hpch j hj]
        constructor
        · intro e
          have e2 := hS.inj _ _ (by rw [e]; exact hp) e
          have e3 : digitToChar j = c := by simpa using e2
          rw [← e3, charToDigit_digitToChar j hj]
        · rintro rfl
          rw [digitToChar_charToDigit c hc]
      obtain ⟨hf1, hf2⟩ := unlink_fold par (A (q0 ++ [c])) _ key 12 (le_refl _)
      rw [if_pos (charToDigit_lt c hc)] at hf1
      generalize hm1 : ((m.setTrie (A q0) ((List.range 12).foldl
        (unlinkStep (A (q0 ++ [c]))) (par, true)).1).freeTrie (A (q0 ++ [c]))) = m1
      have h1 : ∀ x, m1.trie x =
          if x = A (q0 ++ [c]) then none
          else if x = A q0 then some (setChild par (charToDigit (c.toNat : Int)) 0)
          else m.trie x := by
        intro x
        subst hm1
        simp only [freeTrie_trie, setTrie_trie, hf1]
      have hb1 : m1.brk = m.brk := by subst hm1; rfl
      have hl1 : m1.list = m.list := by subst hm1; rfl
      have ho1 : m1.oracle = m.oracle := by subst hm1; rfl
      have hne0 : q0 ≠ q0 ++ [c] := fun e => snoc_ne_self q0 c e.symm
      have hA0 : A q0 ≠ A (q0 ++ [c]) := fun e => hne0 (hS.inj _ _ hq0 e)
      have hS1 := shape_cut hS q0 c hp hleaf2 par hparn h1 hb1
      have hL1 : ((List.range 12).foldl (unlinkStep (A (q0 ++ [c]))) (par, true)).2 = true ↔
          ∀ j, j < 12 →
            (fun q => if q = q0 ++ [c] then 0 else A q) (q0 ++ [digitToChar j]) = 0 := by
        rw [hf2]
        constructor
        · intro hh j hj
          by_cases e : j = charToDigit (c.toNat : Int)
          · subst e
            simp [digitToChar_charToDigit c hc]
          · have := hh j hj e
            rw [hpch j hj] at this
            simp only [this, ite_self]
        · intro hh j hj e
          have := hh j hj
          have e2 : ¬ q0 ++ [digitToChar j] = q0 ++ [c] := by
            intro e3
            have e4 : digitToChar j = c := by simpa using e3
            apply e
            rw [← e4, charToDigit_digitToChar j hj]
          simp only [e2, if_false] at this
          rw [hpch j hj]
          exact this
      simp only [List.length_append, List.length_singleton] at hf
      obtain ⟨q, t0, m2, e0, e1, e2, e3, e4⟩ := ih m1 _ f _ hS1
        (by simp only [hne0, if_false]; exact hq0) hL1 (by omega)
      simp only [hne0, if_false] at e1
      -- the nodes above the one freed, in the two descriptions
      have hup : ∀ t', t' <+: t0 → q ++ t' ≠ q0 ++ [c] := by
        intro t' ht' e
        have h2 := congrArg List.length e
        have h3 := ht'.length_le
        rw [e0] at h2
        simp only [List.length_append, List.length_singleton] at h2
        omega
      have hupA : ∀ t', t' <+: t0 → A (q ++ t') ≠ 0 := by
        intro t' ht'
        obtain ⟨r, hr⟩ := ht'
        apply hS.pre (q ++ t') r
        rw [List.append_assoc, hr, ← e0]
        exact hq0
      have hupx : ∀ t', t' <+: t0 → A (q ++ t') ≠ A (q0 ++ [c]) := fun t' ht' e =>
        hup t' ht' (hS.inj _ _ (hupA t' ht') e)
      have hqq : q ≠ q0 ++ [c] := by simpa using hup [] List.nil_prefix
      have hqA : A q ≠ 0 := by simpa using hupA [] List.nil_prefix
      have hqx : A q ≠ A (q0 ++ [c]) := by simpa using hupx [] List.nil_prefix
      -- the fields of a node above the one freed are those it had
      have hfld : ∀ t' k, t' <+: t0 → m1.trie (A (q ++ t')) = some k →
          ∃ k0, m.trie (A (q ++ t')) = some k0 ∧ k0.fwdNode = k.fwdNode ∧
            k0.listNode = k.listNode := by
        intro t' k ht' hk
        rw [h1] at hk
        simp only [hupx t' ht', if_false] at hk
        by_cases e : A (q ++ t') = A q0
        · simp only [e, if_true, Option.some.injEq] at hk
          subst hk
          exact ⟨par, by rw [e]; exact hparn, rfl, rfl⟩
        · simp only [e, if_false] at hk
          exact ⟨k, hk, rfl, rfl⟩
      have hC : ChainCut m A q (t0 ++ [c]) m2 := by
        refine ⟨?_, ?_, ?_, ?_, ?_, ?_, e2.list_eq.trans hl1, e2.brk_eq.trans hb1,
          e2.oracle_eq.trans ho1⟩
        · intro t' ht' hpre
          rcases List.prefix_concat_iff.mp hpre with h | h
          · subst h
            refine ⟨n, ?_, hz.1, hz.2⟩
            rw [← List.append_assoc, ← e0]
            exact hn
          · obtain ⟨k, hk, hk1, hk2⟩ := e2.empties t' ht' h
            simp only [hup t' h, if_false] at hk
            obtain ⟨k0, a1, a2, a3⟩ := hfld t' k h hk
            exact ⟨k0, a1, by rw [a2]; exact hk1, by rw [a3]; exact hk2⟩
        · intro t' d ht' hpre hd
          rcases List.prefix_concat_iff.mp hpre with h | h
          · subst h
            exfalso
            rw [← List.append_assoc, ← e0] at hd
            have hdd := (hS.closed _ d hd).2
            have := hleaf2 _ (charToDigit_lt d hdd)
            rw [digitToChar_charToDigit d hdd] at this
            exact hd this
          · by_cases e : q ++ t' ++ [d] = q0 ++ [c]
            · rw [e0, List.append_assoc, List.append_assoc] at e
              rw [List.append_cancel_left e]
            · have := e2.only t' d ht' h (by simp only [e, if_false]; exact hd)
              exact this.trans (List.prefix_append _ _)
        · intro t' ht' hpre
          rcases List.prefix_concat_iff.mp hpre with h | h
          · subst h
            rw [← List.append_assoc, ← e0]
            rw [e2.other (A (q0 ++ [c])) (by simp only [hqq, if_false]; exact fun e => hqx e.symm)
              (by
                intro t'' _ h2
                simp only [hup t'' h2, if_false]
                exact fun e => hupx t'' h2 e.symm)]
            simp [h1]
          · have := e2.freed t' ht' h
            simp only [hup t' h, if_false] at this
            exact this
        · intro c' t2 ht
          cases t0 with
          | nil =>
            simp only [List.nil_append, List.cons.injEq] at ht
            obtain ⟨rfl, _⟩ := ht
            simp only [List.append_nil] at e0
            subst e0
            have := e2.same rfl
            subst this
            exact ⟨par, hparn, by simp [h1, hA0]⟩
          | cons c1 t3 =>
            simp only [List.cons_append, List.cons.injEq] at ht
            obtain ⟨rfl, _⟩ := ht
            obtain ⟨k, hk, hk2⟩ := e2.slot c1 t3 rfl
            simp only [hqq, if_false] at hk hk2
            have hq0q : A q ≠ A q0 := by
              intro e
              have := hS.inj _ _ hqA e
              rw [e0] at this
              have h2 := congrArg List.length this
              simp at h2
            rw [h1] at hk
            simp only [hqx, hq0q, if_false] at hk
            exact ⟨k, hk, hk2⟩
        · intro x hx hall
          have hxp : x ≠ A (q0 ++ [c]) := by
            have := hall (t0 ++ [c]) (by simp) (List.prefix_refl _)
            rw [← List.append_assoc, ← e0] at this
            exact this
          rw [e2.other x (by simp only [hqq, if_false]; exact hx) (by
            intro t'' h1' h2
            simp only [hup t'' h2, if_false]
            exact hall t'' h1' (h2.trans (List.prefix_append _ _)))]
          rw [h1]
          simp only [hxp, if_false]
          by_cases e : x = A q0
          · exfalso
            cases t0 with
            | nil =>
              simp only [List.append_nil] at e0
              rw [e0] at e
              exact hx e
            | cons c1 t3 =>
              have := hall (c1 :: t3) (by simp) (List.prefix_append _ _)
              rw [← e0] at this
              exact this e
          · simp only [e, if_false]
        · intro ht
          simp at ht
      refine ⟨q, t0 ++ [c], m2, by rw [← List.append_assoc, ← e0], ?_, hC, ?_, ?_⟩
      · rw [deleteDeadBranchLoop, hE]
        simp only [hz.1, hz.2, decide_True, Bool.and_self, hleaf, if_true, hn, hpar, hparn]
        rw [hm1]
        exact e1
      · rcases e3 with h | ⟨h, hfalse⟩ | ⟨k, hk, hne⟩ | ⟨h, d, hd, hnd⟩
        · exact Or.inl h
        · right; right; right
          subst h
          simp only [List.append_nil] at e0
          subst e0
          refine ⟨by simp, ?_⟩
          have hnot : ¬ ∀ j, j < 12 → j ≠ charToDigit (c.toNat : Int) → par.children j = 0 := by
            rw [← hf2, hfalse]
            simp
          simp only [not_forall] at hnot
          obtain ⟨j, hj, hjc, hjn⟩ := hnot
          refine ⟨digitToChar j, by rw [← hpch j hj]; exact hjn, ?_⟩
          simp only [List.nil_append]
          intro hpre
          have : digitToChar j = c := by
            have := List.IsPrefix.eq_of_length hpre (by simp)
            simpa using this
          apply hjc
          rw [← this, charToDigit_digitToChar j hj]
        · right; right; left
          simp only [hqq, if_false] at hk
          obtain ⟨k0, a1, a2, a3⟩ := hfld [] k List.nil_prefix (by simpa using hk)
          exact ⟨k0, by simpa using a1, by rw [a2, a3]; exact hne⟩
        · right; right; right
          refine ⟨by simp, d, ?_, ?_⟩
          · by_contra h0
            apply hd
            simp only [h0, ite_self]
          · intro hpre
            apply hnd
            cases t0 with
            | nil => exact absurd rfl h
            | cons c1 t3 =>
              obtain ⟨r, hr⟩ := hpre
              simp only [List.cons_append, List.nil_append, List.cons.injEq] at hr
              rw [hr.1]
              exact ⟨t3, rfl⟩
      · have : (fun x : List Char => if q.length < x.length ∧ x <+: q0 ++ [c] then 0 else A x) =
            (fun x => if q.length < x.length ∧ x <+: q0 then 0
              else (fun q => if q = q0 ++ [c] then 0 else A q) x) := by
          funext x
          by_cases hx : x = q0 ++ [c]
          · subst hx
            have hl : q.length < (q0 ++ [c]).length := by
              rw [e0]
              simp only [List.length_append, List.length_singleton]
              omega
            simp only [hl, List.prefix_refl, and_self, if_true]
            simp
          · have : x <+: q0 ++ [c] ↔ x <+: q0 := by
              rw [List.prefix_concat_iff]
              simp [hx]
            simp only [this, hx, if_false]
        rw [this]
        exact e4
    · refine ⟨q0 ++ [c], [], m, by simp, ?_, ChainCut.none m A _, ?_, ?_⟩
      · rw [deleteDeadBranchLoop, hE]
        have : (decide (n.fwdNode = 0) && decide (n.listNode = 0) && isLeaf) = false := by
          by_contra hne
          simp only [Bool.not_eq_false, Bool.and_eq_true, decide_eq_true_eq] at hne
          exact hbody ⟨hne.2, hne.1⟩
        simp [this]
      · by_cases hl : isLeaf = true
        · right; right; left
          exact ⟨n, hn, fun hz => hbody ⟨hl, hz⟩⟩
        · right; left
          exact ⟨rfl, by simpa using hl⟩
      · rw [cut_none]
        exact hS

/-! ## Part 3: the claims -/

/-- C1: on an index built from a fresh one by successful calls
`phfwdAdd(A_i, B_i)` (valid numbers with `A_i ≠ B_i`, in the order of `adds`),
`phfwdGet(x)` for a valid number `x` returns a sequence with exactly one
element: `x` itself when no `A_i` is a prefix of `x`, and otherwise
`B_k ++ x[|A_k|..]` for the longest `A_k` that is a prefix of `x`, with the
target of the most recent addition for that source. The rewriting is applied
once. -/
theorem phfwdGet_longest_prefix (adds : List (List Char × List Char))
    (hv : ∀ e ∈ adds, ValidNum e.1 ∧ ValidNum e.2 ∧ e.1 ≠ e.2) (x : List Char)
    (hx : ValidNum x) :
    ∃ st, runFresh (addCalls adds) = some st ∧
      ((∀ e ∈ adds, ¬ e.1 <+: x) →
        numbersOf (phfwdGet st.mem (some st.pf) (some x)) = some [x]) ∧
      ∀ (pre post : List (List Char × List Char)) (a b : List Char),
        adds = pre ++ (a, b) :: post → (∀ e ∈ post, e.1 ≠ a) → a <+: x →
        (∀ e ∈ adds, e.1 <+: x → e.1.length ≤ a.length) →
        numbersOf (phfwdGet st.mem (some st.pf) (some x)) = some [b ++ x.drop a.length] := by
  obtain ⟨st, g, h1, h2, h3⟩ := runFresh_inv (addCalls adds)
  have hsub : ∀ e ∈ forwardings (addCalls adds), e ∈ adds := by
    intro e he
    rcases absRun_addCalls_sub adds [] e he with h | h
    · simp at h
    · exact h
  refine ⟨st, h1, ?_, ?_⟩
  · intro hno
    rw [phfwdGet_spec h2 x hx, h3, absGet_none _ x (fun e he => hno e (hsub e he))]
    rfl
  · intro pre post a b hs hp hax hmax
    have hmem := forwardings_addCalls_mem adds hv pre post a b hs hp
    have hva : ValidNum a := (hv (a, b) (by rw [hs]; simp)).1
    rw [phfwdGet_spec h2 x hx, h3, absGet_some _ (forwardings_ok _).1 x a b hmem hva.1 hax
      (fun e he => hmax e (hsub e he))]
    rfl

/-- An instance of C1: after `add("1","2"); add("2","1")`, `get("1")` is `["2"]`. -/
theorem phfwdGet_longest_prefix_witness :
    ∃ st, runFresh (addCalls [(['1'], ['2']), (['2'], ['1'])]) = some st ∧
      numbersOf (phfwdGet st.mem (some st.pf) (some ['1'])) = some [['2']] := by
  obtain ⟨st, h1, _, h3⟩ := phfwdGet_longest_prefix [(['1'], ['2']), (['2'], ['1'])]
    (by decide) ['1'] (by decide)
  exact ⟨st, h1, h3 [] [(['2'], ['1'])] ['1'] ['2'] rfl (by decide) (by decide) (by decide)⟩

/-- The scenario `add("123","9"); add("12345","687")`: the longest source that
is a prefix of `"1234567"` is `"12345"`, and `get("1234567")` is `["68767"]`. -/
theorem get_1234567 :
    (runFresh [addOp "123" "9", addOp "12345" "687"]).map (fun st => getOf st "1234567") =
      some (some ["68767"]) := by decide

/-- C2: on an index reached by calls on a fresh index, whose heap fits the
address space (at most `SIZE_MAX / sizeof(char *)` cells), for valid numbers
`x` and `y`: `phfwdGetReverse(x)` returns a sequence, and `y` is an element
of it if and only if `phfwdGet(y)` returns the one-element sequence `[x]`. -/
theorem phfwdGetReverse_iff_get (ops : List Op) (st : State) (hst : runFresh ops = some st)
    (hb : st.mem.brk ≤ maxCapacity) (x y : List Char) (hx : ValidNum x) (hy : ValidNum y) :
    ∃ r, numbersOf (phfwdGetReverse st.mem (some st.pf) (some x)) = some r ∧
      (y ∈ r ↔ numbersOf (phfwdGet st.mem (some st.pf) (some y)) = some [x]) := by
  obtain ⟨r, h1, h2⟩ := run_getReverse hst hb x hx
  refine ⟨r.numbers, by rw [h1]; rfl, ?_⟩
  rw [h2 y, run_get hst y hy]
  simp

/-- An instance of C2: after `add("5","6"); add("56","7")`, the number `"57"`
is in `getReverse("67")`, as `get("57")` is `["67"]`. -/
theorem phfwdGetReverse_iff_get_witness :
    ∃ st, runFresh [addOp "5" "6", addOp "56" "7"] = some st ∧ st.mem.brk ≤ maxCapacity ∧
      ∃ r, numbersOf (phfwdGetReverse st.mem (some st.pf) (some ['6', '7'])) = some r ∧
        (['5', '7'] ∈ r ↔
          numbersOf (phfwdGet st.mem (some st.pf) (some ['5', '7'])) = some [['6', '7']]) := by
  obtain ⟨st, g, h, _⟩ := runFresh_inv [addOp "5" "6", addOp "56" "7"]
  have hb := brk_of_eval h (by decide)
  exact ⟨st, h, hb, phfwdGetReverse_iff_get _ st h hb ['6', '7'] ['5', '7'] (by decide)
    (by decide)⟩

/-- C3: on an index reached by calls on a fresh index, whose heap fits the
address space, for a valid number `x`: `phfwdReverse(x)` returns a sequence
that contains `x` itself and every valid number `y` for which `phfwdGet(y)`
is `[x]`; on the fresh index the sequence is `[x]`. -/
theorem phfwdReverse_contains (ops : List Op) (st : State) (hst : runFresh ops = some st)
    (hb : st.mem.brk ≤ maxCapacity) (x : List Char) (hx : ValidNum x) :
    ∃ r, numbersOf (phfwdReverse st.mem (some st.pf) (some x)) = some r ∧ x ∈ r ∧
      (∀ y, ValidNum y → numbersOf (phfwdGet st.mem (some st.pf) (some y)) = some [x] →
        y ∈ r) ∧
      (ops = [] → r = [x]) := by
  obtain ⟨r, h1, h2, h3⟩ := run_reverse hst hb x hx
  refine ⟨r.numbers, by rw [h1]; rfl, (h2 x).mpr (Or.inl rfl), ?_, ?_⟩
  · intro y hy hg
    rw [run_get hst y hy] at hg
    simp only [Option.some.injEq, List.cons.injEq, and_true] at hg
    exact (h2 y).mpr (rev_mem_of_get (forwardings ops) (forwardings_ok ops) x y hg)
  · intro hops
    subst hops
    have hall : ∀ y ∈ r.numbers, y = x := by
      intro y hy
      rcases (h2 y).mp hy with h | h
      · exact h
      · have e : forwardings [] = [] := rfl
        rw [e, revCands_nil] at h
        simp at h
    have hx1 : x ∈ r.numbers := (h2 x).mpr (Or.inl rfl)
    cases hr : r.numbers with
    | nil => rw [hr] at hx1; simp at hx1
    | cons a l =>
      rw [hr] at hall h3
      have ha : a = x := hall a (List.mem_cons_self _ _)
      subst ha
      cases l with
      | nil => rfl
      | cons b l =>
        have hb2 : b = a := hall b (by simp)
        subst hb2
        have := (List.pairwise_cons.mp h3).1 b (List.mem_cons_self _ _)
        exact absurd this (lexLt_irrefl b)

/-- An instance of C3: after `add("123","9")`, `reverse("9")` contains `"9"`
and `"123"`. -/
theorem phfwdReverse_contains_witness :
    ∃ st, runFresh [addOp "123" "9"] = some st ∧ st.mem.brk ≤ maxCapacity ∧
      ∃ r, numbersOf (phfwdReverse st.mem (some st.pf) (some ['9'])) = some r ∧ ['9'] ∈ r ∧
        ['1', '2', '3'] ∈ r := by
  obtain ⟨st, g, h, _⟩ := runFresh_inv [addOp "123" "9"]
  have hb := brk_of_eval h (by decide)
  obtain ⟨r, h1, h2, h3, _⟩ := phfwdReverse_contains _ st h hb ['9'] (by decide)
  have hg : numbersOf (phfwdGet st.mem (some st.pf) (some ['1', '2', '3'])) = some [['9']] := by
    have h4 : (runFresh [addOp "123" "9"]).map (fun st =>
        numbersOf (phfwdGet st.mem (some st.pf) (some ['1', '2', '3']))) =
        some (some [['9']]) := by decide
    rw [h] at h4
    simpa using h4
  exact ⟨st, h, hb, r, h1, h2, h3 ['1', '2', '3'] (by decide) hg⟩

/-- C4: on an index reached by calls on a fresh index, whose heap fits the
address space, for a valid number `x` the sequence that `phfwdReverse(x)`
returns is strictly increasing in the order `lexLt` (by `sortValue`,
`0 < 1 < ... < 9 < * < #`, a proper prefix before its extensions); hence it
has no duplicates. -/
theorem phfwdReverse_sorted (ops : List Op) (st : State) (hst : runFresh ops = some st)
    (hb : st.mem.brk ≤ maxCapacity) (x : List Char) (hx : ValidNum x) :
    ∃ r, numbersOf (phfwdReverse st.mem (some st.pf) (some x)) = some r ∧
      r.Pairwise lexLt ∧ r.Nodup := by
  obtain ⟨r, h1, _, h3⟩ := run_reverse hst hb x hx
  refine ⟨r.numbers, by rw [h1]; rfl, h3, ?_⟩
  refine h3.imp ?_
  intro a b hab e
  rw [e] at hab
  exact lexLt_irrefl b hab

/-- An instance of C4: after `add("0*#","000")`, `reverse("000")` is
`["000", "0*#"]`, in increasing order. -/
theorem phfwdReverse_sorted_witness :
    ∃ st, runFresh [addOp "0*#" "000"] = some st ∧ st.mem.brk ≤ maxCapacity ∧
      ∃ r, numbersOf (phfwdReverse st.mem (some st.pf) (some ['0', '0', '0'])) = some r ∧
        r.Pairwise lexLt ∧ r.Nodup ∧ r = [['0', '0', '0'], ['0', '*', '#']] := by
  obtain ⟨st, g, h, _⟩ := runFresh_inv [addOp "0*#" "000"]
  have hb := brk_of_eval h (by decide)
  obtain ⟨r, h1, h2, h3⟩ := phfwdReverse_sorted _ st h hb ['0', '0', '0'] (by decide)
  have hv : numbersOf (phfwdReverse st.mem (some st.pf) (some ['0', '0', '0'])) =
      some [['0', '0', '0'], ['0', '*', '#']] := by
    have h4 : (runFresh [addOp "0*#" "000"]).map (fun st =>
        numbersOf (phfwdReverse st.mem (some st.pf) (some ['0', '0', '0']))) =
        some (some [['0', '0', '0'], ['0', '*', '#']]) := by decide
    rw [h] at h4
    simpa using h4
  rw [h1] at hv
  exact ⟨st, h, hb, r, h1, h2, h3, by simpa using hv⟩

/-- C5: on an index reached by the calls `ops` on a fresh index, after
`phfwdRemove(P)` for a valid number `P` the index holds the forwardings it
held whose source does not have `P` as a prefix, and no other; the forward
trie has no node left for a number with the prefix `P`. For every valid `x`
with the prefix `P`, if no remaining forwarding has a source that is a proper
prefix of `P`, then `phfwdGet(x)` is `[x]`. For every valid `s`,
`phfwdReverse(s)` is what it is on any index that holds exactly the
forwardings whose source does not have `P` as a prefix. -/
theorem phfwdRemove_prefix (ops : List Op) (P : List Char) (hP : ValidNum P) (st1 : State)
    (hst : runFresh (ops ++ [Op.remove (some P)]) = some st1) :
    (∀ e, e ∈ forwardings (ops ++ [Op.remove (some P)]) ↔
      (e ∈ forwardings ops ∧ ¬ P <+: e.1)) ∧
    (∀ A, ValidNum A → P <+: A → trieFind st1.mem st1.pf.rootFwd A = some 0) ∧
    (∀ x, ValidNum x → P <+: x →
      (∀ e ∈ forwardings (ops ++ [Op.remove (some P)]), ¬ (e.1 <+: P ∧ e.1 ≠ P)) →
      numbersOf (phfwdGet st1.mem (some st1.pf) (some x)) = some [x]) ∧
    ∀ (ops2 : List Op) (st2 : State), runFresh ops2 = some st2 →
      List.Perm (forwardings ops2) ((forwardings ops).filter (fun e => decide (¬ P <+: e.1))) →
      ∀ s, ValidNum s →
        phfwdReverse st1.mem (some st1.pf) (some s) =
          phfwdReverse st2.mem (some st2.pf) (some s) := by
  have hfw : forwardings (ops ++ [Op.remove (some P)]) =
      (forwardings ops).filter (fun e => decide (¬ P <+: e.1)) := by
    simp only [forwardings, absRun_append]
    simp only [absRun, List.foldl_cons, List.foldl_nil, absStep, hP, if_true]
  refine ⟨?_, ?_, ?_, ?_⟩
  · intro e
    rw [hfw, List.mem_filter]
    simp
  · intro A hA hPA
    obtain ⟨g1, hI1, hf1⟩ := run_state hst
    apply no_node_of_no_source hI1 A hA
    intro e he hAe
    rw [hf1, hfw] at he
    have := (List.mem_filter.mp he).2
    simp only [decide_eq_true_eq] at this
    exact this (hPA.trans hAe)
  · intro x hx hPx hno
    rw [run_get hst x hx, absGet_none]
    intro e he hex
    rcases List.prefix_or_prefix_of_prefix hPx hex with h | h
    · rw [hfw] at he
      have := (List.mem_filter.mp he).2
      simp only [decide_eq_true_eq] at this
      exact this h
    · refine hno e he ⟨h, ?_⟩
      intro e2
      rw [hfw] at he
      have := (List.mem_filter.mp he).2
      simp only [decide_eq_true_eq] at this
      exact this (e2 ▸ List.prefix_refl _)
  · intro ops2 st2 hst2 hperm s hs
    obtain ⟨g1, hI1, hf1⟩ := run_state hst
    obtain ⟨g2, hI2, hf2⟩ := run_state hst2
    rw [phfwdReverse_spec hI1 s hs, phfwdReverse_spec hI2 s hs, hf1, hf2, hfw]
    exact (absReverse_perm hperm (forwardings_ok ops2) s hs).symm

/-- An instance of C5: after `add("123","9"); remove("12")`, `get("1234567")`
is `["1234567"]` and `reverse("9")` is `["9"]`, as on the fresh index. -/
theorem phfwdRemove_prefix_witness :
    ∃ st1, runFresh ([addOp "123" "9"] ++ [Op.remove (some ['1', '2'])]) = some st1 ∧
      numbersOf (phfwdGet st1.mem (some st1.pf) (some ['1', '2', '3', '4', '5', '6', '7'])) =
        some [['1', '2', '3', '4', '5', '6', '7']] ∧
      numbersOf (phfwdReverse st1.mem (some st1.pf) (some ['9'])) = some [['9']] := by
  obtain ⟨st1, g, h, _⟩ := runFresh_inv ([addOp "123" "9"] ++ [Op.remove (some ['1', '2'])])
  obtain ⟨st2, g2, h2, _⟩ := runFresh_inv []
  obtain ⟨_, _, a2, a3⟩ := phfwdRemove_prefix [addOp "123" "9"] ['1', '2'] (by decide) st1 h
  refine ⟨st1, h, a2 _ (by decide) (by decide) (by decide), ?_⟩
  rw [a3 [] st2 h2 (by decide) ['9'] (by decide)]
  have h4 : (runFresh []).map (fun st =>
      numbersOf (phfwdReverse st.mem (some st.pf) (some ['9']))) = some (some [['9']]) := by
    decide
  rw [h2] at h4
  simpa using h4

/-- C6: on an index reached by calls on a fresh index, for valid numbers `A`,
`B1`, `B2` with `A ≠ B1` and `A ≠ B2`: after `phfwdAdd(A, B1)` followed by
`phfwdAdd(A, B2)`, `phfwdGet(A)` is `[B2]`, and for every query argument the
results of `phfwdGet`, `phfwdReverse` and `phfwdGetReverse` are those after
`phfwdAdd(A, B2)` alone from the same state. -/
theorem phfwdAdd_overwrites (ops : List Op) (st : State) (hst : runFresh ops = some st)
    (A B1 B2 : List Char) (hA : ValidNum A) (hB1 : ValidNum B1) (hB2 : ValidNum B2)
    (h1 : A ≠ B1) (h2 : A ≠ B2) :
    ∃ st12 st2, run st [Op.add (some A) (some B1), Op.add (some A) (some B2)] = some st12 ∧
      run st [Op.add (some A) (some B2)] = some st2 ∧
      numbersOf (phfwdGet st12.mem (some st12.pf) (some A)) = some [B2] ∧
      ∀ s : Option (List Char),
        phfwdGet st12.mem (some st12.pf) s = phfwdGet st2.mem (some st2.pf) s ∧
        phfwdReverse st12.mem (some st12.pf) s = phfwdReverse st2.mem (some st2.pf) s ∧
        phfwdGetReverse st12.mem (some st12.pf) s =
          phfwdGetReverse st2.mem (some st2.pf) s := by
  obtain ⟨g, hI, hfw⟩ := run_state hst
  have e := absStep_add_add (fwOf g.reg) A B1 B2 ⟨hA, hB1, h1⟩ ⟨hA, hB2, h2⟩
  obtain ⟨st12, st2, g12, a1, a2, a3, a4, a5⟩ := run_congr hI (run_oracle hst) _ _ e
  refine ⟨st12, st2, a1, a2, ?_, a5⟩
  rw [phfwdGet_spec a3 A hA, a4, e,
    absGet_added _ (hfw ▸ forwardings_ok ops) A B2 ⟨hA, hB2, h2⟩]
  rfl

/-- An instance of C6: `add("1","2"); add("1","3")` on the fresh index. -/
theorem phfwdAdd_overwrites_witness :
    ∃ st, runFresh [] = some st ∧
      ∃ st12 st2, run st [Op.add (some ['1']) (some ['2']),
          Op.add (some ['1']) (some ['3'])] = some st12 ∧
        run st [Op.add (some ['1']) (some ['3'])] = some st2 ∧
        numbersOf (phfwdGet st12.mem (some st12.pf) (some ['1'])) = some [['3']] ∧
        ∀ s : Option (List Char),
          phfwdGet st12.mem (some st12.pf) s = phfwdGet st2.mem (some st2.pf) s ∧
          phfwdReverse st12.mem (some st12.pf) s = phfwdReverse st2.mem (some st2.pf) s ∧
          phfwdGetReverse st12.mem (some st12.pf) s =
            phfwdGetReverse st2.mem (some st2.pf) s := by
  obtain ⟨st, g, h, _⟩ := runFresh_inv []
  exact ⟨st, h, phfwdAdd_overwrites [] st h ['1'] ['2'] ['3'] (by decide) (by decide)
    (by decide) (by decide) (by decide)⟩

/-- C7: on an index reached by calls on a fresh index, for valid numbers
`A ≠ B`, `phfwdAdd(A, B)` twice in a row leaves the same observable state as
once: every `phfwdGet`, `phfwdReverse` and `phfwdGetReverse` query returns
the same sequence in both cases. After the two calls the source list of the
reverse node of `B` holds the forward node of `A` exactly once. -/
theorem phfwdAdd_idempotent (ops : List Op) (st : State) (hst : runFresh ops = some st)
    (A B : List Char) (hA : ValidNum A) (hB : ValidNum B) (hne : A ≠ B) :
    ∃ st2 st1, run st [Op.add (some A) (some B), Op.add (some A) (some B)] = some st2 ∧
      run st [Op.add (some A) (some B)] = some st1 ∧
      (∀ s : Option (List Char),
        phfwdGet st2.mem (some st2.pf) s = phfwdGet st1.mem (some st1.pf) s ∧
        phfwdReverse st2.mem (some st2.pf) s = phfwdReverse st1.mem (some st1.pf) s ∧
        phfwdGetReverse st2.mem (some st2.pf) s =
          phfwdGetReverse st1.mem (some st1.pf) s) ∧
      ∃ F R n keys, trieFind st2.mem st2.pf.rootFwd A = some F ∧ F ≠ 0 ∧
        trieFind st2.mem st2.pf.rootReverse B = some R ∧ st2.mem.trie R = some n ∧
        listKeys st2.mem st2.mem.brk n.listNode = some keys ∧ keys.count F = 1 := by
  obtain ⟨g, hI, _⟩ := run_state hst
  have e := absStep_add_add (fwOf g.reg) A B B ⟨hA, hB, hne⟩ ⟨hA, hB, hne⟩
  obtain ⟨st2, st1, g2, a1, a2, a3, a4, a5⟩ := run_congr hI (run_oracle hst) _ _ e
  refine ⟨st2, st1, a1, a2, a5, source_list_once a3 A B hA hB ?_⟩
  rw [a4, e]
  simp only [absRun, List.foldl_cons, List.foldl_nil, absStep]
  rw [if_pos ⟨hA, hB, hne⟩]
  exact List.mem_cons_self _ _

/-- An instance of C7: `add("12","3")` twice after `add("3","4")`. -/
theorem phfwdAdd_idempotent_witness :
    ∃ st, runFresh [addOp "3" "4"] = some st ∧
      ∃ st2 st1, run st [Op.add (some ['1', '2']) (some ['3']),
          Op.add (some ['1', '2']) (some ['3'])] = some st2 ∧
        run st [Op.add (some ['1', '2']) (some ['3'])] = some st1 ∧
        (∀ s : Option (List Char),
          phfwdGet st2.mem (some st2.pf) s = phfwdGet st1.mem (some st1.pf) s ∧
          phfwdReverse st2.mem (some st2.pf) s = phfwdReverse st1.mem (some st1.pf) s ∧
          phfwdGetReverse st2.mem (some st2.pf) s =
            phfwdGetReverse st1.mem (some st1.pf) s) ∧
        ∃ F R n keys, trieFind st2.mem st2.pf.rootFwd ['1', '2'] = some F ∧ F ≠ 0 ∧
          trieFind st2.mem st2.pf.rootReverse ['3'] = some R ∧ st2.mem.trie R = some n ∧
          listKeys st2.mem st2.mem.brk n.listNode = some keys ∧ keys.count F = 1 := by
  obtain ⟨st, g, h, _⟩ := runFresh_inv [addOp "3" "4"]
  exact ⟨st, h, phfwdAdd_idempotent [addOp "3" "4"] st h ['1', '2'] ['3'] (by decide)
    (by decide) (by decide)⟩

/-- C8: on an index reached by calls on a fresh index, with no allocation
failing, `phfwdAdd(A, B)` returns `false` if and only if `A` is not a valid
number, or `B` is not a valid number, or `A` equals `B` (a null pointer is
not a valid number); and when it returns `false` the heap, hence both tries
and all source lists, is exactly as before. So no forward node is forwarded
to the reverse node of its own number. -/
theorem phfwdAdd_false_iff (ops : List Op) (st : State) (hst : runFresh ops = some st)
    (num1 num2 : Option (List Char)) :
    (∃ r m1, phfwdAdd st.mem (some st.pf) num1 num2 = some (r, m1) ∧
      (r = false ↔ ((¬ ∃ a, num1 = some a ∧ ValidNum a) ∨ (¬ ∃ b, num2 = some b ∧ ValidNum b) ∨
        num1 = num2)) ∧
      (r = false → m1 = st.mem)) ∧
    ∀ A, ValidNum A → ∃ F, trieFind st.mem st.pf.rootFwd A = some F ∧
      (F ≠ 0 → ∀ nF, st.mem.trie F = some nF → nF.fwdNode ≠ 0 →
        trieFind st.mem st.pf.rootReverse A ≠ some nF.fwdNode) := by
  obtain ⟨g, hI, hfw⟩ := run_state hst
  refine ⟨?_, fun A hA => no_self_map hI (hfw ▸ forwardings_ok ops) A hA⟩
  cases num1 with
  | none => exact ⟨false, st.mem, rfl, by simp, fun _ => rfl⟩
  | some a =>
    cases num2 with
    | none => exact ⟨false, st.mem, rfl, by simp, fun _ => rfl⟩
    | some b =>
      by_cases hv : ValidNum a ∧ ValidNum b ∧ a ≠ b
      · obtain ⟨m1, g1, c, h1, _, _⟩ := phfwdAdd_inv hI (run_oracle hst) a b hv.1 hv.2.1 hv.2.2
        refine ⟨true, m1, h1, ?_, by simp⟩
        simp only [Bool.true_eq_false, Option.some.injEq, exists_eq_left', false_iff, not_or,
          not_not]
        exact hv
      · refine ⟨false, st.mem, phfwdAdd_invalid st.mem st.pf a b hv, ?_, fun _ => rfl⟩
        simp only [Option.some.injEq, exists_eq_left', true_iff]
        by_contra hc
        simp only [not_or, not_not] at hc
        exact hv hc

/-- An instance of C8: `phfwdAdd("1", "1")` on the fresh index. -/
theorem phfwdAdd_false_iff_witness :
    ∃ st, runFresh [] = some st ∧
      ∃ r m1, phfwdAdd st.mem (some st.pf) (some ['1']) (some ['1']) = some (r, m1) ∧
        (r = false ↔ ((¬ ∃ a, some ['1'] = some a ∧ ValidNum a) ∨
          (¬ ∃ b, some ['1'] = some b ∧ ValidNum b) ∨ some ['1'] = some ['1'])) ∧
        (r = false → m1 = st.mem) := by
  obtain ⟨st, g, h, _⟩ := runFresh_inv []
  exact ⟨st, h, (phfwdAdd_false_iff [] st h (some ['1']) (some ['1'])).1⟩

/-- C9, as the code has it: on a non-null index, for an argument `s` that is
not a valid number (null, empty, or with a character outside `0-9`, `*`, `#`),
`phfwdGet`, `phfwdReverse` and `phfwdGetReverse` each return what the call
`phnumNew()` returns: an empty sequence when its `malloc` succeeds (`ok` is
`true`) and `NULL` when it fails; `phfwdRemove(s)` leaves the heap unchanged;
`phfwdRemove` of a valid number for which `trieFind` finds no node in the
forward trie leaves the heap unchanged too. -/
theorem invalid_number_noop (ok : Bool) (m : Mem) (pf : PhoneForward)
    (s : Option (List Char)) (hs : ¬ ∃ a, s = some a ∧ ValidNum a) :
    phfwdGetWith ok m (some pf) s = some (if ok = true then some ⟨[], 0⟩ else none) ∧
      phfwdReverseWith ok m (some pf) s = some (if ok = true then some ⟨[], 0⟩ else none) ∧
      phfwdGetReverseWith ok m (some pf) s =
        some (if ok = true then some ⟨[], 0⟩ else none) ∧
      phfwdRemove m (some pf) s = some m ∧
      ∀ P, ValidNum P → trieFind m pf.rootFwd P = some 0 →
        phfwdRemove m (some pf) (some P) = some m := by
  obtain ⟨g1, g2, g3⟩ := queriesWith_invalid ok m pf s hs
  obtain ⟨_, _, _, h4⟩ := queries_invalid m pf s hs
  have hnew : phnumNewWith ok = (if ok = true then some ⟨[], 0⟩ else none) := by
    cases ok <;> rfl
  refine ⟨by rw [g1, hnew], by rw [g2, hnew], by rw [g3, hnew], h4, ?_⟩
  intro P hP hf
  have hc : isCorrect (some P) = true := (isCorrect_some P).mpr hP
  simp [phfwdRemove, hc, trieRemove, hf]

/-- An instance of C9: the queries at `"1a"` after `add("1","2")`, with the
`malloc` of `phnumNew` succeeding, and `remove("3")`, for which the forward
trie has no node. -/
theorem invalid_number_noop_witness :
    ∃ st, runFresh [addOp "1" "2"] = some st ∧
      phfwdGetWith true st.mem (some st.pf) (some ['1', 'a']) =
        some (if true = true then some ⟨[], 0⟩ else none) ∧
      phfwdReverseWith true st.mem (some st.pf) (some ['1', 'a']) =
        some (if true = true then some ⟨[], 0⟩ else none) ∧
      phfwdGetReverseWith true st.mem (some st.pf) (some ['1', 'a']) =
        some (if true = true then some ⟨[], 0⟩ else none) ∧
      phfwdRemove st.mem (some st.pf) (some ['1', 'a']) = some st.mem ∧
      phfwdRemove st.mem (some st.pf) (some ['3']) = some st.mem := by
  obtain ⟨st, g, h, _⟩ := runFresh_inv [addOp "1" "2"]
  have hf : trieFind st.mem st.pf.rootFwd ['3'] = some 0 := by
    have h2 : (runFresh [addOp "1" "2"]).map
        (fun st => trieFind st.mem st.pf.rootFwd ['3']) = some (some 0) := by decide
    rw [h] at h2
    simpa using h2
  obtain ⟨a1, a2, a3, a5, a6⟩ := invalid_number_noop true st.mem st.pf (some ['1', 'a'])
    (by
      rintro ⟨a, ha, hv⟩
      cases ha
      revert hv
      decide)
  exact ⟨st, h, a1, a2, a3, a5, a6 ['3'] (by decide) hf⟩

/-- A counterexample to C9: on the index after `add("1","2")`, when the
`malloc` of `phnumNew` fails, `phfwdGet`, `phfwdReverse` and `phfwdGetReverse`
at `"1a"`, which is not a valid number, return `NULL`, not an empty
sequence. -/
theorem invalid_number_null :
    ∃ st, runFresh [addOp "1" "2"] = some st ∧ ¬ ValidNum ['1', 'a'] ∧
      phfwdGetWith false st.mem (some st.pf) (some ['1', 'a']) = some none ∧
      phfwdReverseWith false st.mem (some st.pf) (some ['1', 'a']) = some none ∧
      phfwdGetReverseWith false st.mem (some st.pf) (some ['1', 'a']) = some none := by
  obtain ⟨st, g, h, _⟩ := runFresh_inv [addOp "1" "2"]
  have hv : ¬ ValidNum ['1', 'a'] := by decide
  obtain ⟨a1, a2, a3⟩ := queriesWith_invalid false st.mem st.pf (some ['1', 'a'])
    (by
      rintro ⟨a, ha, hva⟩
      cases ha
      exact hv hva)
  exact ⟨st, h, hv, a1, a2, a3⟩

/-- The results of the two reverse queries at `"67"` after `add("5","6")` and
`add("56","7")`. -/
theorem reverse67_values : (runFresh [addOp "5" "6", addOp "56" "7"]).map
    (fun st => (getReverseOf st "67", reverseOf st "67")) =
    some (some ["57", "67"], some ["57", "67"]) := by decide

/-- C10, as the code has it: on a fresh index after `add("5","6")` and
`add("56","7")`, `phfwdGetReverse("67")` is exactly `["57", "67"]` and
`phfwdReverse("67")` is exactly `["57", "67"]`. -/
theorem reverse67_after_adds :
    ∃ st, runFresh [addOp "5" "6", addOp "56" "7"] = some st ∧
      getReverseOf st "67" = some ["57", "67"] ∧ reverseOf st "67" = some ["57", "67"] := by
  obtain ⟨st, g, h, _⟩ := runFresh_inv [addOp "5" "6", addOp "56" "7"]
  have h2 := reverse67_values
  rw [h] at h2
  simp only [Option.map_some', Option.some.injEq, Prod.mk.injEq] at h2
  exact ⟨st, h, h2.1, h2.2⟩

/-- The example of C10 with the values `["5"]` and `["5", "67"]` fails: after
`add("5","6")` and `add("56","7")` neither is `phfwdGetReverse("67")` equal to
`["5"]` nor is `phfwdReverse("67")` equal to `["5", "67"]`. -/
theorem reverse67_not_as_stated :
    ¬ ∃ st, runFresh [addOp "5" "6", addOp "56" "7"] = some st ∧
      (getReverseOf st "67" = some ["5"] ∨ reverseOf st "67" = some ["5", "67"]) := by
  rintro ⟨st, h, h3⟩
  have h2 := reverse67_values
  rw [h] at h2
  simp only [Option.map_some', Option.some.injEq, Prod.mk.injEq] at h2
  rcases h3 with h3 | h3
  · rw [h2.1] at h3
    revert h3
    decide
  · rw [h2.2] at h3
    revert h3
    decide

/-- C11: on an index reached by calls on a fresh index under any outcomes of
`malloc`, whose heap fits the address space, for a valid number `s`: the
sequence that the loops of `phfwdGetReverse(s)` fill has no number twice, the
function returns that sequence sorted by `lexSort`, and the result is strictly
increasing in the order of the specification. -/
theorem phfwdGetReverse_strict (o : List Bool) (ops : List Op) (st : State)
    (hst : runWith o ops = some st) (hb : st.mem.brk ≤ maxCapacity) (s : List Char)
    (hs : ValidNum s) :
    ∃ e, phfwdGetReverseEnum st.mem st.pf s = some (some e) ∧ e.numbers.Nodup ∧
      phfwdGetReverse st.mem (some st.pf) (some s) = some (some (lexSort e)) ∧
      (lexSort e).numbers.Pairwise lexLt := by
  obtain ⟨g, hI, hfw⟩ := runWith_state hst
  exact getReverse_enum_ok hI (hfw ▸ forwardings_okWith o ops) hb s hs

/-- An instance of C11: after `add("12","3")` and an `add("4","3")` whose
allocation fails, `getReverse("3")` is `["12","3"]`. -/
theorem phfwdGetReverse_strict_witness :
    ∃ st, runWith [true, true, true, true, false] [addOp "12" "3", addOp "4" "3"] = some st ∧
      st.mem.brk ≤ maxCapacity ∧ getReverseOf st "3" = some ["12", "3"] ∧
      ∃ e, phfwdGetReverseEnum st.mem st.pf ['3'] = some (some e) ∧ e.numbers.Nodup ∧
        phfwdGetReverse st.mem (some st.pf) (some ['3']) = some (some (lexSort e)) ∧
        (lexSort e).numbers.Pairwise lexLt := by
  obtain ⟨st, g, h, _⟩ := runWith_inv [true, true, true, true, false]
    [addOp "12" "3", addOp "4" "3"]
  have hb := brk_of_evalWith h (by decide)
  have hv : (runWith [true, true, true, true, false] [addOp "12" "3", addOp "4" "3"]).map
      (fun st => getReverseOf st "3") = some (some ["12", "3"]) := by decide
  rw [h] at hv
  exact ⟨st, h, hb, by simpa using hv, phfwdGetReverse_strict _ _ st h hb ['3'] (by decide)⟩

/-- C12: on an index reached by calls on a fresh index under any outcomes of
`malloc`, for valid numbers `A ≠ B`, with `u` the outcomes of the allocations
that `phfwdAdd(A, B)` makes: the call returns `false` exactly when one of them
is a failure. Then every query returns what it returned before the call, the
trie cells allocated during the call are free again, the list cells are as
before, and neither trie has a dead branch. When it returns `true`, the
forwardings are `(A, B)` and the old ones with a source other than `A`, the
queries answer by these forwardings, and `phfwdGet(A)` is `[B]`. -/
theorem phfwdAdd_atomic (o : List Bool) (ops : List Op) (st : State)
    (hst : runWith o ops = some st) (A B : List Char) (hA : ValidNum A) (hB : ValidNum B)
    (hAB : A ≠ B) :
    ∃ r m1 u, phfwdAdd st.mem (some st.pf) (some A) (some B) = some (r, m1) ∧
      st.mem.oracle = u ++ m1.oracle ∧ (r = false ↔ false ∈ u) ∧
      (r = false →
        (∀ s, phfwdGet m1 (some st.pf) s = phfwdGet st.mem (some st.pf) s ∧
          phfwdReverse m1 (some st.pf) s = phfwdReverse st.mem (some st.pf) s ∧
          phfwdGetReverse m1 (some st.pf) s = phfwdGetReverse st.mem (some st.pf) s) ∧
        (∀ x, st.mem.brk ≤ x → x < m1.brk → m1.trie x = none) ∧ m1.list = st.mem.list ∧
        NoDeadBranch m1 st.pf.rootFwd ∧ NoDeadBranch m1 st.pf.rootReverse) ∧
      (r = true →
        forwardings (effectiveWith o ops ++ [Op.add (some A) (some B)]) =
          (A, B) :: (forwardings (effectiveWith o ops)).filter (fun e => decide (e.1 ≠ A)) ∧
        (∀ y, ValidNum y →
          numbersOf (phfwdGet m1 (some st.pf) (some y)) =
            some [absGet (forwardings (effectiveWith o ops ++ [Op.add (some A) (some B)])) y] ∧
          phfwdReverse m1 (some st.pf) (some y) =
            absReverse (forwardings (effectiveWith o ops ++ [Op.add (some A) (some B)])) y ∧
          phfwdGetReverse m1 (some st.pf) (some y) =
            absGetReverse (forwardings (effectiveWith o ops ++ [Op.add (some A) (some B)])) y) ∧
        numbersOf (phfwdGet m1 (some st.pf) (some A)) = some [B]) := by
  obtain ⟨g, hI, hfw⟩ := runWith_state hst
  obtain ⟨r, m1, u, h1, h2, _, hres⟩ := phfwdAdd_gen hI A B hA hB hAB
  have hM : forwardings (effectiveWith o ops ++ [Op.add (some A) (some B)]) =
      (A, B) :: (forwardings (effectiveWith o ops)).filter (fun e => decide (e.1 ≠ A)) := by
    simp only [forwardings, absRun, List.foldl_append, List.foldl_cons, List.foldl_nil, absStep]
    rw [if_pos ⟨hA, hB, hAB⟩]
  refine ⟨r, m1, u, h1, h2, ?_, ?_, ?_⟩
  · rcases hres with ⟨rfl, hu, _⟩ | ⟨rfl, hu, _⟩
    · simp [hu]
    · simp [hu]
  · rintro rfl
    rcases hres with ⟨hr, _⟩ | ⟨_, _, hI1, hl, hfree⟩
    · cases hr
    · exact ⟨fun s => queries_congr hI1 hI rfl s, hfree, hl, inv_noDead hI1⟩
  · rintro rfl
    rcases hres with ⟨_, _, g1, c, hI1, hreg⟩ | ⟨hr, _⟩
    · have hfw1 : fwOf g1.reg =
          forwardings (effectiveWith o ops ++ [Op.add (some A) (some B)]) := by
        rw [hM, hreg, ← hfw]
        have := fwOf_filter g.reg (fun s => decide (s ≠ A))
        simp only [fwOf, List.map_cons] at this ⊢
        rw [this]
      have hget : ∀ y, ValidNum y → numbersOf (phfwdGet m1 (some st.pf) (some y)) =
          some [absGet (forwardings (effectiveWith o ops ++ [Op.add (some A) (some B)])) y] := by
        intro y hy
        rw [phfwdGet_spec hI1 y hy, hfw1]
        rfl
      refine ⟨hM, fun y hy => ⟨hget y hy, ?_, ?_⟩, ?_⟩
      · rw [phfwdReverse_spec hI1 y hy, hfw1]
      · rw [phfwdGetReverse_spec hI1 y hy, hfw1]
      · rw [hget A hA]
        have := absGet_added (forwardings (effectiveWith o ops)) (forwardings_ok _) A B
          ⟨hA, hB, hAB⟩
        simp only [forwardings, absRun, List.foldl_append] at this ⊢
        rw [this]
    · cases hr

/-- An instance of C12: on a fresh index, `add("12","3")` whose second
allocation fails returns `false`, and `add("12","3")` with no failure returns
`true`. -/
theorem phfwdAdd_atomic_witness :
    ∃ st, runWith [true, false] [] = some st ∧
      (phfwdAdd st.mem (some st.pf) (some ['1', '2']) (some ['3'])).map (fun r => r.1) =
        some false ∧
      ∃ r m1 u, phfwdAdd st.mem (some st.pf) (some ['1', '2']) (some ['3']) = some (r, m1) ∧
        st.mem.oracle = u ++ m1.oracle ∧ (r = false ↔ false ∈ u) ∧
        (r = false →
          ∀ s, phfwdGet m1 (some st.pf) s = phfwdGet st.mem (some st.pf) s ∧
            phfwdReverse m1 (some st.pf) s = phfwdReverse st.mem (some st.pf) s ∧
            phfwdGetReverse m1 (some st.pf) s = phfwdGetReverse st.mem (some st.pf) s) ∧
        (runWith [] []).map (fun st0 =>
          (phfwdAdd st0.mem (some st0.pf) (some ['1', '2']) (some ['3'])).map (fun r => r.1)) =
            some (some true) := by
  obtain ⟨st, g, hst, _⟩ := runWith_inv [true, false] []
  have hv : (runWith [true, false] []).map (fun st =>
      (phfwdAdd st.mem (some st.pf) (some ['1', '2']) (some ['3'])).map (fun r => r.1)) =
      some (some false) := by decide
  rw [hst] at hv
  obtain ⟨r, m1, u, h1, h2, h3, h4, _⟩ := phfwdAdd_atomic _ _ st hst ['1', '2'] ['3']
    (by decide) (by decide) (by decide)
  exact ⟨st, hst, by simpa using hv, r, m1, u, h1, h2, h3, fun hr => (h4 hr).1, by decide⟩

/-- C13: for valid numbers `a`, `b`, `c`: `lexCompare(a, b)` is negative
exactly when the collation sequence of `a` (the `sortValue` of each character,
then `-1` for the terminator) is lexicographically before that of `b`, zero
exactly when `a = b`, positive exactly when `b` is before `a`; a proper prefix
is before its extensions; `lexCompare(a, b) ≤ 0` is antisymmetric, transitive
and total; `lexCompare` is zero exactly when `strcmp` is; and `sortValue` gives
the characters `0..9`, `*`, `#` the values `0..11` and the terminator `-1`. -/
theorem lexCompare_order (a b c : List Char) (ha : ValidNum a) (hb : ValidNum b)
    (hc : ValidNum c) :
    (lexCompare a b < 0 ↔ List.Lex (fun x y : Int => x < y) (collate a) (collate b)) ∧
    (lexCompare a b = 0 ↔ a = b) ∧
    (0 < lexCompare a b ↔ List.Lex (fun x y : Int => x < y) (collate b) (collate a)) ∧
    (a <+: b → a ≠ b → lexCompare a b < 0) ∧
    (lexCompare a b ≤ 0 → lexCompare b a ≤ 0 → a = b) ∧
    (lexCompare a b ≤ 0 → lexCompare b c ≤ 0 → lexCompare a c ≤ 0) ∧
    (lexCompare a b ≤ 0 ∨ lexCompare b a ≤ 0) ∧
    (lexCompare a b = 0 ↔ strcmp a b = 0) ∧
    alphabet.map (fun ch => sortValue (ch.toNat : Int)) = [0, 1, 2, 3, 4, 5, 6, 7, 8, 9, 10, 11] ∧
    sortValue 0 = -1 := by
  obtain ⟨ab1, ab2, ab3⟩ := lexCompare_neg_iff a b ha.2 hb.2
  obtain ⟨ba1, ba2, ba3⟩ := lexCompare_neg_iff b a hb.2 ha.2
  obtain ⟨bc1, bc2, bc3⟩ := lexCompare_neg_iff b c hb.2 hc.2
  obtain ⟨ac1, ac2, ac3⟩ := lexCompare_neg_iff a c ha.2 hc.2
  refine ⟨ab1.trans (lexLt_iff_collate a b ha.2 hb.2), ab2,
    ab3.trans (lexLt_iff_collate b a hb.2 ha.2), ?_, ?_, ?_, ?_, ?_, by decide, by decide⟩
  · rintro ⟨t, rfl⟩ hne
    exact ab1.mpr (lexLt_extend a t (fun e => hne (by rw [e, List.append_nil])))
  · intro h1 h2
    rcases lt_or_eq_of_le h1 with h | h
    · rcases lt_or_eq_of_le h2 with h' | h'
      · exact (lexLt_asymm a b (ab1.mp h) (ba1.mp h')).elim
      · exact (ba2.mp h').symm
    · exact ab2.mp h
  · intro h1 h2
    rcases lt_or_eq_of_le h1 with h | h
    · rcases lt_or_eq_of_le h2 with h' | h'
      · exact le_of_lt (ac1.mpr (lexLt_trans a b c (ab1.mp h) (bc1.mp h')))
      · rw [← bc2.mp h']
        exact h1
    · rw [ab2.mp h]
      exact h2
  · rcases lexCompare_spec a b ha.2 hb.2 with ⟨h1, _⟩ | ⟨h1, _⟩ | ⟨_, h2⟩
    · exact Or.inl (le_of_lt h1)
    · exact Or.inl (le_of_eq h1)
    · exact Or.inr (le_of_lt (ba1.mpr h2))
  · rw [ab2, strcmp_eq_zero]

/-- An instance of C13: `"1"`, `"12"` and `"2"`. -/
theorem lexCompare_order_witness :
    lexCompare ['1'] ['1', '2'] < 0 ∧ lexCompare ['1', '2'] ['2'] < 0 ∧
      (lexCompare ['1'] ['1', '2'] ≤ 0 → lexCompare ['1', '2'] ['2'] ≤ 0 →
        lexCompare ['1'] ['2'] ≤ 0) := by
  have h := lexCompare_order ['1'] ['1', '2'] ['2'] (by decide) (by decide) (by decide)
  exact ⟨h.2.2.2.1 ⟨['2'], rfl⟩ (by decide), by decide, h.2.2.2.2.2.1⟩

/-- C14: `isCorrect(s)` is true exactly when `s` is not `NULL`, has at least
one character, and each of its characters is one of `0..9`, `*`, `#`. -/
theorem isCorrect_iff (s : Option (List Char)) :
    isCorrect s = true ↔ ∃ a, s = some a ∧ a ≠ [] ∧ ∀ c ∈ a, c ∈ alphabet := by
  cases s with
  | none => simp [isCorrect_none]
  | some a =>
    rw [isCorrect_some]
    simp only [ValidNum, Option.some.injEq, exists_eq_left']
    constructor
    · rintro ⟨h1, h2⟩
      exact ⟨h1, fun c hc => (isPhNumDigit_iff c).mp (h2 c hc)⟩
    · rintro ⟨h1, h2⟩
      exact ⟨h1, fun c hc => (isPhNumDigit_iff c).mpr (h2 c hc)⟩

/-- C15: `charToDigit` sends the characters `0..9`, `*`, `#` to `0..11` in that
order; `digitToChar (charToDigit c) = c` for each of these characters; and for
each `d < 12`, `charToDigit (digitToChar d) = d` and `digitToChar d` passes
`isPhNumDigit`. -/
theorem codec_bijection :
    alphabet.map (fun c => charToDigit (c.toNat : Int)) =
        [0, 1, 2, 3, 4, 5, 6, 7, 8, 9, 10, 11] ∧
      (∀ c ∈ alphabet, digitToChar (charToDigit (c.toNat : Int)) = c) ∧
      (∀ d, d < 12 → charToDigit ((digitToChar d).toNat : Int) = d ∧
        isPhNumDigit ((digitToChar d).toNat : Int) = true) ∧
      (List.range 12).map digitToChar = alphabet :=
  ⟨by decide, fun c hc => digitToChar_charToDigit c ((isPhNumDigit_iff c).mpr hc),
    fun d hd => ⟨charToDigit_digitToChar d hd, isPhNumDigit_digitToChar d hd⟩, by decide⟩

/-- C16: on an index reached by calls on a fresh index under any outcomes of
`malloc`, whose heap fits the address space, with `M` the forwardings of the
calls that took effect, for a valid number `s`: the sequence that the loops of
`phfwdReverse(s)` fill is, up to order, `s` followed by one number
`A ++ s[|B|..]` for each forwarding `(A, B)` of `M` whose target `B` is a
prefix of `s`; the numbers of the result of `phfwdReverse(s)` are exactly `s`
and these numbers; and `M` is what the index holds: `phfwdGet` answers by it. -/
theorem phfwdReverse_candidates (o : List Bool) (ops : List Op) (st : State)
    (hst : runWith o ops = some st) (hb : st.mem.brk ≤ maxCapacity) (s : List Char)
    (hs : ValidNum s) :
    ∃ e r, phfwdReverseEnum st.mem st.pf s = some (some e) ∧
      List.Perm e.numbers
        (s :: ((forwardings (effectiveWith o ops)).filter (fun f => decide (f.2 <+: s))).map
          (fun f => f.1 ++ s.drop f.2.length)) ∧
      phfwdReverse st.mem (some st.pf) (some s) = some (some r) ∧
      (∀ y, y ∈ r.numbers ↔
        (y = s ∨ ∃ A B, (A, B) ∈ forwardings (effectiveWith o ops) ∧ B <+: s ∧
          y = A ++ s.drop B.length)) ∧
      ∀ y, ValidNum y → numbersOf (phfwdGet st.mem (some st.pf) (some y)) =
        some [absGet (forwardings (effectiveWith o ops)) y] := by
  obtain ⟨g, hI, hfw⟩ := runWith_state hst
  obtain ⟨e, r, h1, h2, h3, h4, _⟩ :=
    reverse_enum_ok hI (hfw ▸ forwardings_okWith o ops) hb s hs
  rw [hfw] at h2
  refine ⟨e, r, h1, h2, h3, ?_, fun y hy => by rw [phfwdGet_spec hI y hy, hfw]; rfl⟩
  intro y
  rw [h4 y, h2.mem_iff]
  simp only [List.mem_cons, List.mem_map, List.mem_filter, decide_eq_true_eq, Prod.exists]
  constructor
  · rintro (h | ⟨A, B, ⟨h5, h6⟩, h7⟩)
    · exact Or.inl h
    · exact Or.inr ⟨A, B, h5, h6, h7.symm⟩
  · rintro (h | ⟨A, B, h5, h6, h7⟩)
    · exact Or.inl h
    · exact Or.inr ⟨A, B, ⟨h5, h6⟩, h7.symm⟩

/-- An instance of C16: after `add("123","9"); add("12345","687")`,
`reverse("9")` is `["123","9"]`. -/
theorem phfwdReverse_candidates_witness :
    ∃ st, runWith [] [addOp "123" "9", addOp "12345" "687"] = some st ∧
      st.mem.brk ≤ maxCapacity ∧ reverseOf st "9" = some ["123", "9"] ∧
      ∃ e r, phfwdReverseEnum st.mem st.pf ['9'] = some (some e) ∧
        List.Perm e.numbers
          (['9'] :: ((forwardings (effectiveWith [] [addOp "123" "9",
            addOp "12345" "687"])).filter (fun f => decide (f.2 <+: ['9']))).map
              (fun f => f.1 ++ (['9'] : List Char).drop f.2.length)) ∧
        phfwdReverse st.mem (some st.pf) (some ['9']) = some (some r) ∧
        ∀ y, y ∈ r.numbers ↔
          (y = ['9'] ∨ ∃ A B, (A, B) ∈ forwardings (effectiveWith [] [addOp "123" "9",
            addOp "12345" "687"]) ∧ B <+: ['9'] ∧ y = A ++ (['9'] : List Char).drop B.length) := by
  obtain ⟨st, g, h, _⟩ := runWith_inv [] [addOp "123" "9", addOp "12345" "687"]
  have hb := brk_of_evalWith h (by decide)
  have hv : (runWith [] [addOp "123" "9", addOp "12345" "687"]).map
      (fun st => reverseOf st "9") = some (some ["123", "9"]) := by decide
  rw [h] at hv
  obtain ⟨e, r, h1, h2, h3, h4, _⟩ := phfwdReverse_candidates _ _ st h hb ['9'] (by decide)
  exact ⟨st, h, hb, by simpa using hv, e, r, h1, h2, h3, h4⟩

/-- C17: on an index reached by calls on a fresh index under any outcomes of
`malloc`: for every node `F` of the forward trie with `fwdNode = R ≠ NULL`,
`R` is a node of the reverse trie, the list that starts at `R.listNode` is a
well-formed doubly linked list, `F.listNode` is one of its cells, and it is
the only cell of that list with the key `F`; and for every node `R` of the
reverse trie, the list that starts at `R.listNode` is a well-formed doubly
linked list and each cell `E` of it has as key a node `F` of the forward trie
with `F.fwdNode = R` and `F.listNode = E`. -/
theorem source_lists_linked (o : List Bool) (ops : List Op) (st : State)
    (hst : runWith o ops = some st) :
    (∀ p F nF, (∀ c ∈ p, isPhNumDigit (c.toNat : Int) = true) →
      trieFind st.mem st.pf.rootFwd p = some F → F ≠ 0 → st.mem.trie F = some nF →
      nF.fwdNode ≠ 0 →
      ∃ q nR cells, (∀ c ∈ q, isPhNumDigit (c.toNat : Int) = true) ∧
        trieFind st.mem st.pf.rootReverse q = some nF.fwdNode ∧
        st.mem.trie nF.fwdNode = some nR ∧
        linked st.mem 0 cells nR.listNode = true ∧ cells.Nodup ∧ nF.listNode ∈ cells ∧
        ∀ c ∈ cells, ∃ n, st.mem.list c = some n ∧ (n.key = F ↔ c = nF.listNode)) ∧
    (∀ q R nR, (∀ c ∈ q, isPhNumDigit (c.toNat : Int) = true) →
      trieFind st.mem st.pf.rootReverse q = some R → R ≠ 0 → st.mem.trie R = some nR →
      ∃ cells, linked st.mem 0 cells nR.listNode = true ∧ cells.Nodup ∧
        ∀ c ∈ cells, ∃ n p nF, st.mem.list c = some n ∧
          (∀ d ∈ p, isPhNumDigit (d.toNat : Int) = true) ∧
          trieFind st.mem st.pf.rootFwd p = some n.key ∧ n.key ≠ 0 ∧
          st.mem.trie n.key = some nF ∧ nF.fwdNode = R ∧ nF.listNode = c) := by
  obtain ⟨g, hI, _⟩ := runWith_state hst
  exact links_ok hI

/-- An instance of C17: after `add("1","3"); add("2","3")`, the source list of
the reverse node of `"3"`. -/
theorem source_lists_linked_witness :
    ∃ st R nR cells, runWith [] [addOp "1" "3", addOp "2" "3"] = some st ∧
      trieFind st.mem st.pf.rootReverse ['3'] = some R ∧ R ≠ 0 ∧ st.mem.trie R = some nR ∧
      linked st.mem 0 cells nR.listNode = true ∧ cells.Nodup ∧
      ∀ c ∈ cells, ∃ n p nF, st.mem.list c = some n ∧
        (∀ d ∈ p, isPhNumDigit (d.toNat : Int) = true) ∧
        trieFind st.mem st.pf.rootFwd p = some n.key ∧ n.key ≠ 0 ∧
        st.mem.trie n.key = some nF ∧ nF.fwdNode = R ∧ nF.listNode = c := by
  obtain ⟨st, g, hst, hI, hfw⟩ := runWith_inv [] [addOp "1" "3", addOp "2" "3"]
  have hfw2 : fwOf g.reg = [(['2'], ['3']), (['1'], ['3'])] := by rw [hfw]; decide
  have hR := (fw_nodes hI.toCore ['1'] ['3'] (by rw [hfw2]; simp)).2
  obtain ⟨nR, hnR, _⟩ := hI.rev.shape.node ['3'] hR
  have hfind := trieFind_root hI.rev.shape ['3'] (by decide)
  obtain ⟨cells, h1, h2, h3⟩ := (source_lists_linked _ _ st hst).2 ['3'] _ nR (by decide) hfind
    hR hnR
  exact ⟨st, _, nR, cells, hst, hfind, hR, hnR, h1, h2, h3⟩

/-- C18: on an index reached by calls of `phfwdAdd` and `phfwdRemove` on a
fresh index under any outcomes of `malloc`, so with calls that fail as well:
in the forward and in the reverse trie, every node below the root that carries
neither a forwarding nor a source list has a child, and every node below the
root has at or below it a node that carries one; so an empty node has a
non-empty proper descendant and no empty leaf exists. -/
theorem no_empty_leaf (o : List Bool) (ops : List Op) (st : State)
    (hst : runWith o ops = some st) :
    NoDeadBranch st.mem st.pf.rootFwd ∧ NoDeadBranch st.mem st.pf.rootReverse := by
  obtain ⟨g, hI, _⟩ := runWith_state hst
  exact inv_noDead hI

/-- An instance of C18: `add("12","3")` followed by an `add("1245","5")` whose
second allocation fails; only the first call takes effect. -/
theorem no_empty_leaf_witness :
    ∃ st, runWith [true, true, true, true, true, false]
        [addOp "12" "3", addOp "1245" "5"] = some st ∧
      (effectiveWith [true, true, true, true, true, false]
        [addOp "12" "3", addOp "1245" "5"]).length = 1 ∧
      NoDeadBranch st.mem st.pf.rootFwd ∧ NoDeadBranch st.mem st.pf.rootReverse := by
  obtain ⟨st, g, hst, _⟩ := runWith_inv [true, true, true, true, true, false]
    [addOp "12" "3", addOp "1245" "5"]
  exact ⟨st, hst, by decide, no_empty_leaf _ _ st hst⟩

/-- C19: in a well-formed trie, for the node `start` of the path `base`, a
valid number `s` and an index `i`: `trieFindNextNonEmpty(start, s, &i)` returns
a result, which is never `start`, with `i` unchanged when it is `NULL`; if `t`
is the shortest non-empty prefix of `s[i..]` whose node below `start` exists
and carries a forwarding or a source list, that node is returned and `i`
becomes `i + |t|`; if no non-empty prefix of `s[i..]` has such a node, `NULL`
is returned and `i` stays. -/
theorem trieFindNextNonEmpty_shallowest {m : Mem} {root : Nat} {A : List Char → Nat}
    (h : Shape m root A) (base : List Char) (hb : A base ≠ 0) (s : List Char)
    (hs : ValidNum s) (i : Nat) :
    (∃ r k, trieFindNextNonEmpty m (A base) s i = some (r, k) ∧ r ≠ A base ∧
      (r = 0 → k = i)) ∧
    (∀ t, t ≠ [] → t <+: s.drop i → A (base ++ t) ≠ 0 →
      nonEmptyAt m (A (base ++ t)) = true →
      (∀ t', t' ≠ [] → t' <+: t → t' ≠ t → nonEmptyAt m (A (base ++ t')) = false) →
      trieFindNextNonEmpty m (A base) s i = some (A (base ++ t), i + t.length)) ∧
    ((∀ t, t ≠ [] → t <+: s.drop i → A (base ++ t) ≠ 0 →
        nonEmptyAt m (A (base ++ t)) = false) →
      trieFindNextNonEmpty m (A base) s i = some (0, i)) := by
  obtain ⟨n, hn, _⟩ := h.node base hb
  unfold trieFindNextNonEmpty
  cases hr : s.drop i with
  | nil =>
    refine ⟨⟨0, i, rfl, fun e => hb e.symm, fun _ => rfl⟩, ?_, fun _ => rfl⟩
    intro t ht htp
    exact absurd (List.prefix_nil.mp htp) ht
  | cons c rest =>
    have hmem : ∀ d ∈ c :: rest, isPhNumDigit (d.toNat : Int) = true := by
      intro d hd'
      rw [← hr] at hd'
      exact hs.2 d (List.mem_of_mem_drop hd')
    have hrest : ∀ d ∈ rest, isPhNumDigit (d.toNat : Int) = true :=
      fun d hd' => hmem d (List.mem_cons_of_mem _ hd')
    simp only [hn, h.child base hb n hn c (hmem c (List.mem_cons_self _ _))]
    refine ⟨?_, ?_, ?_⟩
    · obtain ⟨r, k, h1, h2⟩ := nextLoop_total h i rest hrest (base ++ [c]) (i + 1) (by simp)
      refine ⟨r, k, h1, ?_, ?_⟩
      · rcases h2 with ⟨h2, _⟩ | ⟨t, ht⟩
        · rw [h2]
          exact fun e => hb e.symm
        · intro e
          rw [ht.1] at e
          have := congrArg List.length (h.inj _ _ hb e.symm)
          simp at this
      · intro hr0
        rcases h2 with ⟨_, h2⟩ | ⟨t, ht⟩
        · exact h2
        · exact absurd hr0 ht.2
    · intro t ht htp h0 h1 h2
      cases t with
      | nil => exact absurd rfl ht
      | cons c' t' =>
        obtain ⟨rfl, ht'⟩ : c' = c ∧ t' <+: rest := by
          obtain ⟨u, hu⟩ := htp
          simp only [List.cons_append, List.cons.injEq] at hu
          exact ⟨hu.1, u, hu.2⟩
        have e : base ++ c' :: t' = base ++ [c'] ++ t' := by simp
        rw [e] at h0 h1 ⊢
        rw [nextLoop_found h i rest hrest (base ++ [c']) (i + 1) t' (by simp) ht' h0 h1 ?_]
        · simp only [List.length_cons]
          congr 2
          omega
        · intro t'' h3 h4
          have := h2 (c' :: t'') (by simp) (by
            obtain ⟨u, hu⟩ := h3
            exact ⟨u, by rw [← hu]; simp⟩) (by simpa using h4)
          simpa using this
    · intro hall
      apply nextLoop_none h i rest hrest (base ++ [c]) (i + 1) (by simp)
      intro t ht h0
      have := hall (c :: t) (by simp) (by
        obtain ⟨u, hu⟩ := ht
        exact ⟨u, by rw [← hu]; simp⟩) (by simpa using h0)
      simpa using this

/-- An instance of C19: after `add("123","9")`, the search from the root of the
forward trie along `"1234"` returns the node of `"123"` and sets the index to
`3`. -/
theorem trieFindNextNonEmpty_shallowest_witness :
    ∃ st F, runFresh [addOp "123" "9"] = some st ∧
      trieFind st.mem st.pf.rootFwd ['1', '2', '3'] = some F ∧ F ≠ 0 ∧
      trieFindNextNonEmpty st.mem st.pf.rootFwd ['1', '2', '3', '4'] 0 = some (F, 3) := by
  obtain ⟨st, g, hst, hI, hfw⟩ := runFresh_inv [addOp "123" "9"]
  have hfw2 : fwOf g.reg = [(['1', '2', '3'], ['9'])] := by rw [hfw]; decide
  have hr : g.fA [] ≠ 0 := by rw [hI.shapeF.root_eq]; exact hI.shapeF.root_ne
  have hF := (fw_nodes hI.toCore ['1', '2', '3'] ['9'] (by rw [hfw2]; simp)).1
  have hfind := trieFind_spec hI.shapeF ['1', '2', '3'] (by decide) [] (fun e => absurd e hr)
  have := (trieFindNextNonEmpty_shallowest hI.shapeF [] hr ['1', '2', '3', '4'] (by decide)
    0).2.1 ['1', '2', '3'] (by simp) (by decide) hF
    ((nonEmptyAt_fwd hI.toCore _ (by simp) hF).mpr (by rw [hfw2]; simp))
    (by
      intro t' h1 h2 h3
      have h0 : g.fA ([] ++ t') ≠ 0 := by
        obtain ⟨u, hu⟩ := h2
        have hF' := hF
        rw [← hu] at hF'
        rw [List.nil_append]
        exact hI.shapeF.pre _ u hF'
      cases hx : nonEmptyAt st.mem (g.fA ([] ++ t')) with
      | false => rfl
      | true =>
        have := (nonEmptyAt_fwd hI.toCore _ (by simpa using h1) h0).mp hx
        rw [hfw2] at this
        simp at this
        exact absurd this h3)
  rw [hI.shapeF.root_eq, List.nil_append] at this hfind
  exact ⟨st, _, hst, hfind, hF, this⟩

/-- C20: in a well-formed trie, for the node `n` reached from the root along
the labels `p`, a string `s` and an index `i ≤ |s|`: `changePrefix(s, n, i)`
returns `p ++ s[i..]`, whose length is `depth(n) + |s| - i` with `depth(n)`
the value of the function `length`; for `n = NULL` and for the root it returns
`s[i..]`. -/
theorem changePrefix_labels {m : Mem} {root : Nat} {A : List Char → Nat} (h : Shape m root A)
    (p : List Char) (hp : A p ≠ 0) (s : List Char) (i : Nat) (hi : i ≤ s.length) :
    ∃ d r, trieFind m root p = some (A p) ∧ length m (A p) = some d ∧
      changePrefix m s (A p) i = some r ∧ r = p ++ s.drop i ∧ r.length = d + s.length - i ∧
      changePrefix m s 0 i = some (s.drop i) ∧ changePrefix m s root i = some (s.drop i) := by
  have hr : A [] ≠ 0 := by rw [h.root_eq]; exact h.root_ne
  have h1 := changePrefix_spec h [] hr s i hi
  rw [h.root_eq, List.nil_append] at h1
  refine ⟨p.length, p ++ s.drop i, ?_, length_spec h p hp, changePrefix_spec h p hp s i hi, rfl,
    ?_, changePrefix_null m s i hi, h1⟩
  · have := trieFind_spec h p (h.digits p hp) [] (fun e => absurd e hr)
    rw [h.root_eq, List.nil_append] at this
    exact this
  · simp only [List.length_append, List.length_drop]
    omega

/-- An instance of C20: after `add("123","9")`, `changePrefix("456", n, 1)` for
the forward node `n` of `"123"` is `"12356"`. -/
theorem changePrefix_labels_witness :
    ∃ st F, runFresh [addOp "123" "9"] = some st ∧
      trieFind st.mem st.pf.rootFwd ['1', '2', '3'] = some F ∧ F ≠ 0 ∧
      changePrefix st.mem ['4', '5', '6'] F 1 = some ['1', '2', '3', '5', '6'] := by
  obtain ⟨st, g, hst, hI, hfw⟩ := runFresh_inv [addOp "123" "9"]
  have hfw2 : fwOf g.reg = [(['1', '2', '3'], ['9'])] := by rw [hfw]; decide
  have hF := (fw_nodes hI.toCore ['1', '2', '3'] ['9'] (by rw [hfw2]; simp)).1
  obtain ⟨d, r, h1, _, h3, h4, _⟩ := changePrefix_labels hI.shapeF ['1', '2', '3'] hF
    ['4', '5', '6'] 1 (by decide)
  subst h4
  exact ⟨st, _, hst, h1, hF, h3⟩

/-- C21: on an index reached by calls on a fresh index under any outcomes of
`malloc`, `trieDelete` on the root of the forward trie, and on the node of a
valid number `P` after it has been detached from its parent as `trieRemove`
does, terminates; the nodes that its rounds hand to `deleteFwdData` and then
free are, in order, the nodes of a list `L` of paths without repetition that
holds exactly the paths of the nodes of the subtree, no node is handed over
twice, all of them are free afterwards, and the forward nodes outside the
subtree stay allocated. -/
theorem trieDelete_visits (o : List Bool) (ops : List Op) (st : State)
    (hst : runWith o ops = some st) :
    (∃ (m2 : Mem) (L : List (List Char)),
      trieDeleteLog st.mem st.pf.rootFwd = some (m2, L.map (nodeOf st.mem st.pf.rootFwd)) ∧
      trieDelete st.mem st.pf.rootFwd = some m2 ∧ L.Nodup ∧
      (L.map (nodeOf st.mem st.pf.rootFwd)).Nodup ∧
      (∀ q, q ∈ L ↔ (∀ c ∈ q, isPhNumDigit (c.toNat : Int) = true) ∧
        ∃ x, x ≠ 0 ∧ trieFind st.mem st.pf.rootFwd q = some x) ∧
      ∀ q ∈ L, m2.trie (nodeOf st.mem st.pf.rootFwd q) = none) ∧
    ∀ P : List Char, ValidNum P → trieFind st.mem st.pf.rootFwd P ≠ some 0 →
      ∃ (N : Nat) (nN par : TrieNode) (m1 m2 : Mem) (L : List (List Char)),
        trieFind st.mem st.pf.rootFwd P = some N ∧ st.mem.trie N = some nN ∧
        st.mem.trie nN.parent = some par ∧
        m1 = st.mem.setTrie nN.parent ((List.range 12).foldl
          (fun p i => if p.children i = N then setChild p i 0 else p) par) ∧
        trieDeleteLog m1 N = some (m2, L.map (nodeOf st.mem st.pf.rootFwd)) ∧
        trieDelete m1 N = some m2 ∧ L.Nodup ∧
        (L.map (nodeOf st.mem st.pf.rootFwd)).Nodup ∧
        (∀ q, q ∈ L ↔ P <+: q ∧ (∀ c ∈ q, isPhNumDigit (c.toNat : Int) = true) ∧
          ∃ x, x ≠ 0 ∧ trieFind st.mem st.pf.rootFwd q = some x) ∧
        (∀ q ∈ L, m2.trie (nodeOf st.mem st.pf.rootFwd q) = none) ∧
        ∀ q x, ¬ P <+: q → (∀ c ∈ q, isPhNumDigit (c.toNat : Int) = true) →
          trieFind st.mem st.pf.rootFwd q = some x → x ≠ 0 → m2.trie x ≠ none := by
  obtain ⟨g, hI, _⟩ := runWith_state hst
  have hinjL : ∀ L : List (List Char), L.Nodup → (∀ q ∈ L, g.fA q ≠ 0) → (L.map g.fA).Nodup := by
    intro L hL hne
    rw [List.nodup_map_iff_inj_on hL]
    intro x hx y _ e
    exact hI.shapeF.inj x y (hne x hx) e
  constructor
  · obtain ⟨m2, L, a1, a2, a3, a4, _⟩ := trieDelete_root_ok hI
    have hne : ∀ q ∈ L, g.fA q ≠ 0 := fun q hq => (a3 q).mp hq
    have hmap := nodeOf_map hI.shapeF L hne
    refine ⟨m2, L, by rw [← hmap]; exact a1, ?_, a2, by rw [← hmap]; exact hinjL L a2 hne, ?_, ?_⟩
    · rw [← trieDeleteLog_fst, a1]
      rfl
    · intro q
      rw [a3 q]
      exact node_iff hI.shapeF q
    · intro q hq
      rw [nodeOf_eq hI.shapeF q (hne q hq)]
      exact a4 q hq
  · intro P hP hN
    have hfind := trieFind_root hI.shapeF P hP.2
    have hz : g.fA P ≠ 0 := by
      intro e
      rw [e] at hfind
      exact hN hfind
    obtain ⟨P0, c, rfl⟩ : ∃ P0 c, P = P0 ++ [c] := by
      rcases List.eq_nil_or_concat P with h0 | ⟨L, b, hb⟩
      · exact absurd h0 hP.1
      · exact ⟨L, b, by rw [hb, List.concat_eq_append]⟩
    obtain ⟨hP0, hc⟩ := hI.shapeF.closed P0 c hz
    obtain ⟨nP, hnP, _⟩ := hI.shapeF.node _ hz
    have hpar := hI.shapeF.parent_snoc P0 c nP hz hnP
    obtain ⟨par, hparn, hch⟩ := hI.shapeF.node P0 hP0
    have hclear := clear_fold par (g.fA (P0 ++ [c])) (charToDigit (c.toNat : Int)) (by
      intro j hj
      rw [hch j hj]
      constructor
      · intro e
        have := hI.shapeF.inj _ _ (by rw [e]; exact hz) e
        have := (snoc_inj this).2
        rw [← this, charToDigit_digitToChar j hj]
      · intro e
        rw [e, digitToChar_charToDigit c hc]) 12 (le_refl _)
    rw [if_pos (charToDigit_lt c hc)] at hclear
    obtain ⟨m2, L, a1, a2, a3, a4, a5⟩ := trieDelete_sub_ok hI P0 c hz par hparn
    have hne : ∀ q ∈ L, g.fA q ≠ 0 := fun q hq => ((a3 q).mp hq).2
    have hmap := nodeOf_map hI.shapeF L hne
    refine ⟨g.fA (P0 ++ [c]), nP, par, _, m2, L, hfind, hnP, by rw [hpar]; exact hparn, rfl,
      ?_, ?_, a2, by rw [← hmap]; exact hinjL L a2 hne, ?_, ?_, ?_⟩
    · rw [hpar, hclear, ← hmap]
      exact a1
    · rw [hpar, hclear, ← trieDeleteLog_fst, a1]
      rfl
    · intro q
      rw [a3 q, node_iff hI.shapeF q]
    · intro q hq
      rw [nodeOf_eq hI.shapeF q (hne q hq)]
      exact a4 q hq
    · intro q x hq hd hf hx
      rw [trieFind_root hI.shapeF q hd] at hf
      cases hf
      exact a5 q hq hx

/-- An instance of C21: after `add("12","3"); add("13","4"); add("2","5")` the
rounds of `trieDelete` on the root of the forward trie hand over the nodes at
the addresses `2, 4, 11, 5, 8`, and `trieDelete` on the detached node of `"1"`
hands over the nodes of its subtree. -/
theorem trieDelete_visits_witness :
    ∃ st, runWith [] [addOp "12" "3", addOp "13" "4", addOp "2" "5"] = some st ∧
      (trieDeleteLog st.mem st.pf.rootFwd).map Prod.snd = some [2, 4, 11, 5, 8] ∧
      ∃ (N : Nat) (nN par : TrieNode) (m1 m2 : Mem) (L : List (List Char)),
        trieFind st.mem st.pf.rootFwd ['1'] = some N ∧ st.mem.trie N = some nN ∧
        st.mem.trie nN.parent = some par ∧
        m1 = st.mem.setTrie nN.parent ((List.range 12).foldl
          (fun p i => if p.children i = N then setChild p i 0 else p) par) ∧
        trieDeleteLog m1 N = some (m2, L.map (nodeOf st.mem st.pf.rootFwd)) ∧
        trieDelete m1 N = some m2 ∧ L.Nodup ∧
        (L.map (nodeOf st.mem st.pf.rootFwd)).Nodup ∧
        (∀ q, q ∈ L ↔ ['1'] <+: q ∧ (∀ c ∈ q, isPhNumDigit (c.toNat : Int) = true) ∧
          ∃ x, x ≠ 0 ∧ trieFind st.mem st.pf.rootFwd q = some x) ∧
        (∀ q ∈ L, m2.trie (nodeOf st.mem st.pf.rootFwd q) = none) ∧
        ∀ q x, ¬ ['1'] <+: q → (∀ c ∈ q, isPhNumDigit (c.toNat : Int) = true) →
          trieFind st.mem st.pf.rootFwd q = some x → x ≠ 0 → m2.trie x ≠ none := by
  obtain ⟨st, g, h, _⟩ := runWith_inv [] [addOp "12" "3", addOp "13" "4", addOp "2" "5"]
  have hv : (runWith [] [addOp "12" "3", addOp "13" "4", addOp "2" "5"]).map
      (fun st => ((trieDeleteLog st.mem st.pf.rootFwd).map Prod.snd,
        decide (trieFind st.mem st.pf.rootFwd ['1'] ≠ some 0))) =
      some (some [2, 4, 11, 5, 8], true) := by decide
  rw [h] at hv
  simp only [Option.map_some', Option.some.injEq, Prod.mk.injEq, decide_eq_true_eq] at hv
  exact ⟨st, h, hv.1, (trieDelete_visits _ _ st h).2 ['1'] (by decide) hv.2⟩

/-- C22: in a well-formed trie (`Shape`: the node of the path `x` is at the
address `A x`), for the node `n` of a path `p`: if `n` has a child, or is not
empty, or is the root, `deleteDeadBranch(n)` returns with the heap unchanged;
otherwise `p = q ++ c :: t`, where the nodes of the paths `q ++ c :: t'`, for
the prefixes `t'` of `t`, are not the root, are empty and have no child but
the next node of the path, and the node of `q` is the root, or is not empty,
or has another child; the call frees exactly these nodes, clears the slot of
the node of `q` that pointed to the node of `q ++ [c]`, changes no other cell,
and leaves a well-formed trie with the same root. -/
theorem deleteDeadBranch_chain {m : Mem} {root : Nat} {A : List Char → Nat}
    (hS : Shape m root A) (p : List Char) (n : TrieNode) (hp : A p ≠ 0)
    (hn : m.trie (A p) = some n) :
    ((hasChild n = true ∨ n.fwdNode ≠ 0 ∨ n.listNode ≠ 0 ∨ p = []) →
      deleteDeadBranch m (A p) = some m) ∧
    (hasChild n = false → n.fwdNode = 0 → n.listNode = 0 → p ≠ [] →
      ∃ q c t m1, p = q ++ c :: t ∧ deleteDeadBranch m (A p) = some m1 ∧
        (∀ t', t' <+: t → ∃ k, m.trie (A (q ++ c :: t')) = some k ∧
          A (q ++ c :: t') ≠ root ∧ k.fwdNode = 0 ∧ k.listNode = 0 ∧
          ∀ j, j < 12 → k.children j ≠ 0 →
            ∃ d, t' ++ [d] <+: t ∧ k.children j = A (q ++ c :: (t' ++ [d]))) ∧
        (∃ k, m.trie (A q) = some k ∧
          (q = [] ∨ k.fwdNode ≠ 0 ∨ k.listNode ≠ 0 ∨
            ∃ j, j < 12 ∧ k.children j ≠ 0 ∧ k.children j ≠ A (q ++ [c]))) ∧
        (∀ t', t' <+: t → m1.trie (A (q ++ c :: t')) = none) ∧
        (∃ k, m.trie (A q) = some k ∧ k.children (charToDigit (c.toNat : Int)) = A (q ++ [c]) ∧
          m1.trie (A q) = some (setChild k (charToDigit (c.toNat : Int)) 0)) ∧
        (∀ x, x ≠ A q → (∀ t', t' <+: t → x ≠ A (q ++ c :: t')) → m1.trie x = m.trie x) ∧
        m1.list = m.list ∧ m1.brk = m.brk ∧ m1.trie root ≠ none ∧
        Shape m1 root (fun x => if q.length < x.length ∧ x <+: p then 0 else A x)) := by
  have hd := hS.depth p hp
  obtain ⟨n', hn', hch⟩ := hS.node p hp
  rw [hn] at hn'
  cases hn'
  have hL : ∀ b : Bool, hasChild n = !b →
      (b = true ↔ ∀ j, j < 12 → A (p ++ [digitToChar j]) = 0) := by
    intro b hb
    constructor
    · intro h j hj
      subst h
      by_contra hne
      have : hasChild n = true := (hasChild_iff n).mpr ⟨j, hj, by rw [hch j hj]; exact hne⟩
      rw [hb] at this
      simp at this
    · intro h
      cases b with
      | true => rfl
      | false =>
        obtain ⟨j, hj, hne⟩ := (hasChild_iff n).mp (by simpa using hb)
        exact absurd (by rw [hch j hj]; exact h j hj) hne
  constructor
  · intro hcase
    by_cases hc : hasChild n = true
    · simp [deleteDeadBranch, hn, hc]
    · simp only [Bool.not_eq_true] at hc
      obtain ⟨q, t, m1, e0, e1, e2, _, _⟩ := deleteDeadBranchLoop_chain p m A m.brk true hS hp
        (hL true (by simp [hc])) (by omega)
      have ht : t = [] := by
        by_contra hne
        obtain ⟨k, hk, hk1, hk2⟩ := e2.empties t hne (List.prefix_refl _)
        rw [← e0, hn] at hk
        cases hk
        rcases hcase with h | h | h | h
        · rw [hc] at h
          cases h
        · exact h hk1
        · exact h hk2
        · rw [h] at e0
          exact hne (List.append_eq_nil.mp e0.symm).2
      have := e2.same ht
      subst this
      simp [deleteDeadBranch, hn, hc, e1]
  · intro hc hz1 hz2 hpne
    obtain ⟨q, t, m1, e0, e1, e2, e3, e4⟩ := deleteDeadBranchLoop_chain p m A m.brk true hS hp
      (hL true (by simp [hc])) (by omega)
    have hqA : A q ≠ 0 := hS.pre q t (by rw [← e0]; exact hp)
    obtain ⟨kq, hkq, hkch⟩ := hS.node q hqA
    cases t with
    | nil =>
      exfalso
      simp only [List.append_nil] at e0
      subst e0
      rcases e3 with h | ⟨_, h⟩ | ⟨k, hk, hne⟩ | ⟨h, _⟩
      · exact hpne h
      · cases h
      · rw [hn] at hk
        cases hk
        exact hne ⟨hz1, hz2⟩
      · exact h rfl
    | cons c t =>
      have hpre : ∀ t', t' <+: t → c :: t' ≠ [] ∧ c :: t' <+: c :: t := fun t' h =>
        ⟨by simp, List.cons_prefix_cons.mpr ⟨rfl, h⟩⟩
      have hcA : A (q ++ [c]) ≠ 0 := by
        apply hS.pre (q ++ [c]) t
        rw [List.append_assoc, List.singleton_append, ← e0]
        exact hp
      have hcd := (hS.closed q c hcA).2
      refine ⟨q, c, t, m1, e0, by simp [deleteDeadBranch, hn, hc, e1], ?_, ?_, ?_, ?_, ?_,
        e2.list_eq, e2.brk_eq, ?_, e4⟩
      · intro t' ht'
        obtain ⟨k, hk, hk1, hk2⟩ := e2.empties (c :: t') (hpre t' ht').1 (hpre t' ht').2
        have hne : A (q ++ c :: t') ≠ 0 := by
          obtain ⟨r, hr⟩ := ht'
          apply hS.pre (q ++ c :: t') r
          rw [List.append_assoc, List.cons_append, hr, ← e0]
          exact hp
        refine ⟨k, hk, ?_, hk1, hk2, ?_⟩
        · intro e
          rw [← hS.root_eq] at e
          have := hS.inj _ _ hne e
          simp at this
        · intro j hj hjn
          obtain ⟨k', hk', hch'⟩ := hS.node _ hne
          rw [hk] at hk'
          cases hk'
          rw [hch' j hj] at hjn ⊢
          have := e2.only (c :: t') (digitToChar j) (hpre t' ht').1 (hpre t' ht').2
            (by rw [List.append_assoc] at hjn ⊢; exact hjn)
          refine ⟨digitToChar j, (List.cons_prefix_cons.mp this).2, ?_⟩
          simp [List.append_assoc]
      · refine ⟨kq, hkq, ?_⟩
        rcases e3 with h | ⟨h, _⟩ | ⟨k, hk, hne⟩ | ⟨_, d, hd, hnd⟩
        · exact Or.inl h
        · cases h
        · rw [hkq] at hk
          cases hk
          by_cases h1 : kq.fwdNode = 0
          · exact Or.inr (Or.inr (Or.inl (fun h2 => hne ⟨h1, h2⟩)))
          · exact Or.inr (Or.inl h1)
        · right; right; right
          have hdd := (hS.closed q d hd).2
          refine ⟨charToDigit (d.toNat : Int), charToDigit_lt d hdd, ?_, ?_⟩
          · rw [hkch _ (charToDigit_lt d hdd), digitToChar_charToDigit d hdd]
            exact hd
          · rw [hkch _ (charToDigit_lt d hdd), digitToChar_charToDigit d hdd]
            intro e
            have := hS.inj _ _ hd e
            have hdc : d = c := by simpa using this
            apply hnd
            rw [hdc]
            exact List.cons_prefix_cons.mpr ⟨rfl, List.nil_prefix⟩
      · intro t' ht'
        exact e2.freed (c :: t') (hpre t' ht').1 (hpre t' ht').2
      · obtain ⟨k, hk, hk2⟩ := e2.slot c t rfl
        rw [hkq] at hk
        cases hk
        refine ⟨kq, hkq, ?_, hk2⟩
        rw [hkch _ (charToDigit_lt c hcd), digitToChar_charToDigit c hcd]
      · intro x hx hall
        apply e2.other x hx
        intro t'' h1 h2
        cases t'' with
        | nil => exact absurd rfl h1
        | cons c' t' =>
          obtain ⟨rfl, h3⟩ := List.cons_prefix_cons.mp h2
          exact hall t' h3
      · obtain ⟨k, hk⟩ : ∃ k, m1.trie root = some k := by
          obtain ⟨k, hk, _⟩ := e4.node [] (by
            simp only [List.length_nil, List.nil_prefix, and_true]
            have : ¬ q.length < 0 := by omega
            simp only [this, if_false]
            rw [hS.root_eq]
            exact hS.root_ne)
          refine ⟨k, ?_⟩
          simp only [List.length_nil, List.nil_prefix, and_true] at hk
          have : ¬ q.length < 0 := by omega
          simp only [this, if_false] at hk
          rw [← hS.root_eq]
          exact hk
        rw [hk]
        simp

/-- An instance of C22: after `trieAdd` of the path `"12"` to the forward trie
of a fresh index, the node of `"12"` is an empty leaf, and `deleteDeadBranch`
on it frees a chain that ends in it. -/
theorem deleteDeadBranch_chain_witness :
    ∃ (st : State) (r : Nat) (m : Mem) (A : List Char → Nat) (n : TrieNode),
      fresh = some st ∧ trieAdd st.mem st.pf.rootFwd ['1', '2'] = some (r, m) ∧
      Shape m st.pf.rootFwd A ∧ A ['1', '2'] = r ∧ A ['1', '2'] ≠ 0 ∧
      m.trie (A ['1', '2']) = some n ∧ hasChild n = false ∧ n.fwdNode = 0 ∧ n.listNode = 0 ∧
      ∃ q c t m1, ['1', '2'] = q ++ c :: t ∧ deleteDeadBranch m (A ['1', '2']) = some m1 ∧
        (∀ t', t' <+: t → ∃ k, m.trie (A (q ++ c :: t')) = some k ∧
          A (q ++ c :: t') ≠ st.pf.rootFwd ∧ k.fwdNode = 0 ∧ k.listNode = 0 ∧
          ∀ j, j < 12 → k.children j ≠ 0 →
            ∃ d, t' ++ [d] <+: t ∧ k.children j = A (q ++ c :: (t' ++ [d]))) ∧
        (∃ k, m.trie (A q) = some k ∧
          (q = [] ∨ k.fwdNode ≠ 0 ∨ k.listNode ≠ 0 ∨
            ∃ j, j < 12 ∧ k.children j ≠ 0 ∧ k.children j ≠ A (q ++ [c]))) ∧
        (∀ t', t' <+: t → m1.trie (A (q ++ c :: t')) = none) ∧
        (∃ k, m.trie (A q) = some k ∧ k.children (charToDigit (c.toNat : Int)) = A (q ++ [c]) ∧
          m1.trie (A q) = some (setChild k (charToDigit (c.toNat : Int)) 0)) ∧
        (∀ x, x ≠ A q → (∀ t', t' <+: t → x ≠ A (q ++ c :: t')) → m1.trie x = m.trie x) ∧
        m1.list = m.list ∧ m1.brk = m.brk ∧ m1.trie st.pf.rootFwd ≠ none ∧
        Shape m1 st.pf.rootFwd
          (fun x => if q.length < x.length ∧ x <+: ['1', '2'] then 0 else A x) := by
  obtain ⟨st, fA, rA, h0, hI⟩ := fresh_inv
  have hnone : ∀ q, q ≠ [] → fA q = 0 := by
    intro q hq
    by_contra hne
    obtain ⟨e, he, _⟩ := hI.deadF q hq hne
    cases he
  obtain ⟨r, m, u, a1, a2, a3⟩ := trieAdd_spec hI.shapeF [] (occupiedF hI.toCore)
    (fun q hq hne => absurd (hnone q hq) hne) ['1', '2'] (by decide)
  have hu : u = [] := by
    have := fresh_oracle h0
    rw [this] at a2
    exact (List.append_eq_nil.mp a2.symm).1
  rcases a3 with ⟨_, A, b1, b2, b3, E⟩ | ⟨b, _⟩
  · obtain ⟨_, _, _, n, hn, hz1, hz2⟩ := E.fresh ['1', '2'] (hnone _ (by decide)) b2
    obtain ⟨n', hn', hch⟩ := b3.node _ b2
    rw [hn] at hn'
    cases hn'
    have hc : hasChild n = false := by
      rw [← Bool.not_eq_true, hasChild_iff]
      rintro ⟨j, hj, hne⟩
      rw [hch j hj] at hne
      obtain ⟨_, _, hpre, _⟩ := E.fresh _ (hnone _ (by simp)) hne
      have := hpre.length_le
      simp at this
    exact ⟨st, r, m, A, n, h0, a1, b3, b1.symm, b2, hn, hc, hz1, hz2,
      (deleteDeadBranch_chain b3 ['1', '2'] n b2 hn).2 hc hz1 hz2 (by decide)⟩
  · rw [hu] at b
    cases b

/-- C23: on an index reached by calls on a fresh index under any outcomes of
`malloc`, `trieDelete` on the root of the forward trie terminates; afterwards
the root of the reverse trie is allocated, has no child, no list and no
parent, every other node of the reverse trie and every cell of every source
list is free, and so is every node of the forward trie; `phfwdDelete` then
frees the root of the reverse trie, after which no node of the reverse trie
is allocated. -/
theorem phfwdDelete_reverse (o : List Bool) (ops : List Op) (st : State)
    (hst : runWith o ops = some st) :
    ∃ m2 nR, trieDelete st.mem st.pf.rootFwd = some m2 ∧
      m2.trie st.pf.rootReverse = some nR ∧ hasChild nR = false ∧ nR.fwdNode = 0 ∧
      nR.listNode = 0 ∧ nR.parent = 0 ∧
      (∀ q R, q ≠ [] → (∀ c ∈ q, isPhNumDigit (c.toNat : Int) = true) →
        trieFind st.mem st.pf.rootReverse q = some R → R ≠ 0 → m2.trie R = none) ∧
      (∀ q R n cells, (∀ c ∈ q, isPhNumDigit (c.toNat : Int) = true) →
        trieFind st.mem st.pf.rootReverse q = some R → R ≠ 0 → st.mem.trie R = some n →
        linked st.mem 0 cells n.listNode = true → ∀ c ∈ cells, m2.list c = none) ∧
      (∀ p F, (∀ c ∈ p, isPhNumDigit (c.toNat : Int) = true) →
        trieFind st.mem st.pf.rootFwd p = some F → F ≠ 0 → m2.trie F = none) ∧
      phfwdDelete st.mem (some st.pf) = some (m2.freeTrie st.pf.rootReverse) ∧
      ∀ q R, (∀ c ∈ q, isPhNumDigit (c.toNat : Int) = true) →
        trieFind st.mem st.pf.rootReverse q = some R → R ≠ 0 →
        (m2.freeTrie st.pf.rootReverse).trie R = none := by
  obtain ⟨g, hI, _⟩ := runWith_state hst
  obtain ⟨m2, L, a1, _, a3, a4, a5, a6, nR, a7, a8, a9, a10, a11⟩ := trieDelete_root_ok hI
  have htd : trieDelete st.mem st.pf.rootFwd = some m2 := by
    rw [← trieDeleteLog_fst, a1]
    rfl
  have hrev : ∀ q R, q ≠ [] → (∀ c ∈ q, isPhNumDigit (c.toNat : Int) = true) →
      trieFind st.mem st.pf.rootReverse q = some R → R ≠ 0 → m2.trie R = none := by
    intro q R hq hd hf hR
    rw [trieFind_root hI.rev.shape q hd] at hf
    cases hf
    exact a6 q hq hR
  refine ⟨m2, nR, htd, a7, a8, a9, a10, a11, hrev, ?_, ?_, ?_, ?_⟩
  · intro q R n cells hd hf hR hn hl c hc
    rw [trieFind_root hI.rev.shape q hd] at hf
    cases hf
    obtain ⟨n', hn', _, hC⟩ := hI.rev.lists q hR
    rw [hn] at hn'
    cases hn'
    have := linked_unique st.mem _ _ 0 _ hl (chain_linked _ _ _ hC)
    rw [this] at hc
    obtain ⟨e, he, rfl⟩ := List.mem_map.mp hc
    exact a5 e (List.mem_filter.mp he).1
  · intro p F hd hf hF
    rw [trieFind_root hI.shapeF p hd] at hf
    cases hf
    exact a4 p ((a3 p).mpr hF)
  · simp [phfwdDelete, htd, a7]
  · intro q R hd hf hR
    simp only [freeTrie_trie]
    split_ifs with e
    · rfl
    · apply hrev q R _ hd hf hR
      rintro rfl
      simp only [trieFind, Option.some.injEq] at hf
      exact e hf.symm

/-- An instance of C23: after `add("12","3"); add("13","4"); add("2","5")`,
`phfwdDelete` leaves no trie node and no list cell allocated below the heap
break. -/
theorem phfwdDelete_reverse_witness :
    ∃ st, runWith [] [addOp "12" "3", addOp "13" "4", addOp "2" "5"] = some st ∧
      (phfwdDelete st.mem (some st.pf)).map (fun m => (List.range st.mem.brk).all
        (fun x => (m.trie x).isNone && (m.list x).isNone)) = some true ∧
      ∃ m2 nR, trieDelete st.mem st.pf.rootFwd = some m2 ∧
        m2.trie st.pf.rootReverse = some nR ∧ hasChild nR = false ∧ nR.fwdNode = 0 ∧
        nR.listNode = 0 ∧ nR.parent = 0 ∧
        (∀ q R, q ≠ [] → (∀ c ∈ q, isPhNumDigit (c.toNat : Int) = true) →
          trieFind st.mem st.pf.rootReverse q = some R → R ≠ 0 → m2.trie R = none) ∧
        (∀ q R n cells, (∀ c ∈ q, isPhNumDigit (c.toNat : Int) = true) →
          trieFind st.mem st.pf.rootReverse q = some R → R ≠ 0 → st.mem.trie R = some n →
          linked st.mem 0 cells n.listNode = true → ∀ c ∈ cells, m2.list c = none) ∧
        (∀ p F, (∀ c ∈ p, isPhNumDigit (c.toNat : Int) = true) →
          trieFind st.mem st.pf.rootFwd p = some F → F ≠ 0 → m2.trie F = none) ∧
        phfwdDelete st.mem (some st.pf) = some (m2.freeTrie st.pf.rootReverse) ∧
        ∀ q R, (∀ c ∈ q, isPhNumDigit (c.toNat : Int) = true) →
          trieFind st.mem st.pf.rootReverse q = some R → R ≠ 0 →
          (m2.freeTrie st.pf.rootReverse).trie R = none := by
  obtain ⟨st, g, h, _⟩ := runWith_inv [] [addOp "12" "3", addOp "13" "4", addOp "2" "5"]
  have hv : (runWith [] [addOp "12" "3", addOp "13" "4", addOp "2" "5"]).map
      (fun st => (phfwdDelete st.mem (some st.pf)).map (fun m => (List.range st.mem.brk).all
        (fun x => (m.trie x).isNone && (m.list x).isNone))) = some (some true) := by decide
  rw [h] at hv
  simp only [Option.map_some', Option.some.injEq] at hv
  exact ⟨st, h, hv, phfwdDelete_reverse _ _ st h⟩

/-- C24: on a full sequence of capacity `old` below the limit `maxCapacity`
the function `phnumAdd` succeeds, and the new capacity is `old * 3 / 2 + 1`
(integer division) when `old` is at most `maxCapacity / 3 * 2`, which is
`1537228672809129300`, and `maxCapacity` otherwise; it agrees with
`max(1, old · 3/2)` when `old` is `0` and differs from it for every `old`
from `1` up to `maxCapacity / 3 * 2`. -/
theorem phnumAdd_growth (p : PhoneNumbers) (s : List Char)
    (hfull : p.numbers.length = p.capacity) (hlt : p.capacity < maxCapacity) :
    ∃ p1, phnumAdd (some p) (some s) = some p1 ∧
      p1.capacity = (if p.capacity ≤ 1537228672809129300 then p.capacity * 3 / 2 + 1
        else maxCapacity) ∧
      (p.capacity = 0 → p1.capacity = specCapacity p.capacity) ∧
      (1 ≤ p.capacity → p.capacity ≤ 1537228672809129300 →
        p1.capacity = specCapacity p.capacity + 1) := by
  have hM := maxCapacity_eq
  have hS : sizeModulus = 18446744073709551616 := by decide
  have hne : p.capacity ≠ maxCapacity := by omega
  simp only [phnumAdd_eq, hfull, if_true, if_neg hne]
  refine ⟨_, rfl, ?_, ?_, ?_⟩
  · show (if p.capacity > maxCapacity / 3 * 2 then maxCapacity
      else (p.capacity * 3 % sizeModulus) / 2 + 1) = _
    rw [hM, hS]
    split_ifs <;> omega
  · intro h0
    show (if p.capacity > maxCapacity / 3 * 2 then maxCapacity
      else (p.capacity * 3 % sizeModulus) / 2 + 1) = _
    rw [hM, hS, h0]
    decide
  · intro h1 h2
    show (if p.capacity > maxCapacity / 3 * 2 then maxCapacity
      else (p.capacity * 3 % sizeModulus) / 2 + 1) = _
    rw [hM, hS, specCapacity]
    have : max 1 (p.capacity * 3 / 2) = p.capacity * 3 / 2 := by
      apply max_eq_right
      omega
    rw [this]
    split_ifs <;> omega

/-- An instance of C24: a full sequence of capacity `2` grows to capacity
`4`. -/
theorem phnumAdd_growth_witness :
    ∃ p1, phnumAdd (some ⟨[['1'], ['2']], 2⟩) (some ['3']) = some p1 ∧
      p1.capacity = (if 2 ≤ 1537228672809129300 then 2 * 3 / 2 + 1 else maxCapacity) ∧
      ((2 : Nat) = 0 → p1.capacity = specCapacity 2) ∧
      (1 ≤ 2 → 2 ≤ 1537228672809129300 → p1.capacity = specCapacity 2 + 1) :=
  phnumAdd_growth ⟨[['1'], ['2']], 2⟩ ['3'] rfl (by decide)

/-- A counterexample to C24: the full sequence `["1", "2"]` of capacity `2`
grows to capacity `4`, while `max(1, 2 · 3/2)` is `3`; and the full sequence
`["1"]` of capacity `1` grows to capacity `2`, while `max(1, 1 · 3/2)` is
`1`. -/
theorem phnumAdd_growth_not_max :
    (phnumAdd (some ⟨[['1'], ['2']], 2⟩) (some ['3'])).map PhoneNumbers.capacity = some 4 ∧
      specCapacity 2 = 3 ∧
      (phnumAdd (some ⟨[['1']], 1⟩) (some ['3'])).map PhoneNumbers.capacity = some 2 ∧
      specCapacity 1 = 1 := by
  decide

/-- C25, as the code has it: with `maxCapacity = SIZE_MAX / 8` for a 64-bit
`size_t`, on a full sequence of capacity `c` at most `maxCapacity` the
function `phnumAdd` returns `false` when `c = maxCapacity`; otherwise it
computes a capacity `c'` with `c < c'` and `c' ≤ maxCapacity`, where the
products `c * 3` and `c' * 8` are below `2 ^ 64`, and asks `realloc` for
`c' * 8` bytes; when that fails it returns `false`, and when it succeeds the
capacity is `c'`, the count has grown by one, the new string is the last
element and the earlier elements are as they were. So it fails exactly when
`c = maxCapacity` or the `realloc` fails. -/
theorem phnumAdd_full (realloc : Nat → Bool) (p : PhoneNumbers) (s : List Char)
    (hfull : p.numbers.length = p.capacity) (hc : p.capacity ≤ maxCapacity) :
    (p.capacity = maxCapacity → phnumAddWith realloc (some p) (some s) = none) ∧
      (p.capacity ≠ maxCapacity → ∃ c', p.capacity < c' ∧ c' ≤ maxCapacity ∧
        p.capacity * 3 < 2 ^ 64 ∧ p.capacity * 3 % sizeModulus = p.capacity * 3 ∧
        c' * 8 < 2 ^ 64 ∧ c' * 8 % sizeModulus = c' * 8 ∧
        (phnumAddWith realloc (some p) (some s) = none ↔ realloc (c' * 8) = false) ∧
        (realloc (c' * 8) = true → ∃ p1, phnumAddWith realloc (some p) (some s) = some p1 ∧
          p1.capacity = c' ∧ p1.numbers.length = p.numbers.length + 1 ∧
          p1.numbers[p.numbers.length]? = some s ∧
          ∀ i, i < p.numbers.length → p1.numbers[i]? = p.numbers[i]?)) := by
  have hM := maxCapacity_eq
  have hS : sizeModulus = 18446744073709551616 := by decide
  constructor
  · intro hmax
    simp only [phnumAddWith, hfull, if_true, hmax]
  · intro hne
    have hmod : p.capacity * 3 % sizeModulus = p.capacity * 3 := by
      rw [hS]
      apply Nat.mod_eq_of_lt
      omega
    obtain ⟨c', hc', h1, h2⟩ : ∃ c', c' = (if p.capacity > maxCapacity / 3 * 2 then maxCapacity
        else (p.capacity * 3 % sizeModulus) / 2 + 1) ∧ p.capacity < c' ∧ c' ≤ maxCapacity := by
      refine ⟨_, rfl, ?_, ?_⟩
      · rw [hmod, hM]
        rw [hM] at hc hne
        split_ifs <;> omega
      · rw [hmod, hM]
        rw [hM] at hc hne
        split_ifs <;> omega
    have hmod8 : c' * 8 % sizeModulus = c' * 8 := by
      rw [hS]
      apply Nat.mod_eq_of_lt
      omega
    have hE : phnumAddWith realloc (some p) (some s) =
        if realloc (c' * 8) = true then some ⟨p.numbers ++ [s], c'⟩ else none := by
      simp only [phnumAddWith, hfull, if_true, if_neg hne]
      rw [← hc', hmod8]
    refine ⟨c', h1, h2, by omega, hmod, by omega, hmod8, ?_, ?_⟩
    · rw [hE]
      cases realloc (c' * 8) <;> simp
    · intro hr
      rw [hE, if_pos hr]
      refine ⟨_, rfl, rfl, by simp, by simp, ?_⟩
      intro i hi
      show (p.numbers ++ [s])[i]? = _
      rw [List.getElem?_append_left hi]

/-- An instance of C25: the full sequence `["1"]` of capacity `1`, with a
`realloc` that succeeds up to 1024 bytes. -/
theorem phnumAdd_full_witness :
    ((1 : Nat) = maxCapacity →
      phnumAddWith (fun n => decide (n ≤ 1024)) (some ⟨[['1']], 1⟩) (some ['2']) = none) ∧
      ((1 : Nat) ≠ maxCapacity → ∃ c', 1 < c' ∧ c' ≤ maxCapacity ∧
        1 * 3 < 2 ^ 64 ∧ 1 * 3 % sizeModulus = 1 * 3 ∧
        c' * 8 < 2 ^ 64 ∧ c' * 8 % sizeModulus = c' * 8 ∧
        (phnumAddWith (fun n => decide (n ≤ 1024)) (some ⟨[['1']], 1⟩) (some ['2']) = none ↔
          (fun n => decide (n ≤ 1024)) (c' * 8) = false) ∧
        ((fun n => decide (n ≤ 1024)) (c' * 8) = true →
          ∃ p1, phnumAddWith (fun n => decide (n ≤ 1024)) (some ⟨[['1']], 1⟩) (some ['2']) =
            some p1 ∧
          p1.capacity = c' ∧ p1.numbers.length = 1 + 1 ∧
          p1.numbers[1]? = some ['2'] ∧
          ∀ i, i < 1 → p1.numbers[i]? = [['1']][i]?)) :=
  phnumAdd_full (fun n => decide (n ≤ 1024)) ⟨[['1']], 1⟩ ['2'] rfl (by decide)

/-- A counterexample to C25: the full sequence `["1"]` has the capacity `1`,
which is not `maxCapacity`, and `phnumAdd` on it fails when its `realloc`
fails. -/
theorem phnumAdd_fails_below_limit :
    ([['1']] : List (List Char)).length = 1 ∧ (1 : Nat) ≠ maxCapacity ∧
      (phnumAddWith (fun _ => false) (some ⟨[['1']], 1⟩) (some ['2'])).isNone = true := by
  decide

/-- C26: on an index reached by calls on a fresh index under any outcomes of
`malloc`, with `M` the forwardings of the calls that took effect, for valid
numbers `P` and `x` of which `P` is not a prefix: `phfwdRemove(P)` is defined,
`phfwdGet(x)` returns the same sequence before and after it, namely the one
number that `M` forwards `x` to, and after it the index answers `phfwdGet` by
the forwardings of `M` whose source does not have `P` as a prefix. -/
theorem phfwdRemove_frame (o : List Bool) (ops : List Op) (st : State)
    (hst : runWith o ops = some st) (P x : List Char) (hP : ValidNum P) (hx : ValidNum x)
    (hnp : ¬ P <+: x) :
    ∃ m1 r, phfwdRemove st.mem (some st.pf) (some P) = some m1 ∧
      phfwdGet st.mem (some st.pf) (some x) = some (some r) ∧
      phfwdGet m1 (some st.pf) (some x) = some (some r) ∧
      r.numbers = [absGet (forwardings (effectiveWith o ops)) x] ∧
      ∀ y, ValidNum y → numbersOf (phfwdGet m1 (some st.pf) (some y)) =
        some [absGet ((forwardings (effectiveWith o ops)).filter
          (fun e => decide (¬ P <+: e.1))) y] := by
  obtain ⟨g, hI, hfw⟩ := runWith_state hst
  obtain ⟨m1, g1, a1, a2, a3, _⟩ := phfwdRemove_inv hI P hP
  have hfw1 : fwOf g1.reg = (forwardings (effectiveWith o ops)).filter
      (fun e => decide (¬ P <+: e.1)) := by
    rw [a3, ← hfw]
    exact fwOf_filter g.reg (fun s => decide (¬ P <+: s))
  refine ⟨m1, _, a1, phfwdGet_spec hI x hx, ?_, by rw [hfw], ?_⟩
  · rw [phfwdGet_spec a2 x hx, hfw1, absGet_filter_frame _ (forwardings_okWith o ops) P x hnp,
      hfw]
  · intro y hy
    rw [phfwdGet_spec a2 y hy, hfw1]
    rfl

/-- An instance of C26: after `add("12","3"); add("1","4")`, `get("13")` is
`["43"]` before and after `remove("12")`, while `get("125")` changes. -/
theorem phfwdRemove_frame_witness :
    ∃ st, runWith [] [addOp "12" "3", addOp "1" "4"] = some st ∧
      getOf st "13" = some ["43"] ∧ getOf st "125" = some ["35"] ∧
      ∃ m1 r, phfwdRemove st.mem (some st.pf) (some ['1', '2']) = some m1 ∧
        phfwdGet st.mem (some st.pf) (some ['1', '3']) = some (some r) ∧
        phfwdGet m1 (some st.pf) (some ['1', '3']) = some (some r) ∧
        r.numbers = [absGet (forwardings (effectiveWith []
          [addOp "12" "3", addOp "1" "4"])) ['1', '3']] ∧
        ∀ y, ValidNum y → numbersOf (phfwdGet m1 (some st.pf) (some y)) =
          some [absGet ((forwardings (effectiveWith []
            [addOp "12" "3", addOp "1" "4"])).filter
              (fun e => decide (¬ ['1', '2'] <+: e.1))) y] := by
  obtain ⟨st, g, h, _⟩ := runWith_inv [] [addOp "12" "3", addOp "1" "4"]
  have hv : (runWith [] [addOp "12" "3", addOp "1" "4"]).map
      (fun st => (getOf st "13", getOf st "125")) = some (some ["43"], some ["35"]) := by
    decide
  rw [h] at hv
  simp only [Option.map_some', Option.some.injEq, Prod.mk.injEq] at hv
  exact ⟨st, h, hv.1, hv.2,
    phfwdRemove_frame _ _ st h ['1', '2'] ['1', '3'] (by decide) (by decide) (by decide)⟩

/-- C27: the result of `phfwdReverse` can hold a number that is not forwarded
to the argument: after `add("5","6"); add("57","8")` on a fresh index,
`phfwdReverse("67")` is `["57", "67"]` while `phfwdGet("57")` is `["8"]`; and
on every index reached by calls on a fresh index under any outcomes of
`malloc`, whose heap fits the address space, for a valid number `s` both
`phfwdGetReverse(s)` and `phfwdReverse(s)` return a sequence and every number
of the former is a number of the latter. -/
theorem reverse_superset :
    (∃ st, runFresh [addOp "5" "6", addOp "57" "8"] = some st ∧
      reverseOf st "67" = some ["57", "67"] ∧ getOf st "57" = some ["8"] ∧
      getReverseOf st "67" = some ["67"]) ∧
    ∀ (o : List Bool) (ops : List Op) (st : State), runWith o ops = some st →
      st.mem.brk ≤ maxCapacity → ∀ s : List Char, ValidNum s →
      ∃ r1 r2, phfwdGetReverse st.mem (some st.pf) (some s) = some (some r1) ∧
        phfwdReverse st.mem (some st.pf) (some s) = some (some r2) ∧
        ∀ y ∈ r1.numbers, y ∈ r2.numbers := by
  constructor
  · obtain ⟨st, g, h, _⟩ := runFresh_inv [addOp "5" "6", addOp "57" "8"]
    have hv : (runFresh [addOp "5" "6", addOp "57" "8"]).map
        (fun st => (reverseOf st "67", getOf st "57", getReverseOf st "67")) =
        some (some ["57", "67"], some ["8"], some ["67"]) := by decide
    rw [h] at hv
    simp only [Option.map_some', Option.some.injEq, Prod.mk.injEq] at hv
    exact ⟨st, h, hv.1, hv.2.1, hv.2.2⟩
  · intro o ops st hst hb s hs
    obtain ⟨g, hI, hfw⟩ := runWith_state hst
    have hok : FwOK (fwOf g.reg) := hfw ▸ forwardings_okWith o ops
    have hlen : (fwOf g.reg).length < maxCapacity := by
      have := reg_length_lt hI.rev
      simp only [fwOf, List.length_map]
      omega
    obtain ⟨r1, a1, a2⟩ := absGetReverse_ok (fwOf g.reg) s hlen
    obtain ⟨r2, b1, b2, _⟩ := absReverse_ok (fwOf g.reg) hok s hs hlen
    refine ⟨r1, r2, by rw [phfwdGetReverse_spec hI s hs, a1],
      by rw [phfwdReverse_spec hI s hs, b1], ?_⟩
    intro y hy
    rcases (a2 y).mp hy with ⟨h1, _⟩ | h1
    · exact (b2 y).mpr (Or.inl h1)
    · obtain ⟨t, u, a, b, c1, c2, c3, c4, c5, _⟩ := (mem_getRevCands _ _ _ _).mp h1
      exact (b2 y).mpr (Or.inr ((mem_revCands _ _ _ _).mpr ⟨t, u, a, b, c1, c2, c3, c4, c5⟩))

/-- An instance of C27: after `add("5","6"); add("57","8")`, every number of
`getReverse("67")` is a number of `reverse("67")`. -/
theorem reverse_superset_witness :
    ∃ st, runWith [] [addOp "5" "6", addOp "57" "8"] = some st ∧
      st.mem.brk ≤ maxCapacity ∧
      ∃ r1 r2, phfwdGetReverse st.mem (some st.pf) (some ['6', '7']) = some (some r1) ∧
        phfwdReverse st.mem (some st.pf) (some ['6', '7']) = some (some r2) ∧
        ∀ y ∈ r1.numbers, y ∈ r2.numbers := by
  obtain ⟨st, g, h, _⟩ := runWith_inv [] [addOp "5" "6", addOp "57" "8"]
  have hb := brk_of_evalWith h (by decide)
  exact ⟨st, h, hb, reverse_superset.2 _ _ st h hb ['6', '7'] (by decide)⟩

/-- C28: on an index reached by calls on a fresh index under any outcomes of
`malloc`, when no allocation fails from then on, for valid numbers `A1`,
`B1`, `A2`, `B2` with `A1 ≠ A2`, `A1 ≠ B1` and `A2 ≠ B2`: the calls
`add(A1,B1); add(A2,B2)` and the calls `add(A2,B2); add(A1,B1)` all return
`true`, and in the two states reached every `phfwdGet`, `phfwdReverse` and
`phfwdGetReverse` query, the argument `NULL` and invalid arguments included,
returns the same sequence. -/
theorem add_order_irrelevant (o : List Bool) (ops : List Op) (st : State)
    (hst : runWith o ops = some st) (hor : false ∉ st.mem.oracle) (A1 B1 A2 B2 : List Char)
    (hA1 : ValidNum A1) (hB1 : ValidNum B1) (hA2 : ValidNum A2) (hB2 : ValidNum B2)
    (h12 : A1 ≠ A2) (h1 : A1 ≠ B1) (h2 : A2 ≠ B2) :
    ∃ ma mab mb mba,
      phfwdAdd st.mem (some st.pf) (some A1) (some B1) = some (true, ma) ∧
      phfwdAdd ma (some st.pf) (some A2) (some B2) = some (true, mab) ∧
      phfwdAdd st.mem (some st.pf) (some A2) (some B2) = some (true, mb) ∧
      phfwdAdd mb (some st.pf) (some A1) (some B1) = some (true, mba) ∧
      ∀ s : Option (List Char),
        phfwdGet mab (some st.pf) s = phfwdGet mba (some st.pf) s ∧
        phfwdReverse mab (some st.pf) s = phfwdReverse mba (some st.pf) s ∧
        phfwdGetReverse mab (some st.pf) s = phfwdGetReverse mba (some st.pf) s := by
  obtain ⟨g, hI, hfw⟩ := runWith_state hst
  obtain ⟨ma, ga, a1, a2, a3, a4⟩ := phfwdAdd_succ hI hor A1 B1 hA1 hB1 h1
  obtain ⟨mab, gab, b1, b2, b3, _⟩ := phfwdAdd_succ a2 a4 A2 B2 hA2 hB2 h2
  obtain ⟨mb, gb, c1, c2, c3, c4⟩ := phfwdAdd_succ hI hor A2 B2 hA2 hB2 h2
  obtain ⟨mba, gba, d1, d2, d3, _⟩ := phfwdAdd_succ c2 c4 A1 B1 hA1 hB1 h1
  have hok0 : FwOK (fwOf g.reg) := hfw ▸ forwardings_okWith o ops
  have hok : FwOK (fwOf gab.reg) := by
    have e1 := absStep_ok _ hok0 (Op.add (some A1) (some B1))
    have e2 := absStep_ok _ e1 (Op.add (some A2) (some B2))
    simp only [absStep] at e2
    rw [if_pos ⟨hA2, hB2, h2⟩, if_pos ⟨hA1, hB1, h1⟩] at e2
    rw [b3, a3]
    exact e2
  have hp : List.Perm (fwOf gab.reg) (fwOf gba.reg) := by
    rw [b3, a3, d3, c3]
    exact add_add_perm _ A1 B1 A2 B2 h12
  exact ⟨ma, mab, mb, mba, a1, b1, c1, d1, fun s => queries_perm b2 d2 hp hok s⟩

/-- An instance of C28: after `add("7","8")`, the calls `add("1","3")` and
`add("2","3")` in the two orders. -/
theorem add_order_irrelevant_witness :
    ∃ st, runWith [] [addOp "7" "8"] = some st ∧ false ∉ st.mem.oracle ∧
      ∃ ma mab mb mba,
        phfwdAdd st.mem (some st.pf) (some ['1']) (some ['3']) = some (true, ma) ∧
        phfwdAdd ma (some st.pf) (some ['2']) (some ['3']) = some (true, mab) ∧
        phfwdAdd st.mem (some st.pf) (some ['2']) (some ['3']) = some (true, mb) ∧
        phfwdAdd mb (some st.pf) (some ['1']) (some ['3']) = some (true, mba) ∧
        ∀ s : Option (List Char),
          phfwdGet mab (some st.pf) s = phfwdGet mba (some st.pf) s ∧
          phfwdReverse mab (some st.pf) s = phfwdReverse mba (some st.pf) s ∧
          phfwdGetReverse mab (some st.pf) s = phfwdGetReverse mba (some st.pf) s := by
  obtain ⟨st, g, h, _⟩ := runWith_inv [] [addOp "7" "8"]
  have ho : (runWith [] [addOp "7" "8"]).map
      (fun st => decide (false ∉ st.mem.oracle)) = some true := by decide
  rw [h] at ho
  have hor : false ∉ st.mem.oracle := by simpa using ho
  exact ⟨st, h, hor, add_order_irrelevant _ _ st h hor ['1'] ['3'] ['2'] ['3']
    (by decide) (by decide) (by decide) (by decide) (by decide) (by decide) (by decide)⟩

end Phfwd
